import Mathlib

/-!
# nctl::List — a doubly linked list over an explicit node store

Shallow embedding of `include/nctl/List.h` and `include/nctl/ListIterator.h`.

* A node pointer is an `Option Nat`: `none` is `nullptr`, `some a` is the address `a`.
* `Store T` holds the heap of `ListNode<T>` cells and the fields of every `List<T>` object,
  so that two list arguments of one call may be the same object, as in C++.
* Every member function is a function on stores returning `Except Fault`: dereferencing
  `nullptr` or a deleted node is a fault, and loops carry an explicit fuel argument.
* `unsigned int size_` is a `Nat` updated modulo `2 ^ 32`.
-/

namespace nctl

/-- Ways in which a call can fail to return normally. -/
inductive Fault where
  | nullDeref
  | invalidDeref
  | outOfFuel
  deriving DecidableEq, Repr

/-- The class `ListNode<T>`: payload and the two links. -/
structure ListNode (T : Type) where
  data_ : T
  previous_ : Option Nat
  next_ : Option Nat

/-- The data members of the class `List<T>` (named `LinkedList` here, `List` being Lean's
sequence type). -/
structure LinkedList where
  size_ : Nat
  head_ : Option Nat
  tail_ : Option Nat
  deriving DecidableEq, Repr

/-- The class `ListIterator<T, IsConst>`: a cursor holding one node pointer. -/
structure ListIterator where
  node_ : Option Nat
  deriving DecidableEq, Repr

/-- Program state: the node heap, the next address handed out by `new`, and the list objects. -/
structure Store (T : Type) where
  nodes : Nat → Option (ListNode T)
  fresh : Nat
  lists : Nat → LinkedList

/-- Width of `unsigned int`. -/
def UINT_SIZE : Nat := 2 ^ 32

variable {T : Type}

namespace Store

/-- The store in which no node is allocated and every list object is default constructed:
`List() : size_(0), head_(nullptr), tail_(nullptr)`. -/
def empty : Store T :=
  { nodes := fun _ => none, fresh := 0, lists := fun _ => ⟨0, none, none⟩ }

/-- Reads the node behind a pointer (`*p`). -/
def load (s : Store T) : Option Nat → Except Fault (ListNode T)
  | none => .error .nullDeref
  | some a =>
    match s.nodes a with
    | none => .error .invalidDeref
    | some n => .ok n

/-- Overwrites the cell at address `a`. -/
def write (s : Store T) (a : Nat) (n : ListNode T) : Store T :=
  { s with nodes := fun b => if b = a then some n else s.nodes b }

/-- The assignment `p->previous_ = v`. -/
def setPrevious (s : Store T) (p v : Option Nat) : Except Fault (Store T) :=
  match p with
  | none => .error .nullDeref
  | some a =>
    match s.nodes a with
    | none => .error .invalidDeref
    | some n => .ok (s.write a { n with previous_ := v })

/-- The assignment `p->next_ = v`. -/
def setNext (s : Store T) (p v : Option Nat) : Except Fault (Store T) :=
  match p with
  | none => .error .nullDeref
  | some a =>
    match s.nodes a with
    | none => .error .invalidDeref
    | some n => .ok (s.write a { n with next_ := v })

/-- The expression `new ListNode<T>(data, previous, next)`: the cell at the next unused
address is initialised and its address returned. -/
def new (s : Store T) (n : ListNode T) : Store T × Nat :=
  ({ s with nodes := fun b => if b = s.fresh then some n else s.nodes b,
            fresh := s.fresh + 1 }, s.fresh)

/-- The statement `delete p` on a node pointer that the code has just dereferenced. -/
def delete (s : Store T) (p : Option Nat) : Except Fault (Store T) :=
  match p with
  | none => .error .nullDeref
  | some a =>
    match s.nodes a with
    | none => .error .invalidDeref
    | some _ => .ok { s with nodes := fun b => if b = a then none else s.nodes b }

/-- Overwrites the fields of list object `L`. -/
def setList (s : Store T) (L : Nat) (f : LinkedList) : Store T :=
  { s with lists := fun K => if K = L then f else s.lists K }

/-- The assignment `L.head_ = v`. -/
def setHead (s : Store T) (L : Nat) (v : Option Nat) : Store T :=
  s.setList L { s.lists L with head_ := v }

/-- The assignment `L.tail_ = v`. -/
def setTail (s : Store T) (L : Nat) (v : Option Nat) : Store T :=
  s.setList L { s.lists L with tail_ := v }

/-- The assignment `L.size_ = v`. -/
def setSize (s : Store T) (L : Nat) (v : Nat) : Store T :=
  s.setList L { s.lists L with size_ := v }

/-- The statement `L.size_++` on an `unsigned int`. -/
def incSize (s : Store T) (L : Nat) : Store T :=
  s.setSize L (((s.lists L).size_ + 1) % UINT_SIZE)

/-- The statement `L.size_--` on an `unsigned int`. -/
def decSize (s : Store T) (L : Nat) : Store T :=
  s.setSize L (((s.lists L).size_ + UINT_SIZE - 1) % UINT_SIZE)

end Store

/-! ## ListIterator -/

namespace ListIterator

/-- The dereference `operator*`: `ASSERT(node_); return node_->data_;`. -/
def deref (s : Store T) (it : ListIterator) : Except Fault T := do
  let n ← s.load it.node_
  pure n.data_

/-- The increment `operator++`: `if (node_) node_ = node_->next_;`. -/
def preInc (s : Store T) (it : ListIterator) : Except Fault ListIterator :=
  match it.node_ with
  | none => .ok it
  | some _ => do
    let n ← s.load it.node_
    pure ⟨n.next_⟩

/-- The decrement `operator--`: `if (node_) node_ = node_->previous_;`. -/
def preDec (s : Store T) (it : ListIterator) : Except Fault ListIterator :=
  match it.node_ with
  | none => .ok it
  | some _ => do
    let n ← s.load it.node_
    pure ⟨n.previous_⟩

end ListIterator

/-! ## List: accessors -/

/-- `begin()`: `Iterator(head_)`. -/
def begin (s : Store T) (self : Nat) : ListIterator := ⟨(s.lists self).head_⟩

/-- `end()`: `Iterator(nullptr)`. -/
def end_ (_s : Store T) (_self : Nat) : ListIterator := ⟨none⟩

/-- `isEmpty()`: `head_ == nullptr`. -/
def isEmpty (s : Store T) (self : Nat) : Bool := (s.lists self).head_ == none

/-- `size()`: `size_`. -/
def size (s : Store T) (self : Nat) : Nat := (s.lists self).size_

/-- `front()`: `ASSERT(head_); return head_->data_;`. -/
def front (s : Store T) (self : Nat) : Except Fault T := do
  let n ← s.load (s.lists self).head_
  pure n.data_

/-- `back()`: `ASSERT(tail_); return tail_->data_;`. -/
def back (s : Store T) (self : Nat) : Except Fault T := do
  let n ← s.load (s.lists self).tail_
  pure n.data_

/-- The loop `for (i = p; i != end(); ++i) out.push(*i)`, used to observe a list by iteration. -/
def elementsFrom : Nat → Store T → ListIterator → Except Fault (List T)
  | 0, _, _ => .error .outOfFuel
  | fuel + 1, s, i =>
    if i = ⟨none⟩ then .ok []
    else do
      let x ← i.deref s
      let i ← i.preInc s
      let rest ← elementsFrom fuel s i
      pure (x :: rest)

/-- The elements met when iterating from `begin()` to `end()`. -/
def elements (fuel : Nat) (s : Store T) (self : Nat) : Except Fault (List T) :=
  elementsFrom fuel s (begin s self)

/-! ## List: push and pop -/

/-- `List<T>::pushFront`. -/
def pushFront (s : Store T) (self : Nat) (element : T) : Except Fault (Store T) := do
  let (s, node) := s.new ⟨element, none, (s.lists self).head_⟩
  let s ← (if (s.lists self).head_ ≠ none then s.setPrevious (s.lists self).head_ (some node)
          else pure s)
  let s := s.setHead self (some node)
  let s := if (s.lists self).tail_ = none then s.setTail self (some node) else s
  pure (s.incSize self)

/-- `List<T>::pushBack`. -/
def pushBack (s : Store T) (self : Nat) (element : T) : Except Fault (Store T) := do
  let (s, node) := s.new ⟨element, (s.lists self).tail_, none⟩
  let s ← (if (s.lists self).tail_ ≠ none then s.setNext (s.lists self).tail_ (some node)
          else pure s)
  let s := s.setTail self (some node)
  let s := if (s.lists self).head_ = none then s.setHead self (some node) else s
  pure (s.incSize self)

/-- `List<T>::removeNode`: returns the new store and the pointer to the following node. -/
def removeNode (s : Store T) (self : Nat) (node : Option Nat) :
    Except Fault (Store T × Option Nat) :=
  if node = none then .ok (s, none)
  else do
    let n ← s.load node
    let s ← (if n.previous_ ≠ none then s.setNext n.previous_ n.next_
            else pure (s.setHead self n.next_))
    let n ← s.load node
    let s ← (if n.next_ ≠ none then s.setPrevious n.next_ n.previous_
            else pure (s.setTail self n.previous_))
    let s := s.decSize self
    let n ← s.load node
    let nextNode := n.next_
    let s ← s.delete node
    pure (s, nextNode)

/-- `List<T>::popFront`: `removeNode(head_)`. -/
def popFront (s : Store T) (self : Nat) : Except Fault (Store T) := do
  let r ← removeNode s self (s.lists self).head_
  pure r.1

/-- `List<T>::popBack`: `removeNode(tail_)`. -/
def popBack (s : Store T) (self : Nat) : Except Fault (Store T) := do
  let r ← removeNode s self (s.lists self).tail_
  pure r.1

/-! ## List: splice -/

/-- `List<T>::splice(Iterator position, List &source)`. -/
def splice (s : Store T) (self : Nat) (position : ListIterator) (source : Nat) :
    Except Fault (Store T) :=
  let node := position.node_
  if node = none ∧ (s.lists self).size_ > 0 then .ok s
  else do
    let s ← (if node ≠ none then do
        let n ← s.load node
        let prevNode := n.previous_
        let s ← s.setPrevious node (s.lists source).tail_
        let s ← s.setNext (s.lists source).tail_ node
        let s ← s.setPrevious (s.lists source).head_ prevNode
        if prevNode ≠ none then s.setNext prevNode (s.lists source).head_
        else pure (s.setHead self (s.lists source).head_)
      else
        let s := s.setHead self (s.lists source).head_
        pure (s.setTail self (s.lists source).tail_))
    let s := s.setSize self (((s.lists self).size_ + (s.lists source).size_) % UINT_SIZE)
    let s := s.setHead source none
    let s := s.setTail source none
    pure (s.setSize source 0)

/-- `List<T>::splice(Iterator position, List &source, Iterator it)`. -/
def spliceOne (s : Store T) (self : Nat) (position : ListIterator) (source : Nat)
    (it : ListIterator) : Except Fault (Store T) :=
  let node := position.node_
  let sourceNode := it.node_
  if node = none ∧ (s.lists self).size_ > 0 then .ok s
  else if sourceNode = none then .ok s
  else do
    let sn ← s.load sourceNode
    let sourcePrev := sn.previous_
    let sourceNext := sn.next_
    let s ← (if sourcePrev = none then pure (s.setHead source sn.next_)
            else s.setNext sourcePrev sourceNext)
    let sn ← s.load sourceNode
    let s ← (if sn.next_ = none then pure (s.setTail source sn.previous_)
            else s.setPrevious sourceNext sourcePrev)
    let s ← (if node ≠ none then do
        let n ← s.load node
        let prevNode := n.previous_
        let s ← s.setPrevious node sourceNode
        let s ← s.setPrevious sourceNode prevNode
        let s ← s.setNext sourceNode node
        if prevNode ≠ none then s.setNext prevNode sourceNode
        else pure (s.setHead self sourceNode)
      else do
        let s := s.setHead self sourceNode
        let s := s.setTail self sourceNode
        let s ← s.setPrevious sourceNode none
        s.setNext sourceNode none)
    let s := s.incSize self
    pure (s.decSize source)

/-- The loop of the range splice:
`while (first != last) { lastIncludedNode = first.node_; ++first; size_++; source.size_--; }`.
Returns the store and `lastIncludedNode`. -/
def spliceRangeLoop : Nat → Store T → Nat → Nat → ListIterator → ListIterator → Option Nat →
    Except Fault (Store T × Option Nat)
  | 0, _, _, _, _, _, _ => .error .outOfFuel
  | fuel + 1, s, self, source, first, last, lastIncludedNode =>
    if first = last then .ok (s, lastIncludedNode)
    else do
      let lastIncludedNode := first.node_
      let first ← first.preInc s
      let s := s.incSize self
      let s := s.decSize source
      spliceRangeLoop fuel s self source first last lastIncludedNode

/-- `List<T>::splice(Iterator position, List &source, Iterator first, Iterator last)`. -/
def spliceRange (fuel : Nat) (s : Store T) (self : Nat) (position : ListIterator) (source : Nat)
    (first last : ListIterator) : Except Fault (Store T) :=
  let node := position.node_
  let firstNode := first.node_
  if node = none ∧ (s.lists self).size_ > 0 then .ok s
  else if firstNode = none then .ok s
  else do
    let fn ← s.load firstNode
    let firstPrev := fn.previous_
    let (s, lastIncludedNode) ← spliceRangeLoop fuel s self source first last first.node_
    let li ← s.load lastIncludedNode
    let s ← (if firstPrev = none then pure (s.setHead source li.next_)
            else s.setNext firstPrev li.next_)
    let li ← s.load lastIncludedNode
    let s ← (if li.next_ = none then pure (s.setTail source firstPrev)
            else s.setPrevious li.next_ firstPrev)
    if node ≠ none then do
      let n ← s.load node
      let prevNode := n.previous_
      let s ← s.setPrevious node lastIncludedNode
      let s ← s.setPrevious firstNode prevNode
      let s ← s.setNext lastIncludedNode node
      let s ← (if prevNode ≠ none then s.setNext prevNode firstNode
              else pure (s.setHead self firstNode))
      s.setNext lastIncludedNode node
    else do
      let s := s.setHead self firstNode
      let s := s.setTail self lastIncludedNode
      let s ← s.setPrevious firstNode none
      s.setNext lastIncludedNode none

/-! ## List: insertion -/

/-- `List<T>::insertAfterNode`: returns the new store and the pointer to the new node. -/
def insertAfterNode (s : Store T) (self : Nat) (node : Option Nat) (element : T) :
    Except Fault (Store T × Option Nat) :=
  if (s.lists self).head_ = none ∧ node = none then do
    let s ← pushBack s self element
    pure (s, (s.lists self).head_)
  else do
    let n ← s.load node
    let (s, newNode) := s.new ⟨element, node, n.next_⟩
    let n ← s.load node
    let s ← (if n.next_ = none then pure (s.setTail self (some newNode))
            else s.setPrevious n.next_ (some newNode))
    let s ← s.setNext node (some newNode)
    let s := s.incSize self
    pure (s, some newNode)

/-- `List<T>::insertBeforeNode`: returns the new store and the pointer to the new node. -/
def insertBeforeNode (s : Store T) (self : Nat) (node : Option Nat) (element : T) :
    Except Fault (Store T × Option Nat) :=
  if (s.lists self).tail_ = none ∧ node = none then do
    let s ← pushFront s self element
    pure (s, (s.lists self).tail_)
  else do
    let n ← s.load node
    let (s, newNode) := s.new ⟨element, n.previous_, node⟩
    let n ← s.load node
    let s ← (if n.previous_ = none then pure (s.setHead self (some newNode))
            else s.setNext n.previous_ (some newNode))
    let s ← s.setPrevious node (some newNode)
    let s := s.incSize self
    pure (s, some newNode)

/-- `List<T>::insertAfter`: `ConstIterator(insertAfterNode(position.node_, element))`. -/
def insertAfter (s : Store T) (self : Nat) (position : ListIterator) (element : T) :
    Except Fault (Store T × ListIterator) := do
  let r ← insertAfterNode s self position.node_ element
  pure (r.1, ⟨r.2⟩)

/-- `List<T>::insertBefore`: `ConstIterator(insertBeforeNode(position.node_, element))`. -/
def insertBefore (s : Store T) (self : Nat) (position : ListIterator) (element : T) :
    Except Fault (Store T × ListIterator) := do
  let r ← insertBeforeNode s self position.node_ element
  pure (r.1, ⟨r.2⟩)

/-- The loop of `List<T>::insert`:
`while (first != last) { node = insertAfterNode(node, *first); ++first; }`. -/
def insertLoop : Nat → Store T → Nat → Option Nat → ListIterator → ListIterator →
    Except Fault (Store T × Option Nat)
  | 0, _, _, _, _, _ => .error .outOfFuel
  | fuel + 1, s, self, node, first, last =>
    if first = last then .ok (s, node)
    else do
      let x ← first.deref s
      let r ← insertAfterNode s self node x
      let first ← first.preInc r.1
      insertLoop fuel r.1 self r.2 first last

/-- `List<T>::insert(Iterator position, Iterator first, const Iterator last)`. -/
def insert (fuel : Nat) (s : Store T) (self : Nat) (position first last : ListIterator) :
    Except Fault (Store T × ListIterator) := do
  let r ← insertLoop fuel s self position.node_ first last
  pure (r.1, ⟨r.2⟩)

/-! ## List: removal -/

/-- `List<T>::erase(ConstIterator position)`. -/
def erase (s : Store T) (self : Nat) (position : ListIterator) :
    Except Fault (Store T × ListIterator) := do
  let r ← removeNode s self position.node_
  pure (r.1, ⟨r.2⟩)

/-- The loop of `List<T>::removeRange`:
`while (current != lastNode) { next = current->next_; delete current; size_--; current = next; }`. -/
def removeRangeLoop : Nat → Store T → Nat → Option Nat → Option Nat → Except Fault (Store T)
  | 0, _, _, _, _ => .error .outOfFuel
  | fuel + 1, s, self, current, lastNode =>
    if current = lastNode then .ok s
    else do
      let c ← s.load current
      let next := c.next_
      let s ← s.delete current
      let s := s.decSize self
      removeRangeLoop fuel s self next lastNode

/-- `List<T>::removeRange`: returns the new store and `lastNode`. -/
def removeRange (fuel : Nat) (s : Store T) (self : Nat) (firstNode lastNode : Option Nat) :
    Except Fault (Store T × Option Nat) :=
  if firstNode = none then .ok (s, none)
  else do
    let f ← s.load firstNode
    let previous := f.previous_
    let s ← removeRangeLoop fuel s self firstNode lastNode
    let s ← (if previous ≠ none then s.setNext previous lastNode
            else pure (s.setHead self lastNode))
    let s ← (if lastNode ≠ none then s.setPrevious lastNode previous
            else pure (s.setTail self previous))
    pure (s, lastNode)

/-- `List<T>::erase(ConstIterator first, const ConstIterator last)`. -/
def eraseRange (fuel : Nat) (s : Store T) (self : Nat) (first last : ListIterator) :
    Except Fault (Store T × ListIterator) := do
  let r ← removeRange fuel s self first.node_ last.node_
  pure (r.1, ⟨r.2⟩)

/-- The loop of `List<T>::remove`, started at `current = head_`. -/
def removeLoop [DecidableEq T] : Nat → Store T → Nat → Option Nat → T → Except Fault (Store T)
  | 0, _, _, _, _ => .error .outOfFuel
  | fuel + 1, s, self, current, element =>
    if current = none then .ok s
    else do
      let c ← s.load current
      if c.data_ = element then do
        let r ← removeNode s self current
        pure r.1
      else removeLoop fuel s self c.next_ element

/-- `List<T>::remove(const T &element)`. -/
def remove [DecidableEq T] (fuel : Nat) (s : Store T) (self : Nat) (element : T) :
    Except Fault (Store T) :=
  removeLoop fuel s self (s.lists self).head_ element

/-- The loop of `List<T>::removeIf`:
`while (i != end()) { if (pred(*i)) i = erase(i); else ++i; }`. -/
def removeIfLoop (pred : T → Bool) : Nat → Store T → Nat → ListIterator → Except Fault (Store T)
  | 0, _, _, _ => .error .outOfFuel
  | fuel + 1, s, self, i =>
    if i = end_ s self then .ok s
    else do
      let x ← i.deref s
      if pred x then do
        let r ← erase s self i
        removeIfLoop pred fuel r.1 self r.2
      else do
        let i ← i.preInc s
        removeIfLoop pred fuel s self i

/-- `List<T>::removeIf(Predicate pred)`. -/
def removeIf (pred : T → Bool) (fuel : Nat) (s : Store T) (self : Nat) : Except Fault (Store T) :=
  removeIfLoop pred fuel s self (begin s self)

/-- The loop of `List<T>::clear`:
`while (head_) { next = head_->next_; delete head_; head_ = next; }`. -/
def clearLoop : Nat → Store T → Nat → Except Fault (Store T)
  | 0, _, _ => .error .outOfFuel
  | fuel + 1, s, self =>
    if (s.lists self).head_ = none then .ok s
    else do
      let h ← s.load (s.lists self).head_
      let next := h.next_
      let s ← s.delete (s.lists self).head_
      clearLoop fuel (s.setHead self next) self

/-- `List<T>::clear`. -/
def clear (fuel : Nat) (s : Store T) (self : Nat) : Except Fault (Store T) := do
  let s ← clearLoop fuel s self
  let s := s.setTail self none
  pure (s.setSize self 0)

/-! ## List: copy, swap and assignment -/

/-- The loop of the copy constructor:
`for (i = other.begin(); i != other.end(); ++i) pushBack(*i);`. -/
def copyLoop : Nat → Store T → Nat → Nat → ListIterator → Except Fault (Store T)
  | 0, _, _, _, _ => .error .outOfFuel
  | fuel + 1, s, self, other, i =>
    if i = end_ s other then .ok s
    else do
      let x ← i.deref s
      let s ← pushBack s self x
      let i ← i.preInc s
      copyLoop fuel s self other i

/-- The copy constructor `List(const List &other)`, building the object `self`. -/
def copyConstruct (fuel : Nat) (s : Store T) (self other : Nat) : Except Fault (Store T) :=
  let s := s.setList self ⟨0, none, none⟩
  copyLoop fuel s self other (begin s other)

/-- Modelled from the spec: `nctl::swap(a, b)` is declared in `algorithms.h`, which is not among
the sources at hand; the spec describes the swap of the copy-and-swap idiom as exchanging the
internal state of the two objects, so the call is taken to exchange the values of its two
arguments. The pair returned holds the new values of `a` and of `b`. -/
def swapValues {α : Type} (a b : α) : α × α := (b, a)

/-- `List<T>::swap(List &first, List &second)`: `nctl::swap` on `size_`, on `head_` and on
`tail_`. The second field of a pair is written last, as in an exchange through a temporary. -/
def swap (s : Store T) (first second : Nat) : Store T :=
  let r := swapValues (s.lists first).size_ (s.lists second).size_
  let s := (s.setSize first r.1).setSize second r.2
  let r := swapValues (s.lists first).head_ (s.lists second).head_
  let s := (s.setHead first r.1).setHead second r.2
  let r := swapValues (s.lists first).tail_ (s.lists second).tail_
  (s.setTail first r.1).setTail second r.2

/-- The copy-and-swap `operator=(List other)`: the by-value parameter is the object `tmp`,
copy constructed from the argument, swapped with `*this` and destroyed (`~List()` calls
`clear()`) when the call returns. -/
def assign (fuel : Nat) (s : Store T) (self other tmp : Nat) : Except Fault (Store T) := do
  let s ← copyConstruct fuel s tmp other
  let s := swap s self tmp
  clear fuel s tmp

/-! ## Sequences of push and pop calls -/

/-- One call among `pushFront(v)`, `pushBack(v)`, `popFront()`, `popBack()`. -/
inductive PushPop (T : Type) where
  | pushFront (v : T)
  | pushBack (v : T)
  | popFront
  | popBack

/-- Whether the call is a push. -/
def PushPop.isPush : PushPop T → Bool
  | .pushFront _ => true
  | .pushBack _ => true
  | _ => false

/-- Performs one call on list `self`. -/
def PushPop.run (s : Store T) (self : Nat) : PushPop T → Except Fault (Store T)
  | .pushFront v => nctl.pushFront s self v
  | .pushBack v => nctl.pushBack s self v
  | .popFront => nctl.popFront s self
  | .popBack => nctl.popBack s self

/-- Performs the calls in order on list `self`. -/
def runPushPop (s : Store T) (self : Nat) : List (PushPop T) → Except Fault (Store T)
  | [] => .ok s
  | op :: ops =>
    match op.run s self with
    | .ok s' => runPushPop s' self ops
    | .error e => .error e

/-- Number of pushes in a sequence of calls. -/
def pushCount (ops : List (PushPop T)) : Nat := ops.countP (fun op => op.isPush)

/-- Number of pops in a sequence of calls. -/
def popCount (ops : List (PushPop T)) : Nat := ops.countP (fun op => !op.isPush)

/-- No pop of the sequence is applied to an empty list: whenever a pop is about to run,
`isEmpty()` is false. -/
def popsGuarded (s : Store T) (self : Nat) : List (PushPop T) → Bool
  | [] => true
  | op :: ops =>
    (op.isPush || !isEmpty s self) &&
      match op.run s self with
      | .ok s' => popsGuarded s' self ops
      | .error _ => true

/-! ## A concrete store -/

/-- A store with two lists: list `0` holds `[1, 2]` in the nodes `0, 1` and list `1` holds
`[3, 4]` in the nodes `2, 3`; every other list object is empty. -/
def exampleStore : Store Nat :=
  { nodes := fun a =>
      if a = 0 then some ⟨1, none, some 1⟩
      else if a = 1 then some ⟨2, some 0, none⟩
      else if a = 2 then some ⟨3, none, some 3⟩
      else if a = 3 then some ⟨4, some 2, none⟩
      else none,
    fresh := 4,
    lists := fun L =>
      if L = 0 then ⟨2, some 0, some 1⟩
      else if L = 1 then ⟨2, some 2, some 3⟩
      else ⟨0, none, none⟩ }

/-! ## Representation predicates -/

/-- The pointer to the first node of `ns`, or `nxt` when `ns` is empty. -/
def headPtr : List Nat → Option Nat → Option Nat
  | [], nxt => nxt
  | a :: _, _ => some a

/-- The pointer to the last node of `ns`, or `prev` when `ns` is empty. -/
def lastPtr : Option Nat → List Nat → Option Nat
  | prev, [] => prev
  | _, a :: rest => lastPtr (some a) rest

/-- Two-way linked segment: starting at pointer `p` the `next_` links visit exactly the nodes
`ns` and then reach `nxt`, the `previous_` link of the first node is `prev` and the
`previous_` link of every other node is the node visited just before it. -/
def Seg (m : Nat → Option (ListNode T)) : Option Nat → Option Nat → List Nat → Option Nat → Prop
  | _, p, [], nxt => p = nxt
  | prev, p, a :: rest, nxt =>
    p = some a ∧ (m a).map (fun n => n.previous_) = some prev ∧
      Seg m (some a) ((m a).bind (fun n => n.next_)) rest nxt

/-- Deciding `Seg` on a concrete heap. -/
def Seg.decide (m : Nat → Option (ListNode T)) :
    (prev p : Option Nat) → (ns : List Nat) → (nxt : Option Nat) → Decidable (Seg m prev p ns nxt)
  | _, p, [], nxt => inferInstanceAs (Decidable (p = nxt))
  | prev, p, a :: rest, nxt =>
    have := Seg.decide m (some a) ((m a).bind (fun n => n.next_)) rest nxt
    inferInstanceAs (Decidable (p = some a ∧ (m a).map (fun n => n.previous_) = some prev ∧
      Seg m (some a) ((m a).bind (fun n => n.next_)) rest nxt))

instance (m : Nat → Option (ListNode T)) (prev p : Option Nat) (ns : List Nat)
    (nxt : Option Nat) : Decidable (Seg m prev p ns nxt) := Seg.decide m prev p ns nxt

/-- List object `L` is a two-way consistent chain over exactly the nodes `ns`:
`head_` starts the chain, `head_->previous_` and `tail_->next_` are null, every `next_` link
is mirrored by a `previous_` link, and `tail_` is the last node (null when there is none). -/
def Linked (s : Store T) (L : Nat) (ns : List Nat) : Prop :=
  Seg s.nodes none (s.lists L).head_ ns none ∧ (s.lists L).tail_ = lastPtr none ns

instance (s : Store T) (L : Nat) (ns : List Nat) : Decidable (Linked s L ns) :=
  inferInstanceAs (Decidable (_ ∧ _))

/-- The payload stored at address `a`, if the node is allocated. -/
def dataAt (s : Store T) (a : Nat) : Option T := (s.nodes a).map (fun n => n.data_)

/-- List object `L` is well formed with node sequence `ns` and element sequence `xs`:
the chain is two-way consistent, `size_` caches the node count, and the payloads of the nodes
are `xs` in order. The count fits the `unsigned int` field. -/
def Rep (s : Store T) (L : Nat) (ns : List Nat) (xs : List T) : Prop :=
  Linked s L ns ∧ (s.lists L).size_ = ns.length ∧ ns.length < UINT_SIZE ∧
    ns.map (dataAt s) = xs.map some

instance [DecidableEq T] (s : Store T) (L : Nat) (ns : List Nat) (xs : List T) :
    Decidable (Rep s L ns xs) :=
  inferInstanceAs (Decidable (_ ∧ _ ∧ _ ∧ _))

/-- No node at or above the allocation pointer is in use. -/
def Store.FreshOk (s : Store T) : Prop := ∀ a, s.fresh ≤ a → s.nodes a = none

/-! ## The public mutating calls -/

/-- A call of one of the public mutating member functions of `List<T>`; list arguments are
list objects of the store. -/
inductive Call (T : Type) where
  | pushFront (self : Nat) (v : T)
  | pushBack (self : Nat) (v : T)
  | popFront (self : Nat)
  | popBack (self : Nat)
  | insertAfter (self : Nat) (position : ListIterator) (v : T)
  | insertBefore (self : Nat) (position : ListIterator) (v : T)
  | insert (self : Nat) (position first last : ListIterator)
  | erase (self : Nat) (position : ListIterator)
  | eraseRange (self : Nat) (first last : ListIterator)
  | remove (self : Nat) (v : T)
  | removeIf (self : Nat) (pred : T → Bool)
  | clear (self : Nat)
  | copyConstruct (self other : Nat)
  | assign (self other tmp : Nat)
  | swap (first second : Nat)
  | splice (self : Nat) (position : ListIterator) (source : Nat)
  | spliceOne (self : Nat) (position : ListIterator) (source : Nat) (it : ListIterator)
  | spliceRange (self : Nat) (position : ListIterator) (source : Nat) (first last : ListIterator)

/-- Performs a call, every loop of it with the given fuel; returned iterators are dropped. -/
def Call.run [DecidableEq T] (fuel : Nat) (s : Store T) : Call T → Except Fault (Store T)
  | .pushFront self v => nctl.pushFront s self v
  | .pushBack self v => nctl.pushBack s self v
  | .popFront self => nctl.popFront s self
  | .popBack self => nctl.popBack s self
  | .insertAfter self position v => (nctl.insertAfter s self position v).map Prod.fst
  | .insertBefore self position v => (nctl.insertBefore s self position v).map Prod.fst
  | .insert self position first last => (nctl.insert fuel s self position first last).map Prod.fst
  | .erase self position => (nctl.erase s self position).map Prod.fst
  | .eraseRange self first last => (nctl.eraseRange fuel s self first last).map Prod.fst
  | .remove self v => nctl.remove fuel s self v
  | .removeIf self pred => nctl.removeIf pred fuel s self
  | .clear self => nctl.clear fuel s self
  | .copyConstruct self other => nctl.copyConstruct fuel s self other
  | .assign self other tmp => nctl.assign fuel s self other tmp
  | .swap first second => .ok (nctl.swap s first second)
  | .splice self position source => nctl.splice s self position source
  | .spliceOne self position source it => nctl.spliceOne s self position source it
  | .spliceRange self position source first last =>
    nctl.spliceRange fuel s self position source first last

/-- The iterator is a position of a list with nodes `ns`: one of its nodes or the end
sentinel. -/
def IsPosition (ns : List Nat) (it : ListIterator) : Prop :=
  it.node_ = none ∨ ∃ a ∈ ns, it.node_ = some a

/-- The iterator is at a node of a list with nodes `ns`, or the list is empty and the iterator is
its end sentinel. -/
def IsAnchor (ns : List Nat) (it : ListIterator) : Prop :=
  (it.node_ = none ∧ ns = []) ∨ ∃ a ∈ ns, it.node_ = some a

/-- The iterators delimit a range of a list with nodes `ns`: `first` is at index `f`,
`last` at index `l`, with `f ≤ l ≤ |ns|` (index `|ns|` being the end sentinel). -/
def IsRange (ns : List Nat) (first last : ListIterator) : Prop :=
  ∃ f l, f ≤ l ∧ l ≤ ns.length ∧ first.node_ = ns[f]? ∧ last.node_ = ns[l]?

/-- The precondition of a call, `own L` being the node sequence of list `L`: iterators are
positions of the list they are passed for (a node, or the end sentinel where the function
accepts it), ranges are ranges, source and destination of a splice or of an insertion differ,
the source of a whole-list splice in front of a node is not empty, and the object built by a
copy is not its own source. -/
def Call.Pre (own : Nat → List Nat) : Call T → Prop
  | .pushFront _ _ => True
  | .pushBack _ _ => True
  | .popFront _ => True
  | .popBack _ => True
  | .insertAfter self position _ => IsAnchor (own self) position
  | .insertBefore self position _ => IsAnchor (own self) position
  | .insert self position first last =>
    IsAnchor (own self) position ∧ ∃ other, other ≠ self ∧ IsRange (own other) first last
  | .erase self position => IsPosition (own self) position
  | .eraseRange self first last => IsRange (own self) first last
  | .remove _ _ => True
  | .removeIf _ _ => True
  | .clear _ => True
  | .copyConstruct self other => self ≠ other
  | .assign self other tmp => tmp ≠ self ∧ tmp ≠ other
  | .swap _ _ => True
  | .splice self position source =>
    self ≠ source ∧ IsPosition (own self) position ∧
      (position.node_ ≠ none → own source ≠ [])
  | .spliceOne self position source it =>
    self ≠ source ∧ IsPosition (own self) position ∧ IsPosition (own source) it
  | .spliceRange self position source first last =>
    self ≠ source ∧ IsPosition (own self) position ∧ IsRange (own source) first last

/-- The nodes met by following `next_` links from `p` until null. -/
def walkNext : Nat → Store T → Option Nat → Except Fault (List Nat)
  | 0, _, _ => .error .outOfFuel
  | fuel + 1, s, p =>
    match p with
    | none => .ok []
    | some a => do
      let n ← s.load p
      let rest ← walkNext fuel s n.next_
      pure (a :: rest)

/-- The nodes met by following `previous_` links from `p` until null. -/
def walkPrev : Nat → Store T → Option Nat → Except Fault (List Nat)
  | 0, _, _ => .error .outOfFuel
  | fuel + 1, s, p =>
    match p with
    | none => .ok []
    | some a => do
      let n ← s.load p
      let rest ← walkPrev fuel s n.previous_
      pure (a :: rest)

/-- Link symmetry of list `L` in the words of the data model: `head_->previous_` and
`tail_->next_` are null, every node with a successor is the predecessor of that successor, every
node with a predecessor is the successor of that predecessor, and walking `previous_` links from
`tail_` visits the nodes visited by walking `next_` links from `head_`, in reverse order. -/
def LinkSymmetric (s : Store T) (L : Nat) : Prop :=
  (∀ a, (s.lists L).head_ = some a → ∃ n, s.nodes a = some n ∧ n.previous_ = none) ∧
  (∀ a, (s.lists L).tail_ = some a → ∃ n, s.nodes a = some n ∧ n.next_ = none) ∧
  ∃ ns, walkNext (ns.length + 1) s (s.lists L).head_ = .ok ns ∧
    walkPrev (ns.length + 1) s (s.lists L).tail_ = .ok ns.reverse ∧
    ∀ a ∈ ns, ∀ n, s.nodes a = some n →
      (∀ b, n.next_ = some b → ∃ m, s.nodes b = some m ∧ m.previous_ = some a) ∧
      (∀ b, n.previous_ = some b → ∃ m, s.nodes b = some m ∧ m.next_ = some a)

/-- The increment `operator++(int)`: `ListIterator iterator = *this; if (node_) node_ =
node_->next_; return iterator;`. The pair holds the copy returned and the iterator after the
call. -/
def ListIterator.postInc (s : Store T) (it : ListIterator) :
    Except Fault (ListIterator × ListIterator) := do
  let iterator := it
  let it ← (match it.node_ with
    | none => pure it
    | some _ => do
      let n ← s.load it.node_
      pure ⟨n.next_⟩)
  pure (iterator, it)

/-- The decrement `operator--(int)`: `ListIterator iterator = *this; if (node_) node_ =
node_->previous_; return iterator;`. The pair holds the copy returned and the iterator after
the call. -/
def ListIterator.postDec (s : Store T) (it : ListIterator) :
    Except Fault (ListIterator × ListIterator) := do
  let iterator := it
  let it ← (match it.node_ with
    | none => pure it
    | some _ => do
      let n ← s.load it.node_
      pure ⟨n.previous_⟩)
  pure (iterator, it)

/-- The assignment `*it = v` through a mutable iterator: `operator*` returns the reference
`node_->data_`. -/
def ListIterator.assignDeref (s : Store T) (it : ListIterator) (v : T) : Except Fault (Store T) :=
  match it.node_ with
  | none => .error .nullDeref
  | some a =>
    match s.nodes a with
    | none => .error .invalidDeref
    | some n => .ok (s.write a { n with data_ := v })

/-! ## The generic algorithms of `iterator.h` -/

/-- The operations an iterator type offers to the generic algorithms, by the category tag its
`IteratorTraits` specialisation returns: `++` for `ForwardIteratorTag`, `++` and `--` for
`BidirectionalIteratorTag`, and also `it += n` and `last - first` for `RandomAccessIteratorTag`.
The overload of `advance` and of `distance` is selected by the tag at compile time. -/
inductive IteratorOps (I : Type) where
  | forward (inc : I → Except Fault I)
  | bidirectional (inc dec : I → Except Fault I)
  | randomAccess (inc dec : I → Except Fault I) (addAssign : I → Int → Except Fault I)
      (difference : I → I → Int)

/-- `IteratorTraits<ListIterator<T, IsConst>>::IteratorCategory()` is `BidirectionalIteratorTag`:
a list iterator offers `operator++` and `operator--`. -/
def ListIterator.ops (s : Store T) : IteratorOps ListIterator :=
  .bidirectional (ListIterator.preInc s) (ListIterator.preDec s)

/-- The value of an `int` expression, in 32-bit two's complement. -/
def wrapInt (z : Int) : Int := (z + 2 ^ 31) % 2 ^ 32 - 2 ^ 31

/-- The conversion of an `unsigned int` value to `int`, modulo `2 ^ 32`. -/
def uintToInt (n : Nat) : Int := wrapInt (n % UINT_SIZE)

/-- The loop `while (n--) ++it;`. -/
def advanceIncLoop {I : Type} (inc : I → Except Fault I) : Nat → I → Int → Except Fault I
  | 0, _, _ => .error .outOfFuel
  | fuel + 1, it, n =>
    if n = 0 then .ok it
    else do
      let n := wrapInt (n - 1)
      let it ← inc it
      advanceIncLoop inc fuel it n

/-- The loop `while (n++) --it;`. -/
def advanceDecLoop {I : Type} (dec : I → Except Fault I) : Nat → I → Int → Except Fault I
  | 0, _, _ => .error .outOfFuel
  | fuel + 1, it, n =>
    if n = 0 then .ok it
    else do
      let n := wrapInt (n + 1)
      let it ← dec it
      advanceDecLoop dec fuel it n

/-- `advance(Iterator &it, int n, BidirectionalIteratorTag)`. -/
def advanceBidirectional {I : Type} (inc dec : I → Except Fault I) (fuel : Nat) (it : I)
    (n : Int) : Except Fault I :=
  if n < 0 then advanceDecLoop dec fuel it n
  else advanceIncLoop inc fuel it n

/-- `advance(Iterator &it, int n, ForwardIteratorTag)`. -/
def advanceForward {I : Type} (inc : I → Except Fault I) (fuel : Nat) (it : I) (n : Int) :
    Except Fault I :=
  if n > 0 then advanceIncLoop inc fuel it n
  else .ok it

/-- `advance(Iterator &it, int n)`: dispatch on `IteratorTraits<Iterator>::IteratorCategory()`;
for `RandomAccessIteratorTag` the overload is `it += n`. -/
def advance {I : Type} (ops : IteratorOps I) (fuel : Nat) (it : I) (n : Int) : Except Fault I :=
  match ops with
  | .forward inc => advanceForward inc fuel it n
  | .bidirectional inc dec => advanceBidirectional inc dec fuel it n
  | .randomAccess _ _ addAssign _ => addAssign it n

/-- `next(Iterator it, unsigned int n)`: `advance(it, n); return it;`, the argument of `advance`
being an `int`. -/
def next {I : Type} (ops : IteratorOps I) (fuel : Nat) (it : I) (n : Nat) : Except Fault I :=
  advance ops fuel it (uintToInt n)

/-- `next(Iterator it)`: `advance(it, 1); return it;`. -/
def nextOne {I : Type} (ops : IteratorOps I) (fuel : Nat) (it : I) : Except Fault I :=
  advance ops fuel it 1

/-- `prev(Iterator it, unsigned int n)`: `advance(it, -n); return it;`, the negation being that
of `unsigned int` and the argument of `advance` an `int`. -/
def prev {I : Type} (ops : IteratorOps I) (fuel : Nat) (it : I) (n : Nat) : Except Fault I :=
  advance ops fuel it (uintToInt ((UINT_SIZE - n % UINT_SIZE) % UINT_SIZE))

/-- `prev(Iterator it)`: `advance(it, -1); return it;`. -/
def prevOne {I : Type} (ops : IteratorOps I) (fuel : Nat) (it : I) : Except Fault I :=
  advance ops fuel it (-1)

/-- The loop `for (; first != last; ++first) counter++;` of
`distance(ForwardIterator &, const ForwardIterator &, ForwardIteratorTag)`. -/
def distanceLoop {I : Type} [DecidableEq I] (inc : I → Except Fault I) :
    Nat → I → I → Int → Except Fault Int
  | 0, _, _, _ => .error .outOfFuel
  | fuel + 1, first, last, counter =>
    if first = last then .ok counter
    else do
      let counter := wrapInt (counter + 1)
      let first ← inc first
      distanceLoop inc fuel first last counter

/-- `distance(Iterator first, const Iterator last)`: dispatch on the iterator category; the
forward overload also serves bidirectional iterators, `BidirectionalIteratorTag` deriving from
`ForwardIteratorTag`, and the random access overload returns `last - first`. -/
def distance {I : Type} [DecidableEq I] (ops : IteratorOps I) (fuel : Nat) (first last : I) :
    Except Fault Int :=
  match ops with
  | .forward inc => distanceLoop inc fuel first last 0
  | .bidirectional inc _ => distanceLoop inc fuel first last 0
  | .randomAccess _ _ _ difference => .ok (difference last first)

/-- Applying a step `k` times, stopping at the first fault. -/
def stepN {I : Type} (f : I → Except Fault I) : Nat → I → Except Fault I
  | 0, it => .ok it
  | k + 1, it => do
    let it ← f it
    stepN f k it

/-! ## Independence of two lists -/

/-- The call is one of the mutating member functions that involve no other list, applied to
list `C`. -/
def Call.MutatesOnly (C : Nat) : Call T → Prop
  | .pushFront self _ => self = C
  | .pushBack self _ => self = C
  | .popFront self => self = C
  | .popBack self => self = C
  | .insertAfter self _ _ => self = C
  | .insertBefore self _ _ => self = C
  | .erase self _ => self = C
  | .eraseRange self _ _ => self = C
  | .remove self _ => self = C
  | .removeIf self _ => self = C
  | .clear self => self = C
  | _ => False

/-- What a call on list `C` alone may do, `cs` and `cs'` being the nodes of `C` before and after
it: the allocator still hands out unused addresses, `C` is a two-way consistent chain over `cs'`,
the fields of every other list and the cells of the nodes that were allocated outside `C` are
untouched, and the nodes of `C` are former nodes of `C` or newly allocated ones. -/
def LocalStep (s s' : Store T) (C : Nat) (cs cs' : List Nat) : Prop :=
  s'.FreshOk ∧ Linked s' C cs' ∧ (∀ K, K ≠ C → s'.lists K = s.lists K) ∧
    (∀ a, a ∉ cs → a < s.fresh → s'.nodes a = s.nodes a) ∧ (∀ a ∈ cs', a ∈ cs ∨ s.fresh ≤ a)

/-- List `C` is a two-way consistent chain over the nodes `cs`, list `L` is well formed over the
nodes `ns` with elements `xs`, the two share no node, and the allocator hands out unused
addresses. -/
def Independent (s : Store T) (C : Nat) (cs : List Nat) (L : Nat) (ns : List Nat)
    (xs : List T) : Prop :=
  s.FreshOk ∧ Linked s C cs ∧ Rep s L ns xs ∧ ∀ a ∈ cs, a ∉ ns

/-! ## Nodes moved by a splice -/

/-- A call on the lists `A` and `B`, with nodes `as` and `bs` before it and `as'` and `bs'` after
it, has only moved nodes: both lists are two-way consistent chains, together they own the nodes
they owned before, the allocator has not advanced, and every address holds the payload it held
(so no node was created, destroyed or copied), which an iterator at that address dereferences
to. -/
def NodesKept (s s' : Store T) (A B : Nat) (as bs as' bs' : List Nat) : Prop :=
  Linked s' A as' ∧ Linked s' B bs' ∧ (as' ++ bs').Perm (as ++ bs) ∧ s'.fresh = s.fresh ∧
    (∀ a, dataAt s' a = dataAt s a) ∧
    ∀ a, ListIterator.deref s' ⟨some a⟩ = ListIterator.deref s ⟨some a⟩

/-! ## RenderStatistics -/

namespace RenderStatistics

/-- Modelled from the spec: the structure `RenderStatistics::Commands` is declared in
`RenderStatistics.h`, which is not among the sources. It is taken to hold the four
`unsigned int` counters that `gatherStatistics` updates and that `appendCommandsStatistics`
prints with `%u`. -/
structure Commands where
  vertices : Nat
  commands : Nat
  transparents : Nat
  instances : Nat
  deriving DecidableEq, Repr

/-- Modelled from the spec: `Commands::reset()` is declared in `RenderStatistics.h`, which is
not among the sources. It is taken to set the four counters to zero, the state the statistics
of a frame start from. -/
def Commands.reset (_c : Commands) : Commands := ⟨0, 0, 0, 0⟩

/-- Modelled from the spec: the enumerators of `RenderCommand::CommandTypes` that the code names.
Their values are in `RenderCommand.h`, which is not among the sources, and are taken as a
parameter. -/
structure CommandTypes where
  SPRITE : Nat
  PARTICLE : Nat
  TEXT : Nat
  PLOTTER : Nat
  COUNT : Nat

/-- Modelled from the spec: what `gatherStatistics` reads from a `RenderCommand`, a class
declared in `RenderCommand.h`, which is not among the sources: `type()`, `numInstances()`,
`geometry().numVertices()` and `material().isTransparent()`. The two counts are taken to be
`int` values; modulo `2 ^ 32` the sums are the same if they are `unsigned int`. -/
structure RenderCommand where
  type : Nat
  numInstances : Int
  numVertices : Int
  isTransparent : Bool

/-- The static data members of `RenderStatistics` that the command statistics use:
`allCommands_`, `typedCommands_[CommandTypes::COUNT]`, and the ping-pong `index` with
`culledNodes_[2]` that `reset()` also updates. The members for buffers, textures and the VAO
pool are left out: no function embedded here reads them. -/
structure State where
  allCommands_ : Commands
  typedCommands_ : Nat → Commands
  index : Nat
  culledNodes_ : Nat → Nat

/-- The static definitions at the top of `RenderStatistics.cpp`: objects with static storage
are zero initialised, `index = 0` and `culledNodes_[2] = {0, 0}`. -/
def State.initial : State :=
  { allCommands_ := ⟨0, 0, 0, 0⟩, typedCommands_ := fun _ => ⟨0, 0, 0, 0⟩, index := 0,
    culledNodes_ := fun _ => 0 }

/-- The conversion of an `int` value to `unsigned int`, modulo `2 ^ 32`. -/
def toUint (z : Int) : Nat := (z % 2 ^ 32).toNat

/-- `RenderStatistics::reset()`, on the members of `State`. -/
def reset (ct : CommandTypes) (st : State) : State :=
  let typed := fun i => if i < ct.COUNT then (st.typedCommands_ i).reset else st.typedCommands_ i
  let index := ((st.index + 1) % UINT_SIZE) % 2
  { allCommands_ := st.allCommands_.reset,
    typedCommands_ := typed,
    index := index,
    culledNodes_ := fun i => if i = index then 0 else st.culledNodes_ i }

/-- `RenderStatistics::gatherStatistics(const RenderCommand &command)`; indexing
`typedCommands_` at or beyond `CommandTypes::COUNT` is a fault. -/
def gatherStatistics (ct : CommandTypes) (st : State) (command : RenderCommand) :
    Except Fault State :=
  let typeIndex := command.type
  if typeIndex < ct.COUNT then
    let t := st.typedCommands_ typeIndex
    let t := { t with vertices := (t.vertices + toUint (if command.numInstances > 0
      then wrapInt (command.numVertices * command.numInstances)
      else command.numVertices)) % UINT_SIZE }
    let t := { t with commands := (t.commands + 1) % UINT_SIZE }
    let t := { t with transparents :=
      (t.transparents + (if command.isTransparent then 1 else 0)) % UINT_SIZE }
    let t := { t with instances := (t.instances + toUint command.numInstances) % UINT_SIZE }
    let a := st.allCommands_
    let a := { a with vertices := (a.vertices + toUint command.numVertices) % UINT_SIZE }
    let a := { a with commands := (a.commands + 1) % UINT_SIZE }
    let a := { a with transparents :=
      (a.transparents + (if command.isTransparent then 1 else 0)) % UINT_SIZE }
    let a := { a with instances := (a.instances + toUint command.numInstances) % UINT_SIZE }
    .ok { st with
      typedCommands_ := fun i => if i = typeIndex then t else st.typedCommands_ i,
      allCommands_ := a }
  else .error .invalidDeref

/-- `RenderStatistics::appendCommandsStatistics`: the counters passed to `formatAppend`, line by
line in the order of the format string, each line with its label. -/
def appendCommandsStatistics (ct : CommandTypes) (st : State) : List (String × Commands) :=
  let spriteCommands := st.typedCommands_ ct.SPRITE
  let particleCommands := st.typedCommands_ ct.PARTICLE
  let textCommands := st.typedCommands_ ct.TEXT
  let plotterCommands := st.typedCommands_ ct.PLOTTER
  [("Sprites", spriteCommands), ("Particles", particleCommands), ("Text", textCommands),
    ("Plotter", plotterCommands), ("Total", st.allCommands_)]

/-- The sum, modulo `2 ^ 32`, of the per-type vertices counters over all command types. -/
def typedVerticesSum (ct : CommandTypes) (st : State) : Nat :=
  ((List.range ct.COUNT).map (fun i => (st.typedCommands_ i).vertices)).sum % UINT_SIZE

/-- An enumeration with the four named types, in the order of the report. -/
def exampleCommandTypes : CommandTypes := ⟨0, 1, 2, 3, 4⟩

end RenderStatistics

/-- The sequence `xs` with the entry at index `j` taken out of its place and put back immediately
before the entry that was at index `i` (`i ≠ j`). -/
def moveBefore {α : Type} (xs : List α) (j i : Nat) : List α :=
  let rest := xs.take j ++ xs.drop (j + 1)
  let k := if j < i then i - 1 else i
  rest.take k ++ ((xs.drop j).take 1 ++ rest.drop k)

/-! # Verification

## Segments -/

theorem lastPtr_append (prev : Option Nat) (xs ys : List Nat) :
    lastPtr prev (xs ++ ys) = lastPtr (lastPtr prev xs) ys := by
  induction xs generalizing prev with
  | nil => rfl
  | cons a xs ih => simpa [lastPtr] using ih (some a)

theorem lastPtr_cons_ne (prev : Option Nat) (a : Nat) (xs : List Nat) :
    lastPtr prev (a :: xs) = lastPtr (some a) xs := rfl

@[simp] theorem lastPtr_nil (prev : Option Nat) : lastPtr prev [] = prev := rfl

@[simp] theorem headPtr_nil (nxt : Option Nat) : headPtr [] nxt = nxt := rfl

@[simp] theorem headPtr_cons (a : Nat) (xs : List Nat) (nxt : Option Nat) :
    headPtr (a :: xs) nxt = some a := rfl

theorem lastPtr_snoc (prev : Option Nat) (xs : List Nat) (a : Nat) :
    lastPtr prev (xs ++ [a]) = some a := by
  rw [lastPtr_append]; rfl

theorem lastPtr_of_ne_nil (prev q : Option Nat) (xs : List Nat) (h : xs ≠ []) :
    lastPtr prev xs = lastPtr q xs := by
  cases xs with
  | nil => exact absurd rfl h
  | cons a xs => rfl

theorem lastPtr_eq_getLast? (xs : List Nat) : lastPtr none xs = xs.getLast? := by
  rcases List.eq_nil_or_concat xs with h | ⟨ys, a, h⟩
  · subst h; rfl
  · subst h; rw [List.concat_eq_append, lastPtr_snoc]; simp

theorem lastPtr_mem (prev : Option Nat) (xs : List Nat) (a : Nat)
    (h : lastPtr prev xs = some a) : prev = some a ∨ a ∈ xs := by
  induction xs generalizing prev with
  | nil => exact Or.inl h
  | cons b xs ih =>
    rcases ih (some b) h with h1 | h1
    · right; simp at h1; simp [h1]
    · right; exact List.mem_cons_of_mem _ h1

theorem headPtr_append (xs ys : List Nat) (nxt : Option Nat) :
    headPtr (xs ++ ys) nxt = headPtr xs (headPtr ys nxt) := by
  cases xs <;> rfl

theorem seg_head {m : Nat → Option (ListNode T)} {prev p nxt : Option Nat} {ns : List Nat}
    (h : Seg m prev p ns nxt) : p = headPtr ns nxt := by
  cases ns with
  | nil => exact h
  | cons a rest => exact h.1

theorem seg_append {m : Nat → Option (ListNode T)} (prev p nxt : Option Nat)
    (xs ys : List Nat) :
    Seg m prev p (xs ++ ys) nxt ↔
      Seg m prev p xs (headPtr ys nxt) ∧ Seg m (lastPtr prev xs) (headPtr ys nxt) ys nxt := by
  induction xs generalizing prev p with
  | nil =>
    simp only [List.nil_append]
    constructor
    · intro h
      have hp : p = headPtr ys nxt := seg_head h
      exact ⟨hp, hp ▸ h⟩
    · rintro ⟨h1, h2⟩
      have h1' : p = headPtr ys nxt := h1
      rw [h1']; exact h2
  | cons a xs ih =>
    show (p = some a ∧ _ ∧ Seg m (some a) _ (xs ++ ys) nxt) ↔ _
    rw [ih]
    simp only [Seg, lastPtr, and_assoc]

theorem seg_alloc {m : Nat → Option (ListNode T)} {prev p nxt : Option Nat} {ns : List Nat}
    (h : Seg m prev p ns nxt) {a : Nat} (ha : a ∈ ns) : ∃ n, m a = some n := by
  induction ns generalizing prev p with
  | nil => cases ha
  | cons b rest ih =>
    rcases List.mem_cons.1 ha with rfl | h'
    · cases hm : m a with
      | none => have := h.2.1; simp [hm] at this
      | some n => exact ⟨n, rfl⟩
    · exact ih h.2.2 h'

theorem seg_prev_mem {m : Nat → Option (ListNode T)} {prev p nxt : Option Nat} {ns : List Nat}
    (h : Seg m prev p ns nxt) {a : Nat} (ha : a ∈ ns) :
    (m a).map (fun n => n.previous_) = some prev ∨
      ∃ c ∈ ns, (m a).map (fun n => n.previous_) = some (some c) := by
  induction ns generalizing prev p with
  | nil => cases ha
  | cons b rest ih =>
    rcases List.mem_cons.1 ha with rfl | h'
    · exact Or.inl h.2.1
    · rcases ih h.2.2 h' with h1 | ⟨c, hc, h1⟩
      · exact Or.inr ⟨b, List.mem_cons_self _ _, h1⟩
      · exact Or.inr ⟨c, List.mem_cons_of_mem _ hc, h1⟩

theorem seg_nodup {m : Nat → Option (ListNode T)} {prev p nxt : Option Nat} {ns : List Nat}
    (h : Seg m prev p ns nxt) (hprev : ∀ a ∈ ns, prev ≠ some a) : ns.Nodup := by
  induction ns generalizing prev p with
  | nil => exact List.nodup_nil
  | cons b rest ih =>
    have hb : b ∉ rest := by
      intro hmem
      have hp := h.2.1
      rcases seg_prev_mem h.2.2 hmem with h1 | ⟨c, hc, h1⟩
      · rw [hp] at h1
        exact hprev b (List.mem_cons_self _ _) (by simpa using h1)
      · rw [hp] at h1
        exact hprev c (List.mem_cons_of_mem _ hc) (by simpa using h1)
    refine List.nodup_cons.2 ⟨hb, ih h.2.2 ?_⟩
    intro a ha hEq
    simp at hEq
    exact hb (hEq ▸ ha)

/-- Frame rule: a segment only depends on the links of its own nodes. -/
theorem seg_congr {m m' : Nat → Option (ListNode T)} {prev p nxt : Option Nat} {ns : List Nat}
    (h : Seg m prev p ns nxt)
    (hp : ∀ a ∈ ns, (m' a).map (fun n => n.previous_) = (m a).map (fun n => n.previous_))
    (hn : ∀ a ∈ ns, (m' a).bind (fun n => n.next_) = (m a).bind (fun n => n.next_)) :
    Seg m' prev p ns nxt := by
  induction ns generalizing prev p with
  | nil => exact h
  | cons b rest ih =>
    refine ⟨h.1, ?_, ?_⟩
    · rw [hp b (List.mem_cons_self _ _)]; exact h.2.1
    · rw [hn b (List.mem_cons_self _ _)]
      exact ih h.2.2 (fun a ha => hp a (List.mem_cons_of_mem _ ha))
        (fun a ha => hn a (List.mem_cons_of_mem _ ha))

/-- Relinking rule: a non-empty segment stays a segment when the `previous_` link of its first
node and the `next_` link of its last node are redirected and no other link of it changes. -/
theorem seg_relink {m m' : Nat → Option (ListNode T)} {prev p nxt : Option Nat} {ns : List Nat}
    (prev' nxt' : Option Nat)
    (h : Seg m prev p ns nxt) (hnd : ns.Nodup) (hne : ns ≠ [])
    (hp : ∀ a ∈ ns, (m' a).map (fun n => n.previous_) =
      if headPtr ns none = some a then some prev' else (m a).map (fun n => n.previous_))
    (hn : ∀ a ∈ ns, (m' a).bind (fun n => n.next_) =
      if lastPtr none ns = some a then nxt' else (m a).bind (fun n => n.next_)) :
    Seg m' prev' p ns nxt' := by
  induction ns generalizing prev p prev' with
  | nil => exact absurd rfl hne
  | cons b rest ih =>
    have hb : b ∉ rest := (List.nodup_cons.1 hnd).1
    have hnd' : rest.Nodup := (List.nodup_cons.1 hnd).2
    refine ⟨h.1, ?_, ?_⟩
    · have := hp b (List.mem_cons_self _ _)
      simpa [headPtr] using this
    · by_cases hr : rest = []
      · subst hr
        have := hn b (List.mem_cons_self _ _)
        simp [lastPtr] at this
        show (m' b).bind (fun n => n.next_) = nxt'
        exact this
      · have hlast : lastPtr none (b :: rest) ≠ some b := by
          intro hl
          rw [lastPtr_cons_ne] at hl
          rcases lastPtr_mem _ _ _ hl with h1 | h1
          · cases rest with
            | nil => exact hr rfl
            | cons c rest' =>
              rw [lastPtr_cons_ne] at hl
              rcases lastPtr_mem _ _ _ hl with h2 | h2
              · simp at h2; exact hb (by simp [h2])
              · exact hb (List.mem_cons_of_mem _ h2)
          · exact hb h1
        have hnb := hn b (List.mem_cons_self _ _)
        rw [if_neg hlast] at hnb
        rw [hnb]
        refine ih (some b) h.2.2 hnd' hr ?_ ?_
        · intro a ha
          have hab : a ≠ b := fun e => hb (e ▸ ha)
          have := hp a (List.mem_cons_of_mem _ ha)
          simp only [headPtr, Option.some.injEq] at this
          rw [if_neg (fun e => hab e.symm)] at this
          rw [this]
          split
          · rename_i hh
            cases rest with
            | nil => cases ha
            | cons c rest' =>
              simp only [headPtr, Option.some.injEq] at hh
              subst hh
              exact h.2.2.2.1
          · rfl
        · intro a ha
          have := hn a (List.mem_cons_of_mem _ ha)
          rw [lastPtr_cons_ne, lastPtr_of_ne_nil (some b) none rest hr] at this
          exact this

/-- The relinking rule with the tests written `some a = ...`. -/
theorem seg_relink' {m w : Nat → Option (ListNode T)} {prev p nxt : Option Nat} {ns : List Nat}
    (prev' nxt' : Option Nat)
    (h : Seg m prev p ns nxt) (hnd : ns.Nodup) (hne : ns ≠ [])
    (hp : ∀ a ∈ ns, (w a).map (fun n => n.previous_) =
      if some a = headPtr ns none then some prev' else (m a).map (fun n => n.previous_))
    (hn : ∀ a ∈ ns, (w a).bind (fun n => n.next_) =
      if some a = lastPtr none ns then nxt' else (m a).bind (fun n => n.next_)) :
    Seg w prev' p ns nxt' :=
  seg_relink prev' nxt' h hnd hne (fun a ha => by rw [hp a ha]; simp only [eq_comm])
    (fun a ha => by rw [hn a ha]; simp only [eq_comm])

/-! ## Stores and basic consequences of linkage -/

@[simp] theorem Store.write_nodes (s : Store T) (a : Nat) (n : ListNode T) (b : Nat) :
    (s.write a n).nodes b = if b = a then some n else s.nodes b := rfl
@[simp] theorem Store.write_lists (s : Store T) (a : Nat) (n : ListNode T) :
    (s.write a n).lists = s.lists := rfl
@[simp] theorem Store.write_fresh (s : Store T) (a : Nat) (n : ListNode T) :
    (s.write a n).fresh = s.fresh := rfl
@[simp] theorem Store.setList_nodes (s : Store T) (L : Nat) (f : LinkedList) :
    (s.setList L f).nodes = s.nodes := rfl
@[simp] theorem Store.setList_fresh (s : Store T) (L : Nat) (f : LinkedList) :
    (s.setList L f).fresh = s.fresh := rfl
@[simp] theorem Store.setList_lists (s : Store T) (L : Nat) (f : LinkedList) (K : Nat) :
    (s.setList L f).lists K = if K = L then f else s.lists K := rfl
@[simp] theorem Store.new_nodes (s : Store T) (n : ListNode T) (b : Nat) :
    (s.new n).1.nodes b = if b = s.fresh then some n else s.nodes b := rfl
@[simp] theorem Store.new_lists (s : Store T) (n : ListNode T) :
    (s.new n).1.lists = s.lists := rfl
@[simp] theorem Store.new_fresh (s : Store T) (n : ListNode T) :
    (s.new n).1.fresh = s.fresh + 1 := rfl
@[simp] theorem Store.new_snd (s : Store T) (n : ListNode T) :
    (s.new n).2 = s.fresh := rfl

theorem Store.load_some {s : Store T} {a : Nat} {n : ListNode T} (h : s.nodes a = some n) :
    s.load (some a) = .ok n := by simp [Store.load, h]
theorem Store.setPrevious_some {s : Store T} {a : Nat} {n : ListNode T} (h : s.nodes a = some n)
    (v : Option Nat) : s.setPrevious (some a) v = .ok (s.write a { n with previous_ := v }) := by
  simp [Store.setPrevious, h]
theorem Store.setNext_some {s : Store T} {a : Nat} {n : ListNode T} (h : s.nodes a = some n)
    (v : Option Nat) : s.setNext (some a) v = .ok (s.write a { n with next_ := v }) := by
  simp [Store.setNext, h]

theorem seg_head_prev {m : Nat → Option (ListNode T)} {prev p nxt : Option Nat} {ns : List Nat}
    (h : Seg m prev p ns nxt) {a : Nat} (ha : headPtr ns none = some a) :
    (m a).map (fun n => n.previous_) = some prev := by
  cases ns with
  | nil => cases ha
  | cons b rest =>
    simp only [headPtr, Option.some.injEq] at ha
    subst ha; exact h.2.1

theorem seg_last_next {m : Nat → Option (ListNode T)} {prev p nxt : Option Nat} {ns : List Nat}
    (h : Seg m prev p ns nxt) {a : Nat} (ha : lastPtr none ns = some a) :
    (m a).bind (fun n => n.next_) = nxt := by
  induction ns generalizing prev p with
  | nil => cases ha
  | cons b rest ih =>
    cases rest with
    | nil =>
      simp only [lastPtr, Option.some.injEq] at ha
      subst ha; exact h.2.2
    | cons c rest' => exact ih h.2.2 ha

theorem seg_redirect_next {m m' : Nat → Option (ListNode T)} {prev p nxt : Option Nat}
    {ns : List Nat} (nxt' : Option Nat)
    (h : Seg m prev p ns nxt) (hnd : ns.Nodup) (hne : ns ≠ [])
    (hp : ∀ a ∈ ns, (m' a).map (fun n => n.previous_) = (m a).map (fun n => n.previous_))
    (hn : ∀ a ∈ ns, (m' a).bind (fun n => n.next_) =
      if lastPtr none ns = some a then nxt' else (m a).bind (fun n => n.next_)) :
    Seg m' prev p ns nxt' := by
  refine seg_relink prev nxt' h hnd hne (fun a ha => ?_) hn
  rw [hp a ha]
  split
  · rename_i hh; exact seg_head_prev h hh
  · rfl

theorem seg_redirect_prev {m m' : Nat → Option (ListNode T)} {prev p nxt : Option Nat}
    {ns : List Nat} (prev' : Option Nat)
    (h : Seg m prev p ns nxt) (hnd : ns.Nodup) (hne : ns ≠ [])
    (hp : ∀ a ∈ ns, (m' a).map (fun n => n.previous_) =
      if headPtr ns none = some a then some prev' else (m a).map (fun n => n.previous_))
    (hn : ∀ a ∈ ns, (m' a).bind (fun n => n.next_) = (m a).bind (fun n => n.next_)) :
    Seg m' prev' p ns nxt := by
  refine seg_relink prev' nxt h hnd hne hp (fun a ha => ?_)
  rw [hn a ha]
  split
  · rename_i hh; exact seg_last_next h hh
  · rfl

theorem Linked.nodup {s : Store T} {L : Nat} {ns : List Nat} (h : Linked s L ns) : ns.Nodup :=
  seg_nodup h.1 (fun _ _ => by simp)

theorem Linked.alloc {s : Store T} {L : Nat} {ns : List Nat} (h : Linked s L ns) {a : Nat}
    (ha : a ∈ ns) : ∃ n, s.nodes a = some n := seg_alloc h.1 ha

theorem Store.FreshOk.not_mem {s : Store T} (hf : s.FreshOk) {L : Nat} {ns : List Nat}
    (h : Linked s L ns) : s.fresh ∉ ns := by
  intro hm
  obtain ⟨n, hn⟩ := h.alloc hm
  rw [hf _ (le_refl _)] at hn
  cases hn

theorem pushBack_spec (s : Store T) (L : Nat) (v : T) (ns : List Nat)
    (hL : Linked s L ns) (hf : s.FreshOk) :
    ∃ s', pushBack s L v = .ok s' ∧ Linked s' L (ns ++ [s.fresh]) ∧
      (s'.lists L).size_ = ((s.lists L).size_ + 1) % UINT_SIZE ∧
      s'.fresh = s.fresh + 1 ∧ s'.FreshOk ∧
      (∀ K, K ≠ L → s'.lists K = s.lists K) ∧
      (∀ a, a ∉ ns → a ≠ s.fresh → s'.nodes a = s.nodes a) ∧
      (∀ a, a ≠ s.fresh → dataAt s' a = dataAt s a) ∧ dataAt s' s.fresh = some v := by
  have hfresh : s.fresh ∉ ns := hf.not_mem hL
  have hnd := hL.nodup
  obtain ⟨h1, h2⟩ := hL
  rcases List.eq_nil_or_concat ns with rfl | ⟨xs, t, rfl⟩
  · have hh : (s.lists L).head_ = none := h1
    have ht : (s.lists L).tail_ = none := h2
    refine ⟨_, by simp [pushBack, hh, ht, bind, Except.bind, pure, Except.pure, Store.setTail,
      Store.setHead, Store.incSize, Store.setSize]; rfl, ?_, ?_, ?_, ?_, ?_, ?_, ?_, ?_⟩
    · constructor
      · simp [Seg]
      · simp [lastPtr]
    · simp
    · simp
    · intro a ha
      simp at ha ⊢
      rw [if_neg (by omega)]
      exact hf a (by omega)
    · intro K hK; simp [hK]
    · intro a _ ha; simp [ha]
    · intro a ha; simp [dataAt, ha]
    · simp [dataAt]
  · rw [List.concat_eq_append] at *
    have ht : (s.lists L).tail_ = some t := by rw [h2, lastPtr_snoc]
    obtain ⟨nt, hnt⟩ := seg_alloc h1 (List.mem_append_right _ (List.mem_singleton_self t))
    have hhd : (s.lists L).head_ ≠ none := by
      rw [seg_head h1]; cases xs <;> simp [headPtr]
    have htf : t ≠ s.fresh := fun e => hfresh (by simp [e])
    refine ⟨_, by simp [pushBack, hhd, ht, bind, Except.bind, pure, Except.pure, Store.setTail,
      Store.setHead, Store.incSize, Store.setSize, Store.setNext, htf, hnt]; rfl, ?_, ?_, ?_, ?_, ?_, ?_, ?_, ?_⟩
    · constructor
      · simp only [Store.setList_nodes, Store.setList_lists, if_true]
        rw [seg_append]
        refine ⟨seg_redirect_next _ h1 hnd (by simp) ?_ ?_, ?_⟩
        · intro a ha
          have : a ≠ s.fresh := fun e => hfresh (e ▸ ha)
          by_cases hat : a = t <;> simp [this, hat, hnt]
        · intro a ha
          have : a ≠ s.fresh := fun e => hfresh (e ▸ ha)
          rw [lastPtr_snoc]
          by_cases hat : a = t
          · simp [hat, headPtr]
          · simp [hat, this, Ne.symm hat]
        · simp [Seg, lastPtr_snoc, headPtr, Ne.symm htf]
      · show LinkedList.tail_ _ = _
        rw [lastPtr_snoc]; simp
    · simp
    · simp
    · intro a ha
      simp at ha ⊢
      rw [if_neg, if_neg (by omega)]
      · exact hf a (by omega)
      · rintro rfl
        rw [hf a (by omega)] at hnt; cases hnt
    · intro K hK; simp [hK]
    · intro a ha1 ha2
      have : a ≠ t := fun e => ha1 (by simp [e])
      simp [this, ha2]
    · intro a ha
      by_cases hat : a = t <;> simp [dataAt, ha, hat, hnt]
    · simp [dataAt, Ne.symm htf]

theorem lastPtr_eq_none {xs : List Nat} (h : lastPtr none xs = none) : xs = [] := by
  rcases List.eq_nil_or_concat xs with h' | ⟨ys, a, h'⟩
  · exact h'
  · subst h'; rw [List.concat_eq_append, lastPtr_snoc] at h; cases h

theorem headPtr_eq_none {xs : List Nat} (h : headPtr xs none = none) : xs = [] := by
  cases xs with
  | nil => rfl
  | cons a xs => cases h

theorem headPtr_mem {xs : List Nat} {a : Nat} (h : headPtr xs none = some a) : a ∈ xs := by
  cases xs with
  | nil => cases h
  | cons b xs => simp only [headPtr, Option.some.injEq] at h; simp [h]

theorem lastPtr_none_mem {xs : List Nat} {a : Nat} (h : lastPtr none xs = some a) : a ∈ xs := by
  rcases lastPtr_mem _ _ _ h with h1 | h1
  · cases h1
  · exact h1

theorem headPtr_of_ne_nil {xs : List Nat} (h : xs ≠ []) (p q : Option Nat) :
    headPtr xs p = headPtr xs q := by
  cases xs with
  | nil => exact absurd rfl h
  | cons a xs => rfl

/-- Joining rule: given the part `pre` before and the part `post` after some position of a
chain, and a block `blk` that is already a segment between them in the new heap, the chain
`pre ++ blk ++ post` is linked in the new heap as soon as the only links of `pre` and `post`
that changed are the two facing the block. -/
theorem seg_join {m w : Nat → Option (ListNode T)} {pre b post : List Nat}
    {p q e1 e2 : Option Nat}
    (hpre : Seg m none p pre e1) (hpost : Seg m e2 q post none) (hnd : (pre ++ post).Nodup)
    (hp' : ∀ a ∈ pre ++ post, (w a).map (fun n => n.previous_) =
      if some a = headPtr post none then some (lastPtr (lastPtr none pre) b)
      else (m a).map (fun n => n.previous_))
    (hn' : ∀ a ∈ pre ++ post, (w a).bind (fun n => n.next_) =
      if some a = lastPtr none pre then headPtr b (headPtr post none)
      else (m a).bind (fun n => n.next_))
    (hb : Seg w (lastPtr none pre) (headPtr b (headPtr post none)) b (headPtr post none)) :
    Seg w none (headPtr (pre ++ (b ++ post)) none) (pre ++ (b ++ post)) none := by
  have hp : ∀ a ∈ pre ++ post, (w a).map (fun n => n.previous_) =
      if headPtr post none = some a then some (lastPtr (lastPtr none pre) b)
      else (m a).map (fun n => n.previous_) := fun a ha => by
    rw [hp' a ha]; simp only [eq_comm]
  have hn : ∀ a ∈ pre ++ post, (w a).bind (fun n => n.next_) =
      if lastPtr none pre = some a then headPtr b (headPtr post none)
      else (m a).bind (fun n => n.next_) := fun a ha => by
    rw [hn' a ha]; simp only [eq_comm]
  have hdisj : ∀ a, a ∈ pre → a ∈ post → False := fun a h1 h2 =>
    (List.nodup_append.1 hnd).2.2 h1 h2
  rw [seg_append, seg_append, headPtr_append b post]
  refine ⟨?_, hb, ?_⟩
  · by_cases hpe : pre = []
    · subst hpe
      show headPtr ([] ++ (b ++ post)) none = _
      rw [List.nil_append, headPtr_append]
    · have hp0 : p = headPtr (pre ++ (b ++ post)) none := by
        rw [seg_head hpre, headPtr_append]; exact headPtr_of_ne_nil hpe _ _
      rw [← hp0]
      refine seg_redirect_next _ hpre (List.nodup_append.1 hnd).1 hpe ?_ ?_
      · intro a ha
        rw [hp a (List.mem_append_left _ ha), if_neg]
        intro hh; exact hdisj a ha (headPtr_mem hh)
      · intro a ha
        exact hn a (List.mem_append_left _ ha)
  · by_cases hpo : post = []
    · subst hpo; rfl
    · have hq : q = headPtr post none := by
        rw [seg_head hpost]
      rw [← hq]
      refine seg_redirect_prev _ hpost (List.nodup_append.1 hnd).2.1 hpo ?_ ?_
      · intro a ha
        exact hp a (List.mem_append_right _ ha)
      · intro a ha
        rw [hn a (List.mem_append_right _ ha), if_neg]
        intro hh; exact hdisj a (lastPtr_none_mem hh) ha


theorem Store.delete_some {s : Store T} {a : Nat} {n : ListNode T} (h : s.nodes a = some n) :
    s.delete (some a) = .ok { s with nodes := fun b => if b = a then none else s.nodes b } := by
  simp [Store.delete, h]

/-- Decomposition of a chain around one of its nodes. -/
theorem seg_split {m : Nat → Option (ListNode T)} {p : Option Nat} {pre post : List Nat} {x : Nat}
    (h : Seg m none p (pre ++ x :: post) none) :
    ∃ nx, m x = some nx ∧ nx.previous_ = lastPtr none pre ∧ nx.next_ = headPtr post none ∧
      Seg m none p pre (some x) ∧ Seg m (some x) (headPtr post none) post none := by
  rw [seg_append] at h
  obtain ⟨h1, h2, h3, h4⟩ := h
  obtain ⟨nx, hnx⟩ : ∃ n, m x = some n := by
    cases hm : m x with
    | none => simp [hm] at h3
    | some n => exact ⟨n, rfl⟩
  have h5 := seg_head h4
  simp only [hnx, Option.map_some', Option.some.injEq, Option.some_bind] at h3 h4 h5
  exact ⟨nx, hnx, h3, h5, h1, h5 ▸ h4⟩

theorem removeNode_spec (s : Store T) (L : Nat) (pre post : List Nat) (x : Nat)
    (hL : Linked s L (pre ++ x :: post)) :
    ∃ s', removeNode s L (some x) = .ok (s', headPtr post none) ∧ Linked s' L (pre ++ post) ∧
      (s'.lists L).size_ = ((s.lists L).size_ + UINT_SIZE - 1) % UINT_SIZE ∧
      s'.fresh = s.fresh ∧ s'.nodes x = none ∧
      (∀ K, K ≠ L → s'.lists K = s.lists K) ∧
      (∀ a, a ∉ pre ++ x :: post → s'.nodes a = s.nodes a) ∧
      (∀ a, a ≠ x → dataAt s' a = dataAt s a) := by
  have hnd := hL.nodup
  obtain ⟨hseg, htail⟩ := hL
  obtain ⟨nx, hnx, hxp, hxn, hpre, hpost⟩ := seg_split hseg
  have hxpre : x ∉ pre := fun h => by
    have := (List.nodup_append.1 hnd).2.2 h (List.mem_cons_self _ _); exact this
  have hxpost : x ∉ post := (List.nodup_cons.1 (List.nodup_append.1 hnd).2.1).1
  have hnd' : (pre ++ post).Nodup := by
    have := List.nodup_append.1 hnd
    refine List.nodup_append.2 ⟨this.1, (List.nodup_cons.1 this.2.1).2, ?_⟩
    intro a h1 h2; exact this.2.2 h1 (List.mem_cons_of_mem _ h2)
  have hax : ∀ a, a ∈ pre ++ post → a ≠ x := by
    intro a ha e
    subst e
    rcases List.mem_append.1 ha with h | h
    · exact hxpre h
    · exact hxpost h
  have hhead0 : (s.lists L).head_ = headPtr pre (some x) := seg_head hpre
  have htail0 : (s.lists L).tail_ = lastPtr (some x) post := by
    rw [htail, lastPtr_append]; rfl
  cases hpl : lastPtr none pre with
  | none =>
    have hpre0 : pre = [] := lastPtr_eq_none hpl
    cases hph : headPtr post none with
    | none =>
      have hpost0 : post = [] := headPtr_eq_none hph
      rw [hpl] at hxp; rw [hph] at hxn
      refine ⟨_, by simp [removeNode, Store.load, hxp, hxn, bind, Except.bind, pure,
        Except.pure, Store.setTail, Store.setHead, Store.decSize, Store.setSize,
        Store.delete, hnx]; rfl, ?_, ?_, ?_, ?_, ?_, ?_, ?_⟩
      · subst hpre0 hpost0
        exact ⟨by simp [Seg], by simp [lastPtr]⟩
      · simp
      · rfl
      · simp
      · intro K hK; simp [hK]
      · intro a ha
        have : a ≠ x := fun e => ha (by simp [e])
        simp [this]
      · intro a ha; simp [dataAt, ha]
    | some ph =>
      have hphm : ph ∈ post := headPtr_mem hph
      obtain ⟨nph, hnph⟩ := seg_alloc hpost hphm
      have hphx : ph ≠ x := fun e => hxpost (e ▸ hphm)
      have hxph : x ≠ ph := Ne.symm hphx
      rw [hpl] at hxp; rw [hph] at hxn
      refine ⟨_, by simp [removeNode, Store.load, hxp, hxn, bind, Except.bind, pure,
        Except.pure, Store.setTail, Store.setHead, Store.decSize, Store.setSize,
        Store.delete, Store.setPrevious, hnx, hnph, hphx, Ne.symm hphx]; rfl, ?_, ?_, ?_, ?_, ?_, ?_, ?_⟩
      · constructor
        · have := seg_join (w := fun b => if b = x then none else if b = ph then
              some { nph with previous_ := none } else s.nodes b) (b := []) hpre hpost hnd'
            (by
              intro a ha
              have h1 := hax a ha
              by_cases h2 : a = ph <;> simp [*])
            (by
              intro a ha
              have h1 := hax a ha
              by_cases h2 : a = ph <;> simp [*])
            (by simp [Seg, hph])
          simpa [hpre0, hph] using this
        · simp [htail0, hpre0]
          exact lastPtr_of_ne_nil _ _ _ (by rintro rfl; cases hph)
      · simp
      · rfl
      · simp
      · intro K hK; simp [hK]
      · intro a ha
        have h1 : a ≠ x := fun e => ha (by simp [e])
        have h2 : a ≠ ph := fun e => ha (by simp [e, hphm])
        simp [h1, h2]
      · intro a ha
        by_cases h2 : a = ph <;> simp [*, dataAt]
  | some pl =>
    have hplm : pl ∈ pre := lastPtr_none_mem hpl
    obtain ⟨npl, hnpl⟩ := seg_alloc hpre hplm
    have hplx : pl ≠ x := fun e => hxpre (e ▸ hplm)
    have hxpl : x ≠ pl := Ne.symm hplx
    have hpre0 : pre ≠ [] := by rintro rfl; cases hplm
    cases hph : headPtr post none with
    | none =>
      have hpost0 : post = [] := headPtr_eq_none hph
      rw [hpl] at hxp; rw [hph] at hxn
      refine ⟨_, by simp [removeNode, Store.load, hxp, hxn, bind, Except.bind, pure,
        Except.pure, Store.setTail, Store.setHead, Store.decSize, Store.setSize,
        Store.delete, Store.setNext, hnx, hnpl, hplx, Ne.symm hplx]; rfl, ?_, ?_, ?_, ?_, ?_, ?_, ?_⟩
      · constructor
        · have := seg_join (w := fun b => if b = x then none else if b = pl then
              some { npl with next_ := none } else s.nodes b) (b := []) hpre hpost hnd'
            (by
              intro a ha
              have h1 := hax a ha
              by_cases h2 : a = pl <;> simp [*])
            (by
              intro a ha
              have h1 := hax a ha
              by_cases h2 : a = pl <;> simp [*])
            (by simp [Seg, hph])
          simp only [List.nil_append] at this
          simp only [Store.setList_lists, if_true]
          rw [hhead0, headPtr_of_ne_nil hpre0 (some x) (headPtr post none), ← headPtr_append]
          rw [headPtr_append, headPtr_of_ne_nil hpre0 _ (headPtr post none), ← headPtr_append] at this
          exact this
        · simp [hpost0, hpl]
      · simp
      · rfl
      · simp
      · intro K hK; simp [hK]
      · intro a ha
        have h1 : a ≠ x := fun e => ha (by simp [e])
        have h2 : a ≠ pl := fun e => ha (by simp [e, hplm])
        simp [h1, h2]
      · intro a ha
        by_cases h2 : a = pl <;> simp [*, dataAt]
    | some ph =>
      have hphm : ph ∈ post := headPtr_mem hph
      obtain ⟨nph, hnph⟩ := seg_alloc hpost hphm
      have hphx : ph ≠ x := fun e => hxpost (e ▸ hphm)
      have hxph : x ≠ ph := Ne.symm hphx
      have hplph : pl ≠ ph := fun e => (List.nodup_append.1 hnd').2.2 hplm (e ▸ hphm)
      have hphpl : ph ≠ pl := Ne.symm hplph
      rw [hpl] at hxp; rw [hph] at hxn
      refine ⟨_, by simp [removeNode, Store.load, hxp, hxn, bind, Except.bind, pure,
        Except.pure, Store.setTail, Store.setHead, Store.decSize, Store.setSize,
        Store.delete, Store.setNext, Store.setPrevious, hnx, hnpl, hplx, Ne.symm hplx, hnph, hphx,
        Ne.symm hphx, hplph, Ne.symm hplph]; rfl, ?_, ?_, ?_, ?_, ?_, ?_, ?_⟩
      · constructor
        · have := seg_join (w := fun b => if b = x then none else if b = ph then
              some { nph with previous_ := some pl } else if b = pl then
              some { npl with next_ := some ph } else s.nodes b) (b := []) hpre hpost hnd'
            (by
              intro a ha
              have h1 := hax a ha
              by_cases h2 : a = pl <;> by_cases h3 : a = ph <;> simp [*])
            (by
              intro a ha
              have h1 := hax a ha
              by_cases h2 : a = pl <;> by_cases h3 : a = ph <;> simp [*])
            (by simp [Seg, hph])
          simp only [List.nil_append] at this
          simp only [Store.setList_lists, if_true]
          rw [hhead0, headPtr_of_ne_nil hpre0 (some x) (headPtr post none), ← headPtr_append]
          rw [headPtr_append, headPtr_of_ne_nil hpre0 _ (headPtr post none), ← headPtr_append] at this
          exact this
        · simp [htail0, lastPtr_append]
          exact lastPtr_of_ne_nil _ _ _ (by rintro rfl; cases hph)
      · simp
      · rfl
      · simp
      · intro K hK; simp [hK]
      · intro a ha
        have h1 : a ≠ x := fun e => ha (by simp [e])
        have h2 : a ≠ pl := fun e => ha (by simp [e, hplm])
        have h3 : a ≠ ph := fun e => ha (by simp [e, hphm])
        simp [h1, h2, h3]
      · intro a ha
        by_cases h2 : a = pl <;> by_cases h3 : a = ph <;> simp [*, dataAt]

theorem pushFront_spec (s : Store T) (L : Nat) (v : T) (ns : List Nat)
    (hL : Linked s L ns) (hf : s.FreshOk) :
    ∃ s', pushFront s L v = .ok s' ∧ Linked s' L (s.fresh :: ns) ∧
      (s'.lists L).size_ = ((s.lists L).size_ + 1) % UINT_SIZE ∧
      s'.fresh = s.fresh + 1 ∧ s'.FreshOk ∧
      (∀ K, K ≠ L → s'.lists K = s.lists K) ∧
      (∀ a, a ∉ ns → a ≠ s.fresh → s'.nodes a = s.nodes a) ∧
      (∀ a, a ≠ s.fresh → dataAt s' a = dataAt s a) ∧ dataAt s' s.fresh = some v := by
  have hfresh : s.fresh ∉ ns := hf.not_mem hL
  have hnd := hL.nodup
  have hfr : s.nodes s.fresh = none := hf _ (le_refl _)
  obtain ⟨h1, h2⟩ := hL
  have hhead0 := seg_head h1
  have haf : ∀ a, a ∈ ns → a ≠ s.fresh := fun a ha e => hfresh (e ▸ ha)
  have hpre : Seg s.nodes none (none : Option Nat) [] none := rfl
  cases hph : headPtr ns none with
  | none =>
    have hns : ns = [] := headPtr_eq_none hph
    subst hns
    have hh : (s.lists L).head_ = none := h1
    have ht : (s.lists L).tail_ = none := h2
    refine ⟨_, by simp [pushFront, hh, ht, bind, Except.bind, pure, Except.pure, Store.setTail,
      Store.setHead, Store.incSize, Store.setSize]; rfl, ?_, ?_, ?_, ?_, ?_, ?_, ?_, ?_⟩
    · exact ⟨by simp [Seg], by simp [lastPtr]⟩
    · simp
    · simp
    · intro a ha
      have : a ≠ s.fresh := by simp at ha; omega
      simp [this]; exact hf a (by simp at ha; omega)
    · intro K hK; simp [hK]
    · intro a _ ha; simp [ha]
    · intro a ha; simp [dataAt, ha]
    · simp [dataAt]
  | some ph =>
    have hphm : ph ∈ ns := headPtr_mem hph
    obtain ⟨nph, hnph⟩ := seg_alloc h1 hphm
    have hphf : ph ≠ s.fresh := haf ph hphm
    have hfph : s.fresh ≠ ph := Ne.symm hphf
    have hhd : (s.lists L).head_ = some ph := by rw [hhead0, hph]
    have hne : ns ≠ [] := by rintro rfl; cases hphm
    have htl : (s.lists L).tail_ ≠ none := by
      rw [h2]; intro e; exact hne (lastPtr_eq_none e)
    refine ⟨_, by simp [pushFront, hhd, htl, bind, Except.bind, pure, Except.pure, Store.setTail,
      Store.setHead, Store.incSize, Store.setSize, Store.setPrevious, hnph, hphf]; rfl,
      ?_, ?_, ?_, ?_, ?_, ?_, ?_, ?_⟩
    · constructor
      · have := seg_join (w := fun b => if b = ph then some { nph with previous_ := some s.fresh }
            else if b = s.fresh then some ⟨v, none, some ph⟩ else s.nodes b)
          (b := [s.fresh]) hpre h1 (by simpa using hnd)
          (by
            intro a ha
            have h3 := haf a (by simpa using ha)
            by_cases h4 : a = ph <;> simp [*, lastPtr])
          (by
            intro a ha
            have h3 := haf a (by simpa using ha)
            by_cases h4 : a = ph <;> simp [*])
          (by simp [Seg, *])
        simpa using this
      · simp [h2, lastPtr]
        exact lastPtr_of_ne_nil _ _ _ hne
    · simp
    · simp
    · intro a ha
      have h3 : a ≠ s.fresh := by simp at ha; omega
      have h4 : a ≠ ph := by
        rintro rfl
        rw [hf a (by simp at ha; omega)] at hnph; cases hnph
      simp [h3, h4]; exact hf a (by simp at ha; omega)
    · intro K hK; simp [hK]
    · intro a ha1 ha2
      have : a ≠ ph := fun e => ha1 (e ▸ hphm)
      simp [this, ha2]
    · intro a ha
      by_cases h4 : a = ph <;> simp [*, dataAt]
    · simp [dataAt, hfph]

/-! ## Stores reached by the claims' operations -/

theorem Linked.head_eq {s : Store T} {L : Nat} {ns : List Nat} (h : Linked s L ns) :
    (s.lists L).head_ = headPtr ns none := seg_head h.1

theorem Linked.isEmpty_iff {s : Store T} {L : Nat} {ns : List Nat} (h : Linked s L ns) :
    isEmpty s L = true ↔ ns = [] := by
  unfold isEmpty
  rw [h.head_eq]
  cases ns <;> simp


theorem elementsFrom_seg {s : Store T} {prev p : Option Nat} {ns : List Nat} {xs : List T}
    (h : Seg s.nodes prev p ns none) (hd : ns.map (dataAt s) = xs.map some) (fuel : Nat)
    (hfuel : ns.length < fuel) : elementsFrom fuel s ⟨p⟩ = .ok xs := by
  induction ns generalizing prev p xs fuel with
  | nil =>
    cases fuel with
    | zero => cases hfuel
    | succ fuel =>
      have hp : p = none := h
      cases xs with
      | nil => simp [elementsFrom, hp]
      | cons x xs => simp at hd
  | cons a rest ih =>
    cases fuel with
    | zero => cases hfuel
    | succ fuel =>
      obtain ⟨hp, hprev, hrest⟩ := h
      obtain ⟨n, hn⟩ : ∃ n, s.nodes a = some n := by
        cases hm : s.nodes a with
        | none => simp [hm] at hprev
        | some n => exact ⟨n, rfl⟩
      cases xs with
      | nil => simp at hd
      | cons x xs =>
        simp only [List.map_cons, List.cons.injEq, dataAt, hn, Option.map_some',
          Option.some.injEq] at hd
        simp only [hn, Option.some_bind] at hrest
        have := ih hrest hd.2 fuel (by simpa using hfuel)
        simp [elementsFrom, hp, ListIterator.deref, ListIterator.preInc, Store.load, hn, bind,
          Except.bind, pure, Except.pure, this, hd.1]

theorem Rep.elements {s : Store T} {L : Nat} {ns : List Nat} {xs : List T} (h : Rep s L ns xs)
    (fuel : Nat) (hfuel : xs.length < fuel) : elements fuel s L = .ok xs := by
  have hlen : ns.length = xs.length := by
    have := congrArg List.length h.2.2.2
    simpa using this
  exact elementsFrom_seg h.1.1 h.2.2.2 fuel (hlen ▸ hfuel)

theorem Rep.front {s : Store T} {L : Nat} {ns : List Nat} {xs : List T} (h : Rep s L ns xs)
    {x : T} (hx : xs.head? = some x) : front s L = .ok x := by
  obtain ⟨⟨hseg, _⟩, _, _, hd⟩ := h
  cases ns with
  | nil => cases xs <;> simp at hd hx
  | cons a rest =>
    cases xs with
    | nil => simp at hx
    | cons y ys =>
      simp only [List.head?_cons, Option.some.injEq] at hx
      subst hx
      obtain ⟨hp, hprev, _⟩ := hseg
      cases hm : s.nodes a with
      | none => simp [hm] at hprev
      | some n =>
        simp only [List.map_cons, List.cons.injEq, dataAt, hm, Option.map_some',
          Option.some.injEq] at hd
        simp [nctl.front, hp, Store.load, hm, bind, Except.bind, pure, Except.pure, hd.1]

theorem map_dataAt_snoc {s : Store T} {ns : List Nat} {a : Nat} {xs : List T} {x : T}
    (h : (ns ++ [a]).map (dataAt s) = (xs ++ [x]).map some) :
    ns.map (dataAt s) = xs.map some ∧ dataAt s a = some x := by
  have hlen : ns.length = xs.length := by
    have := congrArg List.length h
    simpa using this
  simp only [List.map_append, List.map_cons, List.map_nil] at h
  have := List.append_inj h (by simpa using hlen)
  exact ⟨this.1, by simpa using this.2⟩

theorem Rep.back {s : Store T} {L : Nat} {ns : List Nat} {xs : List T} (h : Rep s L ns xs)
    {x : T} (hx : xs.getLast? = some x) : back s L = .ok x := by
  obtain ⟨⟨_, htail⟩, _, _, hd⟩ := h
  have hlen : ns.length = xs.length := by
    have := congrArg List.length hd
    simpa using this
  rcases List.eq_nil_or_concat xs with rfl | ⟨ys, y, rfl⟩
  · simp at hx
  · rcases List.eq_nil_or_concat ns with rfl | ⟨ms, a, rfl⟩
    · simp at hlen
    · simp only [List.concat_eq_append] at *
      simp at hx
      subst hx
      obtain ⟨_, h2⟩ := map_dataAt_snoc hd
      rw [lastPtr_snoc] at htail
      cases hm : s.nodes a with
      | none => simp [dataAt, hm] at h2
      | some n =>
        simp only [dataAt, hm, Option.map_some', Option.some.injEq] at h2
        simp [nctl.back, htail, Store.load, hm, bind, Except.bind, pure, Except.pure, h2]


theorem Rep.length_eq {s : Store T} {L : Nat} {ns : List Nat} {xs : List T} (h : Rep s L ns xs) :
    ns.length = xs.length := by
  have := congrArg List.length h.2.2.2
  simpa using this

theorem uint_dec {n : Nat} (h0 : 0 < n) (h : n < UINT_SIZE) :
    (n + UINT_SIZE - 1) % UINT_SIZE = n - 1 := by
  have : n + UINT_SIZE - 1 = (n - 1) + UINT_SIZE := by omega
  rw [this, Nat.add_mod_right, Nat.mod_eq_of_lt (by omega)]

theorem uint_inc {n : Nat} (h : n + 1 < UINT_SIZE) : (n + 1) % UINT_SIZE = n + 1 :=
  Nat.mod_eq_of_lt h

/-- Payload sequences are stable under a call that keeps the payload of every node of `ns`. -/
theorem map_dataAt_congr {s s' : Store T} {ns : List Nat}
    (h : ∀ a ∈ ns, dataAt s' a = dataAt s a) : ns.map (dataAt s') = ns.map (dataAt s) :=
  List.map_congr_left h

theorem pushBack_rep (s : Store T) (L : Nat) (v : T) (ns : List Nat) (xs : List T)
    (hR : Rep s L ns xs) (hf : s.FreshOk) (hsz : xs.length + 1 < UINT_SIZE) :
    ∃ s', pushBack s L v = .ok s' ∧ Rep s' L (ns ++ [s.fresh]) (xs ++ [v]) ∧ s'.FreshOk ∧
      (s'.lists L).size_ = (s.lists L).size_ + 1 := by
  obtain ⟨hL, hsize, _, hd⟩ := hR
  have hlen : ns.length = xs.length := by
    have := congrArg List.length hd
    simpa using this
  obtain ⟨s', hrun, hL', hsz', _, hf', _, _, hdat, hnew⟩ := pushBack_spec s L v ns hL hf
  have hfresh : s.fresh ∉ ns := hf.not_mem hL
  have hs : (s'.lists L).size_ = (s.lists L).size_ + 1 := by
    rw [hsz', hsize, uint_inc (by omega)]
  refine ⟨s', hrun, ⟨hL', ?_, ?_, ?_⟩, hf', hs⟩
  · rw [hs, hsize]; simp
  · simp; omega
  · rw [List.map_append, List.map_append, map_dataAt_congr (fun a ha => hdat a
      (fun e => hfresh (e ▸ ha))), hd]
    simp [hnew]

theorem pushFront_rep (s : Store T) (L : Nat) (v : T) (ns : List Nat) (xs : List T)
    (hR : Rep s L ns xs) (hf : s.FreshOk) (hsz : xs.length + 1 < UINT_SIZE) :
    ∃ s', pushFront s L v = .ok s' ∧ Rep s' L (s.fresh :: ns) (v :: xs) ∧ s'.FreshOk ∧
      (s'.lists L).size_ = (s.lists L).size_ + 1 := by
  obtain ⟨hL, hsize, _, hd⟩ := hR
  have hlen : ns.length = xs.length := by
    have := congrArg List.length hd
    simpa using this
  obtain ⟨s', hrun, hL', hsz', _, hf', _, _, hdat, hnew⟩ := pushFront_spec s L v ns hL hf
  have hfresh : s.fresh ∉ ns := hf.not_mem hL
  have hs : (s'.lists L).size_ = (s.lists L).size_ + 1 := by
    rw [hsz', hsize, uint_inc (by omega)]
  refine ⟨s', hrun, ⟨hL', ?_, ?_, ?_⟩, hf', hs⟩
  · rw [hs, hsize]; simp
  · simp; omega
  · rw [List.map_cons, List.map_cons, map_dataAt_congr (fun a ha => hdat a
      (fun e => hfresh (e ▸ ha))), hd, hnew]

theorem Store.FreshOk.of_eq {s s' : Store T} (hf : s.FreshOk) (h1 : s'.fresh = s.fresh)
    (h2 : ∀ a, s.nodes a = none → s'.nodes a = none) : s'.FreshOk := by
  intro a ha
  exact h2 a (hf a (h1 ▸ ha))

theorem dataAt_eq_none {s : Store T} {a : Nat} : dataAt s a = none ↔ s.nodes a = none := by
  unfold dataAt; cases s.nodes a <;> simp

/-- Removal of the node at the position between `pre` and `post`, on a well-formed list. -/
theorem removeNode_rep (s : Store T) (L : Nat) (pre post : List Nat) (x : Nat)
    (xs ys : List T) (y : T)
    (hR : Rep s L (pre ++ x :: post) (xs ++ y :: ys)) (hlen : pre.length = xs.length) :
    ∃ s', removeNode s L (some x) = .ok (s', headPtr post none) ∧ Rep s' L (pre ++ post) (xs ++ ys) ∧
      (s'.lists L).size_ + 1 = (s.lists L).size_ ∧
      (s.FreshOk → s'.FreshOk) := by
  obtain ⟨hL, hsize, hlt, hd⟩ := hR
  have hnd := hL.nodup
  obtain ⟨s', hrun, hL', hsz', hfr, hx, _, _, hdat⟩ := removeNode_spec s L pre post x hL
  have hxpre : x ∉ pre := fun h =>
    (List.nodup_append.1 hnd).2.2 h (List.mem_cons_self _ _)
  have hxpost : x ∉ post := (List.nodup_cons.1 (List.nodup_append.1 hnd).2.1).1
  have hs : (s'.lists L).size_ + 1 = (s.lists L).size_ := by
    rw [hsz', hsize, uint_dec (by simp) hlt]; simp; omega
  refine ⟨s', hrun, ⟨hL', ?_, ?_, ?_⟩, hs, ?_⟩
  · have : (s.lists L).size_ = (pre ++ post).length + 1 := by rw [hsize]; simp; omega
    omega
  · simp at hlt ⊢; omega
  · simp only [List.map_append, List.map_cons] at hd
    have h1 := List.append_inj hd (by simpa using hlen)
    have h2 := (List.cons.inj h1.2).2
    rw [List.map_append, List.map_append,
      map_dataAt_congr (fun a ha => hdat a (fun e => hxpre (e ▸ ha))),
      map_dataAt_congr (fun a ha => hdat a (fun e => hxpost (e ▸ ha))), h1.1, h2]
  · intro hf
    refine hf.of_eq hfr ?_
    intro a ha
    by_cases hax : a = x
    · rw [hax]; exact hx
    · have := hdat a hax
      rw [dataAt_eq_none.2 ha] at this
      exact dataAt_eq_none.1 this

theorem popFront_rep (s : Store T) (L : Nat) (a : Nat) (ns : List Nat) (x : T) (xs : List T)
    (hR : Rep s L (a :: ns) (x :: xs)) :
    ∃ s', popFront s L = .ok s' ∧ Rep s' L ns xs ∧ (s'.lists L).size_ + 1 = (s.lists L).size_ ∧
      (s.FreshOk → s'.FreshOk) := by
  have hh : (s.lists L).head_ = some a := hR.1.head_eq
  obtain ⟨s', hrun, hR', hs, hf⟩ := removeNode_rep s L [] ns a [] xs x hR rfl
  exact ⟨s', by simp [popFront, hh, hrun, bind, Except.bind, pure, Except.pure], hR', hs, hf⟩

theorem popBack_rep (s : Store T) (L : Nat) (a : Nat) (ns : List Nat) (x : T) (xs : List T)
    (hR : Rep s L (ns ++ [a]) (xs ++ [x])) :
    ∃ s', popBack s L = .ok s' ∧ Rep s' L ns xs ∧ (s'.lists L).size_ + 1 = (s.lists L).size_ ∧
      (s.FreshOk → s'.FreshOk) := by
  have hh : (s.lists L).tail_ = some a := by rw [hR.1.2, lastPtr_snoc]
  have hlen : ns.length = xs.length := by
    have := hR.length_eq; simpa using this
  obtain ⟨s', hrun, hR', hs, hf⟩ := removeNode_rep s L ns [] a xs [] x hR hlen
  simp only [List.append_nil] at hR'
  exact ⟨s', by simp [popBack, hh, hrun, bind, Except.bind, pure, Except.pure], hR', hs, hf⟩


theorem Store.empty_freshOk : (Store.empty : Store T).FreshOk := fun _ _ => rfl

theorem exampleStore_freshOk : exampleStore.FreshOk := by
  intro a ha
  have h4 : 4 ≤ a := ha
  show (if a = 0 then _ else if a = 1 then _ else if a = 2 then _ else if a = 3 then _ else none)
    = none
  rw [if_neg (by omega), if_neg (by omega), if_neg (by omega), if_neg (by omega)]

/-- C9: on a well-formed list with elements `xs` whose count stays in the `unsigned int` range,
`pushBack(v)` yields `xs ++ [v]` with `back() == v` and `pushFront(v)` yields `v :: xs` with
`front() == v`; `size()` grows by exactly one; on a non-empty list `front()` is the first and
`back()` the last element; and `pushBack` of 1, 2, 3 onto an empty list gives `front() == 1`,
`back() == 3`, `size() == 3`. -/
theorem push_yields_sequence (s : Store T) (L : Nat) (ns : List Nat) (xs : List T) (v : T)
    (hR : Rep s L ns xs) (hf : s.FreshOk) (hsz : xs.length + 1 < UINT_SIZE) :
    (∃ s', pushBack s L v = .ok s' ∧ Rep s' L (ns ++ [s.fresh]) (xs ++ [v]) ∧
        elements (xs.length + 2) s' L = .ok (xs ++ [v]) ∧
        back s' L = .ok v ∧ size s' L = size s L + 1 ∧
        ∀ x, (xs ++ [v]).head? = some x → front s' L = .ok x) ∧
    (∃ s', pushFront s L v = .ok s' ∧ Rep s' L (s.fresh :: ns) (v :: xs) ∧
        elements (xs.length + 2) s' L = .ok (v :: xs) ∧
        front s' L = .ok v ∧ size s' L = size s L + 1 ∧
        ∀ x, (v :: xs).getLast? = some x → back s' L = .ok x) ∧
    ((∀ x, xs.head? = some x → front s L = .ok x) ∧
      (∀ x, xs.getLast? = some x → back s L = .ok x)) ∧
    (do
      let s1 ← pushBack (Store.empty : Store Nat) 0 1
      let s2 ← pushBack s1 0 2
      let s3 ← pushBack s2 0 3
      pure (front s3 0, back s3 0, size s3 0)) = .ok (.ok 1, .ok 3, 3) := by
  refine ⟨?_, ?_, ⟨fun x hx => hR.front hx, fun x hx => hR.back hx⟩, rfl⟩
  · obtain ⟨s', hrun, hR', _, hs⟩ := pushBack_rep s L v ns xs hR hf hsz
    exact ⟨s', hrun, hR', hR'.elements _ (by simp), hR'.back (by simp), hs,
      fun x hx => hR'.front hx⟩
  · obtain ⟨s', hrun, hR', _, hs⟩ := pushFront_rep s L v ns xs hR hf hsz
    exact ⟨s', hrun, hR', hR'.elements _ (by simp), hR'.front (by simp), hs,
      fun x hx => hR'.back hx⟩

theorem push_yields_sequence_witness :
    Rep exampleStore 0 [0, 1] [1, 2] ∧ exampleStore.FreshOk ∧
    (∃ s', pushBack exampleStore 0 7 = .ok s' ∧ Rep s' 0 [0, 1, 4] [1, 2, 7] ∧
      back s' 0 = .ok 7 ∧ size s' 0 = 3) :=
  ⟨by decide, exampleStore_freshOk,
    (push_yields_sequence exampleStore 0 [0, 1] [1, 2] 7 (by decide) exampleStore_freshOk
      (by decide)).1.imp fun _ h => ⟨h.1, h.2.1, h.2.2.2.1, h.2.2.2.2.1⟩⟩

/-- C10: on a well-formed list with elements `xs`, if `xs = x :: rest` then `popFront()` yields
`rest`, and if `xs = rest ++ [x]` then `popBack()` yields `rest`; in both cases `size()` decreases
by exactly one and the remaining nodes and elements keep their order; and after `pushBack` of
1, 2, 3 and one `popFront()`, `front() == 2` and `size() == 2`. -/
theorem pop_yields_sequence (s : Store T) (L : Nat) (ns : List Nat) (xs : List T)
    (hR : Rep s L ns xs) :
    (∀ x rest, xs = x :: rest → ∃ s', popFront s L = .ok s' ∧ Rep s' L ns.tail rest ∧
        elements (rest.length + 1) s' L = .ok rest ∧
        0 < size s L ∧ size s' L = size s L - 1) ∧
    (∀ x rest, xs = rest ++ [x] → ∃ s', popBack s L = .ok s' ∧ Rep s' L ns.dropLast rest ∧
        elements (rest.length + 1) s' L = .ok rest ∧
        0 < size s L ∧ size s' L = size s L - 1) ∧
    (do
      let s1 ← pushBack (Store.empty : Store Nat) 0 1
      let s2 ← pushBack s1 0 2
      let s3 ← pushBack s2 0 3
      let s4 ← popFront s3 0
      pure (front s4 0, size s4 0)) = .ok (.ok 2, 2) := by
  have hlen := hR.length_eq
  refine ⟨?_, ?_, rfl⟩
  · rintro x rest rfl
    cases ns with
    | nil => simp at hlen
    | cons a ns =>
      obtain ⟨s', hrun, hR', hs, _⟩ := popFront_rep s L a ns x rest hR
      exact ⟨s', hrun, hR', hR'.elements _ (by simp), by unfold size; omega,
        by unfold size; omega⟩
  · rintro x rest rfl
    rcases List.eq_nil_or_concat ns with rfl | ⟨ms, a, rfl⟩
    · simp at hlen
    · simp only [List.concat_eq_append] at *
      obtain ⟨s', hrun, hR', hs, _⟩ := popBack_rep s L a ms x rest hR
      rw [List.dropLast_concat]
      exact ⟨s', hrun, hR', hR'.elements _ (by simp), by unfold size; omega,
        by unfold size; omega⟩

theorem pop_yields_sequence_witness :
    Rep exampleStore 1 [2, 3] [3, 4] ∧
    ∃ s', popFront exampleStore 1 = .ok s' ∧ Rep s' 1 [3] [4] ∧ size s' 1 = 1 :=
  ⟨by decide,
    ((pop_yields_sequence exampleStore 1 [2, 3] [3, 4] (by decide)).1 3 [4] rfl).imp
      fun _ h => ⟨h.1, h.2.1, by rw [h.2.2.2.2]; rfl⟩⟩


/-- One push or pop keeps the list two-way linked with an exact cached size. -/
theorem pushPop_step (s : Store T) (L : Nat) (ns : List Nat) (op : PushPop T)
    (hL : Linked s L ns) (hsize : (s.lists L).size_ = ns.length) (hf : s.FreshOk)
    (hlt0 : ns.length < UINT_SIZE) (hlt : op.isPush = true → ns.length + 1 < UINT_SIZE)
    (hg : op.isPush = true ∨ isEmpty s L = false) :
    ∃ s' ns', op.run s L = .ok s' ∧ Linked s' L ns' ∧ (s'.lists L).size_ = ns'.length ∧
      s'.FreshOk ∧
      ns'.length + (if op.isPush then 0 else 1) = ns.length + (if op.isPush then 1 else 0) := by
  have hne : op.isPush = false → ns ≠ [] := by
    intro h1 h2
    rcases hg with h | h
    · rw [h1] at h; cases h
    · rw [(hL.isEmpty_iff).2 h2] at h; cases h
  cases op with
  | pushFront v =>
    obtain ⟨s', hrun, hL', hsz', _, hf', _⟩ := pushFront_spec s L v ns hL hf
    exact ⟨s', _, hrun, hL', by rw [hsz', hsize, uint_inc (hlt rfl)]; simp, hf',
      by simp [PushPop.isPush]⟩
  | pushBack v =>
    obtain ⟨s', hrun, hL', hsz', _, hf', _⟩ := pushBack_spec s L v ns hL hf
    exact ⟨s', _, hrun, hL', by rw [hsz', hsize, uint_inc (hlt rfl)]; simp, hf',
      by simp [PushPop.isPush]⟩
  | popFront =>
    cases ns with
    | nil => exact absurd rfl (hne rfl)
    | cons a rest =>
      have hh : (s.lists L).head_ = some a := hL.head_eq
      obtain ⟨s', hrun, hL', hsz', hfr, hx, _, _, hdat⟩ := removeNode_spec s L [] rest a hL
      refine ⟨s', rest, by simp [PushPop.run, popFront, hh, hrun, bind, Except.bind, pure,
        Except.pure], hL', ?_, ?_, by simp [PushPop.isPush]⟩
      · rw [hsz', hsize, uint_dec (by simp) hlt0]; simp
      · refine hf.of_eq hfr ?_
        intro b hb
        by_cases hbx : b = a
        · rw [hbx]; exact hx
        · have := hdat b hbx
          rw [dataAt_eq_none.2 hb] at this
          exact dataAt_eq_none.1 this
  | popBack =>
    rcases List.eq_nil_or_concat ns with rfl | ⟨ms, a, rfl⟩
    · exact absurd rfl (hne rfl)
    · simp only [List.concat_eq_append] at *
      have hh : (s.lists L).tail_ = some a := by rw [hL.2, lastPtr_snoc]
      obtain ⟨s', hrun, hL', hsz', hfr, hx, _, _, hdat⟩ := removeNode_spec s L ms [] a hL
      simp only [List.append_nil] at hL'
      refine ⟨s', ms, by simp [PushPop.run, popBack, hh, hrun, bind, Except.bind, pure,
        Except.pure], hL', ?_, ?_, by simp [PushPop.isPush]⟩
      · rw [hsz', hsize, uint_dec (by simp) (by simpa using hlt0)]; simp
      · refine hf.of_eq hfr ?_
        intro b hb
        by_cases hbx : b = a
        · rw [hbx]; exact hx
        · have := hdat b hbx
          rw [dataAt_eq_none.2 hb] at this
          exact dataAt_eq_none.1 this

theorem pushPop_run (ops : List (PushPop T)) : ∀ (s : Store T) (L : Nat) (ns : List Nat),
    Linked s L ns → (s.lists L).size_ = ns.length → s.FreshOk →
    (∀ j, ns.length + pushCount (ops.take j) < popCount (ops.take j) + UINT_SIZE) →
    popsGuarded s L ops = true →
    ∀ k, ∃ s' ns', runPushPop s L (ops.take k) = .ok s' ∧ Linked s' L ns' ∧
      (s'.lists L).size_ = ns'.length ∧
      ns'.length + popCount (ops.take k) = ns.length + pushCount (ops.take k) := by
  induction ops with
  | nil =>
    intro s L ns hL hsize _ _ _ k
    exact ⟨s, ns, by simp [runPushPop], hL, hsize, by simp [popCount, pushCount]⟩
  | cons op ops ih =>
    intro s L ns hL hsize hf hb hg k
    cases k with
    | zero => exact ⟨s, ns, by simp [runPushPop], hL, hsize, by simp [popCount, pushCount]⟩
    | succ k =>
      simp only [popsGuarded, Bool.and_eq_true, Bool.or_eq_true, Bool.not_eq_true'] at hg
      have hb0 : ns.length < UINT_SIZE := by
        have := hb 0
        simpa [popCount, pushCount] using this
      have hb1 : op.isPush = true → ns.length + 1 < UINT_SIZE := by
        intro hop
        have := hb 1
        simpa [popCount, pushCount, hop] using this
      obtain ⟨s1, ns1, hrun, hL1, hsize1, hf1, hcount⟩ :=
        pushPop_step s L ns op hL hsize hf hb0 hb1 hg.1
      have hg2 : popsGuarded s1 L ops = true := by
        have := hg.2; rw [hrun] at this; exact this
      have hbt : ∀ j, ns1.length + pushCount (ops.take j) <
          popCount (ops.take j) + UINT_SIZE := by
        intro j
        have := hb (j + 1)
        simp only [List.take_succ_cons, popCount, pushCount, List.countP_cons] at this ⊢
        cases hop : op.isPush <;> simp [hop] at hcount this ⊢ <;> omega
      obtain ⟨s', ns', hrun', hL', hsize', hcount'⟩ := ih s1 L ns1 hL1 hsize1 hf1 hbt hg2 k
      refine ⟨s', ns', by simp [runPushPop, hrun, hrun'], hL', hsize', ?_⟩
      simp only [List.take_succ_cons, popCount, pushCount, List.countP_cons] at hcount' ⊢
      cases hop : op.isPush <;> simp [hop, popCount, pushCount] at hcount hcount' ⊢ <;> omega

/-- A sequence of fewer than `2 ^ 32` calls never holds `2 ^ 32` elements. -/
theorem held_of_length (ops : List (PushPop T)) (h : ops.length < UINT_SIZE) (j : Nat) :
    pushCount (ops.take j) < popCount (ops.take j) + UINT_SIZE := by
  have h1 : pushCount (ops.take j) ≤ (ops.take j).length := List.countP_le_length _
  have h2 : (ops.take j).length ≤ ops.length := by rw [List.length_take]; exact Nat.min_le_right _ _
  omega

/-- C8: for every sequence of `pushFront`/`pushBack`/`popFront`/`popBack` calls applied to an
empty list, of any length, with no pop applied to an empty list and never holding `2 ^ 32`
elements (after every initial part the pushes exceed the pops by less than `2 ^ 32`, which is
what the `unsigned int` size can count): after every initial part of the sequence (the whole
sequence included) the calls have returned, `size()` equals the number of pushes minus the number
of pops so far, and `isEmpty()` holds iff `size() == 0`. -/
theorem push_pop_size (s : Store T) (L : Nat) (ops : List (PushPop T))
    (hempty : Linked s L [] ∧ (s.lists L).size_ = 0) (hf : s.FreshOk)
    (hheld : ∀ j, pushCount (ops.take j) < popCount (ops.take j) + UINT_SIZE)
    (hg : popsGuarded s L ops = true) (k : Nat) :
    ∃ s', runPushPop s L (ops.take k) = .ok s' ∧
      popCount (ops.take k) ≤ pushCount (ops.take k) ∧
      size s' L = pushCount (ops.take k) - popCount (ops.take k) ∧
      (isEmpty s' L = true ↔ size s' L = 0) := by
  obtain ⟨s', ns', hrun, hL', hsize', hcount⟩ :=
    pushPop_run ops s L [] hempty.1 hempty.2 hf (by simpa using hheld) hg k
  simp only [List.length_nil, Nat.zero_add] at hcount
  refine ⟨s', hrun, by omega, by unfold size; omega, ?_⟩
  rw [hL'.isEmpty_iff]
  unfold size
  rw [hsize']
  exact List.length_eq_zero.symm

theorem push_pop_size_witness :
    (Linked (Store.empty : Store Nat) 0 [] ∧ ((Store.empty : Store Nat).lists 0).size_ = 0) ∧
    popsGuarded (Store.empty : Store Nat) 0
      [.pushBack 1, .pushFront 2, .popBack, .pushBack 3, .popFront] = true ∧
    ∃ s', runPushPop (Store.empty : Store Nat) 0
        [.pushBack 1, .pushFront 2, .popBack, .pushBack 3, .popFront] = .ok s' ∧
      size s' 0 = 1 ∧ isEmpty s' 0 = false :=
  ⟨by decide, by decide,
    (push_pop_size (Store.empty : Store Nat) 0
      [.pushBack 1, .pushFront 2, .popBack, .pushBack 3, .popFront] (by decide)
      Store.empty_freshOk (held_of_length _ (by decide)) (by decide) 5).imp fun s' h =>
      ⟨h.1, h.2.2.1, by
        have h3 : size s' 0 = 1 := h.2.2.1
        have h4 := h.2.2.2
        rw [h3] at h4
        cases hE : isEmpty s' 0
        · rfl
        · exact absurd (h4.1 hE) (by decide)⟩⟩


/-- Effect of `p->previous_ = v` on an allocated node, link by link. -/
theorem Store.setPrevious_ok (s : Store T) (a : Nat) (v : Option Nat) (h : s.nodes a ≠ none) :
    ∃ s', s.setPrevious (some a) v = .ok s' ∧ s'.lists = s.lists ∧ s'.fresh = s.fresh ∧
      (∀ b, (s'.nodes b).map (fun n => n.previous_) =
        if b = a then some v else (s.nodes b).map (fun n => n.previous_)) ∧
      (∀ b, (s'.nodes b).bind (fun n => n.next_) = (s.nodes b).bind (fun n => n.next_)) ∧
      (∀ b, dataAt s' b = dataAt s b) ∧ (∀ b, b ≠ a → s'.nodes b = s.nodes b) := by
  cases hn : s.nodes a with
  | none => exact absurd hn h
  | some n =>
    refine ⟨_, Store.setPrevious_some hn v, rfl, rfl, ?_, ?_, ?_, ?_⟩
    · intro b; by_cases hb : b = a <;> simp [hb, hn]
    · intro b; by_cases hb : b = a <;> simp [hb, hn]
    · intro b; by_cases hb : b = a <;> simp [hb, hn, dataAt]
    · intro b hb; simp [hb]

/-- Effect of `p->next_ = v` on an allocated node, link by link. -/
theorem Store.setNext_ok (s : Store T) (a : Nat) (v : Option Nat) (h : s.nodes a ≠ none) :
    ∃ s', s.setNext (some a) v = .ok s' ∧ s'.lists = s.lists ∧ s'.fresh = s.fresh ∧
      (∀ b, (s'.nodes b).map (fun n => n.previous_) = (s.nodes b).map (fun n => n.previous_)) ∧
      (∀ b, (s'.nodes b).bind (fun n => n.next_) =
        if b = a then v else (s.nodes b).bind (fun n => n.next_)) ∧
      (∀ b, dataAt s' b = dataAt s b) ∧ (∀ b, b ≠ a → s'.nodes b = s.nodes b) := by
  cases hn : s.nodes a with
  | none => exact absurd hn h
  | some n =>
    refine ⟨_, Store.setNext_some hn v, rfl, rfl, ?_, ?_, ?_, ?_⟩
    · intro b; by_cases hb : b = a <;> simp [hb, hn]
    · intro b; by_cases hb : b = a <;> simp [hb, hn]
    · intro b; by_cases hb : b = a <;> simp [hb, hn, dataAt]
    · intro b hb; simp [hb]

theorem alloc_of_dataAt {s s' : Store T} {a : Nat} (h : dataAt s' a = dataAt s a)
    (ha : s.nodes a ≠ none) : s'.nodes a ≠ none := by
  intro h'
  rw [dataAt_eq_none.2 h'] at h
  exact ha (dataAt_eq_none.1 h.symm)

theorem Linked.alloc' {s : Store T} {L : Nat} {ns : List Nat} (h : Linked s L ns) {a : Nat}
    (ha : a ∈ ns) : s.nodes a ≠ none := by
  obtain ⟨n, hn⟩ := h.alloc ha
  rw [hn]; simp

theorem Linked.tail_eq {s : Store T} {L : Nat} {ns : List Nat} (h : Linked s L ns) :
    (s.lists L).tail_ = lastPtr none ns := h.2

theorem lastPtr_ne_none {xs : List Nat} (h : xs ≠ []) (q : Option Nat) :
    ∃ a, a ∈ xs ∧ lastPtr q xs = some a := by
  rcases List.eq_nil_or_concat xs with h' | ⟨ys, a, h'⟩
  · exact absurd h' h
  · subst h'; exact ⟨a, by simp, by rw [List.concat_eq_append, lastPtr_snoc]⟩

theorem headPtr_ne_none {xs : List Nat} (h : xs ≠ []) (q : Option Nat) :
    ∃ a, a ∈ xs ∧ headPtr xs q = some a := by
  cases xs with
  | nil => exact absurd rfl h
  | cons a xs => exact ⟨a, by simp, rfl⟩

/-- Whole-list splice in front of a node of the destination. -/
theorem splice_node_spec (s : Store T) (A B : Nat) (pre post bs : List Nat) (node : Nat)
    (hA : Linked s A (pre ++ node :: post)) (hB : Linked s B bs) (hAB : A ≠ B)
    (hdisj : ∀ a ∈ pre ++ node :: post, a ∉ bs) (hne : bs ≠ []) :
    ∃ s', splice s A ⟨some node⟩ B = .ok s' ∧ Linked s' A (pre ++ (bs ++ node :: post)) ∧
      Linked s' B [] ∧
      (s'.lists A).size_ = ((s.lists A).size_ + (s.lists B).size_) % UINT_SIZE ∧
      (s'.lists B).size_ = 0 ∧ s'.fresh = s.fresh ∧
      (∀ K, K ≠ A → K ≠ B → s'.lists K = s.lists K) ∧
      (∀ a, a ∉ pre ++ node :: post → a ∉ bs → s'.nodes a = s.nodes a) ∧
      (∀ a, dataAt s' a = dataAt s a) := by
  have hndA := hA.nodup
  have hndB := hB.nodup
  obtain ⟨n, hn, hnp, hnn, hpre, hpost⟩ := seg_split hA.1
  obtain ⟨bh, hbhm, hbh⟩ := headPtr_ne_none hne none
  obtain ⟨bt, hbtm, hbt⟩ := lastPtr_ne_none hne none
  have hBh : (s.lists B).head_ = some bh := by rw [hB.head_eq, hbh]
  have hBt : (s.lists B).tail_ = some bt := by rw [hB.tail_eq, hbt]
  have hnodeA : node ∈ pre ++ node :: post := by simp
  have hnode_bs : node ∉ bs := hdisj node hnodeA
  -- the four writes
  obtain ⟨s1, e1, l1, f1, p1, n1, d1, r1⟩ := s.setPrevious_ok node (some bt) (by rw [hn]; simp)
  obtain ⟨s2, e2, l2, f2, p2, n2, d2, r2⟩ := s1.setNext_ok bt (some node)
    (alloc_of_dataAt (d1 bt) (hB.alloc' hbtm))
  obtain ⟨s3, e3, l3, f3, p3, n3, d3, r3⟩ := s2.setPrevious_ok bh (lastPtr none pre)
    (alloc_of_dataAt ((d2 bh).trans (d1 bh)) (hB.alloc' hbhm))
  have hpostA : Seg s.nodes (lastPtr none pre) (some node) (node :: post) none := by
    have := (seg_append none _ none pre (node :: post)).1 hA.1
    exact this.2
  have hlastbs : ∀ q, lastPtr q bs = some bt := fun q => by
    rw [lastPtr_of_ne_nil q none bs hne, hbt]
  have hheadbs : ∀ q, headPtr bs q = some bh := fun q => by
    rw [headPtr_of_ne_nil hne q none, hbh]
  have hA_bh : ∀ a, a ∈ pre ++ node :: post → a ≠ bh := fun a ha e => hdisj a ha (e ▸ hbhm)
  have hA_bt : ∀ a, a ∈ pre ++ node :: post → a ≠ bt := fun a ha e => hdisj a ha (e ▸ hbtm)
  have hB_node : ∀ a, a ∈ bs → a ≠ node := fun a ha e => hnode_bs (e ▸ ha)
  cases hpl : lastPtr none pre with
  | none =>
    rw [hpl] at hnp e3
    refine ⟨_, by simp [splice, Store.load, hn, hnp, hBh, hBt, e1, e2, e3, l1, l2, l3, bind,
      Except.bind, pure, Except.pure, Store.setHead, Store.setTail, Store.setSize, hAB,
      Ne.symm hAB]; rfl, ?_, ?_, ?_, ?_, ?_, ?_, ?_, ?_⟩
    · constructor
      · have := seg_join (w := s3.nodes) (b := bs) hpre hpostA hndA
          (by
            intro a ha
            rw [p3, p2, p1, if_neg (hA_bh a ha), hlastbs]
            by_cases h : a = node <;> simp [h])
          (by
            intro a ha
            rw [n3, n2, n1, if_neg (hA_bt a ha), hpl]
            simp)
          (by
            rw [hheadbs]
            have := seg_relink' (w := s3.nodes) (lastPtr none pre) (some node) hB.1 hndB hne
              (by
                intro a ha
                rw [p3, p2, p1, if_neg (hB_node a ha), hbh, hpl]
                by_cases h : a = bh <;> simp [h])
              (by
                intro a ha
                rw [n3, n2, n1, hbt]
                by_cases h : a = bt <;> simp [h])
            rw [hBh] at this
            simpa using this)
        simpa [lastPtr_eq_none hpl, headPtr_append, hheadbs, hAB, Ne.symm hAB, l3, l2, l1]
          using this
      · simp [hAB, Ne.symm hAB, l3, l2, l1, hA.tail_eq, lastPtr_append, lastPtr]
    · exact ⟨by simp [Seg], by simp⟩
    · simp [hAB, Ne.symm hAB, l3, l2, l1]
    · simp
    · simp [f3, f2, f1]
    · intro K h1 h2; simp [h1, h2, l3, l2, l1]
    · intro a h1 h2
      have h3 : a ≠ node := fun e => h1 (by simp [e])
      have h4 : a ≠ bt := fun e => h2 (e ▸ hbtm)
      have h5 : a ≠ bh := fun e => h2 (e ▸ hbhm)
      simp [r3 a h5, r2 a h4, r1 a h3]
    · intro a; simp [dataAt] at d1 d2 d3 ⊢; rw [d3, d2, d1]
  | some pl =>
    rw [hpl] at hnp e3
    have hplm : pl ∈ pre := lastPtr_none_mem hpl
    have hplA : pl ∈ pre ++ node :: post := List.mem_append_left _ hplm
    obtain ⟨s4, e4, l4, f4, p4, n4, d4, r4⟩ := s3.setNext_ok pl (some bh)
      (alloc_of_dataAt ((d3 pl).trans ((d2 pl).trans (d1 pl))) (hA.alloc' hplA))
    have hB_pl : ∀ a, a ∈ bs → a ≠ pl := fun a ha e => hdisj pl hplA (e ▸ ha)
    have hprene : pre ≠ [] := by rintro rfl; cases hplm
    refine ⟨_, by simp [splice, Store.load, hn, hnp, hBh, hBt, e1, e2, e3, e4, l1, l2, l3, l4,
      bind, Except.bind, pure, Except.pure, Store.setHead, Store.setTail, Store.setSize, hAB,
      Ne.symm hAB]; rfl, ?_, ?_, ?_, ?_, ?_, ?_, ?_, ?_⟩
    · constructor
      · have := seg_join (w := s4.nodes) (b := bs) hpre hpostA hndA
          (by
            intro a ha
            rw [p4, p3, p2, p1, if_neg (hA_bh a ha), hlastbs]
            by_cases h : a = node <;> simp [h])
          (by
            intro a ha
            rw [n4, n3, n2, n1, if_neg (hA_bt a ha), hpl, hheadbs]
            by_cases h : a = pl <;> simp [h])
          (by
            rw [hheadbs]
            have := seg_relink' (w := s4.nodes) (lastPtr none pre) (some node) hB.1 hndB hne
              (by
                intro a ha
                rw [p4, p3, p2, p1, if_neg (hB_node a ha), hbh, hpl]
                by_cases h : a = bh <;> simp [h])
              (by
                intro a ha
                rw [n4, n3, n2, n1, hbt, if_neg (hB_pl a ha)]
                by_cases h : a = bt <;> simp [h])
            rw [hBh] at this
            simpa using this)
        have hhd : (s.lists A).head_ = headPtr (pre ++ (bs ++ node :: post)) none := by
          rw [hA.head_eq, headPtr_append, headPtr_append]
          exact headPtr_of_ne_nil hprene _ _
        simpa [hAB, Ne.symm hAB, l4, l3, l2, l1, hhd] using this
      · simp [hAB, Ne.symm hAB, l4, l3, l2, l1, hA.tail_eq, lastPtr_append, lastPtr]
    · exact ⟨by simp [Seg], by simp⟩
    · simp [hAB, Ne.symm hAB, l4, l3, l2, l1]
    · simp
    · simp [f4, f3, f2, f1]
    · intro K h1 h2; simp [h1, h2, l4, l3, l2, l1]
    · intro a h1 h2
      have h3 : a ≠ node := fun e => h1 (by simp [e])
      have h4 : a ≠ bt := fun e => h2 (e ▸ hbtm)
      have h5 : a ≠ bh := fun e => h2 (e ▸ hbhm)
      have h6 : a ≠ pl := fun e => h1 (e ▸ hplA)
      simp [r4 a h6, r3 a h5, r2 a h4, r1 a h3]
    · intro a; simp [dataAt] at d1 d2 d3 d4 ⊢; rw [d4, d3, d2, d1]


theorem ok_bind {α β : Type} (a : α) (f : α → Except Fault β) :
    (Except.ok a >>= f) = f a := rfl

theorem Store.load_ok {s : Store T} {a : Nat} (h : s.nodes a ≠ none) :
    ∃ n, s.nodes a = some n ∧ s.load (some a) = .ok n := by
  cases hn : s.nodes a with
  | none => exact absurd hn h
  | some n => exact ⟨n, rfl, Store.load_some hn⟩

/-- The statement `if (p == nullptr) L.head_ = v; else p->next_ = v;`. -/
theorem step_relinkNext (s : Store T) (L : Nat) (p v : Option Nat)
    (h : ∀ a, p = some a → s.nodes a ≠ none) :
    ∃ s', (if p = none then (pure (s.setHead L v) : Except Fault (Store T)) else s.setNext p v)
        = .ok s' ∧ s'.fresh = s.fresh ∧
      (∀ b, (s'.nodes b).map (fun n => n.previous_) = (s.nodes b).map (fun n => n.previous_)) ∧
      (∀ b, (s'.nodes b).bind (fun n => n.next_) =
        if some b = p then v else (s.nodes b).bind (fun n => n.next_)) ∧
      (∀ b, dataAt s' b = dataAt s b) ∧ (∀ b, some b ≠ p → s'.nodes b = s.nodes b) ∧
      (∀ K, s'.lists K = if p = none ∧ K = L then { s.lists K with head_ := v } else s.lists K) := by
  cases p with
  | none =>
    refine ⟨s.setHead L v, rfl, rfl, fun _ => rfl, fun b => by simp [Store.setHead],
      fun _ => rfl, fun _ _ => rfl, ?_⟩
    intro K
    by_cases hK : K = L <;> simp [Store.setHead, hK]
  | some a =>
    obtain ⟨s', e, l, f, hp, hn, hd, hr⟩ := s.setNext_ok a v (h a rfl)
    refine ⟨s', by simpa using e, f, hp, ?_, hd, ?_, ?_⟩
    · intro b; rw [hn]; simp
    · intro b hb; exact hr b (by simpa using hb)
    · intro K; simp [l]

/-- The statement `if (q == nullptr) L.tail_ = v; else q->previous_ = v;`. -/
theorem step_relinkPrev (s : Store T) (L : Nat) (q v : Option Nat)
    (h : ∀ a, q = some a → s.nodes a ≠ none) :
    ∃ s', (if q = none then (pure (s.setTail L v) : Except Fault (Store T))
        else s.setPrevious q v) = .ok s' ∧ s'.fresh = s.fresh ∧
      (∀ b, (s'.nodes b).map (fun n => n.previous_) =
        if some b = q then some v else (s.nodes b).map (fun n => n.previous_)) ∧
      (∀ b, (s'.nodes b).bind (fun n => n.next_) = (s.nodes b).bind (fun n => n.next_)) ∧
      (∀ b, dataAt s' b = dataAt s b) ∧ (∀ b, some b ≠ q → s'.nodes b = s.nodes b) ∧
      (∀ K, s'.lists K = if q = none ∧ K = L then { s.lists K with tail_ := v } else s.lists K) := by
  cases q with
  | none =>
    refine ⟨s.setTail L v, rfl, rfl, fun b => by simp [Store.setTail], fun _ => rfl,
      fun _ => rfl, fun _ _ => rfl, ?_⟩
    intro K
    by_cases hK : K = L <;> simp [Store.setTail, hK]
  | some a =>
    obtain ⟨s', e, l, f, hp, hn, hd, hr⟩ := s.setPrevious_ok a v (h a rfl)
    refine ⟨s', by simpa using e, f, ?_, hn, hd, ?_, ?_⟩
    · intro b; rw [hp]; simp
    · intro b hb; exact hr b (by simpa using hb)
    · intro K; simp [l]

/-- The head pointer after the part between `pre` and `post` is taken out or replaced. -/
theorem headPtr_join {pre q : List Nat} {hd e : Option Nat} (h : hd = headPtr pre e) :
    (if lastPtr none pre = none then headPtr q none else hd) = headPtr (pre ++ q) none := by
  cases pre with
  | nil => simp
  | cons a pre =>
    have : lastPtr none (a :: pre) ≠ none := by
      obtain ⟨b, _, hb⟩ := lastPtr_ne_none (List.cons_ne_nil a pre) none
      rw [hb]; simp
    rw [if_neg this, h]; rfl

/-- The tail pointer after the part between `pre` and `post` is taken out or replaced. -/
theorem lastPtr_join {pre post : List Nat} {tl e : Option Nat} (h : tl = lastPtr e post) :
    (if headPtr post none = none then lastPtr none pre else tl) = lastPtr none (pre ++ post) := by
  cases post with
  | nil => simp
  | cons a post =>
    rw [if_neg (by simp), h, lastPtr_append]; rfl


/-- Single-element splice in front of a node of the destination. -/
theorem spliceOne_node_spec (s : Store T) (A B : Nat) (pre post bpre bpost : List Nat)
    (node x : Nat)
    (hA : Linked s A (pre ++ node :: post)) (hB : Linked s B (bpre ++ x :: bpost)) (hAB : A ≠ B)
    (hdisj : ∀ a ∈ pre ++ node :: post, a ∉ bpre ++ x :: bpost) :
    ∃ s', spliceOne s A ⟨some node⟩ B ⟨some x⟩ = .ok s' ∧
      Linked s' A (pre ++ ([x] ++ node :: post)) ∧ Linked s' B (bpre ++ bpost) ∧
      (s'.lists A).size_ = ((s.lists A).size_ + 1) % UINT_SIZE ∧
      (s'.lists B).size_ = ((s.lists B).size_ + UINT_SIZE - 1) % UINT_SIZE ∧
      s'.fresh = s.fresh ∧
      (∀ K, K ≠ A → K ≠ B → s'.lists K = s.lists K) ∧
      (∀ a, a ∉ pre ++ node :: post → a ∉ bpre ++ x :: bpost → s'.nodes a = s.nodes a) ∧
      (∀ a, dataAt s' a = dataAt s a) := by
  have hndA := hA.nodup
  have hndB := hB.nodup
  obtain ⟨n, hn, hnp, hnn, hpre, hpost⟩ := seg_split hA.1
  obtain ⟨sn, hsn, hsp, hsx, hbpre, hbpost⟩ := seg_split hB.1
  have hpostA : Seg s.nodes (lastPtr none pre) (some node) (node :: post) none :=
    ((seg_append none _ none pre (node :: post)).1 hA.1).2
  have hxB : x ∈ bpre ++ x :: bpost := by simp
  have hnodeA : node ∈ pre ++ node :: post := by simp
  have hx_pre : x ∉ bpre := fun h => (List.nodup_append.1 hndB).2.2 h (List.mem_cons_self _ _)
  have hx_post : x ∉ bpost := (List.nodup_cons.1 (List.nodup_append.1 hndB).2.1).1
  have hx_A : x ∉ pre ++ node :: post := fun h => hdisj x h hxB
  have hnode_B : node ∉ bpre ++ x :: bpost := hdisj node hnodeA
  have hBA : B ≠ A := Ne.symm hAB
  -- symbolic execution
  obtain ⟨s1, e1, f1, p1, n1, d1, r1, l1⟩ := step_relinkNext s B sn.previous_ sn.next_ (by
    intro a ha
    rw [hsp] at ha
    exact hB.alloc' (List.mem_append_left _ (lastPtr_none_mem ha)))
  have hx1 : s1.nodes x = some sn := by
    rw [r1 x (by rw [hsp]; intro h; exact hx_pre (lastPtr_none_mem h.symm)), hsn]
  obtain ⟨s2, e2, f2, p2, n2, d2, r2, l2⟩ := step_relinkPrev s1 B sn.next_ sn.previous_ (by
    intro a ha
    rw [hsx] at ha
    exact alloc_of_dataAt (d1 a) (hB.alloc' (List.mem_append_right _
      (List.mem_cons_of_mem _ (headPtr_mem ha)))))
  have hnode2 : s2.nodes node = some n := by
    rw [r2 node, r1 node, hn]
    · rw [hsp]; intro h; exact hnode_B (List.mem_append_left _ (lastPtr_none_mem h.symm))
    · rw [hsx]; intro h
      exact hnode_B (List.mem_append_right _ (List.mem_cons_of_mem _ (headPtr_mem h.symm)))
  obtain ⟨s3, e3, l3, f3, p3, n3, d3, r3⟩ := s2.setPrevious_ok node (some x) (by rw [hnode2]; simp)
  obtain ⟨s4, e4, l4, f4, p4, n4, d4, r4⟩ := s3.setPrevious_ok x n.previous_
    (alloc_of_dataAt ((d3 x).trans ((d2 x).trans (d1 x))) (hB.alloc' hxB))
  obtain ⟨s5, e5, l5, f5, p5, n5, d5, r5⟩ := s4.setNext_ok x (some node)
    (alloc_of_dataAt ((d4 x).trans ((d3 x).trans ((d2 x).trans (d1 x)))) (hB.alloc' hxB))
  obtain ⟨s6, e6, f6, p6, n6, d6, r6, l6⟩ := step_relinkNext s5 A n.previous_ (some x) (by
    intro a ha
    rw [hnp] at ha
    refine alloc_of_dataAt ((d5 a).trans ((d4 a).trans ((d3 a).trans ((d2 a).trans (d1 a)))))
      (hA.alloc' (List.mem_append_left _ (lastPtr_none_mem ha))))
  refine ⟨(s6.incSize A).decSize B, ?_, ?_, ?_, ?_, ?_, ?_, ?_, ?_, ?_⟩
  · simp only [spliceOne]
    rw [if_neg (by simp), if_neg (by simp), Store.load_some hsn, ok_bind, e1, ok_bind,
      Store.load_some hx1, ok_bind, e2, ok_bind, if_pos (by simp), Store.load_some hnode2,
      ok_bind, e3, ok_bind, e4, ok_bind, e5, ok_bind]
    simp only [ne_eq, ite_not]
    rw [e6, ok_bind]
    rfl
  · -- the destination chain
    have hlA : ∀ K, K ≠ B → s5.lists K = s.lists K := by
      intro K hK
      rw [l5, l4, l3, l2, l1]; simp [hK]
    have hhd : ((s6.incSize A).decSize B).lists A =
        { (s6.lists A) with size_ := ((s6.lists A).size_ + 1) % UINT_SIZE } := by
      simp [Store.incSize, Store.decSize, Store.setSize, hAB]
    constructor
    · have := seg_join (w := s6.nodes) (b := [x]) hpre hpostA hndA
        (by
          intro a ha
          have h1 : a ≠ x := fun e => hx_A (e ▸ ha)
          have h2 : some a ≠ sn.next_ := by
            rw [hsx]; intro h
            exact hdisj a ha (List.mem_append_right _ (List.mem_cons_of_mem _ (headPtr_mem h.symm)))
          rw [p6, p5, p4, p3, p2, p1, if_neg h1, if_neg h2]
          by_cases h : a = node <;> simp [h, lastPtr])
        (by
          intro a ha
          have h1 : a ≠ x := fun e => hx_A (e ▸ ha)
          have h2 : some a ≠ sn.previous_ := by
            rw [hsp]; intro h
            exact hdisj a ha (List.mem_append_left _ (lastPtr_none_mem h.symm))
          rw [n6, n5, n4, n3, n2, n1, if_neg h1, if_neg h2, hnp]
          simp)
        (by
          have h1 : some x ≠ sn.next_ := by
            rw [hsx]; intro h; exact hx_post (headPtr_mem h.symm)
          refine ⟨rfl, ?_, ?_⟩
          · rw [p6, p5, p4, hnp]; simp
          · have h2 : some x ≠ n.previous_ := by
              rw [hnp]; intro h
              exact hx_A (List.mem_append_left _ (lastPtr_none_mem h.symm))
            rw [n6, if_neg h2, n5]; simp; rfl)
      rw [hhd]
      show Seg s6.nodes none (s6.lists A).head_ _ none
      rw [l6, hlA A hAB]
      have hj := headPtr_join (q := [x] ++ node :: post) (hA.head_eq.trans
        (headPtr_append pre (node :: post) none))
      rw [← hnp] at hj
      by_cases hc : n.previous_ = none
      · simp only [hc, true_and, if_true] at hj ⊢
        rw [← hj] at this; exact this
      · simp only [hc, false_and, if_false] at hj ⊢
        rw [hj]; exact this
    · rw [hhd]
      show (s6.lists A).tail_ = _
      have : (s6.lists A).tail_ = (s5.lists A).tail_ := by
        rw [l6]; split <;> rfl
      rw [this, hlA A hAB, hA.tail_eq]
      simp [lastPtr_append, lastPtr]
  · -- the source chain
    have hB6 : s6.lists B = ⟨(s.lists B).size_,
        if sn.previous_ = none then sn.next_ else (s.lists B).head_,
        if sn.next_ = none then sn.previous_ else (s.lists B).tail_⟩ := by
      rw [l6, l5, l4, l3, l2, l1]
      by_cases h1 : sn.previous_ = none <;> by_cases h2 : sn.next_ = none <;> simp [h1, h2, hBA]
    have hB' : ((s6.incSize A).decSize B).lists B =
        { (s6.lists B) with size_ := ((s6.lists B).size_ + UINT_SIZE - 1) % UINT_SIZE } := by
      simp [Store.incSize, Store.decSize, Store.setSize, hBA]
    have hnd' : (bpre ++ bpost).Nodup := by
      have := List.nodup_append.1 hndB
      refine List.nodup_append.2 ⟨this.1, (List.nodup_cons.1 this.2.1).2, ?_⟩
      intro a h1 h2; exact this.2.2 h1 (List.mem_cons_of_mem _ h2)
    have hmemB : ∀ a, a ∈ bpre ++ bpost → a ∈ bpre ++ x :: bpost := by
      intro a ha
      rcases List.mem_append.1 ha with h | h
      · exact List.mem_append_left _ h
      · exact List.mem_append_right _ (List.mem_cons_of_mem _ h)
    have hneB : ∀ a, a ∈ bpre ++ bpost → a ≠ x ∧ a ≠ node ∧ some a ≠ n.previous_ := by
      intro a ha
      refine ⟨?_, ?_, ?_⟩
      · rintro rfl
        rcases List.mem_append.1 ha with h | h
        · exact hx_pre h
        · exact hx_post h
      · rintro rfl; exact hnode_B (hmemB _ ha)
      · rw [hnp]; intro h
        exact hdisj a (List.mem_append_left _ (lastPtr_none_mem h.symm)) (hmemB a ha)
    constructor
    · have := seg_join (w := s6.nodes) (b := []) hbpre hbpost hnd'
        (by
          intro a ha
          obtain ⟨h1, h2, h3⟩ := hneB a ha
          rw [p6, p5, p4, p3, p2, p1, if_neg h1, if_neg h2, hsx, hsp]
          rfl)
        (by
          intro a ha
          obtain ⟨h1, h2, h3⟩ := hneB a ha
          rw [n6, n5, n4, n3, n2, n1, if_neg h1, if_neg h3, hsx, hsp]
          rfl)
        (by simp [Seg])
      rw [hB', hB6]
      show Seg s6.nodes none (if sn.previous_ = none then sn.next_ else (s.lists B).head_) _ none
      rw [hsp, hsx, headPtr_join (seg_head hbpre)]
      exact this
    · rw [hB', hB6]
      show (if sn.next_ = none then sn.previous_ else (s.lists B).tail_) = _
      rw [hsp, hsx]
      refine lastPtr_join (e := some x) ?_
      rw [hB.tail_eq, lastPtr_append]; rfl
  · simp [Store.incSize, Store.decSize, Store.setSize, hAB, hBA]
    rw [l6, l5, l4, l3, l2, l1]
    by_cases h1 : n.previous_ = none <;> simp [h1, hAB]
  · simp [Store.incSize, Store.decSize, Store.setSize, hAB, hBA]
    rw [l6, l5, l4, l3, l2, l1]
    by_cases h1 : sn.previous_ = none <;> by_cases h2 : sn.next_ = none <;> simp [h1, h2, hBA]
  · show s6.fresh = s.fresh
    rw [f6, f5, f4, f3, f2, f1]
  · intro K h1 h2
    simp [Store.incSize, Store.decSize, Store.setSize, h1, h2]
    rw [l6, l5, l4, l3, l2, l1]
    simp [h1, h2]
  · intro a h1 h2
    show s6.nodes a = s.nodes a
    have hx' : a ≠ x := fun e => h2 (e ▸ hxB)
    have hn' : a ≠ node := fun e => h1 (e ▸ hnodeA)
    rw [r6, r5 a hx', r4 a hx', r3 a hn', r2, r1]
    · rw [hsp]; intro h; exact h2 (List.mem_append_left _ (lastPtr_none_mem h.symm))
    · rw [hsx]; intro h
      exact h2 (List.mem_append_right _ (List.mem_cons_of_mem _ (headPtr_mem h.symm)))
    · rw [hnp]; intro h; exact h1 (List.mem_append_left _ (lastPtr_none_mem h.symm))
  · intro a
    show dataAt s6 a = dataAt s a
    have e : dataAt ((s6.incSize A).decSize B) a = dataAt s6 a := rfl
    rw [d6, d5, d4, d3, d2, d1]


/-- Decomposition of a chain around a block of consecutive nodes. -/
theorem seg_split_block {m : Nat → Option (ListNode T)} {p : Option Nat}
    {pre blk post : List Nat} (h : Seg m none p (pre ++ (blk ++ post)) none) (hne : blk ≠ []) :
    Seg m none p pre (headPtr blk none) ∧
      Seg m (lastPtr none pre) (headPtr blk none) blk (headPtr post none) ∧
      Seg m (lastPtr none blk) (headPtr post none) post none := by
  rw [seg_append, seg_append, headPtr_append] at h
  obtain ⟨h1, h2, h3⟩ := h
  rw [headPtr_of_ne_nil hne (headPtr post none) none] at h1 h2
  rw [lastPtr_of_ne_nil (lastPtr none pre) none blk hne] at h3
  exact ⟨h1, h2, h3⟩

theorem nodup_block {pre blk post : List Nat} (h : (pre ++ (blk ++ post)).Nodup) :
    (pre ++ post).Nodup ∧ blk.Nodup ∧ (∀ a, a ∈ blk → a ∉ pre ++ post) := by
  have h1 := List.nodup_append.1 h
  have h2 := List.nodup_append.1 h1.2.1
  refine ⟨List.nodup_append.2 ⟨h1.1, h2.2.1, ?_⟩, h2.1, ?_⟩
  · intro a ha hb; exact h1.2.2 ha (List.mem_append_right _ hb)
  · intro a ha hb
    rcases List.mem_append.1 hb with h | h
    · exact h1.2.2 h (List.mem_append_left _ ha)
    · exact h2.2.2 ha h

/-- The part of the range splice that follows its loop, in front of a node of the
destination: the block `blk` of the source is moved. `s0` is the store left by the loop. -/
theorem spliceRange_node_core (s s0 : Store T) (A B : Nat)
    (pre post bpre blk bpost : List Nat) (node f lb : Nat) (fuel : Nat) (last : ListIterator)
    (hA : Linked s A (pre ++ node :: post)) (hB : Linked s B (bpre ++ (blk ++ bpost)))
    (hAB : A ≠ B) (hdisj : ∀ a ∈ pre ++ node :: post, a ∉ bpre ++ (blk ++ bpost))
    (hf : headPtr blk none = some f) (hlb : lastPtr none blk = some lb)
    (hloop : spliceRangeLoop fuel s A B ⟨some f⟩ last (some f) = .ok (s0, some lb))
    (h0n : s0.nodes = s.nodes) (h0f : s0.fresh = s.fresh)
    (h0l : ∀ K, (s0.lists K).head_ = (s.lists K).head_ ∧ (s0.lists K).tail_ = (s.lists K).tail_) :
    ∃ s', spliceRange fuel s A ⟨some node⟩ B ⟨some f⟩ last = .ok s' ∧
      Linked s' A (pre ++ (blk ++ node :: post)) ∧ Linked s' B (bpre ++ bpost) ∧
      (∀ K, (s'.lists K).size_ = (s0.lists K).size_) ∧ s'.fresh = s.fresh ∧
      (∀ K, K ≠ A → K ≠ B → (s'.lists K).head_ = (s.lists K).head_ ∧
        (s'.lists K).tail_ = (s.lists K).tail_) ∧
      (∀ a, a ∉ pre ++ node :: post → a ∉ bpre ++ (blk ++ bpost) → s'.nodes a = s.nodes a) ∧
      (∀ a, dataAt s' a = dataAt s a) := by
  have hBA : B ≠ A := Ne.symm hAB
  have hne : blk ≠ [] := by rintro rfl; cases hf
  have hndA := hA.nodup
  have hndB := hB.nodup
  obtain ⟨hndB', hndblk, hblk_out⟩ := nodup_block hndB
  obtain ⟨n, hn, hnp, hnn, hpre, hpost⟩ := seg_split hA.1
  obtain ⟨hbpre, hblk, hbpost⟩ := seg_split_block hB.1 hne
  have hpostA : Seg s.nodes (lastPtr none pre) (some node) (node :: post) none :=
    ((seg_append none _ none pre (node :: post)).1 hA.1).2
  have hfm : f ∈ blk := headPtr_mem hf
  have hlbm : lb ∈ blk := lastPtr_none_mem hlb
  have hblkB : ∀ a, a ∈ blk → a ∈ bpre ++ (blk ++ bpost) := fun a ha =>
    List.mem_append_right _ (List.mem_append_left _ ha)
  have hbpreB : ∀ a, a ∈ bpre → a ∈ bpre ++ (blk ++ bpost) := fun a ha =>
    List.mem_append_left _ ha
  have hbpostB : ∀ a, a ∈ bpost → a ∈ bpre ++ (blk ++ bpost) := fun a ha =>
    List.mem_append_right _ (List.mem_append_right _ ha)
  have hnodeA : node ∈ pre ++ node :: post := by simp
  have hnode_B : node ∉ bpre ++ (blk ++ bpost) := hdisj node hnodeA
  obtain ⟨fn, hfn⟩ := hB.alloc (hblkB f hfm)
  obtain ⟨li, hli⟩ := hB.alloc (hblkB lb hlbm)
  have hfp : fn.previous_ = lastPtr none bpre := by
    have := seg_head_prev hblk hf
    simpa [hfn] using this
  have hlx : li.next_ = headPtr bpost none := by
    have := seg_last_next hblk hlb
    simpa [hli] using this
  have hli0 : s0.nodes lb = some li := by rw [h0n, hli]
  -- membership of the boundary pointers
  have hfp_mem : ∀ a, some a = fn.previous_ → a ∈ bpre := fun a h => by
    rw [hfp] at h; exact lastPtr_none_mem h.symm
  have hlx_mem : ∀ a, some a = li.next_ → a ∈ bpost := fun a h => by
    rw [hlx] at h; exact headPtr_mem h.symm
  have hnp_mem : ∀ a, some a = n.previous_ → a ∈ pre := fun a h => by
    rw [hnp] at h; exact lastPtr_none_mem h.symm
  have hblk_pre : ∀ a, a ∈ blk → a ∉ bpre := fun a ha h =>
    hblk_out a ha (List.mem_append_left _ h)
  have hblk_post : ∀ a, a ∈ blk → a ∉ bpost := fun a ha h =>
    hblk_out a ha (List.mem_append_right _ h)
  -- symbolic execution
  obtain ⟨s1, e1, f1, p1, n1, d1, r1, l1⟩ := step_relinkNext s0 B fn.previous_ li.next_ (by
    intro a ha
    rw [h0n]
    exact hB.alloc' (hbpreB a (hfp_mem a ha.symm)))
  have hli1 : s1.nodes lb = some li := by
    rw [r1 lb (fun h => hblk_pre lb hlbm (hfp_mem lb h)), hli0]
  obtain ⟨s2, e2, f2, p2, n2, d2, r2, l2⟩ := step_relinkPrev s1 B li.next_ fn.previous_ (by
    intro a ha
    refine alloc_of_dataAt (d1 a) ?_
    rw [h0n]
    exact hB.alloc' (hbpostB a (hlx_mem a ha.symm)))
  have hnode2 : s2.nodes node = some n := by
    rw [r2 node, r1 node, h0n, hn]
    · intro h; exact hnode_B (hbpreB _ (hfp_mem _ h))
    · intro h; exact hnode_B (hbpostB _ (hlx_mem _ h))
  have hd2 : ∀ a, dataAt s2 a = dataAt s a := fun a => by
    rw [d2, d1]; simp [dataAt, h0n]
  obtain ⟨s3, e3, l3, f3, p3, n3, d3, r3⟩ := s2.setPrevious_ok node (some lb)
    (by rw [hnode2]; simp)
  obtain ⟨s4, e4, l4, f4, p4, n4, d4, r4⟩ := s3.setPrevious_ok f n.previous_
    (alloc_of_dataAt ((d3 f).trans (hd2 f)) (hB.alloc' (hblkB f hfm)))
  obtain ⟨s5, e5, l5, f5, p5, n5, d5, r5⟩ := s4.setNext_ok lb (some node)
    (alloc_of_dataAt ((d4 lb).trans ((d3 lb).trans (hd2 lb))) (hB.alloc' (hblkB lb hlbm)))
  obtain ⟨s6, e6, f6, p6, n6, d6, r6, l6⟩ := step_relinkNext s5 A n.previous_ (some f) (by
    intro a ha
    refine alloc_of_dataAt ((d5 a).trans ((d4 a).trans ((d3 a).trans (hd2 a))))
      (hA.alloc' (List.mem_append_left _ (hnp_mem a ha.symm))))
  obtain ⟨s7, e7, l7, f7, p7, n7, d7, r7⟩ := s6.setNext_ok lb (some node)
    (alloc_of_dataAt ((d6 lb).trans ((d5 lb).trans ((d4 lb).trans ((d3 lb).trans (hd2 lb)))))
      (hB.alloc' (hblkB lb hlbm)))
  refine ⟨s7, ?_, ?_, ?_, ?_, ?_, ?_, ?_, ?_⟩
  · simp only [spliceRange]
    rw [if_neg (by simp), if_neg (by simp), Store.load_some hfn, ok_bind, hloop, ok_bind]
    simp only []
    rw [Store.load_some hli0, ok_bind, e1, ok_bind, Store.load_some hli1, ok_bind, e2, ok_bind,
      if_pos (by simp), Store.load_some hnode2, ok_bind, e3, ok_bind, e4, ok_bind, e5, ok_bind]
    simp only [ne_eq, ite_not]
    rw [e6, ok_bind, e7]
  · -- the destination chain
    have hA7h : (s7.lists A).head_ = if n.previous_ = none then some f else (s.lists A).head_ := by
      rw [l7, l6, l5, l4, l3, l2, l1]
      by_cases h1 : n.previous_ = none <;> simp [h1, hAB, (h0l A).1]
    have hA7t : (s7.lists A).tail_ = (s.lists A).tail_ := by
      rw [l7, l6, l5, l4, l3, l2, l1]
      by_cases h1 : n.previous_ = none <;> simp [h1, hAB, (h0l A).2]
    have hneA : ∀ a, a ∈ pre ++ node :: post →
        a ≠ f ∧ a ≠ lb ∧ some a ≠ li.next_ ∧ some a ≠ fn.previous_ := by
      intro a ha
      refine ⟨?_, ?_, ?_, ?_⟩
      · rintro rfl; exact hdisj _ ha (hblkB _ hfm)
      · rintro rfl; exact hdisj _ ha (hblkB _ hlbm)
      · intro h; exact hdisj a ha (hbpostB a (hlx_mem a h))
      · intro h; exact hdisj a ha (hbpreB a (hfp_mem a h))
    constructor
    · have := seg_join (w := s7.nodes) (b := blk) hpre hpostA hndA
        (by
          intro a ha
          obtain ⟨h1, h2, h3, h4⟩ := hneA a ha
          rw [p7, p6, p5, p4, p3, p2, p1, h0n, if_neg h1, if_neg h3,
            lastPtr_of_ne_nil _ none blk hne, hlb]
          by_cases h : a = node <;> simp [h])
        (by
          intro a ha
          obtain ⟨h1, h2, h3, h4⟩ := hneA a ha
          rw [n7, n6, n5, n4, n3, n2, n1, h0n, if_neg h2, if_neg h2, if_neg h4, hnp,
            headPtr_of_ne_nil hne _ none, hf])
        (by
          rw [headPtr_of_ne_nil hne _ none, hf]
          have := seg_relink' (w := s7.nodes) (lastPtr none pre) (some node) hblk hndblk hne
            (by
              intro a ha
              have h1 : a ≠ node := fun e => hnode_B (e ▸ hblkB a ha)
              have h2 : some a ≠ li.next_ := fun h => hblk_post a ha (hlx_mem a h)
              rw [p7, p6, p5, p4, p3, p2, p1, h0n, if_neg h1, if_neg h2, hf, hnp]
              by_cases h : a = f <;> simp [h])
            (by
              intro a ha
              have h1 : some a ≠ fn.previous_ := fun h => hblk_pre a ha (hfp_mem a h)
              have h2 : some a ≠ n.previous_ := fun h =>
                hdisj a (List.mem_append_left _ (hnp_mem a h)) (hblkB a ha)
              rw [n7, n6, n5, n4, n3, n2, n1, h0n, if_neg h1, if_neg h2, hlb]
              by_cases h : a = lb <;> simp [h])
          rw [hf] at this
          simpa using this)
      rw [hA7h]
      have hj := headPtr_join (q := blk ++ node :: post) (hA.head_eq.trans
        (headPtr_append pre (node :: post) none))
      have hfb : headPtr (blk ++ node :: post) none = some f := by
        rw [headPtr_append, headPtr_of_ne_nil hne _ none, hf]
      rw [hfb, ← hnp] at hj
      rw [hj]; exact this
    · rw [hA7t, hA.tail_eq]
      simp [lastPtr_append, lastPtr]
  · -- the source chain
    have hB7h : (s7.lists B).head_ =
        if fn.previous_ = none then li.next_ else (s.lists B).head_ := by
      rw [l7, l6, l5, l4, l3, l2, l1]
      by_cases h1 : fn.previous_ = none <;> by_cases h2 : li.next_ = none <;>
        simp [h1, h2, hBA, (h0l B).1]
    have hB7t : (s7.lists B).tail_ =
        if li.next_ = none then fn.previous_ else (s.lists B).tail_ := by
      rw [l7, l6, l5, l4, l3, l2, l1]
      by_cases h1 : fn.previous_ = none <;> by_cases h2 : li.next_ = none <;>
        simp [h1, h2, hBA, (h0l B).2]
    have hneB : ∀ a, a ∈ bpre ++ bpost →
        a ≠ f ∧ a ≠ lb ∧ a ≠ node ∧ some a ≠ n.previous_ := by
      intro a ha
      have haB : a ∈ bpre ++ (blk ++ bpost) := by
        rcases List.mem_append.1 ha with h | h
        · exact hbpreB a h
        · exact hbpostB a h
      refine ⟨?_, ?_, ?_, ?_⟩
      · rintro rfl; exact hblk_out _ hfm ha
      · rintro rfl; exact hblk_out _ hlbm ha
      · rintro rfl; exact hnode_B haB
      · intro h; exact hdisj a (List.mem_append_left _ (hnp_mem a h)) haB
    constructor
    · have := seg_join (w := s7.nodes) (b := []) hbpre hbpost hndB'
        (by
          intro a ha
          obtain ⟨h1, h2, h3, h4⟩ := hneB a ha
          rw [p7, p6, p5, p4, p3, p2, p1, h0n, if_neg h1, if_neg h3, hlx, hfp]
          rfl)
        (by
          intro a ha
          obtain ⟨h1, h2, h3, h4⟩ := hneB a ha
          rw [n7, n6, n5, n4, n3, n2, n1, h0n, if_neg h2, if_neg h2, if_neg h4, hlx, hfp]
          rfl)
        (by simp [Seg])
      rw [hB7h, hfp, hlx, headPtr_join (seg_head hbpre)]
      exact this
    · rw [hB7t, hfp, hlx]
      refine lastPtr_join (e := some lb) ?_
      rw [hB.tail_eq, lastPtr_append, lastPtr_append, lastPtr_of_ne_nil _ none blk hne, hlb]
  · intro K
    rw [l7, l6, l5, l4, l3, l2, l1]
    repeat' split
    all_goals rfl
  · rw [f7, f6, f5, f4, f3, f2, f1, h0f]
  · intro K h1 h2
    rw [l7, l6, l5, l4, l3, l2, l1]
    simp [h1, h2, h0l K]
  · intro a h1 h2
    have hf' : a ≠ f := fun e => h2 (e ▸ hblkB f hfm)
    have hl' : a ≠ lb := fun e => h2 (e ▸ hblkB lb hlbm)
    have hn' : a ≠ node := fun e => h1 (e ▸ hnodeA)
    rw [r7 a hl', r6, r5 a hl', r4 a hf', r3 a hn', r2, r1, h0n]
    · intro h; exact h2 (hbpreB a (hfp_mem a h))
    · intro h; exact h2 (hbpostB a (hlx_mem a h))
    · intro h; exact h1 (List.mem_append_left _ (hnp_mem a h))
  · intro a
    rw [d7, d6, d5, d4, d3, hd2]


/-- The part of the range splice that follows its loop, when the destination is entered at
the end sentinel with `size_ == 0`: the destination becomes the moved block. -/
theorem spliceRange_end_core (s s0 : Store T) (A B : Nat)
    (bpre blk bpost : List Nat) (f lb : Nat) (fuel : Nat) (last : ListIterator)
    (hsz : (s.lists A).size_ = 0) (hB : Linked s B (bpre ++ (blk ++ bpost)))
    (hAB : A ≠ B)
    (hf : headPtr blk none = some f) (hlb : lastPtr none blk = some lb)
    (hloop : spliceRangeLoop fuel s A B ⟨some f⟩ last (some f) = .ok (s0, some lb))
    (h0n : s0.nodes = s.nodes) (h0f : s0.fresh = s.fresh)
    (h0l : ∀ K, (s0.lists K).head_ = (s.lists K).head_ ∧ (s0.lists K).tail_ = (s.lists K).tail_) :
    ∃ s', spliceRange fuel s A ⟨none⟩ B ⟨some f⟩ last = .ok s' ∧
      Linked s' A blk ∧ Linked s' B (bpre ++ bpost) ∧
      (∀ K, (s'.lists K).size_ = (s0.lists K).size_) ∧ s'.fresh = s.fresh ∧
      (∀ K, K ≠ A → K ≠ B → (s'.lists K).head_ = (s.lists K).head_ ∧
        (s'.lists K).tail_ = (s.lists K).tail_) ∧
      (∀ a, a ∉ bpre ++ (blk ++ bpost) → s'.nodes a = s.nodes a) ∧
      (∀ a, dataAt s' a = dataAt s a) := by
  have hBA : B ≠ A := Ne.symm hAB
  have hne : blk ≠ [] := by rintro rfl; cases hf
  have hndB := hB.nodup
  obtain ⟨hndB', hndblk, hblk_out⟩ := nodup_block hndB
  obtain ⟨hbpre, hblk, hbpost⟩ := seg_split_block hB.1 hne
  have hfm : f ∈ blk := headPtr_mem hf
  have hlbm : lb ∈ blk := lastPtr_none_mem hlb
  have hblkB : ∀ a, a ∈ blk → a ∈ bpre ++ (blk ++ bpost) := fun a ha =>
    List.mem_append_right _ (List.mem_append_left _ ha)
  have hbpreB : ∀ a, a ∈ bpre → a ∈ bpre ++ (blk ++ bpost) := fun a ha =>
    List.mem_append_left _ ha
  have hbpostB : ∀ a, a ∈ bpost → a ∈ bpre ++ (blk ++ bpost) := fun a ha =>
    List.mem_append_right _ (List.mem_append_right _ ha)
  obtain ⟨fn, hfn⟩ := hB.alloc (hblkB f hfm)
  obtain ⟨li, hli⟩ := hB.alloc (hblkB lb hlbm)
  have hfp : fn.previous_ = lastPtr none bpre := by
    have := seg_head_prev hblk hf
    simpa [hfn] using this
  have hlx : li.next_ = headPtr bpost none := by
    have := seg_last_next hblk hlb
    simpa [hli] using this
  have hli0 : s0.nodes lb = some li := by rw [h0n, hli]
  have hfp_mem : ∀ a, some a = fn.previous_ → a ∈ bpre := fun a h => by
    rw [hfp] at h; exact lastPtr_none_mem h.symm
  have hlx_mem : ∀ a, some a = li.next_ → a ∈ bpost := fun a h => by
    rw [hlx] at h; exact headPtr_mem h.symm
  have hblk_pre : ∀ a, a ∈ blk → a ∉ bpre := fun a ha h =>
    hblk_out a ha (List.mem_append_left _ h)
  have hblk_post : ∀ a, a ∈ blk → a ∉ bpost := fun a ha h =>
    hblk_out a ha (List.mem_append_right _ h)
  -- symbolic execution
  obtain ⟨s1, e1, f1, p1, n1, d1, r1, l1⟩ := step_relinkNext s0 B fn.previous_ li.next_ (by
    intro a ha
    rw [h0n]
    exact hB.alloc' (hbpreB a (hfp_mem a ha.symm)))
  have hli1 : s1.nodes lb = some li := by
    rw [r1 lb (fun h => hblk_pre lb hlbm (hfp_mem lb h)), hli0]
  obtain ⟨s2, e2, f2, p2, n2, d2, r2, l2⟩ := step_relinkPrev s1 B li.next_ fn.previous_ (by
    intro a ha
    refine alloc_of_dataAt (d1 a) ?_
    rw [h0n]
    exact hB.alloc' (hbpostB a (hlx_mem a ha.symm)))
  have hd2 : ∀ a, dataAt s2 a = dataAt s a := fun a => by
    rw [d2, d1]; simp [dataAt, h0n]
  obtain ⟨s3, e3, l3, f3, p3, n3, d3, r3⟩ :=
    ((s2.setHead A (some f)).setTail A (some lb)).setPrevious_ok f none
    (alloc_of_dataAt (hd2 f) (hB.alloc' (hblkB f hfm)))
  obtain ⟨s4, e4, l4, f4, p4, n4, d4, r4⟩ := s3.setNext_ok lb none
    (alloc_of_dataAt ((d3 lb).trans (hd2 lb)) (hB.alloc' (hblkB lb hlbm)))
  have p3' : ∀ b, (s3.nodes b).map (fun n => n.previous_) =
      if b = f then some none else (s2.nodes b).map (fun n => n.previous_) := p3
  have n3' : ∀ b, (s3.nodes b).bind (fun n => n.next_) =
      (s2.nodes b).bind (fun n => n.next_) := n3
  have r3' : ∀ b, b ≠ f → s3.nodes b = s2.nodes b := r3
  have l3' : ∀ K, s3.lists K = if K = A then
      { (s2.lists K) with head_ := some f, tail_ := some lb } else s2.lists K := by
    intro K; rw [l3]
    by_cases hK : K = A <;> simp [Store.setHead, Store.setTail, hK]
  refine ⟨s4, ?_, ?_, ?_, ?_, ?_, ?_, ?_, ?_⟩
  · simp only [spliceRange]
    rw [if_neg (by simp [hsz]), if_neg (by simp), Store.load_some hfn, ok_bind, hloop, ok_bind]
    simp only []
    rw [Store.load_some hli0, ok_bind, e1, ok_bind, Store.load_some hli1, ok_bind, e2, ok_bind,
      if_neg (by simp), e3, ok_bind, e4]
  · constructor
    · have := seg_relink' (w := s4.nodes) none none hblk hndblk hne
        (by
          intro a ha
          have h2 : some a ≠ li.next_ := fun h => hblk_post a ha (hlx_mem a h)
          rw [p4, p3', p2, p1, h0n, if_neg h2, hf]
          by_cases h : a = f <;> simp [h])
        (by
          intro a ha
          have h1 : some a ≠ fn.previous_ := fun h => hblk_pre a ha (hfp_mem a h)
          rw [n4, n3', n2, n1, h0n, if_neg h1, hlb]
          by_cases h : a = lb <;> simp [h])
      rw [hf] at this
      rw [l4, l3']; simpa using this
    · rw [l4, l3']; simp [hlb]
  · have hB4h : (s4.lists B).head_ =
        if fn.previous_ = none then li.next_ else (s.lists B).head_ := by
      rw [l4, l3', l2, l1]
      by_cases h1 : fn.previous_ = none <;> by_cases h2 : li.next_ = none <;>
        simp [h1, h2, hBA, (h0l B).1]
    have hB4t : (s4.lists B).tail_ =
        if li.next_ = none then fn.previous_ else (s.lists B).tail_ := by
      rw [l4, l3', l2, l1]
      by_cases h1 : fn.previous_ = none <;> by_cases h2 : li.next_ = none <;>
        simp [h1, h2, hBA, (h0l B).2]
    have hneB : ∀ a, a ∈ bpre ++ bpost → a ≠ f ∧ a ≠ lb := by
      intro a ha
      exact ⟨by rintro rfl; exact hblk_out _ hfm ha, by rintro rfl; exact hblk_out _ hlbm ha⟩
    constructor
    · have := seg_join (w := s4.nodes) (b := []) hbpre hbpost hndB'
        (by
          intro a ha
          obtain ⟨h1, h2⟩ := hneB a ha
          rw [p4, p3', p2, p1, h0n, if_neg h1, hlx, hfp]
          rfl)
        (by
          intro a ha
          obtain ⟨h1, h2⟩ := hneB a ha
          rw [n4, n3', n2, n1, h0n, if_neg h2, hlx, hfp]
          rfl)
        (by simp [Seg])
      rw [hB4h, hfp, hlx, headPtr_join (seg_head hbpre)]
      exact this
    · rw [hB4t, hfp, hlx]
      refine lastPtr_join (e := some lb) ?_
      rw [hB.tail_eq, lastPtr_append, lastPtr_append, lastPtr_of_ne_nil _ none blk hne, hlb]
  · intro K
    rw [l4, l3', l2, l1]
    repeat' split
    all_goals rfl
  · rw [f4, f3]
    show s2.fresh = s.fresh
    rw [f2, f1, h0f]
  · intro K h1 h2
    rw [l4, l3', l2, l1]
    simp [h1, h2, h0l K]
  · intro a h2
    have hf' : a ≠ f := fun e => h2 (e ▸ hblkB f hfm)
    have hl' : a ≠ lb := fun e => h2 (e ▸ hblkB lb hlbm)
    rw [r4 a hl', r3' a hf', r2, r1, h0n]
    · intro h; exact h2 (hbpreB a (hfp_mem a h))
    · intro h; exact h2 (hbpostB a (hlx_mem a h))
  · intro a
    rw [d4, d3]
    exact hd2 a


/-- Single-element splice at the end sentinel of a destination with `size_ == 0`. -/
theorem spliceOne_end_spec (s : Store T) (A B : Nat) (bpre bpost : List Nat) (x : Nat)
    (hsz : (s.lists A).size_ = 0) (hB : Linked s B (bpre ++ x :: bpost)) (hAB : A ≠ B) :
    ∃ s', spliceOne s A ⟨none⟩ B ⟨some x⟩ = .ok s' ∧
      Linked s' A [x] ∧ Linked s' B (bpre ++ bpost) ∧
      (s'.lists A).size_ = ((s.lists A).size_ + 1) % UINT_SIZE ∧
      (s'.lists B).size_ = ((s.lists B).size_ + UINT_SIZE - 1) % UINT_SIZE ∧
      s'.fresh = s.fresh ∧
      (∀ K, K ≠ A → K ≠ B → s'.lists K = s.lists K) ∧
      (∀ a, a ∉ bpre ++ x :: bpost → s'.nodes a = s.nodes a) ∧
      (∀ a, dataAt s' a = dataAt s a) := by
  have hBA : B ≠ A := Ne.symm hAB
  have hndB := hB.nodup
  obtain ⟨sn, hsn, hsp, hsx, hbpre, hbpost⟩ := seg_split hB.1
  have hxB : x ∈ bpre ++ x :: bpost := by simp
  have hx_pre : x ∉ bpre := fun h => (List.nodup_append.1 hndB).2.2 h (List.mem_cons_self _ _)
  have hx_post : x ∉ bpost := (List.nodup_cons.1 (List.nodup_append.1 hndB).2.1).1
  obtain ⟨s1, e1, f1, p1, n1, d1, r1, l1⟩ := step_relinkNext s B sn.previous_ sn.next_ (by
    intro a ha
    rw [hsp] at ha
    exact hB.alloc' (List.mem_append_left _ (lastPtr_none_mem ha)))
  have hx1 : s1.nodes x = some sn := by
    rw [r1 x (by rw [hsp]; intro h; exact hx_pre (lastPtr_none_mem h.symm)), hsn]
  obtain ⟨s2, e2, f2, p2, n2, d2, r2, l2⟩ := step_relinkPrev s1 B sn.next_ sn.previous_ (by
    intro a ha
    rw [hsx] at ha
    exact alloc_of_dataAt (d1 a) (hB.alloc' (List.mem_append_right _
      (List.mem_cons_of_mem _ (headPtr_mem ha)))))
  obtain ⟨s3, e3, l3, f3, p3, n3, d3, r3⟩ :=
    ((s2.setHead A (some x)).setTail A (some x)).setPrevious_ok x none
    (alloc_of_dataAt ((d2 x).trans (d1 x)) (hB.alloc' hxB))
  obtain ⟨s4, e4, l4, f4, p4, n4, d4, r4⟩ := s3.setNext_ok x none
    (alloc_of_dataAt ((d3 x).trans ((d2 x).trans (d1 x))) (hB.alloc' hxB))
  have p3' : ∀ b, (s3.nodes b).map (fun n => n.previous_) =
      if b = x then some none else (s2.nodes b).map (fun n => n.previous_) := p3
  have n3' : ∀ b, (s3.nodes b).bind (fun n => n.next_) =
      (s2.nodes b).bind (fun n => n.next_) := n3
  have r3' : ∀ b, b ≠ x → s3.nodes b = s2.nodes b := r3
  have d3' : ∀ b, dataAt s3 b = dataAt s2 b := d3
  have l3' : ∀ K, s3.lists K = if K = A then
      { (s2.lists K) with head_ := some x, tail_ := some x } else s2.lists K := by
    intro K; rw [l3]
    by_cases hK : K = A <;> simp [Store.setHead, Store.setTail, hK]
  have hlA : ((s4.incSize A).decSize B).lists A =
      { (s4.lists A) with size_ := ((s4.lists A).size_ + 1) % UINT_SIZE } := by
    simp [Store.incSize, Store.decSize, Store.setSize, hAB]
  have hlB : ((s4.incSize A).decSize B).lists B =
      { (s4.lists B) with size_ := ((s4.lists B).size_ + UINT_SIZE - 1) % UINT_SIZE } := by
    simp [Store.incSize, Store.decSize, Store.setSize, hBA]
  refine ⟨(s4.incSize A).decSize B, ?_, ?_, ?_, ?_, ?_, ?_, ?_, ?_, ?_⟩
  · simp only [spliceOne]
    rw [if_neg (by simp [hsz]), if_neg (by simp), Store.load_some hsn, ok_bind, e1, ok_bind,
      Store.load_some hx1, ok_bind, e2, ok_bind, if_neg (by simp), e3, ok_bind, e4, ok_bind]
    rfl
  · constructor
    · rw [hlA]
      show Seg s4.nodes none (s4.lists A).head_ [x] none
      rw [l4, l3']
      simp only [if_true]
      refine ⟨rfl, ?_, ?_⟩
      · rw [p4, p3']; simp
      · show (s4.nodes x).bind (fun n => n.next_) = none
        rw [n4]; simp
    · rw [hlA]
      show (s4.lists A).tail_ = _
      rw [l4, l3']; simp [lastPtr]
  · have hB4h : (s4.lists B).head_ =
        if sn.previous_ = none then sn.next_ else (s.lists B).head_ := by
      rw [l4, l3', l2, l1]
      by_cases h1 : sn.previous_ = none <;> by_cases h2 : sn.next_ = none <;>
        simp [h1, h2, hBA]
    have hB4t : (s4.lists B).tail_ =
        if sn.next_ = none then sn.previous_ else (s.lists B).tail_ := by
      rw [l4, l3', l2, l1]
      by_cases h1 : sn.previous_ = none <;> by_cases h2 : sn.next_ = none <;>
        simp [h1, h2, hBA]
    have hnd' : (bpre ++ bpost).Nodup := by
      have := List.nodup_append.1 hndB
      refine List.nodup_append.2 ⟨this.1, (List.nodup_cons.1 this.2.1).2, ?_⟩
      intro a h1 h2; exact this.2.2 h1 (List.mem_cons_of_mem _ h2)
    have hneB : ∀ a, a ∈ bpre ++ bpost → a ≠ x := by
      rintro a ha rfl
      rcases List.mem_append.1 ha with h | h
      · exact hx_pre h
      · exact hx_post h
    constructor
    · have := seg_join (w := s4.nodes) (b := []) hbpre hbpost hnd'
        (by
          intro a ha
          rw [p4, p3', p2, p1, if_neg (hneB a ha), hsx, hsp]
          rfl)
        (by
          intro a ha
          rw [n4, n3', n2, n1, if_neg (hneB a ha), hsx, hsp]
          rfl)
        (by simp [Seg])
      rw [hlB]
      show Seg s4.nodes none (s4.lists B).head_ _ none
      rw [hB4h, hsp, hsx, headPtr_join (seg_head hbpre)]
      exact this
    · rw [hlB]
      show (s4.lists B).tail_ = _
      rw [hB4t, hsp, hsx]
      refine lastPtr_join (e := some x) ?_
      rw [hB.tail_eq, lastPtr_append]; rfl
  · rw [hlA]
    show ((s4.lists A).size_ + 1) % UINT_SIZE = _
    rw [l4, l3', l2, l1]
    simp [hAB]
  · rw [hlB]
    show ((s4.lists B).size_ + UINT_SIZE - 1) % UINT_SIZE = _
    rw [l4, l3', l2, l1]
    by_cases h1 : sn.previous_ = none <;> by_cases h2 : sn.next_ = none <;> simp [h1, h2, hBA]
  · show s4.fresh = s.fresh
    rw [f4, f3]
    show s2.fresh = s.fresh
    rw [f2, f1]
  · intro K h1 h2
    simp [Store.incSize, Store.decSize, Store.setSize, h1, h2]
    rw [l4, l3', l2, l1]
    simp [h1, h2]
  · intro a h2
    show s4.nodes a = s.nodes a
    have hx' : a ≠ x := fun e => h2 (e ▸ hxB)
    rw [r4 a hx', r3' a hx', r2, r1]
    · rw [hsp]; intro h; exact h2 (List.mem_append_left _ (lastPtr_none_mem h.symm))
    · rw [hsx]; intro h
      exact h2 (List.mem_append_right _ (List.mem_cons_of_mem _ (headPtr_mem h.symm)))
  · intro a
    show dataAt s4 a = dataAt s a
    rw [d4, d3', d2, d1]

/-- Whole-list splice at the end sentinel of a destination with `size_ == 0`. -/
theorem splice_end_spec (s : Store T) (A B : Nat) (bs : List Nat)
    (hsz : (s.lists A).size_ = 0) (hB : Linked s B bs) (hAB : A ≠ B) :
    ∃ s', splice s A ⟨none⟩ B = .ok s' ∧ Linked s' A bs ∧ Linked s' B [] ∧
      (s'.lists A).size_ = ((s.lists A).size_ + (s.lists B).size_) % UINT_SIZE ∧
      (s'.lists B).size_ = 0 ∧ s'.fresh = s.fresh ∧ s'.nodes = s.nodes ∧
      (∀ K, K ≠ A → K ≠ B → s'.lists K = s.lists K) := by
  have hBA : B ≠ A := Ne.symm hAB
  have hrun : ∃ s', splice s A ⟨none⟩ B = .ok s' ∧ s'.nodes = s.nodes ∧ s'.fresh = s.fresh ∧
      (∀ K, s'.lists K = if K = B then ⟨0, none, none⟩ else if K = A then
        ⟨((s.lists A).size_ + (s.lists B).size_) % UINT_SIZE, (s.lists B).head_,
          (s.lists B).tail_⟩ else s.lists K) := by
    simp only [splice]
    rw [if_neg (by simp [hsz]), if_neg (by simp)]
    refine ⟨_, rfl, rfl, rfl, ?_⟩
    intro K
    by_cases h1 : K = B
    · simp [Store.setHead, Store.setTail, Store.setSize, h1]
    · by_cases h2 : K = A
      · simp [Store.setHead, Store.setTail, Store.setSize, h1, h2, hAB, hBA]
      · simp [Store.setHead, Store.setTail, Store.setSize, h1, h2]
  obtain ⟨s', hr, hn, hf, hl⟩ := hrun
  refine ⟨s', hr, ⟨?_, ?_⟩, ⟨?_, ?_⟩, ?_, ?_, hf, hn, ?_⟩
  · rw [hn, hl]; simpa [hAB] using hB.1
  · rw [hl]; simpa [hAB] using hB.2
  · rw [hl]; simp [Seg]
  · rw [hl]; simp
  · rw [hl]; simp [hAB]
  · rw [hl]; simp
  · intro K h1 h2
    rw [hl]; simp [h1, h2]

/-- The end-sentinel guard shared by the three splice variants. -/
theorem splice_guard (s : Store T) (A B : Nat) (it first last : ListIterator) (fuel : Nat)
    (hsz : 0 < (s.lists A).size_) :
    splice s A ⟨none⟩ B = .ok s ∧ spliceOne s A ⟨none⟩ B it = .ok s ∧
      spliceRange fuel s A ⟨none⟩ B first last = .ok s := by
  refine ⟨?_, ?_, ?_⟩
  · simp [splice, hsz]
  · simp [spliceOne, hsz]
  · simp [spliceRange, hsz]


/-! ## The loop of the range splice -/

theorem sizeShift_facts (A B : Nat) (k : Nat) (s : Store T) :
    ((fun s : Store T => (s.incSize A).decSize B)^[k] s).nodes = s.nodes ∧
    ((fun s : Store T => (s.incSize A).decSize B)^[k] s).fresh = s.fresh ∧
    ∀ K, (((fun s : Store T => (s.incSize A).decSize B)^[k] s).lists K).head_ = (s.lists K).head_ ∧
      (((fun s : Store T => (s.incSize A).decSize B)^[k] s).lists K).tail_ = (s.lists K).tail_ ∧
      (K ≠ A → K ≠ B →
        (((fun s : Store T => (s.incSize A).decSize B)^[k] s).lists K).size_ = (s.lists K).size_) := by
  induction k generalizing s with
  | zero => exact ⟨rfl, rfl, fun K => ⟨rfl, rfl, fun _ _ => rfl⟩⟩
  | succ k ih =>
    rw [Function.iterate_succ_apply]
    obtain ⟨h1, h2, h3⟩ := ih ((s.incSize A).decSize B)
    refine ⟨h1, h2, fun K => ?_⟩
    obtain ⟨h4, h5, h6⟩ := h3 K
    refine ⟨h4.trans ?_, h5.trans ?_, fun hA hB => (h6 hA hB).trans ?_⟩
    · simp only [Store.incSize, Store.decSize, Store.setSize, Store.setList_lists]
      repeat' split
      all_goals simp_all
    · simp only [Store.incSize, Store.decSize, Store.setSize, Store.setList_lists]
      repeat' split
      all_goals simp_all
    · simp [Store.incSize, Store.decSize, Store.setSize, hA, hB]

theorem sizeShift_sizes (A B : Nat) (hAB : A ≠ B) (k : Nat) (s : Store T)
    (hA : (s.lists A).size_ + k < UINT_SIZE) (hB : k ≤ (s.lists B).size_)
    (hB' : (s.lists B).size_ < UINT_SIZE) :
    (((fun s : Store T => (s.incSize A).decSize B)^[k] s).lists A).size_ = (s.lists A).size_ + k ∧
    (((fun s : Store T => (s.incSize A).decSize B)^[k] s).lists B).size_ = (s.lists B).size_ - k := by
  induction k generalizing s with
  | zero => exact ⟨rfl, rfl⟩
  | succ k ih =>
    rw [Function.iterate_succ_apply]
    have e1 : (((s.incSize A).decSize B).lists A).size_ = (s.lists A).size_ + 1 := by
      simp [Store.incSize, Store.decSize, Store.setSize, hAB]
      exact uint_inc (by omega)
    have e2 : (((s.incSize A).decSize B).lists B).size_ = (s.lists B).size_ - 1 := by
      simp [Store.incSize, Store.decSize, Store.setSize, hAB, Ne.symm hAB]
      exact uint_dec (by omega) hB'
    obtain ⟨h1, h2⟩ := ih ((s.incSize A).decSize B) (by rw [e1]; omega) (by rw [e2]; omega)
      (by rw [e2]; omega)
    rw [h1, h2, e1, e2]
    constructor <;> omega

theorem spliceRangeLoop_seg (A B : Nat) (blk : List Nat) :
    ∀ (s : Store T) (pv p q li : Option Nat) (fuel : Nat),
      Seg s.nodes pv p blk q → (∀ a ∈ blk, some a ≠ q) → blk.length < fuel →
      spliceRangeLoop fuel s A B ⟨p⟩ ⟨q⟩ li =
        .ok ((fun s : Store T => (s.incSize A).decSize B)^[blk.length] s,
          if blk = [] then li else lastPtr none blk) := by
  induction blk with
  | nil =>
    intro s pv p q li fuel h _ hfuel
    cases fuel with
    | zero => cases hfuel
    | succ fuel =>
      have hp : p = q := h
      simp [spliceRangeLoop, hp]
  | cons a rest ih =>
    intro s pv p q li fuel h hq hfuel
    cases fuel with
    | zero => cases hfuel
    | succ fuel =>
      obtain ⟨hp, hprev, hrest⟩ := h
      obtain ⟨n, hn⟩ : ∃ n, s.nodes a = some n := by
        cases hm : s.nodes a with
        | none => simp [hm] at hprev
        | some n => exact ⟨n, rfl⟩
      simp only [hn, Option.some_bind] at hrest
      have hne : (⟨p⟩ : ListIterator) ≠ ⟨q⟩ := by
        rw [hp]; intro e
        exact hq a (List.mem_cons_self _ _) (by simpa using e)
      have hstep := ih ((s.incSize A).decSize B) (some a) n.next_ q (some a) fuel hrest
        (fun b hb => hq b (List.mem_cons_of_mem _ hb)) (by simpa using hfuel)
      simp only [spliceRangeLoop]
      rw [if_neg hne]
      simp only [hp, ListIterator.preInc, Store.load_some hn, ok_bind, bind, Except.bind, pure,
        Except.pure]
      rw [hstep]
      simp only [List.length_cons, Function.iterate_succ_apply, lastPtr]
      congr 2
      by_cases hr : rest = []
      · simp [hr]
      · simp [hr, lastPtr_of_ne_nil (some a) none rest hr]

/-! ## Positions given by indices -/

theorem headPtr_drop (xs : List Nat) (i : Nat) : headPtr (xs.drop i) none = xs[i]? := by
  induction xs generalizing i with
  | nil => simp
  | cons a xs ih =>
    cases i with
    | zero => simp
    | succ i => simpa using ih i

theorem headPtr_take {xs : List Nat} {k : Nat} (hk : 0 < k) :
    headPtr (xs.take k) none = headPtr xs none := by
  cases xs with
  | nil => simp
  | cons a xs =>
    cases k with
    | zero => cases hk
    | succ k => simp

theorem split_at_index (xs : List Nat) (i : Nat) (h : i < xs.length) :
    xs = xs.take i ++ xs[i] :: xs.drop (i + 1) := by
  rw [← List.drop_eq_getElem_cons h, List.take_append_drop]

theorem split_range (xs : List Nat) (f l : Nat) (hfl : f ≤ l) :
    xs = xs.take f ++ ((xs.drop f).take (l - f) ++ xs.drop l) := by
  have : xs.drop l = (xs.drop f).drop (l - f) := by
    rw [List.drop_drop]; congr 1; omega
  rw [this, List.take_append_drop, List.take_append_drop]


/-- C3: range splice between distinct well-formed lists. With `pos` the node of `A` at index
`i` (or the end sentinel when `A` is empty), `first` at index `f` and `last` at index `l > f` of
`B` (`l == |B|` being the end sentinel), enough fuel for the `l - f` loop iterations and no
overflow of `A.size_`, the call returns with `A == A[0..i) ++ B[f..l) ++ A[i..)` and
`B == B[0..f) ++ B[l..)`, the moved nodes kept in order, `A.size()` increased and `B.size()`
decreased by exactly `l - f`. -/
theorem splice_range_moves_block (s : Store T) (A B : Nat) (as bs : List Nat) (xs ys : List T)
    (i f l fuel : Nat)
    (hA : Rep s A as xs) (hB : Rep s B bs ys) (hAB : A ≠ B) (hdisj : ∀ a ∈ as, a ∉ bs)
    (hi : i < as.length ∨ as = []) (hfl : f < l) (hl : l ≤ bs.length) (hfuel : l - f < fuel)
    (hsz : as.length + (l - f) < UINT_SIZE) :
    ∃ s', spliceRange fuel s A ⟨as[i]?⟩ B ⟨bs[f]?⟩ ⟨bs[l]?⟩ = .ok s' ∧
      Rep s' A (as.take i ++ ((bs.drop f).take (l - f) ++ as.drop i))
        (xs.take i ++ ((ys.drop f).take (l - f) ++ xs.drop i)) ∧
      Rep s' B (bs.take f ++ bs.drop l) (ys.take f ++ ys.drop l) ∧
      size s' A = size s A + (l - f) ∧ l - f ≤ size s B ∧ size s' B = size s B - (l - f) := by
  obtain ⟨hLA, hsA, hltA, hdA⟩ := hA
  obtain ⟨hLB, hsB, hltB, hdB⟩ := hB
  have hsplit := split_range bs f l (le_of_lt hfl)
  have hblen : ((bs.drop f).take (l - f)).length = l - f := by
    simp; omega
  have hne : (bs.drop f).take (l - f) ≠ [] := by
    intro h; rw [h] at hblen; simp at hblen; omega
  have hflt : f < bs.length := by omega
  have hfh : headPtr ((bs.drop f).take (l - f)) none = some bs[f] := by
    rw [headPtr_take (by omega), headPtr_drop, List.getElem?_eq_getElem hflt]
  obtain ⟨lb, hlbm, hlb⟩ := lastPtr_ne_none hne none
  have hLB' : Linked s B (bs.take f ++ ((bs.drop f).take (l - f) ++ bs.drop l)) := by
    rw [← hsplit]; exact hLB
  have hdisj' : ∀ a ∈ as, a ∉ bs.take f ++ ((bs.drop f).take (l - f) ++ bs.drop l) := by
    rw [← hsplit]; exact hdisj
  obtain ⟨hndB', hndblk, hblk_out⟩ := nodup_block (hsplit ▸ hLB.nodup)
  obtain ⟨_, hblk, _⟩ := seg_split_block hLB'.1 hne
  have hloop := spliceRangeLoop_seg A B ((bs.drop f).take (l - f)) s _ _ _ (some bs[f]) fuel hblk
    (by
      intro a ha h
      exact hblk_out a ha (List.mem_append_right _ (headPtr_mem h.symm)))
    (by rw [hblen]; exact hfuel)
  rw [if_neg hne, hfh, headPtr_drop, hlb, hblen] at hloop
  obtain ⟨h0n, h0f, h0l⟩ := sizeShift_facts A B (l - f) s
  obtain ⟨h0A, h0B⟩ := sizeShift_sizes A B hAB (l - f) s (by rw [hsA]; exact hsz)
    (by rw [hsB]; omega) (by rw [hsB]; exact hltB)
  have hdata : ∀ (s' : Store T), (∀ a, dataAt s' a = dataAt s a) →
      (as.take i ++ ((bs.drop f).take (l - f) ++ as.drop i)).map (dataAt s') =
        (xs.take i ++ ((ys.drop f).take (l - f) ++ xs.drop i)).map some ∧
      (bs.take f ++ bs.drop l).map (dataAt s') = (ys.take f ++ ys.drop l).map some := by
    intro s' hd
    have : dataAt s' = dataAt s := funext hd
    rw [this]
    simp only [List.map_append, List.map_take, List.map_drop, hdA, hdB]
    exact ⟨trivial, trivial⟩
  rw [List.getElem?_eq_getElem hflt]
  rcases hi with hi | hi
  · rw [List.getElem?_eq_getElem hi]
    have hsplitA := split_at_index as i hi
    have hdrop : as.drop i = as[i] :: as.drop (i + 1) := List.drop_eq_getElem_cons hi
    obtain ⟨s', hrun, hA', hB', hsize, _, _, _, hd⟩ :=
      spliceRange_node_core s _ A B (as.take i) (as.drop (i + 1)) (bs.take f)
        ((bs.drop f).take (l - f)) (bs.drop l) as[i] bs[f] lb fuel ⟨bs[l]?⟩
        (hsplitA ▸ hLA) hLB' hAB (hsplitA ▸ hdisj') hfh hlb hloop h0n h0f
        (fun K => ⟨(h0l K).1, (h0l K).2.1⟩)
    rw [← hdrop] at hA'
    refine ⟨s', hrun, ⟨hA', ?_, ?_, (hdata s' hd).1⟩, ⟨hB', ?_, ?_, (hdata s' hd).2⟩, ?_, ?_, ?_⟩
    · rw [hsize, h0A, hsA]; simp; omega
    · simp; omega
    · rw [hsize, h0B, hsB]; simp; omega
    · simp; omega
    · unfold size; rw [hsize, h0A]
    · unfold size; rw [hsB]; omega
    · unfold size; rw [hsize, h0B]
  · subst hi
    have hsz0 : (s.lists A).size_ = 0 := by rw [hsA]; rfl
    obtain ⟨s', hrun, hA', hB', hsize, _, _, _, hd⟩ :=
      spliceRange_end_core s _ A B (bs.take f) ((bs.drop f).take (l - f)) (bs.drop l) bs[f] lb
        fuel ⟨bs[l]?⟩ hsz0 hLB' hAB hfh hlb hloop h0n h0f
        (fun K => ⟨(h0l K).1, (h0l K).2.1⟩)
    have hA'' : Linked s' A ([].take i ++ ((bs.drop f).take (l - f) ++ [].drop i)) := by
      simpa using hA'
    refine ⟨s', by simpa using hrun, ⟨hA'', ?_, ?_, (hdata s' hd).1⟩,
      ⟨hB', ?_, ?_, (hdata s' hd).2⟩, ?_, ?_, ?_⟩
    · rw [hsize, h0A, hsA]; simp; omega
    · simp; omega
    · rw [hsize, h0B, hsB]; simp; omega
    · simp; omega
    · unfold size; rw [hsize, h0A]
    · unfold size; rw [hsB]; omega
    · unfold size; rw [hsize, h0B]


theorem splice_range_moves_block_witness :
    Rep exampleStore 0 [0, 1] [1, 2] ∧ Rep exampleStore 1 [2, 3] [3, 4] ∧
    ∃ s', spliceRange 3 exampleStore 0 ⟨some 1⟩ 1 ⟨some 2⟩ ⟨none⟩ = .ok s' ∧
      Rep s' 0 [0, 2, 3, 1] [1, 3, 4, 2] ∧ Rep s' 1 [] [] ∧ size s' 0 = 4 ∧ size s' 1 = 0 :=
  ⟨by decide, by decide,
    (splice_range_moves_block exampleStore 0 1 [0, 1] [2, 3] [1, 2] [3, 4] 1 0 2 3
      (by decide) (by decide) (by decide) (by decide) (by decide) (by decide) (by decide)
      (by decide) (by decide)).imp fun _ h => ⟨h.1, h.2.1, h.2.2.1, h.2.2.2.1, h.2.2.2.2.2⟩⟩

/-- C2: single-element splice between distinct well-formed lists. With `pos` the node of `A`
at index `i` (or the end sentinel when `A` is empty) and `it` the node `x` of `B` at index `j`
holding `y`, the call returns with `A == A[0..i) ++ [B[j]] ++ A[i..)` of size `|A| + 1` and
`B` equal to `B` with index `j` removed, of size `|B| - 1`, all other elements keeping their
order; and for `A = [1,2]`, `B = [3,4]`, `A.splice(A.begin(), B, B.begin())` gives
`A = [3,1,2]`, `B = [4]`, `A.size() == 3`, `B.size() == 1`. -/
theorem splice_one_moves_element (s : Store T) (A B : Nat) (as bs : List Nat) (xs ys : List T)
    (i j x : Nat) (y : T)
    (hA : Rep s A as xs) (hB : Rep s B bs ys) (hAB : A ≠ B) (hdisj : ∀ a ∈ as, a ∉ bs)
    (hi : i < as.length ∨ as = []) (hx : bs[j]? = some x) (hy : ys[j]? = some y)
    (hsz : as.length + 1 < UINT_SIZE) :
    (∃ s', spliceOne s A ⟨as[i]?⟩ B ⟨bs[j]?⟩ = .ok s' ∧
      Rep s' A (as.take i ++ x :: as.drop i) (xs.take i ++ y :: xs.drop i) ∧
      Rep s' B (bs.eraseIdx j) (ys.eraseIdx j) ∧
      size s' A = size s A + 1 ∧ 0 < size s B ∧ size s' B = size s B - 1) ∧
    (do
      let s' ← spliceOne exampleStore 0 (begin exampleStore 0) 1 (begin exampleStore 1)
      pure (elements 4 s' 0, elements 4 s' 1, size s' 0, size s' 1)) =
      .ok (.ok [3, 1, 2], .ok [4], 3, 1) := by
  refine ⟨?_, rfl⟩
  obtain ⟨hLA, hsA, hltA, hdA⟩ := hA
  obtain ⟨hLB, hsB, hltB, hdB⟩ := hB
  have hj : j < bs.length := by
    by_contra h
    rw [List.getElem?_eq_none (by omega)] at hx; cases hx
  have hxj : bs[j] = x := by
    rw [List.getElem?_eq_getElem hj] at hx; exact Option.some.inj hx
  have hsplitB := split_at_index bs j hj
  rw [hxj] at hsplitB
  have hLB' : Linked s B (bs.take j ++ x :: bs.drop (j + 1)) := hsplitB ▸ hLB
  have hdisj' : ∀ a ∈ as, a ∉ bs.take j ++ x :: bs.drop (j + 1) := hsplitB ▸ hdisj
  have hlen : as.length = xs.length := by simpa using congrArg List.length hdA
  have hlenB : bs.length = ys.length := by simpa using congrArg List.length hdB
  have hdata : ∀ (s' : Store T), (∀ a, dataAt s' a = dataAt s a) →
      (as.take i ++ x :: as.drop i).map (dataAt s') = (xs.take i ++ y :: xs.drop i).map some ∧
      (bs.eraseIdx j).map (dataAt s') = (ys.eraseIdx j).map some := by
    intro s' hd
    have : dataAt s' = dataAt s := funext hd
    have hxy : dataAt s x = some y := by
      have := congrArg (fun l => l[j]?) hdB
      simp only [List.getElem?_map, hx, hy, Option.map_some'] at this
      exact Option.some.inj this
    rw [this]
    simp only [List.map_append, List.map_cons, List.map_take, List.map_drop,
      List.eraseIdx_eq_take_drop_succ, hdA, hdB, hxy]
    exact ⟨trivial, trivial⟩
  have herase : bs.eraseIdx j = bs.take j ++ bs.drop (j + 1) :=
    List.eraseIdx_eq_take_drop_succ bs j
  rw [hx]
  rcases hi with hi | hi
  · rw [List.getElem?_eq_getElem hi]
    have hsplitA := split_at_index as i hi
    have hdrop : as.drop i = as[i] :: as.drop (i + 1) := List.drop_eq_getElem_cons hi
    obtain ⟨s', hrun, hA', hB', hsA', hsB', _, _, _, hd⟩ :=
      spliceOne_node_spec s A B (as.take i) (as.drop (i + 1)) (bs.take j) (bs.drop (j + 1))
        as[i] x (hsplitA ▸ hLA) hLB' hAB (hsplitA ▸ hdisj')
    rw [← hdrop] at hA'
    rw [← herase] at hB'
    have e1 : (s'.lists A).size_ = (s.lists A).size_ + 1 := by
      rw [hsA', hsA, uint_inc hsz]
    have e2 : (s'.lists B).size_ = (s.lists B).size_ - 1 := by
      rw [hsB', hsB, uint_dec (by omega) hltB]
    have hel : (bs.eraseIdx j).length = bs.length - 1 := by
      rw [List.length_eraseIdx, if_pos hj]
    refine ⟨s', hrun, ⟨hA', ?_, ?_, (hdata s' hd).1⟩, ⟨hB', ?_, ?_, (hdata s' hd).2⟩,
      e1, by unfold size; omega, e2⟩
    · rw [e1, hsA]; simp; omega
    · simp; omega
    · rw [e2, hsB, hel]
    · rw [hel]; omega
  · subst hi
    have hsz0 : (s.lists A).size_ = 0 := by rw [hsA]; rfl
    obtain ⟨s', hrun, hA', hB', hsA', hsB', _, _, _, hd⟩ :=
      spliceOne_end_spec s A B (bs.take j) (bs.drop (j + 1)) x hsz0 hLB' hAB
    rw [← herase] at hB'
    have e1 : (s'.lists A).size_ = (s.lists A).size_ + 1 := by
      rw [hsA', hsA, uint_inc hsz]
    have e2 : (s'.lists B).size_ = (s.lists B).size_ - 1 := by
      rw [hsB', hsB, uint_dec (by omega) hltB]
    have hel : (bs.eraseIdx j).length = bs.length - 1 := by
      rw [List.length_eraseIdx, if_pos hj]
    have hA'' : Linked s' A ([].take i ++ x :: [].drop i) := by simpa using hA'
    refine ⟨s', by simpa using hrun, ⟨hA'', ?_, ?_, (hdata s' hd).1⟩,
      ⟨hB', ?_, ?_, (hdata s' hd).2⟩, e1, by unfold size; omega, e2⟩
    · rw [e1, hsA]; simp
    · simp; exact hsz
    · rw [e2, hsB, hel]
    · rw [hel]; omega

theorem splice_one_moves_element_witness :
    Rep exampleStore 0 [0, 1] [1, 2] ∧ Rep exampleStore 1 [2, 3] [3, 4] ∧
    ∃ s', spliceOne exampleStore 0 ⟨some 1⟩ 1 ⟨some 3⟩ = .ok s' ∧
      Rep s' 0 [0, 3, 1] [1, 4, 2] ∧ Rep s' 1 [2] [3] ∧ size s' 0 = 3 ∧ size s' 1 = 1 :=
  ⟨by decide, by decide,
    (splice_one_moves_element exampleStore 0 1 [0, 1] [2, 3] [1, 2] [3, 4] 1 1 3 4
      (by decide) (by decide) (by decide) (by decide) (by decide) rfl rfl
      (by decide)).1.imp fun _ h => ⟨h.1, h.2.1, h.2.2.1, h.2.2.2.1, h.2.2.2.2.2⟩⟩


/-- C1: whole-list splice between distinct well-formed lists. With `pos` the node of `A` at
index `i` (or the end sentinel when `A` is empty), `B` non-empty and no overflow of `A.size_`,
the call returns with `A == A[0..i) ++ B ++ A[i..)`, `A.size() == |A| + |B|`, and `B` empty
with `B.size() == 0`; with `pos == A.begin()` iterating `A` yields the elements of `B`
followed by those of `A`. -/
theorem splice_all_moves_list (s : Store T) (A B : Nat) (as bs : List Nat) (xs ys : List T)
    (i : Nat)
    (hA : Rep s A as xs) (hB : Rep s B bs ys) (hAB : A ≠ B) (hdisj : ∀ a ∈ as, a ∉ bs)
    (hne : bs ≠ []) (hi : i < as.length ∨ as = [])
    (hsz : as.length + bs.length < UINT_SIZE) :
    (∃ s', splice s A ⟨as[i]?⟩ B = .ok s' ∧
      Rep s' A (as.take i ++ (bs ++ as.drop i)) (xs.take i ++ (ys ++ xs.drop i)) ∧
      size s' A = xs.length + ys.length ∧
      Rep s' B [] [] ∧ size s' B = 0 ∧ isEmpty s' B = true) ∧
    (∃ s', splice s A (begin s A) B = .ok s' ∧
      elements (xs.length + ys.length + 1) s' A = .ok (ys ++ xs)) := by
  have main : ∀ i, (i < as.length ∨ as = []) → ∃ s', splice s A ⟨as[i]?⟩ B = .ok s' ∧
      Rep s' A (as.take i ++ (bs ++ as.drop i)) (xs.take i ++ (ys ++ xs.drop i)) ∧
      size s' A = xs.length + ys.length ∧
      Rep s' B [] [] ∧ size s' B = 0 ∧ isEmpty s' B = true := by
    intro i hi
    obtain ⟨hLA, hsA, hltA, hdA⟩ := hA
    obtain ⟨hLB, hsB, hltB, hdB⟩ := hB
    have hlen : as.length = xs.length := by simpa using congrArg List.length hdA
    have hlenB : bs.length = ys.length := by simpa using congrArg List.length hdB
    have hdata : ∀ (s' : Store T), (∀ a, dataAt s' a = dataAt s a) →
        (as.take i ++ (bs ++ as.drop i)).map (dataAt s') =
          (xs.take i ++ (ys ++ xs.drop i)).map some := by
      intro s' hd
      have : dataAt s' = dataAt s := funext hd
      rw [this]
      simp only [List.map_append, List.map_take, List.map_drop, hdA, hdB]
    have hlenR : (as.take i ++ (bs ++ as.drop i)).length = as.length + bs.length := by
      simp; omega
    rcases hi with hi | hi
    · rw [List.getElem?_eq_getElem hi]
      have hsplitA := split_at_index as i hi
      have hdrop : as.drop i = as[i] :: as.drop (i + 1) := List.drop_eq_getElem_cons hi
      obtain ⟨s', hrun, hA', hB', hsA', hsB', _, _, _, hd⟩ :=
        splice_node_spec s A B (as.take i) (as.drop (i + 1)) bs as[i] (hsplitA ▸ hLA) hLB hAB
          (hsplitA ▸ hdisj) hne
      rw [← hdrop] at hA'
      have e1 : (s'.lists A).size_ = as.length + bs.length := by
        rw [hsA', hsA, hsB, Nat.mod_eq_of_lt hsz]
      refine ⟨s', hrun, ⟨hA', ?_, ?_, hdata s' hd⟩, by unfold size; omega,
        ⟨hB', by simpa using hsB', by simp [UINT_SIZE], rfl⟩, hsB', (hB'.isEmpty_iff).2 rfl⟩
      · rw [e1, hlenR]
      · rw [hlenR]; exact hsz
    · subst hi
      have hsz0 : (s.lists A).size_ = 0 := by rw [hsA]; rfl
      obtain ⟨s', hrun, hA', hB', hsA', hsB', _, hn, _⟩ := splice_end_spec s A B bs hsz0 hLB hAB
      have e1 : (s'.lists A).size_ = bs.length := by
        rw [hsA', hsA, hsB]; simp
        exact Nat.mod_eq_of_lt (by simpa using hsz)
      have hA'' : Linked s' A ([].take i ++ (bs ++ [].drop i)) := by simpa using hA'
      refine ⟨s', by simpa using hrun, ⟨hA'', ?_, ?_, hdata s' (fun a => by simp [dataAt, hn])⟩,
        by unfold size; rw [e1]; simp at hlen; omega,
        ⟨hB', by simpa using hsB', by simp [UINT_SIZE], rfl⟩, hsB', (hB'.isEmpty_iff).2 rfl⟩
      · rw [e1]; simp
      · simpa using hsz
  refine ⟨main i hi, ?_⟩
  have h0 : 0 < as.length ∨ as = [] := by
    cases as with
    | nil => exact Or.inr rfl
    | cons a as => exact Or.inl (by simp)
  obtain ⟨s', hrun, hA', _⟩ := main 0 h0
  have hb : begin s A = ⟨as[0]?⟩ := by
    unfold begin
    rw [hA.1.head_eq, ← headPtr_drop as 0]; rfl
  refine ⟨s', by rw [hb]; exact hrun, ?_⟩
  have := hA'.elements (xs.length + ys.length + 1) (by simp; omega)
  simpa using this

theorem splice_all_moves_list_witness :
    Rep exampleStore 0 [0, 1] [1, 2] ∧ Rep exampleStore 1 [2, 3] [3, 4] ∧
    ∃ s', splice exampleStore 0 ⟨some 1⟩ 1 = .ok s' ∧
      Rep s' 0 [0, 2, 3, 1] [1, 3, 4, 2] ∧ size s' 0 = 4 ∧ Rep s' 1 [] [] :=
  ⟨by decide, by decide,
    (splice_all_moves_list exampleStore 0 1 [0, 1] [2, 3] [1, 2] [3, 4] 1
      (by decide) (by decide) (by decide) (by decide) (by decide) (by decide)
      (by decide)).1.imp fun _ h => ⟨h.1, h.2.1, h.2.2.1, h.2.2.2.1⟩⟩

/-- C4: on a well-formed non-empty destination `A`, each of the three splice variants called
with `pos` equal to the end sentinel of `A` returns the store it was given: the nodes and the
fields of every list, `A` and the source included, are untouched, whatever the source list,
the iterators `it`, `first`, `last` and the fuel. -/
theorem splice_end_guard (s : Store T) (A B : Nat) (as : List Nat) (xs : List T)
    (it first last : ListIterator) (fuel : Nat)
    (hA : Rep s A as xs) (hne : as ≠ []) :
    splice s A (end_ s A) B = .ok s ∧ spliceOne s A (end_ s A) B it = .ok s ∧
      spliceRange fuel s A (end_ s A) B first last = .ok s := by
  have hsz : 0 < (s.lists A).size_ := by
    rw [hA.2.1]
    exact List.length_pos.2 hne
  exact splice_guard s A B it first last fuel hsz

theorem splice_end_guard_witness :
    Rep exampleStore 0 [0, 1] [1, 2] ∧
    splice exampleStore 0 (end_ exampleStore 0) 1 = .ok exampleStore ∧
    spliceOne exampleStore 0 (end_ exampleStore 0) 1 ⟨some 2⟩ = .ok exampleStore ∧
    spliceRange 0 exampleStore 0 (end_ exampleStore 0) 1 ⟨some 2⟩ ⟨none⟩ = .ok exampleStore :=
  ⟨by decide, splice_end_guard exampleStore 0 1 [0, 1] [1, 2] ⟨some 2⟩ ⟨some 2⟩ ⟨none⟩ 0
    (by decide) (by decide)⟩


/-- C5 (the code at the failing input): for `A = [1,2]`, `B = [3,4]` and the empty range
`[B.begin(), B.begin())`, the range splice at `A.begin()` is not a no-op: it moves the node
holding 3 into `A`, and leaves `size()` of both lists at 2, so that `A` iterates as `[3,1,2]`
with `size() == 2` and `B` iterates as `[4]` with `size() == 2`. -/
theorem splice_empty_range_not_noop :
    (do
      let s' ← spliceRange 1 exampleStore 0 (begin exampleStore 0) 1 (begin exampleStore 1)
        (begin exampleStore 1)
      pure (elements 4 s' 0, size s' 0, elements 4 s' 1, size s' 1)) =
      .ok (.ok [3, 1, 2], 2, .ok [4], 2) ∧
    (elements 4 exampleStore 0, size exampleStore 0, elements 4 exampleStore 1,
      size exampleStore 1) = (.ok [1, 2], 2, .ok [3, 4], 2) :=
  ⟨rfl, rfl⟩

/-- C6 (the code at the failing input): starting from empty lists, `pushBack` of 1, 2 onto `A`
and of 3, 4 onto `B`, followed by `A.splice(A.begin(), B, B.begin(), B.begin())`, reaches a
state in which `A` has the three nodes `[3,1,2]` but `size() == 2`, and `B` has the single node
`[4]` but `size() == 2`, where `head == tail` for `B`. -/
theorem size_cache_broken_by_empty_range :
    (do
      let s ← pushBack (Store.empty : Store Nat) 0 1
      let s ← pushBack s 0 2
      let s ← pushBack s 1 3
      let s ← pushBack s 1 4
      let s ← spliceRange 1 s 0 (begin s 0) 1 (begin s 1) (begin s 1)
      pure (elements 4 s 0, size s 0, elements 4 s 1, size s 1,
        decide ((s.lists 1).head_ = (s.lists 1).tail_))) =
      .ok (.ok [3, 1, 2], 2, .ok [4], 2, true) :=
  rfl




/-! ## Two-way consistency of the whole store -/

theorem walkNext_seg {s : Store T} {prev p : Option Nat} {ns : List Nat}
    (h : Seg s.nodes prev p ns none) : walkNext (ns.length + 1) s p = .ok ns := by
  induction ns generalizing prev p with
  | nil =>
    have hp : p = none := h
    simp [walkNext, hp]
  | cons a rest ih =>
    obtain ⟨hp, hprev, hrest⟩ := h
    obtain ⟨n, hn⟩ : ∃ n, s.nodes a = some n := by
      cases hm : s.nodes a with
      | none => simp [hm] at hprev
      | some n => exact ⟨n, rfl⟩
    simp only [hn, Option.some_bind] at hrest
    rw [List.length_cons, hp]
    unfold walkNext
    simp only [Store.load_some hn, ok_bind, ih hrest]
    rfl

/-- Walking backwards over a chain, from its last node. -/
theorem walkPrev_seg {s : Store T} {p nxt : Option Nat} {ns : List Nat}
    (h : Seg s.nodes none p ns nxt) :
    walkPrev (ns.length + 1) s (lastPtr none ns) = .ok ns.reverse := by
  induction ns using List.reverseRecOn generalizing nxt with
  | nil => simp [walkPrev]
  | append_singleton xs a ih =>
    rw [seg_append] at h
    obtain ⟨h1, h2⟩ := h
    obtain ⟨_, hprev, _⟩ := h2
    obtain ⟨n, hn⟩ : ∃ n, s.nodes a = some n := by
      cases hm : s.nodes a with
      | none => simp [hm] at hprev
      | some n => exact ⟨n, rfl⟩
    simp only [hn, Option.map_some', Option.some.injEq] at hprev
    have := ih h1
    rw [lastPtr_snoc, List.length_append, List.length_singleton]
    unfold walkPrev
    simp only [Store.load_some hn, ok_bind, hprev, this]
    simp [pure, Except.pure]

theorem Linked.mirror {s : Store T} {L : Nat} {ns : List Nat} (h : Linked s L ns) {a : Nat}
    (ha : a ∈ ns) {n : ListNode T} (hn : s.nodes a = some n) :
    (∀ b, n.next_ = some b → ∃ k, s.nodes b = some k ∧ k.previous_ = some a) ∧
    (∀ b, n.previous_ = some b → ∃ k, s.nodes b = some k ∧ k.next_ = some a) := by
  obtain ⟨pre, post, rfl⟩ := List.append_of_mem ha
  obtain ⟨n', hn', hp, hx, _, _⟩ := seg_split h.1
  rw [hn] at hn'
  cases hn'
  constructor
  · intro b hb
    rw [hb] at hx
    cases post with
    | nil => cases hx
    | cons c post' =>
      simp only [headPtr_cons, Option.some.injEq] at hx
      subst hx
      have h' : Seg s.nodes none (s.lists L).head_ ((pre ++ [a]) ++ b :: post') none := by
        rw [List.append_assoc]; exact h.1
      obtain ⟨k, hk, hkp, _⟩ := seg_split h'
      exact ⟨k, hk, by rw [hkp, lastPtr_snoc]⟩
  · intro b hb
    rw [hb] at hp
    rcases List.eq_nil_or_concat pre with rfl | ⟨pre', c, rfl⟩
    · cases hp
    · rw [List.concat_eq_append, lastPtr_snoc] at hp
      have hbc : b = c := Option.some.inj hp
      subst hbc
      have h' : Seg s.nodes none (s.lists L).head_ (pre' ++ b :: (a :: post)) none := by
        have := h.1
        rw [List.concat_eq_append, List.append_assoc] at this
        exact this
      obtain ⟨k, hk, _, hkn, _⟩ := seg_split h'
      exact ⟨k, hk, by rw [hkn]; rfl⟩

/-- A linked list has the link symmetry of the data model. -/
theorem Linked.linkSymmetric {s : Store T} {L : Nat} {ns : List Nat} (h : Linked s L ns) :
    LinkSymmetric s L := by
  refine ⟨?_, ?_, ns, walkNext_seg h.1, ?_, ?_⟩
  · intro a ha
    rw [h.head_eq] at ha
    have := seg_head_prev h.1 ha
    cases hm : s.nodes a with
    | none => simp [hm] at this
    | some n => exact ⟨n, rfl, by simpa [hm] using this⟩
  · intro a ha
    rw [h.tail_eq] at ha
    have := seg_last_next h.1 ha
    obtain ⟨n, hn⟩ := h.alloc (lastPtr_none_mem ha)
    exact ⟨n, hn, by simpa [hn] using this⟩
  · rw [h.tail_eq]; exact walkPrev_seg h.1
  · intro a ha n hn
    exact h.mirror ha hn

/-- Frame rule for a whole list: a call that leaves `head_` and `tail_` of `L` and the links of
its nodes alone leaves `L` linked. -/
theorem Linked.frame {s s' : Store T} {L : Nat} {ns : List Nat} (h : Linked s L ns)
    (hh : (s'.lists L).head_ = (s.lists L).head_) (ht : (s'.lists L).tail_ = (s.lists L).tail_)
    (hn : ∀ a ∈ ns, s'.nodes a = s.nodes a) : Linked s' L ns := by
  refine ⟨?_, by rw [ht]; exact h.2⟩
  rw [hh]
  exact seg_congr h.1 (fun a ha => by rw [hn a ha]) (fun a ha => by rw [hn a ha])

theorem Store.FreshOk.new {s : Store T} (hf : s.FreshOk) (n : ListNode T) :
    (s.new n).1.FreshOk := by
  intro a ha
  have h1 : s.fresh + 1 ≤ a := ha
  show (if a = s.fresh then some n else s.nodes a) = none
  rw [if_neg (by omega)]
  exact hf a (by omega)

theorem Store.FreshOk.of_data {s s' : Store T} (hf : s.FreshOk) (h1 : s'.fresh = s.fresh)
    (h2 : ∀ a, dataAt s' a = dataAt s a) : s'.FreshOk :=
  hf.of_eq h1 (fun a ha => by
    have := h2 a
    rw [dataAt_eq_none.2 ha] at this
    exact dataAt_eq_none.1 this)

/-- Insertion after the node `x` of a linked list. -/
theorem insertAfterNode_spec (s : Store T) (L : Nat) (pre post : List Nat) (x : Nat) (v : T)
    (hL : Linked s L (pre ++ x :: post)) (hf : s.FreshOk) :
    ∃ s', insertAfterNode s L (some x) v = .ok (s', some s.fresh) ∧
      Linked s' L (pre ++ x :: s.fresh :: post) ∧
      (s'.lists L).size_ = ((s.lists L).size_ + 1) % UINT_SIZE ∧
      s'.fresh = s.fresh + 1 ∧ s'.FreshOk ∧
      (∀ K, K ≠ L → s'.lists K = s.lists K) ∧
      (∀ a, a ∉ pre ++ x :: post → a ≠ s.fresh → s'.nodes a = s.nodes a) ∧
      (∀ a, a ≠ s.fresh → dataAt s' a = dataAt s a) ∧ dataAt s' s.fresh = some v := by
  have hnd := hL.nodup
  have hfresh : s.fresh ∉ pre ++ x :: post := hf.not_mem hL
  obtain ⟨n, hn, hnp, hnn, hpre, hpost⟩ := seg_split hL.1
  have hxm : x ∈ pre ++ x :: post := by simp
  have hxf : x ≠ s.fresh := fun (e : x = s.fresh) => hfresh (e ▸ hxm)
  have hL' : Linked s L ((pre ++ [x]) ++ post) := by
    rw [List.append_assoc]; exact hL
  have hnd' : ((pre ++ [x]) ++ post).Nodup := by
    rw [List.append_assoc]; exact hnd
  have hpre' : Seg s.nodes none (s.lists L).head_ (pre ++ [x]) (headPtr post none) :=
    ((seg_append none _ none (pre ++ [x]) post).1 hL'.1).1
  have hfresh' : s.fresh ∉ pre ++ [x] ++ post := by
    rw [List.append_assoc]; exact hfresh
  have hx_post : x ∉ post := (List.nodup_cons.1 (List.nodup_append.1 hnd).2.1).1
  -- the store after `new`
  have h1n : ∀ b, ((s.new ⟨v, some x, n.next_⟩).1).nodes b =
      if b = s.fresh then some ⟨v, some x, n.next_⟩ else s.nodes b := fun _ => rfl
  have hx1 : ((s.new ⟨v, some x, n.next_⟩).1).nodes x = some n := by
    rw [h1n, if_neg hxf, hn]
  obtain ⟨s2, e2, f2, p2, n2, d2, r2, l2⟩ := step_relinkPrev (s.new ⟨v, some x, n.next_⟩).1 L
    n.next_ (some s.fresh) (by
      intro a ha
      rw [hnn] at ha
      have ham : a ∈ pre ++ x :: post :=
        List.mem_append_right _ (List.mem_cons_of_mem _ (headPtr_mem ha))
      rw [h1n, if_neg (fun (e : a = s.fresh) => hfresh (e ▸ ham))]
      exact hL.alloc' ham)
  obtain ⟨s3, e3, l3, f3, p3, n3, d3, r3⟩ := s2.setNext_ok x (some s.fresh)
    (alloc_of_dataAt (d2 x) (by rw [hx1]; simp))
  have hnext_ne : some s.fresh ≠ n.next_ := by
    rw [hnn]; intro h
    exact hfresh (List.mem_append_right _ (List.mem_cons_of_mem _ (headPtr_mem h.symm)))
  have hlists : ∀ K, (s3.incSize L).lists K =
      if K = L then ⟨((s.lists L).size_ + 1) % UINT_SIZE, (s.lists L).head_,
        if n.next_ = none then some s.fresh else (s.lists L).tail_⟩ else s.lists K := by
    intro K
    simp only [Store.incSize, Store.setSize, Store.setList_lists, l3, l2, Store.new_lists]
    by_cases hK : K = L
    · subst hK
      by_cases hc : n.next_ = none <;> simp [hc]
    · simp [hK]
  refine ⟨s3.incSize L, ?_, ?_, ?_, ?_, ?_, ?_, ?_, ?_, ?_⟩
  · simp only [insertAfterNode]
    rw [if_neg (by simp), Store.load_some hn, ok_bind]
    simp only [Store.new_snd]
    rw [Store.load_some hx1, ok_bind, e2, ok_bind, e3, ok_bind]
    rfl
  · constructor
    · have := seg_join (w := (s3.incSize L).nodes) (b := [s.fresh]) hpre' hpost hnd'
        (by
          intro a ha
          have haf : a ≠ s.fresh := fun (e : a = s.fresh) => hfresh' (e ▸ ha)
          show (s3.nodes a).map (fun n => n.previous_) = _
          rw [p3, p2, h1n, if_neg haf, ← hnn]
          simp [lastPtr])
        (by
          intro a ha
          have haf : a ≠ s.fresh := fun (e : a = s.fresh) => hfresh' (e ▸ ha)
          show (s3.nodes a).bind (fun n => n.next_) = _
          rw [n3, n2, h1n, if_neg haf, lastPtr_snoc]
          by_cases h : a = x <;> simp [h])
        (by
          refine ⟨rfl, ?_, ?_⟩
          · show (s3.nodes s.fresh).map (fun n => n.previous_) = _
            rw [p3, p2, if_neg hnext_ne, h1n, lastPtr_snoc]; simp
          · show (s3.nodes s.fresh).bind (fun n => n.next_) = _
            rw [n3, if_neg (Ne.symm hxf), n2, h1n, hnn]; simp)
      rw [hlists]
      simp only [if_true]
      have hh : (s.lists L).head_ = headPtr (pre ++ [x] ++ ([s.fresh] ++ post)) none := by
        rw [hL.head_eq, headPtr_append, headPtr_append, headPtr_append, headPtr_append]
        cases pre <;> rfl
      rw [hh]
      have e : pre ++ x :: s.fresh :: post = pre ++ [x] ++ ([s.fresh] ++ post) := by simp
      rw [e]; exact this
    · rw [hlists]
      simp only [if_true]
      rw [hnn, hL.tail_eq]
      cases post with
      | nil => simp [lastPtr_append, lastPtr]
      | cons c post' => simp [lastPtr_append, lastPtr]
  · rw [hlists]; simp
  · show s3.fresh = s.fresh + 1
    rw [f3, f2]; rfl
  · refine (hf.new ⟨v, some x, n.next_⟩).of_data ?_ ?_
    · show s3.fresh = _
      rw [f3, f2]
    · intro a
      show dataAt s3 a = _
      rw [d3, d2]
  · intro K hK
    rw [hlists, if_neg hK]
  · intro a ha haf
    show s3.nodes a = s.nodes a
    rw [r3 a (fun e => ha (e ▸ hxm)), r2, h1n, if_neg haf]
    rw [hnn]; intro h
    exact ha (List.mem_append_right _ (List.mem_cons_of_mem _ (headPtr_mem h.symm)))
  · intro a haf
    show dataAt s3 a = dataAt s a
    rw [d3, d2]
    simp [dataAt, h1n, haf]
  · show dataAt s3 s.fresh = some v
    rw [d3, d2]
    simp [dataAt, h1n]

/-- Insertion before the node `x` of a linked list. -/
theorem insertBeforeNode_spec (s : Store T) (L : Nat) (pre post : List Nat) (x : Nat) (v : T)
    (hL : Linked s L (pre ++ x :: post)) (hf : s.FreshOk) :
    ∃ s', insertBeforeNode s L (some x) v = .ok (s', some s.fresh) ∧
      Linked s' L (pre ++ s.fresh :: x :: post) ∧
      (s'.lists L).size_ = ((s.lists L).size_ + 1) % UINT_SIZE ∧
      s'.fresh = s.fresh + 1 ∧ s'.FreshOk ∧
      (∀ K, K ≠ L → s'.lists K = s.lists K) ∧
      (∀ a, a ∉ pre ++ x :: post → a ≠ s.fresh → s'.nodes a = s.nodes a) ∧
      (∀ a, a ≠ s.fresh → dataAt s' a = dataAt s a) ∧ dataAt s' s.fresh = some v := by
  have hnd := hL.nodup
  have hfresh : s.fresh ∉ pre ++ x :: post := hf.not_mem hL
  obtain ⟨n, hn, hnp, hnn, hpre, hpost⟩ := seg_split hL.1
  have hxm : x ∈ pre ++ x :: post := by simp
  have hxf : x ≠ s.fresh := fun (e : x = s.fresh) => hfresh (e ▸ hxm)
  have hpostA : Seg s.nodes (lastPtr none pre) (some x) (x :: post) none :=
    ((seg_append none _ none pre (x :: post)).1 hL.1).2
  have h1n : ∀ b, ((s.new ⟨v, n.previous_, some x⟩).1).nodes b =
      if b = s.fresh then some ⟨v, n.previous_, some x⟩ else s.nodes b := fun _ => rfl
  have hx1 : ((s.new ⟨v, n.previous_, some x⟩).1).nodes x = some n := by
    rw [h1n, if_neg hxf, hn]
  have hprev_mem : ∀ a, some a = n.previous_ → a ∈ pre ++ x :: post := fun a h => by
    rw [hnp] at h
    exact List.mem_append_left _ (lastPtr_none_mem h.symm)
  obtain ⟨s2, e2, f2, p2, n2, d2, r2, l2⟩ := step_relinkNext (s.new ⟨v, n.previous_, some x⟩).1 L
    n.previous_ (some s.fresh) (by
      intro a ha
      have ham := hprev_mem a ha.symm
      rw [h1n, if_neg (fun (e : a = s.fresh) => hfresh (e ▸ ham))]
      exact hL.alloc' ham)
  obtain ⟨s3, e3, l3, f3, p3, n3, d3, r3⟩ := s2.setPrevious_ok x (some s.fresh)
    (alloc_of_dataAt (d2 x) (by rw [hx1]; simp))
  have hprev_ne : some s.fresh ≠ n.previous_ := fun h => hfresh (hprev_mem _ h)
  have hlists : ∀ K, (s3.incSize L).lists K =
      if K = L then ⟨((s.lists L).size_ + 1) % UINT_SIZE,
        if n.previous_ = none then some s.fresh else (s.lists L).head_, (s.lists L).tail_⟩
      else s.lists K := by
    intro K
    simp only [Store.incSize, Store.setSize, Store.setList_lists, l3, l2, Store.new_lists]
    by_cases hK : K = L
    · subst hK
      by_cases hc : n.previous_ = none <;> simp [hc]
    · simp [hK]
  refine ⟨s3.incSize L, ?_, ?_, ?_, ?_, ?_, ?_, ?_, ?_, ?_⟩
  · simp only [insertBeforeNode]
    rw [if_neg (by simp), Store.load_some hn, ok_bind]
    simp only [Store.new_snd]
    rw [Store.load_some hx1, ok_bind, e2, ok_bind, e3, ok_bind]
    rfl
  · constructor
    · have := seg_join (w := (s3.incSize L).nodes) (b := [s.fresh]) hpre hpostA hnd
        (by
          intro a ha
          have haf : a ≠ s.fresh := fun (e : a = s.fresh) => hfresh (e ▸ ha)
          show (s3.nodes a).map (fun n => n.previous_) = _
          rw [p3, p2, h1n, if_neg haf]
          by_cases h : a = x <;> simp [h, lastPtr])
        (by
          intro a ha
          have haf : a ≠ s.fresh := fun (e : a = s.fresh) => hfresh (e ▸ ha)
          show (s3.nodes a).bind (fun n => n.next_) = _
          rw [n3, n2, h1n, if_neg haf, hnp]
          rfl)
        (by
          refine ⟨rfl, ?_, ?_⟩
          · show (s3.nodes s.fresh).map (fun n => n.previous_) = _
            rw [p3, if_neg (Ne.symm hxf), p2, h1n, hnp]; simp
          · show (s3.nodes s.fresh).bind (fun n => n.next_) = _
            rw [n3, n2, if_neg hprev_ne, h1n]; simp)
      rw [hlists]
      simp only [if_true]
      have hj := headPtr_join (q := [s.fresh] ++ x :: post) (hL.head_eq.trans
        (headPtr_append pre (x :: post) none))
      rw [← hnp] at hj
      have e : pre ++ s.fresh :: x :: post = pre ++ ([s.fresh] ++ x :: post) := by simp
      rw [e]
      show Seg (s3.incSize L).nodes none
        (if n.previous_ = none then headPtr ([s.fresh] ++ x :: post) none else (s.lists L).head_) _ none
      rw [hj]; exact this
    · rw [hlists]
      simp only [if_true]
      rw [hL.tail_eq]
      simp [lastPtr_append, lastPtr]
  · rw [hlists]; simp
  · show s3.fresh = s.fresh + 1
    rw [f3, f2]; rfl
  · refine (hf.new ⟨v, n.previous_, some x⟩).of_data ?_ ?_
    · show s3.fresh = _
      rw [f3, f2]
    · intro a
      show dataAt s3 a = _
      rw [d3, d2]
  · intro K hK
    rw [hlists, if_neg hK]
  · intro a ha haf
    show s3.nodes a = s.nodes a
    rw [r3 a (fun (e : a = x) => ha (e ▸ hxm)), r2, h1n, if_neg haf]
    intro h
    exact ha (hprev_mem a h)
  · intro a haf
    show dataAt s3 a = dataAt s a
    rw [d3, d2]
    simp [dataAt, h1n, haf]
  · show dataAt s3 s.fresh = some v
    rw [d3, d2]
    simp [dataAt, h1n]

/-- The two insertions at the end sentinel of an empty list are `pushBack` and `pushFront`. -/
theorem insertNode_empty (s : Store T) (L : Nat) (v : T) (hL : Linked s L []) (hf : s.FreshOk) :
    (∃ s', insertAfterNode s L none v = .ok (s', some s.fresh) ∧ pushBack s L v = .ok s') ∧
    (∃ s', insertBeforeNode s L none v = .ok (s', some s.fresh) ∧ pushFront s L v = .ok s') := by
  have hh : (s.lists L).head_ = none := hL.head_eq
  have ht : (s.lists L).tail_ = none := hL.tail_eq
  constructor
  · obtain ⟨s', hrun, hL', _⟩ := pushBack_spec s L v [] hL hf
    refine ⟨s', ?_, hrun⟩
    simp only [insertAfterNode]
    rw [if_pos ⟨hh, trivial⟩, hrun, ok_bind]
    have := hL'.head_eq
    simp only [List.nil_append, headPtr_cons] at this
    rw [this]; rfl
  · obtain ⟨s', hrun, hL', _⟩ := pushFront_spec s L v [] hL hf
    refine ⟨s', ?_, hrun⟩
    simp only [insertBeforeNode]
    rw [if_pos ⟨ht, trivial⟩, hrun, ok_bind]
    have := hL'.tail_eq
    simp only [lastPtr, lastPtr_nil] at this
    rw [this]; rfl

/-! ## Insertion of a range -/

theorem seg_lt_fresh {s : Store T} (hf : s.FreshOk) {pv p q : Option Nat} {rs : List Nat}
    (h : Seg s.nodes pv p rs q) {a : Nat} (ha : a ∈ rs) : a < s.fresh := by
  by_contra hlt
  obtain ⟨n, hn⟩ := seg_alloc h ha
  rw [hf a (by omega)] at hn
  cases hn

/-- The loop of `insert`, entered at a node `x` of the destination: the payloads of the source
range `rs` are copied, in order, into new nodes placed after `x`. -/
theorem insertLoop_spec (L : Nat) (rs : List Nat) :
    ∀ (s : Store T) (pre post : List Nat) (x : Nat) (pv p q : Option Nat) (fuel : Nat),
      Linked s L (pre ++ x :: post) → s.FreshOk → Seg s.nodes pv p rs q →
      (∀ a ∈ rs, some a ≠ q) → (∀ a ∈ rs, a ∉ pre ++ x :: post) → rs.length < fuel →
      ∃ s', insertLoop fuel s L (some x) ⟨p⟩ ⟨q⟩ =
          .ok (s', lastPtr (some x) (List.range' s.fresh rs.length)) ∧
        Linked s' L (pre ++ x :: (List.range' s.fresh rs.length ++ post)) ∧
        (List.range' s.fresh rs.length).map (dataAt s') = rs.map (dataAt s) ∧
        s'.fresh = s.fresh + rs.length ∧ s'.FreshOk ∧
        (s'.lists L).size_ = (fun n => (n + 1) % UINT_SIZE)^[rs.length] (s.lists L).size_ ∧
        (∀ K, K ≠ L → s'.lists K = s.lists K) ∧
        (∀ a, a ∉ pre ++ x :: post → a < s.fresh → s'.nodes a = s.nodes a) ∧
        (∀ a, a < s.fresh → dataAt s' a = dataAt s a) := by
  induction rs with
  | nil =>
    intro s pre post x pv p q fuel hL hf hseg _ _ hfuel
    cases fuel with
    | zero => cases hfuel
    | succ fuel =>
      have hp : p = q := hseg
      exact ⟨s, by simp [insertLoop, hp], by simpa using hL, rfl, rfl, hf, rfl,
        fun _ _ => rfl, fun _ _ _ => rfl, fun _ _ => rfl⟩
  | cons r rest ih =>
    intro s pre post x pv p q fuel hL hf hseg hq hdisj hfuel
    cases fuel with
    | zero => cases hfuel
    | succ fuel =>
      obtain ⟨hp, hprev, hrest⟩ := hseg
      obtain ⟨nr, hnr⟩ : ∃ n, s.nodes r = some n := by
        cases hm : s.nodes r with
        | none => simp [hm] at hprev
        | some n => exact ⟨n, rfl⟩
      simp only [hnr, Option.some_bind] at hrest
      have hrm : r ∈ r :: rest := List.mem_cons_self _ _
      have hr_lt : r < s.fresh := by
        by_contra hlt
        rw [hf r (by omega)] at hnr; cases hnr
      have hrest_lt : ∀ a ∈ rest, a < s.fresh := fun a ha => seg_lt_fresh hf hrest ha
      have hne : (⟨p⟩ : ListIterator) ≠ ⟨q⟩ := by
        rw [hp]; intro e
        exact hq r hrm (by simpa using e)
      obtain ⟨s1, hrun1, hL1, hsz1, hfr1, hf1, hl1, hn1, hd1, hdnew⟩ :=
        insertAfterNode_spec s L pre post x nr.data_ hL hf
      have hr1 : s1.nodes r = some nr := by
        rw [hn1 r (hdisj r hrm) (by omega), hnr]
      have hL1' : Linked s1 L ((pre ++ [x]) ++ s.fresh :: post) := by
        rw [List.append_assoc]; exact hL1
      have hrest1 : Seg s1.nodes (some r) nr.next_ rest q := by
        refine seg_congr hrest ?_ ?_
        · intro a ha
          rw [hn1 a (hdisj a (List.mem_cons_of_mem _ ha)) (by have := hrest_lt a ha; omega)]
        · intro a ha
          rw [hn1 a (hdisj a (List.mem_cons_of_mem _ ha)) (by have := hrest_lt a ha; omega)]
      obtain ⟨s', hrun, hL', hdat, hfr, hf', hsz, hl, hn, hd⟩ :=
        ih s1 (pre ++ [x]) post s.fresh (some r) nr.next_ q fuel hL1' hf1 hrest1
          (fun a ha => hq a (List.mem_cons_of_mem _ ha))
          (by
            intro a ha hm
            have hlt := hrest_lt a ha
            rw [List.append_assoc] at hm
            rcases List.mem_append.1 hm with h | h
            · exact hdisj a (List.mem_cons_of_mem _ ha) (List.mem_append_left _ h)
            · rcases List.mem_cons.1 h with h | h
              · exact hdisj a (List.mem_cons_of_mem _ ha) (by simp [h])
              · rcases List.mem_cons.1 h with h | h
                · omega
                · exact hdisj a (List.mem_cons_of_mem _ ha)
                    (List.mem_append_right _ (List.mem_cons_of_mem _ h)))
          (by simpa using hfuel)
      rw [hfr1] at hrun hL' hdat hfr
      refine ⟨s', ?_, ?_, ?_, ?_, hf', ?_, ?_, ?_, ?_⟩
      · simp only [insertLoop]
        rw [if_neg hne]
        simp only [hp, ListIterator.deref, ListIterator.preInc, Store.load_some hnr, ok_bind,
          bind, Except.bind, pure, Except.pure, hrun1, Store.load_some hr1]
        rw [hrun]
        simp [List.range'_succ, lastPtr]
      · rw [List.length_cons, List.range'_succ]
        rw [List.append_assoc] at hL'
        simpa using hL'
      · rw [List.length_cons, List.range'_succ, List.map_cons, List.map_cons, hdat]
        congr 1
        · rw [hd s.fresh (by omega), hdnew]
          simp [dataAt, hnr]
        · refine List.map_congr_left ?_
          intro a ha
          exact hd1 a (by have := hrest_lt a ha; omega)
      · rw [hfr, List.length_cons]; omega
      · rw [hsz, hsz1, List.length_cons, Function.iterate_succ_apply]
      · intro K hK
        rw [hl K hK, hl1 K hK]
      · intro a ha hlt
        rw [hn a ?_ (by omega), hn1 a ha (by omega)]
        intro hm
        rw [List.append_assoc] at hm
        rcases List.mem_append.1 hm with h | h
        · exact ha (List.mem_append_left _ h)
        · rcases List.mem_cons.1 h with h | h
          · exact ha (by simp [h])
          · rcases List.mem_cons.1 h with h | h
            · omega
            · exact ha (List.mem_append_right _ (List.mem_cons_of_mem _ h))
      · intro a hlt
        rw [hd a (by omega), hd1 a (by omega)]

/-! ## Removal of a range -/

/-- The loop of `removeRange` deletes the nodes of the block it walks over and decrements
`size_` once per node. -/
theorem removeRangeLoop_spec (L : Nat) (blk : List Nat) :
    ∀ (s : Store T) (pv p q : Option Nat) (fuel : Nat),
      Seg s.nodes pv p blk q → blk.Nodup → (∀ a ∈ blk, some a ≠ q) → blk.length < fuel →
      ∃ s', removeRangeLoop fuel s L p q = .ok s' ∧
        (∀ a, s'.nodes a = if a ∈ blk then none else s.nodes a) ∧ s'.fresh = s.fresh ∧
        (∀ K, (s'.lists K).head_ = (s.lists K).head_ ∧ (s'.lists K).tail_ = (s.lists K).tail_ ∧
          (K ≠ L → (s'.lists K).size_ = (s.lists K).size_)) ∧
        (s'.lists L).size_ =
          (fun n => (n + UINT_SIZE - 1) % UINT_SIZE)^[blk.length] (s.lists L).size_ := by
  induction blk with
  | nil =>
    intro s pv p q fuel h _ _ hfuel
    cases fuel with
    | zero => cases hfuel
    | succ fuel =>
      have hp : p = q := h
      exact ⟨s, by simp [removeRangeLoop, hp], fun a => by simp, rfl,
        fun K => ⟨rfl, rfl, fun _ => rfl⟩, rfl⟩
  | cons c rest ih =>
    intro s pv p q fuel h hnd hq hfuel
    cases fuel with
    | zero => cases hfuel
    | succ fuel =>
      obtain ⟨hp, hprev, hrest⟩ := h
      obtain ⟨n, hn⟩ : ∃ n, s.nodes c = some n := by
        cases hm : s.nodes c with
        | none => simp [hm] at hprev
        | some n => exact ⟨n, rfl⟩
      simp only [hn, Option.some_bind] at hrest
      have hc : c ∉ rest := (List.nodup_cons.1 hnd).1
      have hne : p ≠ q := by
        rw [hp]; exact hq c (List.mem_cons_self _ _)
      have hrest1 : Seg (fun b => if b = c then none else s.nodes b) (some c) n.next_ rest q := by
        refine seg_congr hrest ?_ ?_
        · intro a ha
          have : a ≠ c := fun (e : a = c) => hc (e ▸ ha)
          simp [this]
        · intro a ha
          have : a ≠ c := fun (e : a = c) => hc (e ▸ ha)
          simp [this]
      obtain ⟨s', hrun, hnodes, hfr, hl, hsz⟩ :=
        ih (({ s with nodes := fun b => if b = c then none else s.nodes b } : Store T).decSize L)
          (some c) n.next_ q fuel hrest1 (List.nodup_cons.1 hnd).2
          (fun a ha => hq a (List.mem_cons_of_mem _ ha)) (by simpa using hfuel)
      refine ⟨s', ?_, ?_, ?_, ?_, ?_⟩
      · simp only [removeRangeLoop]
        rw [if_neg hne, hp, Store.load_some hn, ok_bind, Store.delete_some hn, ok_bind]
        exact hrun
      · intro a
        rw [hnodes a]
        by_cases h1 : a = c
        · subst h1
          simp [hc, Store.decSize, Store.setSize]
        · by_cases h2 : a ∈ rest
          · simp [h1, h2]
          · simp [h1, h2, Store.decSize, Store.setSize]
      · rw [hfr]; rfl
      · intro K
        obtain ⟨h1, h2, h3⟩ := hl K
        refine ⟨h1.trans ?_, h2.trans ?_, fun hK => (h3 hK).trans ?_⟩
        · simp only [Store.decSize, Store.setSize, Store.setList_lists]
          split <;> simp_all
        · simp only [Store.decSize, Store.setSize, Store.setList_lists]
          split <;> simp_all
        · simp [Store.decSize, Store.setSize, hK]
      · rw [hsz, List.length_cons, Function.iterate_succ_apply]
        simp [Store.decSize, Store.setSize]

/-- Decomposition of a chain around a possibly empty block. -/
theorem seg_split3 {m : Nat → Option (ListNode T)} {p : Option Nat} {pre blk post : List Nat}
    (h : Seg m none p (pre ++ (blk ++ post)) none) :
    Seg m none p pre (headPtr (blk ++ post) none) ∧
      Seg m (lastPtr none pre) (headPtr (blk ++ post) none) blk (headPtr post none) ∧
      Seg m (lastPtr (lastPtr none pre) blk) (headPtr post none) post none ∧
      Seg m (lastPtr none pre) (headPtr (blk ++ post) none) (blk ++ post) none := by
  have h0 := (seg_append none p none pre (blk ++ post)).1 h
  have h1 := (seg_append _ _ none blk post).1 h0.2
  exact ⟨h0.1, h1.1, h1.2, h0.2⟩

/-- Removal of the block `blk` between the positions `first` (its first node, or `last` when
the block is empty) and `last` (the node that follows it, or the end sentinel). -/
theorem removeRange_spec (s : Store T) (L : Nat) (pre blk post : List Nat) (fuel : Nat)
    (hL : Linked s L (pre ++ (blk ++ post))) (hfuel : blk.length < fuel) :
    ∃ s', removeRange fuel s L (headPtr (blk ++ post) none) (headPtr post none) =
        .ok (s', headPtr post none) ∧
      Linked s' L (pre ++ post) ∧
      (s'.lists L).size_ =
        (fun n => (n + UINT_SIZE - 1) % UINT_SIZE)^[blk.length] (s.lists L).size_ ∧
      s'.fresh = s.fresh ∧ (∀ a ∈ blk, s'.nodes a = none) ∧
      (∀ K, K ≠ L → s'.lists K = s.lists K) ∧
      (∀ a, a ∉ pre ++ (blk ++ post) → s'.nodes a = s.nodes a) ∧
      (∀ a, a ∉ blk → dataAt s' a = dataAt s a) := by
  have hnd := hL.nodup
  obtain ⟨hndPP, hndblk, hblk_out⟩ := nodup_block hnd
  obtain ⟨hpre, hblk, hpost, hbp⟩ := seg_split3 hL.1
  cases hfp : headPtr (blk ++ post) none with
  | none =>
    have hnil : blk ++ post = [] := headPtr_eq_none hfp
    have hb : blk = [] := (List.append_eq_nil.1 hnil).1
    have hpo : post = [] := (List.append_eq_nil.1 hnil).2
    subst hb hpo
    exact ⟨s, by simp [removeRange], by simpa using hL, rfl, rfl, fun a ha => by simp at ha,
      fun _ _ => rfl, fun _ _ => rfl, fun _ _ => rfl⟩
  | some f =>
    have hfm : f ∈ blk ++ post := headPtr_mem hfp
    have hfL : f ∈ pre ++ (blk ++ post) := List.mem_append_right _ hfm
    obtain ⟨fn, hfn⟩ := hL.alloc hfL
    have hfprev : fn.previous_ = lastPtr none pre := by
      have := seg_head_prev hbp hfp
      simpa [hfn] using this
    have hprev_mem : ∀ a, some a = fn.previous_ → a ∈ pre := fun a h => by
      rw [hfprev] at h; exact lastPtr_none_mem h.symm
    have hlast_mem : ∀ a, some a = headPtr post none → a ∈ post := fun a h =>
      headPtr_mem h.symm
    rw [hfp] at hblk
    obtain ⟨s0, hloop, h0n, h0f, h0l, h0s⟩ := removeRangeLoop_spec L blk s _ (some f)
      (headPtr post none) fuel hblk hndblk
      (fun a ha h => hblk_out a ha (List.mem_append_right _ (hlast_mem a h))) hfuel
    have h0keep : ∀ a, a ∉ blk → s0.nodes a = s.nodes a := fun a ha => by
      rw [h0n, if_neg ha]
    have hpre_nb : ∀ a, a ∈ pre → a ∉ blk := fun a ha hb =>
      hblk_out a hb (List.mem_append_left _ ha)
    have hpost_nb : ∀ a, a ∈ post → a ∉ blk := fun a ha hb =>
      hblk_out a hb (List.mem_append_right _ ha)
    obtain ⟨s1, e1, f1, p1, n1, d1, r1, l1⟩ := step_relinkNext s0 L fn.previous_
      (headPtr post none) (by
        intro a ha
        have := hprev_mem a ha.symm
        rw [h0keep a (hpre_nb a this)]
        exact hL.alloc' (List.mem_append_left _ this))
    obtain ⟨s2, e2, f2, p2, n2, d2, r2, l2⟩ := step_relinkPrev s1 L (headPtr post none)
      fn.previous_ (by
        intro a ha
        have := hlast_mem a ha.symm
        refine alloc_of_dataAt (d1 a) ?_
        rw [h0keep a (hpost_nb a this)]
        exact hL.alloc' (List.mem_append_right _ (List.mem_append_right _ this)))
    have hl2h : (s2.lists L).head_ =
        if fn.previous_ = none then headPtr post none else (s.lists L).head_ := by
      rw [l2, l1]
      by_cases h1 : fn.previous_ = none <;> by_cases h2 : headPtr post none = none <;>
        simp [h1, h2, (h0l L).1]
    have hl2t : (s2.lists L).tail_ =
        if headPtr post none = none then fn.previous_ else (s.lists L).tail_ := by
      rw [l2, l1]
      by_cases h1 : fn.previous_ = none <;> by_cases h2 : headPtr post none = none <;>
        simp [h1, h2, (h0l L).2.1]
    refine ⟨s2, ?_, ?_, ?_, ?_, ?_, ?_, ?_, ?_⟩
    · simp only [removeRange]
      rw [if_neg (by simp), Store.load_some hfn, ok_bind, hloop, ok_bind]
      simp only [ne_eq, ite_not]
      rw [e1, ok_bind, e2, ok_bind]
      rfl
    · constructor
      · have := seg_join (w := s2.nodes) (b := []) hpre hpost hndPP
          (by
            intro a ha
            have hab : a ∉ blk := fun hb => hblk_out a hb ha
            rw [p2, p1, h0keep a hab, hfprev]
            rfl)
          (by
            intro a ha
            have hab : a ∉ blk := fun hb => hblk_out a hb ha
            rw [n2, n1, h0keep a hab, hfprev]
            rfl)
          (by simp [Seg])
        rw [hl2h, hfprev, headPtr_join (seg_head hpre)]
        exact this
      · rw [hl2t, hfprev]
        refine lastPtr_join (e := lastPtr (lastPtr none pre) blk) ?_
        rw [hL.tail_eq, lastPtr_append, lastPtr_append]
    · rw [l2, l1]
      by_cases h1 : fn.previous_ = none <;> by_cases h2 : headPtr post none = none <;>
        simp [h1, h2, h0s]
    · rw [f2, f1, h0f]
    · intro a ha
      rw [r2, r1, h0n, if_pos ha]
      · intro h; exact hpre_nb a (hprev_mem a h) ha
      · intro h; exact hpost_nb a (hlast_mem a h) ha
    · intro K hK
      rw [l2, l1]
      obtain ⟨h1, h2, h3⟩ := h0l K
      have : s0.lists K = s.lists K := by
        cases hs0 : s0.lists K
        cases hs : s.lists K
        simp_all
      simp [hK, this]
    · intro a ha
      rw [r2, r1, h0keep a (fun hb => ha (List.mem_append_right _ (List.mem_append_left _ hb)))]
      · intro h; exact ha (List.mem_append_left _ (hprev_mem a h))
      · intro h
        exact ha (List.mem_append_right _ (List.mem_append_right _ (hlast_mem a h)))
    · intro a ha
      rw [d2, d1]
      simp [dataAt, h0keep a ha]

/-! ## Removal by value and by predicate -/

/-- The scan of `remove`: either no node of the part still to scan holds `v` and the store is
unchanged, or the first node holding `v` is removed with `removeNode`. -/
theorem removeLoop_spec [DecidableEq T] (s : Store T) (L : Nat) (v : T) (suffix : List Nat) :
    ∀ (scanned : List Nat) (fuel : Nat),
      Linked s L (scanned ++ suffix) → suffix.length < fuel →
      (∀ a ∈ scanned, dataAt s a ≠ some v) →
      ∃ s', removeLoop fuel s L (headPtr suffix none) v = .ok s' ∧
        (((∀ a ∈ scanned ++ suffix, dataAt s a ≠ some v) ∧ s' = s) ∨
          ∃ pre x post, scanned ++ suffix = pre ++ x :: post ∧
            (∀ a ∈ pre, dataAt s a ≠ some v) ∧ dataAt s x = some v ∧
            removeNode s L (some x) = .ok (s', headPtr post none)) := by
  induction suffix with
  | nil =>
    intro scanned fuel _ hfuel hsc
    cases fuel with
    | zero => cases hfuel
    | succ fuel =>
      exact ⟨s, by simp [removeLoop], Or.inl ⟨by simpa using hsc, rfl⟩⟩
  | cons c rest ih =>
    intro scanned fuel hL hfuel hsc
    cases fuel with
    | zero => cases hfuel
    | succ fuel =>
      obtain ⟨n, hn, _, hnn, _, _⟩ := seg_split hL.1
      by_cases hd : n.data_ = v
      · obtain ⟨s', hrun, _⟩ := removeNode_spec s L scanned rest c hL
        refine ⟨s', ?_, Or.inr ⟨scanned, c, rest, rfl, hsc, by simp [dataAt, hn, hd], hrun⟩⟩
        simp only [removeLoop, headPtr_cons]
        rw [if_neg (by simp), Store.load_some hn, ok_bind, if_pos hd, hrun, ok_bind]
        rfl
      · have hL' : Linked s L ((scanned ++ [c]) ++ rest) := by
          rw [List.append_assoc]; exact hL
        obtain ⟨s', hrun, hres⟩ := ih (scanned ++ [c]) fuel hL' (by simpa using hfuel) (by
          intro a ha
          rcases List.mem_append.1 ha with h | h
          · exact hsc a h
          · simp only [List.mem_singleton] at h
            subst h
            simp [dataAt, hn, hd])
        refine ⟨s', ?_, ?_⟩
        · simp only [removeLoop, headPtr_cons]
          rw [if_neg (by simp), Store.load_some hn, ok_bind, if_neg hd, hnn]
          exact hrun
        · simpa [List.append_assoc] using hres

/-- The loop of `removeIf`: the nodes whose payload satisfies the predicate are removed from
the part still to visit, the others stay in order. -/
theorem removeIfLoop_spec (pred : T → Bool) (L : Nat) (suffix : List Nat) :
    ∀ (s : Store T) (kept : List Nat) (fuel : Nat),
      Linked s L (kept ++ suffix) → suffix.length < fuel →
      ∃ s', removeIfLoop pred fuel s L ⟨headPtr suffix none⟩ = .ok s' ∧
        Linked s' L (kept ++ suffix.filter (fun a => !(dataAt s a).any pred)) ∧
        (s'.lists L).size_ = (fun n => (n + UINT_SIZE - 1) % UINT_SIZE)^[
          suffix.countP (fun a => (dataAt s a).any pred)] (s.lists L).size_ ∧
        s'.fresh = s.fresh ∧
        (∀ a ∈ suffix, (dataAt s a).any pred = true → s'.nodes a = none) ∧
        (∀ K, K ≠ L → s'.lists K = s.lists K) ∧
        (∀ a, a ∉ kept ++ suffix → s'.nodes a = s.nodes a) ∧
        (∀ a, (a ∈ suffix → (dataAt s a).any pred = false) → dataAt s' a = dataAt s a) := by
  induction suffix with
  | nil =>
    intro s kept fuel hL hfuel
    cases fuel with
    | zero => cases hfuel
    | succ fuel =>
      exact ⟨s, by simp [removeIfLoop, end_], by simpa using hL, rfl, rfl,
        fun a ha => by simp at ha, fun _ _ => rfl, fun _ _ => rfl, fun _ _ => rfl⟩
  | cons c rest ih =>
    intro s kept fuel hL hfuel
    cases fuel with
    | zero => cases hfuel
    | succ fuel =>
      have hnd := hL.nodup
      have hc_rest : c ∉ rest := (List.nodup_cons.1 (List.nodup_append.1 hnd).2.1).1
      have hc_kept : c ∉ kept := fun h =>
        (List.nodup_append.1 hnd).2.2 h (List.mem_cons_self _ _)
      obtain ⟨n, hn, _, hnn, _, _⟩ := seg_split hL.1
      have hdc : dataAt s c = some n.data_ := by simp [dataAt, hn]
      by_cases hp : pred n.data_ = true
      · obtain ⟨s1, hrun1, hL1, hsz1, hfr1, hx1, hl1, hn1, hd1⟩ :=
          removeNode_spec s L kept rest c hL
        obtain ⟨s', hrun, hL', hsz, hfr, hgone, hl, hnodes, hd⟩ :=
          ih s1 kept fuel hL1 (by simpa using hfuel)
        have hsame : ∀ a ∈ rest, dataAt s1 a = dataAt s a := fun a ha =>
          hd1 a (fun (e : a = c) => hc_rest (e ▸ ha))
        have hfilter : rest.filter (fun a => !(dataAt s1 a).any pred) =
            rest.filter (fun a => !(dataAt s a).any pred) :=
          List.filter_congr (fun a ha => by rw [hsame a ha])
        have hcount : rest.countP (fun a => (dataAt s1 a).any pred) =
            rest.countP (fun a => (dataAt s a).any pred) :=
          List.countP_congr (fun a ha => by rw [hsame a ha])
        refine ⟨s', ?_, ?_, ?_, ?_, ?_, ?_, ?_, ?_⟩
        · simp only [removeIfLoop, headPtr_cons, end_]
          rw [if_neg (by simp)]
          simp only [ListIterator.deref, Store.load_some hn, ok_bind, bind, Except.bind, pure,
            Except.pure, hp, if_true, erase, hrun1]
          exact hrun
        · rw [List.filter_cons, hdc]
          simp only [Option.any_some, hp, Bool.not_true]
          rw [← hfilter]; simpa using hL'
        · rw [hsz, hsz1, hcount, List.countP_cons, hdc]
          simp only [Option.any_some, hp, if_true]
          rw [Function.iterate_succ_apply]
        · rw [hfr, hfr1]
        · intro a ha hpa
          rcases List.mem_cons.1 ha with rfl | h
          · by_cases hin : a ∈ kept ++ rest
            · rcases List.mem_append.1 hin with h | h
              · exact absurd h hc_kept
              · exact absurd h hc_rest
            · rw [hnodes a hin, hx1]
          · exact hgone a h (by rw [hsame a h]; exact hpa)
        · intro K hK
          rw [hl K hK, hl1 K hK]
        · intro a ha
          rw [hnodes a (fun h => ha (by
            rcases List.mem_append.1 h with h | h
            · exact List.mem_append_left _ h
            · exact List.mem_append_right _ (List.mem_cons_of_mem _ h))), hn1 a ha]
        · intro a ha
          have hac : a ≠ c := by
            rintro rfl
            have := ha (List.mem_cons_self _ _)
            rw [hdc] at this
            simp [hp] at this
          rw [hd a (fun h => by rw [hsame a h]; exact ha (List.mem_cons_of_mem _ h)), hd1 a hac]
      · have hL' : Linked s L ((kept ++ [c]) ++ rest) := by
          rw [List.append_assoc]; exact hL
        obtain ⟨s', hrun, hLr, hsz, hfr, hgone, hl, hnodes, hd⟩ :=
          ih s (kept ++ [c]) fuel hL' (by simpa using hfuel)
        have hp' : pred n.data_ = false := by simpa using hp
        refine ⟨s', ?_, ?_, ?_, hfr, ?_, hl, ?_, ?_⟩
        · simp only [removeIfLoop, headPtr_cons, end_]
          rw [if_neg (by simp)]
          simp only [ListIterator.deref, ListIterator.preInc, Store.load_some hn, ok_bind, bind,
            Except.bind, pure, Except.pure, hp', hnn]
          exact hrun
        · rw [List.filter_cons, hdc]
          simp only [Option.any_some, hp', Bool.not_false, if_true]
          simpa [List.append_assoc] using hLr
        · rw [hsz, List.countP_cons, hdc]
          simp [hp']
        · intro a ha hpa
          rcases List.mem_cons.1 ha with rfl | h
          · rw [hdc] at hpa; simp [hp'] at hpa
          · exact hgone a h hpa
        · intro a ha
          exact hnodes a (by simpa [List.append_assoc] using ha)
        · intro a ha
          exact hd a (fun h => ha (List.mem_cons_of_mem _ h))

/-! ## Clearing and copying -/

/-- The loop of `clear`: every node of the chain is deleted and `head_` ends null. -/
theorem clearLoop_spec (L : Nat) (ns : List Nat) :
    ∀ (s : Store T) (pv : Option Nat) (fuel : Nat),
      Seg s.nodes pv (s.lists L).head_ ns none → ns.Nodup → ns.length < fuel →
      ∃ s', clearLoop fuel s L = .ok s' ∧
        (∀ a, s'.nodes a = if a ∈ ns then none else s.nodes a) ∧ s'.fresh = s.fresh ∧
        (s'.lists L).head_ = none ∧ (s'.lists L).tail_ = (s.lists L).tail_ ∧
        (s'.lists L).size_ = (s.lists L).size_ ∧ (∀ K, K ≠ L → s'.lists K = s.lists K) := by
  induction ns with
  | nil =>
    intro s pv fuel h _ hfuel
    cases fuel with
    | zero => cases hfuel
    | succ fuel =>
      have hh : (s.lists L).head_ = none := h
      exact ⟨s, by simp [clearLoop, hh], fun a => by simp, rfl, hh, rfl, rfl, fun _ _ => rfl⟩
  | cons c rest ih =>
    intro s pv fuel h hnd hfuel
    cases fuel with
    | zero => cases hfuel
    | succ fuel =>
      obtain ⟨hh, hprev, hrest⟩ := h
      obtain ⟨n, hn⟩ : ∃ n, s.nodes c = some n := by
        cases hm : s.nodes c with
        | none => simp [hm] at hprev
        | some n => exact ⟨n, rfl⟩
      simp only [hn, Option.some_bind] at hrest
      have hc : c ∉ rest := (List.nodup_cons.1 hnd).1
      let s1 : Store T :=
        Store.setHead { s with nodes := fun b => if b = c then none else s.nodes b } L n.next_
      have hseg1 : Seg s1.nodes (some c) (s1.lists L).head_ rest none := by
        have e : (s1.lists L).head_ = n.next_ := by simp [s1, Store.setHead]
        rw [e]
        refine seg_congr hrest ?_ ?_ <;>
        · intro a ha
          have hac : a ≠ c := fun e => hc (e ▸ ha)
          simp [s1, Store.setHead, hac]
      obtain ⟨s', hrun, hnodes, hfr, hhd, htl, hsz, hl⟩ :=
        ih s1 (some c) fuel hseg1 (List.nodup_cons.1 hnd).2 (by simpa using hfuel)
      refine ⟨s', ?_, ?_, ?_, hhd, ?_, ?_, ?_⟩
      · simp only [clearLoop]
        rw [if_neg (by rw [hh]; simp), hh, Store.load_some hn, ok_bind, Store.delete_some hn,
          ok_bind]
        exact hrun
      · intro a
        rw [hnodes a]
        by_cases har : a ∈ rest
        · simp [har]
        · by_cases hac : a = c
          · simp [hac, s1, Store.setHead]
          · simp [har, hac, s1, Store.setHead]
      · rw [hfr]; rfl
      · rw [htl]; simp [s1, Store.setHead]
      · rw [hsz]; simp [s1, Store.setHead]
      · intro K hK
        rw [hl K hK]; simp [s1, Store.setHead, hK]

/-- `clear` on a linked list: all its nodes are deleted, the list is left empty with
`size_ == 0`, and nothing else changes. -/
theorem clear_spec (s : Store T) (L : Nat) (ns : List Nat) (fuel : Nat)
    (hL : Linked s L ns) (hfuel : ns.length < fuel) :
    ∃ s', clear fuel s L = .ok s' ∧ Linked s' L [] ∧ (s'.lists L).size_ = 0 ∧
      s'.fresh = s.fresh ∧ (∀ a, s'.nodes a = if a ∈ ns then none else s.nodes a) ∧
      (∀ K, K ≠ L → s'.lists K = s.lists K) := by
  obtain ⟨s1, hrun, hnodes, hfr, hhd, _, _, hl⟩ :=
    clearLoop_spec L ns s none fuel hL.1 hL.nodup hfuel
  refine ⟨(s1.setTail L none).setSize L 0, ?_, ⟨?_, ?_⟩, ?_, ?_, ?_, ?_⟩
  · simp only [clear]
    rw [hrun, ok_bind]
    rfl
  · show (((s1.setTail L none).setSize L 0).lists L).head_ = none
    simp [Store.setTail, Store.setSize, hhd]
  · simp [Store.setTail, Store.setSize]
  · simp [Store.setTail, Store.setSize]
  · simp [Store.setTail, Store.setSize, hfr]
  · intro a
    simp only [Store.setTail, Store.setSize, Store.setList_nodes]
    exact hnodes a
  · intro K hK
    simp [Store.setTail, Store.setSize, hK, hl K hK]

/-- The loop of the copy constructor: one node is appended to `L` for every node of the part of
the source chain still to visit, with the same payload. -/
theorem copyLoop_spec (L other : Nat) (rs : List Nat) :
    ∀ (s : Store T) (ns : List Nat) (pv p : Option Nat) (fuel : Nat),
      Linked s L ns → s.FreshOk → Seg s.nodes pv p rs none → (∀ a ∈ rs, a ∉ ns) →
      rs.length < fuel →
      ∃ s', copyLoop fuel s L other ⟨p⟩ = .ok s' ∧
        Linked s' L (ns ++ List.range' s.fresh rs.length) ∧
        (s'.lists L).size_ = (fun n => (n + 1) % UINT_SIZE)^[rs.length] (s.lists L).size_ ∧
        s'.fresh = s.fresh + rs.length ∧ s'.FreshOk ∧
        (∀ K, K ≠ L → s'.lists K = s.lists K) ∧
        (∀ a, a ∉ ns → a < s.fresh → s'.nodes a = s.nodes a) ∧
        (∀ a, a < s.fresh → dataAt s' a = dataAt s a) ∧
        (List.range' s.fresh rs.length).map (dataAt s') = rs.map (dataAt s) := by
  induction rs with
  | nil =>
    intro s ns pv p fuel hL hf h _ hfuel
    cases fuel with
    | zero => cases hfuel
    | succ fuel =>
      have hp : p = none := h
      exact ⟨s, by simp [copyLoop, end_, hp], by simpa using hL, rfl, rfl, hf,
        fun _ _ => rfl, fun _ _ _ => rfl, fun _ _ => rfl, rfl⟩
  | cons c rest ih =>
    intro s ns pv p fuel hL hf h hdisj hfuel
    cases fuel with
    | zero => cases hfuel
    | succ fuel =>
      obtain ⟨hp, hprev, hrest⟩ := h
      obtain ⟨n, hn⟩ : ∃ n, s.nodes c = some n := by
        cases hm : s.nodes c with
        | none => simp [hm] at hprev
        | some n => exact ⟨n, rfl⟩
      simp only [hn, Option.some_bind] at hrest
      have hcf : c < s.fresh := by
        by_contra hlt
        have := hf c (by omega)
        rw [hn] at this; cases this
      have hc_ns : c ∉ ns := hdisj c (List.mem_cons_self _ _)
      have hrest_lt : ∀ a ∈ rest, a < s.fresh := fun a ha => seg_lt_fresh hf hrest ha
      obtain ⟨s1, hrun1, hL1, hsz1, hfr1, hf1, hl1, hn1, hd1, hv1⟩ :=
        pushBack_spec s L n.data_ ns hL hf
      have hsame : ∀ a, a ∉ ns → a < s.fresh → s1.nodes a = s.nodes a := fun a h1 h2 =>
        hn1 a h1 (by omega)
      have hc1 : s1.nodes c = some n := by rw [hsame c hc_ns hcf, hn]
      have hseg1 : Seg s1.nodes (some c) n.next_ rest none := by
        refine seg_congr hrest ?_ ?_ <;>
        · intro a ha
          rw [hsame a (hdisj a (List.mem_cons_of_mem _ ha)) (hrest_lt a ha)]
      obtain ⟨s', hrun, hL', hsz, hfr, hf', hl, hnodes, hd, hdata⟩ :=
        ih s1 (ns ++ [s.fresh]) (some c) n.next_ fuel hL1 hf1 hseg1 (by
          intro a ha hmem
          rcases List.mem_append.1 hmem with h | h
          · exact hdisj a (List.mem_cons_of_mem _ ha) h
          · simp only [List.mem_singleton] at h
            have := hrest_lt a ha
            omega) (by simpa using hfuel)
      refine ⟨s', ?_, ?_, ?_, ?_, hf', ?_, ?_, ?_, ?_⟩
      · simp only [copyLoop, end_]
        rw [if_neg (by rw [hp]; simp)]
        simp only [hp, ListIterator.deref, ListIterator.preInc, Store.load_some hn, ok_bind,
          bind, Except.bind, pure, Except.pure, hrun1, Store.load_some hc1]
        exact hrun
      · rw [hfr1] at hL'
        simpa [List.range'_succ, List.append_assoc] using hL'
      · rw [hsz, hsz1, List.length_cons, Function.iterate_succ_apply]
      · rw [hfr, hfr1, List.length_cons]; omega
      · intro K hK
        rw [hl K hK, hl1 K hK]
      · intro a ha hlt
        rw [hnodes a (by
          intro hmem
          rcases List.mem_append.1 hmem with h | h
          · exact ha h
          · simp only [List.mem_singleton] at h
            omega) (by rw [hfr1]; omega), hsame a ha hlt]
      · intro a hlt
        rw [hd a (by rw [hfr1]; omega), hd1 a (by omega)]
      · rw [List.length_cons, List.range'_succ, List.map_cons, List.map_cons]
        congr 1
        · rw [hd s.fresh (by rw [hfr1]; omega), hv1]
          simp [dataAt, hn]
        · rw [hfr1] at hdata
          rw [hdata]
          exact List.map_congr_left (fun a ha => by
            rw [hd1 a (by have := hrest_lt a ha; omega)])

/-! ## Two-way consistency, call by call -/

theorem freshOk_of_frame {s s' : Store T} {L : Nat} {ns : List Nat} (hf : s.FreshOk)
    (hL : Linked s L ns) (h1 : s'.fresh = s.fresh)
    (h2 : ∀ a, a ∉ ns → s'.nodes a = s.nodes a) : s'.FreshOk := by
  refine hf.of_eq h1 ?_
  intro a ha
  by_cases hm : a ∈ ns
  · exact absurd ha (hL.alloc' hm)
  · rw [h2 a hm, ha]

theorem headPtr_cases (ns : List Nat) :
    headPtr ns none = none ∨ ∃ a ∈ ns, headPtr ns none = some a := by
  cases ns with
  | nil => exact Or.inl rfl
  | cons a rest => exact Or.inr ⟨a, List.mem_cons_self _ _, rfl⟩

theorem lastPtr_cases (ns : List Nat) :
    lastPtr none ns = none ∨ ∃ a ∈ ns, lastPtr none ns = some a := by
  cases h : lastPtr none ns with
  | none => exact Or.inl rfl
  | some a => exact Or.inr ⟨a, lastPtr_none_mem h, rfl⟩

/-- A range of a list cuts its nodes into the part before the range, the range and the part
after it. -/
theorem range_block {ns : List Nat} {first last : ListIterator} (hr : IsRange ns first last) :
    ∃ pre blk post, ns = pre ++ (blk ++ post) ∧ first.node_ = headPtr (blk ++ post) none ∧
      last.node_ = headPtr post none := by
  obtain ⟨f, l, hfl, _, hfirst, hlast⟩ := hr
  refine ⟨ns.take f, (ns.drop f).take (l - f), ns.drop l, split_range ns f l hfl, ?_, ?_⟩
  · have : ns.drop l = (ns.drop f).drop (l - f) := by
      rw [List.drop_drop]; congr 1; omega
    rw [this, List.take_append_drop, headPtr_drop, hfirst]
  · rw [headPtr_drop, hlast]

theorem block_ne_next {pre blk post : List Nat} (hnd : (pre ++ (blk ++ post)).Nodup) :
    ∀ a ∈ blk, some a ≠ headPtr post none := by
  intro a ha e
  have hmem := headPtr_mem e.symm
  exact (List.nodup_append.1 (List.nodup_append.1 hnd).2.1).2.2 ha hmem

theorem swap_facts (s : Store T) (A B : Nat) :
    (swap s A B).nodes = s.nodes ∧ (swap s A B).fresh = s.fresh ∧
      ∀ K, ((swap s A B).lists K).head_ =
          (s.lists (if K = B then A else if K = A then B else K)).head_ ∧
        ((swap s A B).lists K).tail_ =
          (s.lists (if K = B then A else if K = A then B else K)).tail_ ∧
        ((swap s A B).lists K).size_ =
          (s.lists (if K = B then A else if K = A then B else K)).size_ := by
  refine ⟨rfl, rfl, ?_⟩
  intro K
  simp only [swap, swapValues, Store.setSize, Store.setHead, Store.setTail,
    Store.setList_lists]
  refine ⟨?_, ?_, ?_⟩ <;>
  · by_cases hKB : K = B
    · by_cases hBA : B = A
      · simp [hKB, hBA]
      · simp [hKB, hBA, Ne.symm hBA]
    · by_cases hKA : K = A
      · have hAB : A ≠ B := fun e => hKB (hKA.trans e)
        simp [hKA, hAB, Ne.symm hAB]
      · simp [hKB, hKA]

theorem seg_of_walkNext {s : Store T} : ∀ (fuel : Nat) (ns : List Nat) (prev p : Option Nat),
    walkNext fuel s p = .ok ns →
    (∀ a, p = some a → ∃ n, s.nodes a = some n ∧ n.previous_ = prev) →
    (∀ a ∈ ns, ∀ n, s.nodes a = some n → ∀ b, n.next_ = some b →
      ∃ m, s.nodes b = some m ∧ m.previous_ = some a) →
    Seg s.nodes prev p ns none := by
  intro fuel
  induction fuel with
  | zero =>
    intro ns prev p h
    simp [walkNext] at h
  | succ fuel ih =>
    intro ns prev p h hprev hmirror
    cases p with
    | none =>
      simp only [walkNext] at h
      cases h
      rfl
    | some a =>
      obtain ⟨n, hn, hnp⟩ := hprev a rfl
      unfold walkNext at h
      simp only [Store.load_some hn, ok_bind] at h
      cases hw : walkNext fuel s n.next_ with
      | error e => rw [hw] at h; cases h
      | ok rest =>
        rw [hw] at h
        cases h
        refine ⟨rfl, by simp [hn, hnp], ?_⟩
        simp only [hn, Option.some_bind]
        refine ih rest (some a) n.next_ hw ?_ ?_
        · intro b hb
          exact hmirror a (List.mem_cons_self _ _) n hn b hb
        · intro b hb
          exact hmirror b (List.mem_cons_of_mem _ hb)

theorem walkPrev_head {s : Store T} {fuel : Nat} {p : Option Nat} {ns : List Nat}
    (h : walkPrev fuel s p = .ok ns) : p = ns.head? := by
  cases fuel with
  | zero => simp [walkPrev] at h
  | succ fuel =>
    cases p with
    | none =>
      simp only [walkPrev] at h
      cases h
      rfl
    | some a =>
      unfold walkPrev at h
      cases hl : s.load (some a) with
      | error e => rw [hl] at h; cases h
      | ok n =>
        simp only [hl, ok_bind] at h
        cases hw : walkPrev fuel s n.previous_ with
        | error e => rw [hw] at h; cases h
        | ok rest =>
          rw [hw] at h
          cases h
          rfl

/-- The link symmetry of the data model is the two-way consistency used in the proofs. -/
theorem linkSymmetric_iff_linked {s : Store T} {L : Nat} :
    LinkSymmetric s L ↔ ∃ ns, Linked s L ns := by
  constructor
  · rintro ⟨hhead, _, ns, hnext, hprev, hmirror⟩
    refine ⟨ns, seg_of_walkNext _ ns none _ hnext hhead
      (fun a ha n hn => (hmirror a ha n hn).1), ?_⟩
    rw [walkPrev_head hprev, lastPtr_eq_getLast?, List.head?_reverse]
  · rintro ⟨ns, h⟩
    exact h.linkSymmetric

theorem iterate_dec {k n : Nat} (hk : k ≤ n) (hn : n < UINT_SIZE) :
    (fun n => (n + UINT_SIZE - 1) % UINT_SIZE)^[k] n = n - k := by
  induction k generalizing n with
  | zero => rfl
  | succ k ih =>
    rw [Function.iterate_succ_apply, uint_dec (by omega) hn, ih (by omega) (by omega)]
    omega

theorem iterate_inc {k n : Nat} (hn : n + k < UINT_SIZE) :
    (fun n => (n + 1) % UINT_SIZE)^[k] n = n + k := by
  induction k generalizing n with
  | zero => rfl
  | succ k ih =>
    rw [Function.iterate_succ_apply, uint_inc (by omega), ih (by omega)]
    omega

theorem split_at_index' {α : Type} (xs : List α) (i : Nat) (h : i < xs.length) :
    xs = xs.take i ++ xs[i] :: xs.drop (i + 1) := by
  rw [← List.drop_eq_getElem_cons h, List.take_append_drop]

/-- Erasing the node at index `i`. -/
theorem erase_rep (s : Store T) (L : Nat) (ns : List Nat) (xs : List T) (i : Nat)
    (hR : Rep s L ns xs) (hi : i < ns.length) :
    ∃ s', erase s L ⟨ns[i]?⟩ = .ok (s', ⟨ns[i + 1]?⟩) ∧
      Rep s' L (ns.eraseIdx i) (xs.eraseIdx i) ∧
      (s'.lists L).size_ + 1 = (s.lists L).size_ ∧ (s.FreshOk → s'.FreshOk) := by
  have hlen := hR.length_eq
  have hi' : i < xs.length := by omega
  have hR' : Rep s L (ns.take i ++ ns[i] :: ns.drop (i + 1))
      (xs.take i ++ xs[i] :: xs.drop (i + 1)) := by
    rw [← split_at_index' ns i hi, ← split_at_index' xs i hi']; exact hR
  obtain ⟨s', hrun, hRep, hs, hf⟩ := removeNode_rep s L _ _ _ _ _ _ hR' (by simp; omega)
  refine ⟨s', ?_, ?_, hs, hf⟩
  · simp only [erase]
    rw [List.getElem?_eq_getElem hi, hrun, ok_bind, headPtr_drop]
    rfl
  · rw [List.eraseIdx_eq_take_drop_succ, List.eraseIdx_eq_take_drop_succ]; exact hRep

/-- Erasing the nodes at the indices `i ≤ · < j`. -/
theorem eraseRange_rep (s : Store T) (L : Nat) (ns : List Nat) (xs : List T) (i j fuel : Nat)
    (hR : Rep s L ns xs) (hij : i ≤ j) (hj : j ≤ ns.length) (hfuel : j - i < fuel) :
    ∃ s', eraseRange fuel s L ⟨ns[i]?⟩ ⟨ns[j]?⟩ = .ok (s', ⟨ns[j]?⟩) ∧
      Rep s' L (ns.take i ++ ns.drop j) (xs.take i ++ xs.drop j) ∧
      (s'.lists L).size_ + (j - i) = (s.lists L).size_ ∧ (s.FreshOk → s'.FreshOk) := by
  obtain ⟨hL, hsize, hlt, hd⟩ := hR
  have hsplit := split_range ns i j hij
  have hblen : ((ns.drop i).take (j - i)).length = j - i := by
    simp; omega
  have hL' : Linked s L (ns.take i ++ ((ns.drop i).take (j - i) ++ ns.drop j)) := by
    rw [← hsplit]; exact hL
  obtain ⟨_, _, hblk_out⟩ := nodup_block hL'.nodup
  obtain ⟨s', hrun, hLs, hsz, hfr, hgone, hl, hn, hdat⟩ :=
    removeRange_spec s L (ns.take i) ((ns.drop i).take (j - i)) (ns.drop j) fuel hL'
      (by rw [hblen]; exact hfuel)
  have hfirst : headPtr ((ns.drop i).take (j - i) ++ ns.drop j) none = ns[i]? := by
    have : ns.drop j = (ns.drop i).drop (j - i) := by
      rw [List.drop_drop]; congr 1; omega
    rw [this, List.take_append_drop, headPtr_drop]
  rw [hfirst, headPtr_drop] at hrun
  have hlen' : (ns.take i ++ ns.drop j).length + (j - i) = ns.length := by
    simp; omega
  have hs : (s'.lists L).size_ + (j - i) = (s.lists L).size_ := by
    rw [hsz, hblen, iterate_dec (by rw [hsize]; omega) (by rw [hsize]; exact hlt)]
    rw [hsize]; omega
  refine ⟨s', ?_, ⟨hLs, ?_, ?_, ?_⟩, hs, ?_⟩
  · simp only [eraseRange]
    rw [hrun, ok_bind]
    rfl
  · omega
  · omega
  · rw [map_dataAt_congr (fun a ha => hdat a (fun hb => hblk_out a hb ha))]
    simp only [List.map_append, List.map_take, List.map_drop, hd]
  · intro hf
    refine hf.of_eq hfr ?_
    intro a ha
    by_cases hm : a ∈ ns.take i ++ ((ns.drop i).take (j - i) ++ ns.drop j)
    · exact absurd ha (hL'.alloc' hm)
    · rw [hn a hm, ha]

/-- C11: on a well-formed list with element sequence `xs`, `erase(pos)` with `pos` at the node
of index `i` returns, leaves `xs` with the element at index `i` removed and the other elements
in their order (also when iterated), decreases `size()` by one, and returns the iterator at the
node that was at index `i + 1`, which is the end sentinel when `i` was the last index. -/
theorem erase_removes_index (s : Store T) (L : Nat) (ns : List Nat) (xs : List T) (i : Nat)
    (hR : Rep s L ns xs) (hi : i < ns.length) :
    ∃ s', erase s L ⟨ns[i]?⟩ = .ok (s', ⟨ns[i + 1]?⟩) ∧
      Rep s' L (ns.eraseIdx i) (xs.eraseIdx i) ∧
      elements xs.length s' L = .ok (xs.eraseIdx i) ∧
      0 < size s L ∧ size s' L = size s L - 1 ∧
      (i + 1 = ns.length → (⟨ns[i + 1]?⟩ : ListIterator) = end_ s' L) := by
  obtain ⟨s', hrun, hRep, hs, _⟩ := erase_rep s L ns xs i hR hi
  have hlen := hR.length_eq
  refine ⟨s', hrun, hRep, hRep.elements _ ?_, by unfold size; omega, by unfold size; omega, ?_⟩
  · rw [List.length_eraseIdx, if_pos (by omega)]; omega
  · intro h
    rw [List.getElem?_eq_none (by omega)]
    rfl

theorem erase_removes_index_witness :
    Rep exampleStore 0 [0, 1] [1, 2] ∧
    ∃ s', erase exampleStore 0 ⟨some 0⟩ = .ok (s', ⟨some 1⟩) ∧ Rep s' 0 [1] [2] ∧
      size s' 0 = 1 :=
  ⟨by decide,
    (erase_removes_index exampleStore 0 [0, 1] [1, 2] 0 (by decide) (by decide)).imp
      fun _ h => ⟨h.1, h.2.1, by rw [h.2.2.2.2.1]; rfl⟩⟩

/-- C12: on a well-formed list with element sequence `xs`, `erase(first, last)` with `first` at
index `i` and `last` at index `j`, `i ≤ j ≤ |xs|` (`j == |xs|` being the end sentinel), returns
once the fuel exceeds the `j - i` loop iterations, leaves `xs[0..i) ++ xs[j..)` (also when
iterated), decreases `size()` by exactly `j - i`, and returns an iterator equal to `last`. -/
theorem erase_range_removes_block (s : Store T) (L : Nat) (ns : List Nat) (xs : List T)
    (i j fuel : Nat) (hR : Rep s L ns xs) (hij : i ≤ j) (hj : j ≤ ns.length)
    (hfuel : j - i < fuel) :
    ∃ s', eraseRange fuel s L ⟨ns[i]?⟩ ⟨ns[j]?⟩ = .ok (s', ⟨ns[j]?⟩) ∧
      Rep s' L (ns.take i ++ ns.drop j) (xs.take i ++ xs.drop j) ∧
      elements (xs.length + 1) s' L = .ok (xs.take i ++ xs.drop j) ∧
      j - i ≤ size s L ∧ size s' L = size s L - (j - i) := by
  obtain ⟨s', hrun, hRep, hs, _⟩ := eraseRange_rep s L ns xs i j fuel hR hij hj hfuel
  refine ⟨s', hrun, hRep, hRep.elements _ ?_, by unfold size; omega, by unfold size; omega⟩
  simp only [List.length_append, List.length_take, List.length_drop]
  omega

theorem erase_range_removes_block_witness :
    Rep exampleStore 0 [0, 1] [1, 2] ∧
    ∃ s', eraseRange 2 exampleStore 0 ⟨some 1⟩ ⟨none⟩ = .ok (s', ⟨none⟩) ∧
      Rep s' 0 [0] [1] ∧ size s' 0 = 1 :=
  ⟨by decide,
    (erase_range_removes_block exampleStore 0 [0, 1] [1, 2] 1 2 2 (by decide) (by decide)
      (by decide) (by decide)).imp fun _ h => ⟨h.1, h.2.1, by rw [h.2.2.2.2]; rfl⟩⟩

/-- C13: on every well-formed list, the empty one included, `erase(begin(), end())` returns
once the fuel exceeds the node count and leaves an empty list: `size() == 0`, `isEmpty()` is
true, `head_` and `tail_` are null, and the returned iterator is the end sentinel. -/
theorem erase_all_empties (s : Store T) (L : Nat) (ns : List Nat) (xs : List T) (fuel : Nat)
    (hR : Rep s L ns xs) (hfuel : ns.length < fuel) :
    ∃ s', eraseRange fuel s L (begin s L) (end_ s L) = .ok (s', end_ s' L) ∧
      Rep s' L [] [] ∧ size s' L = 0 ∧ isEmpty s' L = true ∧
      (s'.lists L).head_ = none ∧ (s'.lists L).tail_ = none := by
  obtain ⟨s', hrun, hRep, _, _⟩ :=
    eraseRange_rep s L ns xs 0 ns.length fuel hR (Nat.zero_le _) (le_refl _) (by simpa using hfuel)
  have hb : begin s L = ⟨ns[0]?⟩ := by
    simp only [begin]
    rw [hR.1.head_eq, ← headPtr_drop ns 0]
    rfl
  have he : (⟨ns[ns.length]?⟩ : ListIterator) = ⟨none⟩ := by
    rw [List.getElem?_eq_none (le_refl _)]
  rw [he] at hrun
  have hlen := hR.length_eq
  have hRep' : Rep s' L [] [] := by
    have e1 : ns.take 0 ++ ns.drop ns.length = [] := by simp
    have e2 : xs.take 0 ++ xs.drop ns.length = [] := by simp [hlen]
    rw [e1, e2] at hRep
    exact hRep
  have hh : (s'.lists L).head_ = none := hRep'.1.1
  refine ⟨s', by rw [hb]; exact hrun, hRep', hRep'.2.1, ?_, hh, hRep'.1.2⟩
  simp [isEmpty, hh]

theorem erase_all_empties_witness :
    Rep exampleStore 0 [0, 1] [1, 2] ∧
    ∃ s', eraseRange 3 exampleStore 0 (begin exampleStore 0) (end_ exampleStore 0) =
        .ok (s', end_ s' 0) ∧ Rep s' 0 [] [] ∧ size s' 0 = 0 ∧ isEmpty s' 0 = true :=
  ⟨by decide,
    (erase_all_empties exampleStore 0 [0, 1] [1, 2] 3 (by decide) (by decide)).imp
      fun _ h => ⟨h.1, h.2.1, h.2.2.1, h.2.2.2.1⟩⟩

/-- Splitting the payload sequence along a split of the node sequence. -/
theorem data_split {s : Store T} {npre npost : List Nat} {x : Nat} {xs : List T}
    (hd : (npre ++ x :: npost).map (dataAt s) = xs.map some) :
    ∃ pre y post, xs = pre ++ y :: post ∧ pre.length = npre.length ∧
      npre.map (dataAt s) = pre.map some ∧ dataAt s x = some y ∧
      npost.map (dataAt s) = post.map some := by
  induction npre generalizing xs with
  | nil =>
    cases xs with
    | nil => simp at hd
    | cons y post =>
      simp only [List.nil_append, List.map_cons, List.cons.injEq] at hd
      exact ⟨[], y, post, rfl, rfl, rfl, hd.1, hd.2⟩
  | cons a npre ih =>
    cases xs with
    | nil => simp at hd
    | cons z xs =>
      simp only [List.cons_append, List.map_cons, List.cons.injEq] at hd
      obtain ⟨pre, y, post, rfl, hlen, hpre, hx, hpost⟩ := ih hd.2
      exact ⟨z :: pre, y, post, rfl, by simp [hlen], by simp [hd.1, hpre], hx, hpost⟩

theorem data_mem {s : Store T} {ns : List Nat} {xs : List T}
    (hd : ns.map (dataAt s) = xs.map some) (v : T) :
    v ∈ xs ↔ ∃ a ∈ ns, dataAt s a = some v := by
  have : some v ∈ xs.map some ↔ some v ∈ ns.map (dataAt s) := by rw [hd]
  simp only [List.mem_map, Option.some.injEq, exists_eq_right] at this
  exact this

/-- C14: on a well-formed list with element sequence `xs`, `remove(v)` returns once the fuel
exceeds the node count. If `v` occurs in `xs`, then `xs = pre ++ v :: post` with `v` not in
`pre`, and the list is left with `pre ++ post` (also when iterated): exactly the first element
equal to `v` is deleted, the others, later duplicates of `v` included, keep their order, and
`size()` has decreased by one. If `v` does not occur, the store is unchanged. -/
theorem remove_first_match [DecidableEq T] (s : Store T) (L : Nat) (ns : List Nat)
    (xs : List T) (v : T) (fuel : Nat) (hR : Rep s L ns xs) (hfuel : ns.length < fuel) :
    ∃ s', remove fuel s L v = .ok s' ∧
      (v ∈ xs → ∃ pre post, xs = pre ++ v :: post ∧ v ∉ pre ∧
        Rep s' L (ns.eraseIdx pre.length) (pre ++ post) ∧
        elements xs.length s' L = .ok (pre ++ post) ∧ xs.erase v = pre ++ post ∧
        0 < size s L ∧ size s' L = size s L - 1) ∧
      (v ∉ xs → s' = s) := by
  have hL := hR.1
  have hd := hR.2.2.2
  obtain ⟨s', hrun, hres⟩ := removeLoop_spec s L v ns [] fuel (by simpa using hL) hfuel
    (fun a ha => by simp at ha)
  have hrun' : remove fuel s L v = .ok s' := by
    simp only [remove]; rw [hL.head_eq]; exact hrun
  refine ⟨s', hrun', ?_⟩
  rcases hres with ⟨hnone, rfl⟩ | ⟨npre, x, npost, hsplit, hpre, hx, hrm⟩
  · simp only [List.nil_append] at hnone
    have hv : v ∉ xs := by
      intro hv
      obtain ⟨a, ha, hav⟩ := (data_mem hd v).1 hv
      exact hnone a ha hav
    exact ⟨fun h => absurd h hv, fun _ => rfl⟩
  · simp only [List.nil_append] at hsplit
    subst hsplit
    obtain ⟨pre, y, post, rfl, hlen, hdpre, hdx, hdpost⟩ := data_split hd
    have hyv : y = v := by
      rw [hx] at hdx
      exact (Option.some.inj hdx).symm
    subst hyv
    have hvpre : y ∉ pre := by
      intro hv
      obtain ⟨a, ha, hav⟩ := (data_mem hdpre y).1 hv
      exact hpre a ha hav
    obtain ⟨s'', hrun2, hRep, hs, _⟩ := removeNode_rep s L npre npost x pre post y hR hlen.symm
    rw [hrm] at hrun2
    cases hrun2
    have herase : (npre ++ x :: npost).eraseIdx pre.length = npre ++ npost := by
      rw [hlen, List.eraseIdx_append_of_length_le (le_refl _)]
      simp
    refine ⟨fun _ => ⟨pre, post, rfl, hvpre, by rw [herase]; exact hRep,
      hRep.elements _ (by simp), ?_, by unfold size; omega, by unfold size; omega⟩,
      fun h => absurd (by simp) h⟩
    rw [List.erase_append_right _ hvpre, List.erase_cons_head]

theorem remove_first_match_witness :
    Rep exampleStore 1 [2, 3] [3, 4] ∧
    ∃ s', remove 3 exampleStore 1 4 = .ok s' ∧ elements 2 s' 1 = .ok [3] ∧ size s' 1 = 1 :=
  ⟨by decide, by
    obtain ⟨s', hrun, h1, _⟩ :=
      remove_first_match exampleStore 1 [2, 3] [3, 4] 4 3 (by decide) (by decide)
    obtain ⟨pre, post, _, _, _, hel, herase, _, hsize⟩ := h1 (by decide)
    have e : pre ++ post = [3] := by rw [← herase]; decide
    rw [e] at hel
    exact ⟨s', hrun, hel, by rw [hsize]; rfl⟩⟩

theorem filter_data {s : Store T} (pred : T → Bool) {ns : List Nat} {xs : List T}
    (hd : ns.map (dataAt s) = xs.map some) :
    (ns.filter (fun a => !(dataAt s a).any pred)).map (dataAt s) =
        (xs.filter (fun x => !pred x)).map some ∧
      ns.countP (fun a => (dataAt s a).any pred) = xs.countP pred := by
  induction ns generalizing xs with
  | nil =>
    cases xs with
    | nil => exact ⟨rfl, rfl⟩
    | cons y xs => simp at hd
  | cons a ns ih =>
    cases xs with
    | nil => simp at hd
    | cons y xs =>
      simp only [List.map_cons, List.cons.injEq] at hd
      obtain ⟨h1, h2⟩ := ih hd.2
      rw [List.filter_cons, List.filter_cons, List.countP_cons, List.countP_cons, hd.1]
      simp only [Option.any_some]
      by_cases hp : pred y = true
      · simp [hp, h1, h2]
      · simp [hp, h1, h2, hd.1]

/-- C15: on a well-formed list with element sequence `xs`, `removeIf(p)` returns once the fuel
exceeds the node count and leaves exactly the elements of `xs` that do not satisfy `p`, in their
original relative order (also when iterated); `size()` is the original size minus the number of
elements of `xs` satisfying `p`. -/
theorem removeIf_filters (pred : T → Bool) (s : Store T) (L : Nat) (ns : List Nat)
    (xs : List T) (fuel : Nat) (hR : Rep s L ns xs) (hfuel : ns.length < fuel) :
    ∃ s', removeIf pred fuel s L = .ok s' ∧
      Rep s' L (ns.filter (fun a => !(dataAt s a).any pred)) (xs.filter (fun x => !pred x)) ∧
      elements (xs.length + 1) s' L = .ok (xs.filter (fun x => !pred x)) ∧
      xs.countP pred ≤ size s L ∧ size s' L = size s L - xs.countP pred := by
  obtain ⟨hL, hsize, hlt, hd⟩ := hR
  obtain ⟨s', hrun, hL', hsz, _, _, _, _, hdat⟩ :=
    removeIfLoop_spec pred L ns s [] fuel (by simpa using hL) hfuel
  obtain ⟨hfd, hcount⟩ := filter_data pred hd
  have hlen : ns.length = xs.length := by simpa using congrArg List.length hd
  have hcle : xs.countP pred ≤ xs.length := List.countP_le_length _
  have hflen : (ns.filter (fun a => !(dataAt s a).any pred)).length + xs.countP pred =
      ns.length := by
    have := List.length_eq_countP_add_countP (fun a => (dataAt s a).any pred) ns
    rw [hcount] at this
    rw [← List.countP_eq_length_filter]
    simp only [Bool.not_eq_true] at this
    have e : List.countP (fun a => !(dataAt s a).any pred) ns =
        List.countP (fun a => decide ((dataAt s a).any pred = false)) ns :=
      List.countP_congr (fun a _ => by cases (dataAt s a).any pred <;> simp)
    omega
  have hs : (s'.lists L).size_ = (s.lists L).size_ - xs.countP pred := by
    rw [hsz, hcount, iterate_dec (by rw [hsize]; omega) (by rw [hsize]; exact hlt)]
  have hRep : Rep s' L (ns.filter (fun a => !(dataAt s a).any pred))
      (xs.filter (fun x => !pred x)) := by
    refine ⟨by simpa using hL', ?_, ?_, ?_⟩
    · rw [hs, hsize]; omega
    · omega
    · rw [map_dataAt_congr (fun a ha => hdat a (fun _ => by
        have := (List.mem_filter.1 ha).2
        simpa using this)), hfd]
  refine ⟨s', by simp only [removeIf, begin]; rw [hL.head_eq]; exact hrun, hRep,
    hRep.elements _ ?_, by unfold size; rw [hsize]; omega, by unfold size; exact hs⟩
  have := List.length_filter_le (fun x => !pred x) xs
  omega

theorem removeIf_filters_witness :
    Rep exampleStore 0 [0, 1] [1, 2] ∧
    ∃ s', removeIf (fun x => x == 1) 3 exampleStore 0 = .ok s' ∧ Rep s' 0 [1] [2] ∧
      size s' 0 = 1 :=
  ⟨by decide,
    (removeIf_filters (fun x => x == 1) exampleStore 0 [0, 1] [1, 2] 3 (by decide)
      (by decide)).imp fun _ h => ⟨h.1, h.2.1, by rw [h.2.2.2.2]; rfl⟩⟩

/-! ## Insertion: element sequences and sizes -/

theorem take_succ_split {α : Type} (xs : List α) (i : Nat) (h : i < xs.length) :
    xs.take (i + 1) = xs.take i ++ [xs[i]] := by
  rw [List.take_succ, List.getElem?_eq_getElem h]
  rfl

theorem deref_of_dataAt {s : Store T} {a : Nat} {v : T} (h : dataAt s a = some v) :
    ListIterator.deref s ⟨some a⟩ = .ok v := by
  cases hn : s.nodes a with
  | none => simp [dataAt, hn] at h
  | some n =>
    simp only [dataAt, hn, Option.map_some', Option.some.injEq] at h
    simp only [ListIterator.deref, Store.load_some hn, ok_bind, h]
    rfl

/-- Payloads after inserting the new node `s.fresh` holding `v` between `pre` and `post`. -/
theorem data_insert {s s' : Store T} {ns pre post : List Nat} {xs : List T} {v : T} (k : Nat)
    (hd : ns.map (dataAt s) = xs.map some) (hpre : pre = ns.take k) (hpost : post = ns.drop k)
    (hfresh : s.fresh ∉ ns) (hdat : ∀ a, a ≠ s.fresh → dataAt s' a = dataAt s a)
    (hv : dataAt s' s.fresh = some v) :
    (pre ++ s.fresh :: post).map (dataAt s') = (xs.take k ++ v :: xs.drop k).map some := by
  subst hpre hpost
  have h1 : ∀ a ∈ ns.take k, dataAt s' a = dataAt s a := fun a ha =>
    hdat a (fun e => hfresh (e ▸ List.mem_of_mem_take ha))
  have h2 : ∀ a ∈ ns.drop k, dataAt s' a = dataAt s a := fun a ha =>
    hdat a (fun e => hfresh (e ▸ List.mem_of_mem_drop ha))
  rw [List.map_append, List.map_cons, map_dataAt_congr h1, map_dataAt_congr h2, hv]
  simp only [List.map_append, List.map_cons, List.map_take, List.map_drop, hd]

/-- C16: on a well-formed list with element sequence `xs`, with `pos` at the node of index
`i`: `insertAfter(pos, v)` leaves `xs[0..i] ++ [v] ++ xs[i+1..)` and `insertBefore(pos, v)`
leaves `xs[0..i) ++ [v] ++ xs[i..)`; in both cases `size()` increases by exactly one and the
returned iterator is at the newly allocated node, which was not a node of the list and
dereferences to `v`. The count stays in the `unsigned int` range. -/
theorem insert_adjacent (s : Store T) (L : Nat) (ns : List Nat) (xs : List T) (i : Nat) (v : T)
    (hR : Rep s L ns xs) (hf : s.FreshOk) (hi : i < ns.length)
    (hsz : xs.length + 1 < UINT_SIZE) :
    (∃ s', insertAfter s L ⟨ns[i]?⟩ v = .ok (s', ⟨some s.fresh⟩) ∧
      Rep s' L (ns.take (i + 1) ++ s.fresh :: ns.drop (i + 1))
        (xs.take (i + 1) ++ v :: xs.drop (i + 1)) ∧
      size s' L = size s L + 1 ∧ ListIterator.deref s' ⟨some s.fresh⟩ = .ok v) ∧
    (∃ s', insertBefore s L ⟨ns[i]?⟩ v = .ok (s', ⟨some s.fresh⟩) ∧
      Rep s' L (ns.take i ++ s.fresh :: ns.drop i) (xs.take i ++ v :: xs.drop i) ∧
      size s' L = size s L + 1 ∧ ListIterator.deref s' ⟨some s.fresh⟩ = .ok v) ∧
    s.fresh ∉ ns := by
  obtain ⟨hL, hsize, hlt, hd⟩ := hR
  have hlen : ns.length = xs.length := by simpa using congrArg List.length hd
  have hfresh : s.fresh ∉ ns := hf.not_mem hL
  have hsplit := split_at_index ns i hi
  have hL' : Linked s L (ns.take i ++ ns[i] :: ns.drop (i + 1)) := by
    rw [← hsplit]; exact hL
  have hdrop : ns.drop i = ns[i] :: ns.drop (i + 1) := List.drop_eq_getElem_cons hi
  refine ⟨?_, ?_, hfresh⟩
  · obtain ⟨s', hrun, hLs, hs, _, _, _, _, hdat, hv⟩ :=
      insertAfterNode_spec s L (ns.take i) (ns.drop (i + 1)) ns[i] v hL' hf
    have hLs' : Linked s' L (ns.take (i + 1) ++ s.fresh :: ns.drop (i + 1)) := by
      rw [take_succ_split ns i hi, List.append_assoc]
      exact hLs
    have hs' : (s'.lists L).size_ = (s.lists L).size_ + 1 := by
      rw [hs, hsize, uint_inc (by omega)]
    refine ⟨s', ?_, ⟨hLs', ?_, ?_, data_insert (i + 1) hd rfl rfl hfresh hdat hv⟩, hs',
      deref_of_dataAt hv⟩
    · simp only [insertAfter]
      rw [List.getElem?_eq_getElem hi, hrun, ok_bind]
      rfl
    · rw [hs', hsize]; simp; omega
    · simp; omega
  · obtain ⟨s', hrun, hLs, hs, _, _, _, _, hdat, hv⟩ :=
      insertBeforeNode_spec s L (ns.take i) (ns.drop (i + 1)) ns[i] v hL' hf
    have hLs' : Linked s' L (ns.take i ++ s.fresh :: ns.drop i) := by
      rw [hdrop]; exact hLs
    have hs' : (s'.lists L).size_ = (s.lists L).size_ + 1 := by
      rw [hs, hsize, uint_inc (by omega)]
    refine ⟨s', ?_, ⟨hLs', ?_, ?_, data_insert i hd rfl rfl hfresh hdat hv⟩, hs',
      deref_of_dataAt hv⟩
    · simp only [insertBefore]
      rw [List.getElem?_eq_getElem hi, hrun, ok_bind]
      rfl
    · rw [hs', hsize]; simp; omega
    · simp; omega

theorem insert_adjacent_witness :
    Rep exampleStore 0 [0, 1] [1, 2] ∧ exampleStore.FreshOk ∧
    (∃ s', insertAfter exampleStore 0 ⟨some 0⟩ 7 = .ok (s', ⟨some 4⟩) ∧
      Rep s' 0 [0, 4, 1] [1, 7, 2] ∧ size s' 0 = 3) ∧
    (∃ s', insertBefore exampleStore 0 ⟨some 0⟩ 7 = .ok (s', ⟨some 4⟩) ∧
      Rep s' 0 [4, 0, 1] [7, 1, 2] ∧ size s' 0 = 3) :=
  ⟨by decide, exampleStore_freshOk,
    (insert_adjacent exampleStore 0 [0, 1] [1, 2] 0 7 (by decide) exampleStore_freshOk
      (by decide) (by decide)).1.imp fun _ h => ⟨h.1, h.2.1, h.2.2.1⟩,
    (insert_adjacent exampleStore 0 [0, 1] [1, 2] 0 7 (by decide) exampleStore_freshOk
      (by decide) (by decide)).2.1.imp fun _ h => ⟨h.1, h.2.1, h.2.2.1⟩⟩

/-- C17: on an empty well-formed list, `insertAfter(end(), v)` returns the store that
`pushBack(v)` returns and `insertBefore(end(), v)` the store that `pushFront(v)` returns; the
list is then `[v]` with `size() == 1`, and the iterator returned is at its single node, equal to
`begin()`. -/
theorem insert_at_end_of_empty (s : Store T) (L : Nat) (v : T) (hR : Rep s L [] [])
    (hf : s.FreshOk) :
    (∃ s', pushBack s L v = .ok s' ∧ insertAfter s L (end_ s L) v = .ok (s', begin s' L) ∧
      Rep s' L [s.fresh] [v] ∧ elements 2 s' L = .ok [v] ∧ size s' L = 1) ∧
    (∃ s', pushFront s L v = .ok s' ∧ insertBefore s L (end_ s L) v = .ok (s', begin s' L) ∧
      Rep s' L [s.fresh] [v] ∧ elements 2 s' L = .ok [v] ∧ size s' L = 1) := by
  have hsize0 : (s.lists L).size_ = 0 := hR.2.1
  obtain ⟨⟨s1, hrun1, hpush1⟩, ⟨s2, hrun2, hpush2⟩⟩ := insertNode_empty s L v hR.1 hf
  have hU : ([] : List T).length + 1 < UINT_SIZE := by simp [UINT_SIZE]
  constructor
  · obtain ⟨s', hp, hRep, _, hs⟩ := pushBack_rep s L v [] [] hR hf hU
    rw [hpush1] at hp
    cases hp
    have hRep' : Rep s1 L [s.fresh] [v] := by simpa using hRep
    refine ⟨s1, hpush1, ?_, hRep', hRep'.elements 2 (by simp), by unfold size; omega⟩
    simp only [insertAfter, end_, begin]
    rw [hrun1, ok_bind, hRep'.1.head_eq]
    rfl
  · obtain ⟨s', hp, hRep, _, hs⟩ := pushFront_rep s L v [] [] hR hf hU
    rw [hpush2] at hp
    cases hp
    refine ⟨s2, hpush2, ?_, hRep, hRep.elements 2 (by simp), by unfold size; omega⟩
    simp only [insertBefore, end_, begin]
    rw [hrun2, ok_bind, hRep.1.head_eq]
    rfl

theorem insert_at_end_of_empty_witness :
    Rep (Store.empty : Store Nat) 0 [] [] ∧
    (∃ s', pushBack (Store.empty : Store Nat) 0 7 = .ok s' ∧
      insertAfter (Store.empty : Store Nat) 0 ⟨none⟩ 7 = .ok (s', begin s' 0) ∧
      Rep s' 0 [0] [7] ∧ size s' 0 = 1) :=
  ⟨by decide,
    (insert_at_end_of_empty (Store.empty : Store Nat) 0 7 (by decide)
      Store.empty_freshOk).1.imp fun _ h => ⟨h.1, h.2.1, h.2.2.1, h.2.2.2.2⟩⟩

/-- C18 (the code at the failing input): on the well-formed non-empty list `[1, 2]`, both
`insertAfter(end(), 7)` and `insertBefore(end(), 7)` dereference the null anchor: the guard of
`insertAfterNode` (`head_ == nullptr && node == nullptr`) and that of `insertBeforeNode`
(`tail_ == nullptr && node == nullptr`) only cover the empty list, and the next statement reads
`node->next_`, respectively `node->previous_`. -/
theorem insert_at_end_derefs_null :
    Rep exampleStore 0 [0, 1] [1, 2] ∧ isEmpty exampleStore 0 = false ∧
    (insertAfter exampleStore 0 (end_ exampleStore 0) 7).toOption = none ∧
    (insertBefore exampleStore 0 (end_ exampleStore 0) 7).toOption = none ∧
    (match insertAfter exampleStore 0 (end_ exampleStore 0) 7 with
      | .error .nullDeref => true
      | _ => false) = true ∧
    (match insertBefore exampleStore 0 (end_ exampleStore 0) 7 with
      | .error .nullDeref => true
      | _ => false) = true :=
  ⟨by decide, rfl, rfl, rfl, rfl, rfl⟩

/-- The loop of `insert` at the end sentinel of an empty list, with the payloads, the size and
the pointer returned. -/
theorem insertLoop_empty_rep (L : Nat) (rs : List Nat) (s : Store T) (pv p q : Option Nat)
    (fuel : Nat) (hL : Linked s L []) (hf : s.FreshOk) (hseg : Seg s.nodes pv p rs q)
    (hq : ∀ a ∈ rs, some a ≠ q) (hfuel : rs.length < fuel) :
    ∃ s', insertLoop fuel s L none ⟨p⟩ ⟨q⟩ =
        .ok (s', lastPtr none (List.range' s.fresh rs.length)) ∧
      Linked s' L (List.range' s.fresh rs.length) ∧
      (List.range' s.fresh rs.length).map (dataAt s') = rs.map (dataAt s) ∧
      s'.fresh = s.fresh + rs.length ∧ s'.FreshOk ∧
      (s'.lists L).size_ = (fun n => (n + 1) % UINT_SIZE)^[rs.length] (s.lists L).size_ ∧
      (∀ K, K ≠ L → s'.lists K = s.lists K) ∧
      (∀ a, a < s.fresh → s'.nodes a = s.nodes a) := by
  cases fuel with
  | zero => cases hfuel
  | succ fuel =>
    cases rs with
    | nil =>
      have hp : p = q := hseg
      exact ⟨s, by simp [insertLoop, hp], by simpa using hL, rfl, rfl, hf, rfl,
        fun _ _ => rfl, fun _ _ => rfl⟩
    | cons c rest =>
      obtain ⟨hp, hprev, hrest⟩ := hseg
      obtain ⟨n, hn⟩ : ∃ n, s.nodes c = some n := by
        cases hm : s.nodes c with
        | none => simp [hm] at hprev
        | some n => exact ⟨n, rfl⟩
      simp only [hn, Option.some_bind] at hrest
      have hcf : c < s.fresh := by
        by_contra hlt
        have := hf c (by omega)
        rw [hn] at this; cases this
      have hrest_lt : ∀ a ∈ rest, a < s.fresh := fun a ha => seg_lt_fresh hf hrest ha
      obtain ⟨⟨s1, hrun1, hpush⟩, _⟩ := insertNode_empty s L n.data_ hL hf
      obtain ⟨s1', hpush', hL1, hsz1, hfr1, hf1, hl1, hn1, hd1, hv1⟩ :=
        pushBack_spec s L n.data_ [] hL hf
      rw [hpush] at hpush'
      cases hpush'
      have hsame : ∀ a, a < s.fresh → s1.nodes a = s.nodes a := fun a hlt =>
        hn1 a (by simp) (by omega)
      have hc1 : s1.nodes c = some n := by rw [hsame c hcf, hn]
      have hseg1 : Seg s1.nodes (some c) n.next_ rest q := by
        refine seg_congr hrest ?_ ?_ <;>
        · intro a ha
          rw [hsame a (hrest_lt a ha)]
      have hL1' : Linked s1 L ([] ++ s.fresh :: []) := by simpa using hL1
      obtain ⟨s', hrun, hL', hdata, hfr, hf', hsz, hl, hnodes, hd⟩ :=
        insertLoop_spec L rest s1 [] [] s.fresh (some c) n.next_ q fuel hL1' hf1 hseg1
          (fun a ha => hq a (List.mem_cons_of_mem _ ha))
          (fun a ha hmem => by
            simp only [List.nil_append, List.mem_singleton] at hmem
            have := hrest_lt a ha
            omega)
          (by simpa using hfuel)
      rw [hfr1] at hrun hL' hdata
      refine ⟨s', ?_, ?_, ?_, ?_, hf', ?_, ?_, ?_⟩
      · simp only [insertLoop]
        rw [if_neg (by
          rw [hp]; intro e
          exact hq c (List.mem_cons_self _ _) (by simpa using e))]
        simp only [hp, ListIterator.deref, ListIterator.preInc, Store.load_some hn, ok_bind,
          bind, Except.bind, pure, Except.pure, hrun1, Store.load_some hc1]
        exact hrun
      · simpa [List.range'_succ] using hL'
      · rw [List.length_cons, List.range'_succ, List.map_cons, List.map_cons, hdata]
        congr 1
        · rw [hd s.fresh (by rw [hfr1]; omega), hv1]
          simp [dataAt, hn]
        · exact List.map_congr_left (fun a ha => hd1 a (by
            have := hrest_lt a ha
            omega))
      · rw [hfr, hfr1, List.length_cons]; omega
      · rw [hsz, hsz1, List.length_cons, Function.iterate_succ_apply]
      · intro K hK
        rw [hl K hK, hl1 K hK]
      · intro a hlt
        rw [hnodes a (by
          simp only [List.nil_append, List.mem_singleton]
          omega) (by rw [hfr1]; omega), hsame a hlt]

theorem lastPtr_range' (prev : Option Nat) (a k : Nat) (hk : 0 < k) :
    lastPtr prev (List.range' a k) = some (a + k - 1) := by
  induction k generalizing a prev with
  | zero => cases hk
  | succ k ih =>
    rw [List.range'_succ]
    show lastPtr (some a) (List.range' (a + 1) k) = _
    cases k with
    | zero => rfl
    | succ k =>
      rw [ih (some a) (a + 1) (by omega)]
      congr 1
      omega

/-- C19: `insert(pos, first, last)` on a well-formed list with elements `xs`, `pos` at the node
of index `i` (or the end sentinel when the list is empty), the source range holding the
elements `ys[f..l)` of a different well-formed list. Once the fuel exceeds the `l - f` loop
iterations the call returns and leaves `xs[0..i] ++ ys[f..l) ++ xs[i+1..)`, carried by newly
allocated nodes placed right after `pos` in source order; `size()` has grown by exactly
`l - f`, the source list is unchanged, and the iterator returned is at the last inserted node,
or is `pos` itself when the range is empty. The count stays in the `unsigned int` range. -/
theorem insert_range_copies (s : Store T) (L R : Nat) (ns rs : List Nat) (xs ys : List T)
    (i f l fuel : Nat)
    (hL : Rep s L ns xs) (hS : Rep s R rs ys) (hne : L ≠ R) (hdisj : ∀ a ∈ ns, a ∉ rs)
    (hf : s.FreshOk) (hi : i < ns.length ∨ ns = []) (hfl : f ≤ l) (hl : l ≤ rs.length)
    (hfuel : l - f < fuel) (hsz : xs.length + (l - f) < UINT_SIZE) :
    ∃ s', insert fuel s L ⟨ns[i]?⟩ ⟨rs[f]?⟩ ⟨rs[l]?⟩ =
        .ok (s', ⟨lastPtr ns[i]? (List.range' s.fresh (l - f))⟩) ∧
      Rep s' L (ns.take (i + 1) ++ (List.range' s.fresh (l - f) ++ ns.drop (i + 1)))
        (xs.take (i + 1) ++ ((ys.drop f).take (l - f) ++ xs.drop (i + 1))) ∧
      size s' L = size s L + (l - f) ∧
      Rep s' R rs ys ∧ s'.lists R = s.lists R ∧ (∀ a ∈ rs, s'.nodes a = s.nodes a) ∧
      (f = l → lastPtr ns[i]? (List.range' s.fresh (l - f)) = ns[i]?) ∧
      (f < l → lastPtr ns[i]? (List.range' s.fresh (l - f)) = some (s.fresh + (l - f) - 1)) := by
  obtain ⟨hLL, hsizeL, hltL, hdL⟩ := hL
  obtain ⟨hLR, hsizeR, hltR, hdR⟩ := hS
  have hlenL : ns.length = xs.length := by simpa using congrArg List.length hdL
  have hsplitR := split_range rs f l hfl
  have hblen : ((rs.drop f).take (l - f)).length = l - f := by
    simp; omega
  have hLR' : Linked s R (rs.take f ++ ((rs.drop f).take (l - f) ++ rs.drop l)) := by
    rw [← hsplitR]; exact hLR
  obtain ⟨_, hblk, _, _⟩ := seg_split3 hLR'.1
  have hq := block_ne_next hLR'.nodup
  have hfirst : headPtr ((rs.drop f).take (l - f) ++ rs.drop l) none = rs[f]? := by
    have : rs.drop l = (rs.drop f).drop (l - f) := by
      rw [List.drop_drop]; congr 1; omega
    rw [this, List.take_append_drop, headPtr_drop]
  rw [hfirst, headPtr_drop] at hblk
  rw [headPtr_drop] at hq
  have hblkR : ∀ a, a ∈ (rs.drop f).take (l - f) → a ∈ rs := fun a ha =>
    List.mem_of_mem_drop (List.mem_of_mem_take ha)
  have hrs_lt : ∀ a ∈ rs, a < s.fresh := fun a ha => seg_lt_fresh hf hLR.1 ha
  have hns_lt : ∀ a ∈ ns, a < s.fresh := fun a ha => seg_lt_fresh hf hLL.1 ha
  have hlast1 : f = l → lastPtr ns[i]? (List.range' s.fresh (l - f)) = ns[i]? := by
    intro e
    rw [e, Nat.sub_self]
    rfl
  have hlast2 : f < l →
      lastPtr ns[i]? (List.range' s.fresh (l - f)) = some (s.fresh + (l - f) - 1) :=
    fun h => lastPtr_range' _ _ _ (by omega)
  -- what both cases share once the loop has run
  have finish : ∀ (s' : Store T) (nodes' : List Nat),
      Linked s' L nodes' →
      nodes' = ns.take (i + 1) ++ (List.range' s.fresh (l - f) ++ ns.drop (i + 1)) →
      (List.range' s.fresh (l - f)).map (dataAt s') =
        ((rs.drop f).take (l - f)).map (dataAt s) →
      (s'.lists L).size_ = (fun n => (n + 1) % UINT_SIZE)^[l - f] (s.lists L).size_ →
      (∀ K, K ≠ L → s'.lists K = s.lists K) →
      (∀ a, a ∉ ns → a < s.fresh → s'.nodes a = s.nodes a) →
      (∀ a ∈ ns, dataAt s' a = dataAt s a) →
      Rep s' L (ns.take (i + 1) ++ (List.range' s.fresh (l - f) ++ ns.drop (i + 1)))
        (xs.take (i + 1) ++ ((ys.drop f).take (l - f) ++ xs.drop (i + 1))) ∧
      size s' L = size s L + (l - f) ∧
      Rep s' R rs ys ∧ s'.lists R = s.lists R ∧ (∀ a ∈ rs, s'.nodes a = s.nodes a) := by
    intro s' nodes' hLs hnodes' hdata hsz' hl' hn' hd'
    have hs : (s'.lists L).size_ = (s.lists L).size_ + (l - f) := by
      rw [hsz', iterate_inc (by rw [hsizeL]; omega)]
    have hRn : ∀ a ∈ rs, s'.nodes a = s.nodes a := fun a ha =>
      hn' a (fun h => hdisj a h ha) (hrs_lt a ha)
    have hlR := hl' R (Ne.symm hne)
    refine ⟨⟨hnodes' ▸ hLs, ?_, ?_, ?_⟩, by unfold size; exact hs, ⟨?_, ?_, hltR, ?_⟩, hlR, hRn⟩
    · rw [hs, hsizeL]
      simp only [List.length_append, List.length_take, List.length_drop, List.length_range']
      omega
    · simp only [List.length_append, List.length_take, List.length_drop, List.length_range']
      omega
    · rw [List.map_append, List.map_append, hdata,
        map_dataAt_congr (fun a ha => hd' a (List.mem_of_mem_take ha)),
        map_dataAt_congr (fun a ha => hd' a (List.mem_of_mem_drop ha))]
      simp only [List.map_append, List.map_take, List.map_drop, hdL, hdR]
    · exact hLR.frame (by rw [hlR]) (by rw [hlR]) hRn
    · rw [hlR]; exact hsizeR
    · rw [map_dataAt_congr (fun a ha => by
        show dataAt s' a = dataAt s a
        simp only [dataAt, hRn a ha])]
      exact hdR
  rcases hi with hi | hi
  · have hsplit := split_at_index ns i hi
    have hLL' : Linked s L (ns.take i ++ ns[i] :: ns.drop (i + 1)) := by
      rw [← hsplit]; exact hLL
    obtain ⟨s', hrun, hLs, hdata, _, _, hsz', hl', hn', hd'⟩ :=
      insertLoop_spec L ((rs.drop f).take (l - f)) s (ns.take i) (ns.drop (i + 1)) ns[i]
        _ _ _ fuel hLL' hf hblk hq
        (fun a ha hmem => hdisj a (by rw [hsplit]; exact hmem) (hblkR a ha))
        (by rw [hblen]; exact hfuel)
    rw [hblen] at hrun hLs hdata hsz'
    rw [← hsplit] at hn'
    have hfin := finish s' _ hLs
      (by rw [take_succ_split ns i hi, List.append_assoc]; rfl) hdata hsz' hl' hn'
      (fun a ha => hd' a (hns_lt a ha))
    refine ⟨s', ?_, hfin.1, hfin.2.1, hfin.2.2.1, hfin.2.2.2.1, hfin.2.2.2.2, hlast1, hlast2⟩
    simp only [insert]
    rw [List.getElem?_eq_getElem hi, hrun, ok_bind]
    rfl
  · subst hi
    obtain ⟨s', hrun, hLs, hdata, _, _, hsz', hl', hn'⟩ :=
      insertLoop_empty_rep L ((rs.drop f).take (l - f)) s _ _ _ fuel hLL hf hblk hq
        (by rw [hblen]; exact hfuel)
    rw [hblen] at hrun hLs hdata hsz'
    have hfin := finish s' _ hLs (by simp) hdata hsz' hl' (fun a _ hlt => hn' a hlt)
      (fun a ha => by simp at ha)
    refine ⟨s', ?_, hfin.1, hfin.2.1, hfin.2.2.1, hfin.2.2.2.1, hfin.2.2.2.2, hlast1, hlast2⟩
    simp only [insert]
    rw [show ([] : List Nat)[i]? = none from rfl, hrun, ok_bind]
    rfl

theorem insert_range_copies_witness :
    Rep exampleStore 0 [0, 1] [1, 2] ∧ Rep exampleStore 1 [2, 3] [3, 4] ∧
    ∃ s', insert 3 exampleStore 0 ⟨some 0⟩ ⟨some 2⟩ ⟨none⟩ = .ok (s', ⟨some 5⟩) ∧
      Rep s' 0 [0, 4, 5, 1] [1, 3, 4, 2] ∧ size s' 0 = 4 ∧ Rep s' 1 [2, 3] [3, 4] :=
  ⟨by decide, by decide,
    (insert_range_copies exampleStore 0 1 [0, 1] [2, 3] [1, 2] [3, 4] 0 0 2 3 (by decide)
      (by decide) (by decide) (by decide) exampleStore_freshOk (by decide) (by decide)
      (by decide) (by decide) (by decide)).imp fun _ h => ⟨h.1, h.2.1, h.2.2.1, h.2.2.2.1⟩⟩

/-! ## Copy construction -/

/-- C20: copy construction `C = List(L)` from a well-formed list `L` with elements `xs`, `C` a
list object other than `L`. Once the fuel exceeds the node count the constructor returns; `C`
is well formed over newly allocated nodes, holds `xs` and has the same `size()` as `L`;
iterating both from `begin()` to `end()` yields the same elements in the same order; and `L` is
unchanged: its fields, its nodes and its elements are those before the call. -/
theorem copy_equals_original (s : Store T) (self other : Nat) (ns : List Nat) (xs : List T)
    (fuel : Nat) (hR : Rep s other ns xs) (hne : self ≠ other) (hf : s.FreshOk)
    (hfuel : ns.length < fuel) :
    ∃ s', copyConstruct fuel s self other = .ok s' ∧
      Rep s' self (List.range' s.fresh ns.length) xs ∧ Rep s' other ns xs ∧
      size s' self = size s' other ∧ size s' other = size s other ∧
      elements fuel s' self = .ok xs ∧ elements fuel s' other = .ok xs ∧
      elements fuel s other = .ok xs ∧
      s'.lists other = s.lists other ∧ (∀ a ∈ ns, s'.nodes a = s.nodes a) := by
  have hne' : other ≠ self := Ne.symm hne
  have hRs := hR
  obtain ⟨hO, hsize, hlt, hd⟩ := hR
  have hlen : ns.length = xs.length := by simpa using congrArg List.length hd
  let s0 : Store T := s.setList self ⟨0, none, none⟩
  have hL0 : Linked s0 self [] := by
    constructor
    · show (s0.lists self).head_ = none
      simp [s0]
    · simp [s0]
  have hf0 : s0.FreshOk := hf
  have hhead : (s0.lists other).head_ = (s.lists other).head_ := by simp [s0, hne']
  have hseg : Seg s0.nodes none (s0.lists other).head_ ns none := by
    rw [hhead]; exact hO.1
  obtain ⟨s', hrun, hL', hsz, _, _, hl, hn, hdat, hdata⟩ :=
    copyLoop_spec self other ns s0 [] none (s0.lists other).head_ fuel hL0 hf0 hseg
      (fun a _ hmem => by simp at hmem) hfuel
  have hns_lt : ∀ a ∈ ns, a < s.fresh := fun a ha => seg_lt_fresh hf hO.1 ha
  have hlO : s'.lists other = s.lists other := by
    rw [hl other hne']; simp [s0, hne']
  have hnO : ∀ a ∈ ns, s'.nodes a = s.nodes a := fun a ha =>
    hn a (by simp) (hns_lt a ha)
  have hsz' : (s'.lists self).size_ = ns.length := by
    rw [hsz]
    have : (s0.lists self).size_ = 0 := by simp [s0]
    rw [this, iterate_inc (by omega)]
    omega
  have hRself : Rep s' self (List.range' s.fresh ns.length) xs := by
    refine ⟨by simpa using hL', ?_, ?_, ?_⟩
    · rw [hsz']; simp
    · simpa using hlt
    · have : (List.range' s0.fresh ns.length).map (dataAt s') = ns.map (dataAt s0) := hdata
      exact this.trans hd
  have hRother : Rep s' other ns xs := by
    refine ⟨hO.frame (by rw [hlO]) (by rw [hlO]) hnO, by rw [hlO]; exact hsize, hlt, ?_⟩
    rw [map_dataAt_congr (fun a ha => by
      show dataAt s' a = dataAt s a
      simp only [dataAt, hnO a ha])]
    exact hd
  exact ⟨s', hrun, hRself, hRother, by unfold size; rw [hsz', hlO, hsize],
    by unfold size; rw [hlO], hRself.elements fuel (by omega), hRother.elements fuel (by omega),
    hRs.elements fuel (by omega), hlO, hnO⟩

theorem copy_equals_original_witness :
    Rep exampleStore 0 [0, 1] [1, 2] ∧
    ∃ s', copyConstruct 3 exampleStore 5 0 = .ok s' ∧ Rep s' 5 [4, 5] [1, 2] ∧
      Rep s' 0 [0, 1] [1, 2] ∧ size s' 5 = size s' 0 :=
  ⟨by decide,
    (copy_equals_original exampleStore 5 0 [0, 1] [1, 2] 3 (by decide) (by decide)
      exampleStore_freshOk (by decide)).imp fun _ h => ⟨h.1, h.2.1, h.2.2.1, h.2.2.2.1⟩⟩



/-! ## Splice: the remaining boundary cases -/

/-- C23: for every store, every destination `A` with any position `pos` and every source `B`,
`A.splice(pos, B, it)` with `it` the end sentinel of `B` returns the store it was given: the
nodes and the fields of every list, so the element sequences and sizes of `A` and `B`, are
unchanged. -/
theorem splice_one_end_is_noop (s : Store T) (A B : Nat) (pos : ListIterator) :
    spliceOne s A pos B (end_ s B) = .ok s ∧
      ∀ fuel, (do
        let s' ← spliceOne s A pos B (end_ s B)
        pure (elements fuel s' A, size s' A, elements fuel s' B, size s' B)) =
        .ok (elements fuel s A, size s A, elements fuel s B, size s B) := by
  have h : spliceOne s A pos B (end_ s B) = .ok s := by
    simp only [spliceOne, end_]
    split_ifs <;> rfl
  exact ⟨h, fun fuel => by rw [h]; rfl⟩

/-- C24: for every well-formed list `A`, empty or not, and every empty list `B`,
`A.splice(B.begin(), B)`, where `B.begin()` is the end sentinel, returns and changes no node;
`A` keeps its nodes, its element sequence and its size, and `B` stays empty. -/
theorem splice_empty_at_own_begin (s : Store T) (A B : Nat) (as : List Nat) (xs : List T)
    (hA : Rep s A as xs) (hB : Rep s B [] []) :
    ∃ s', splice s A (begin s B) B = .ok s' ∧ s'.nodes = s.nodes ∧
      Rep s' A as xs ∧ Rep s' B [] [] ∧ size s' A = size s A ∧ size s' B = 0 ∧
      isEmpty s' B = true := by
  have hBh : (s.lists B).head_ = none := hB.1.1
  have hBt : (s.lists B).tail_ = none := hB.1.2
  have hBs : (s.lists B).size_ = 0 := hB.2.1
  have hbegin : begin s B = ⟨none⟩ := by simp [begin, hBh]
  rw [hbegin]
  by_cases hne : as = []
  · subst hne
    have hAh : (s.lists A).head_ = none := hA.1.1
    have hAt : (s.lists A).tail_ = none := hA.1.2
    have hAs : (s.lists A).size_ = 0 := hA.2.1
    have hxs : xs = [] := by
      have := hA.length_eq
      exact List.length_eq_zero.1 this.symm
    subst hxs
    have hrun : ∃ s', splice s A ⟨none⟩ B = .ok s' ∧ s'.nodes = s.nodes ∧
        (s'.lists A).head_ = none ∧ (s'.lists A).tail_ = none ∧ (s'.lists A).size_ = 0 ∧
        (s'.lists B).head_ = none ∧ (s'.lists B).tail_ = none ∧ (s'.lists B).size_ = 0 := by
      simp only [splice]
      rw [if_neg (by simp [hAs]), if_neg (by simp)]
      refine ⟨_, rfl, rfl, ?_, ?_, ?_, ?_, ?_, ?_⟩ <;>
      · by_cases hAB : A = B
        · simp [Store.setHead, Store.setTail, Store.setSize, hAB]
        · simp [Store.setHead, Store.setTail, Store.setSize, hAB, Ne.symm hAB, hBh, hBt, hBs,
            hAs]
    obtain ⟨s', hr, hn, h1, h2, h3, h4, h5, h6⟩ := hrun
    refine ⟨s', hr, hn, ⟨⟨h1, h2⟩, h3, by simp [UINT_SIZE], rfl⟩,
      ⟨⟨h4, h5⟩, h6, by simp [UINT_SIZE], rfl⟩, by unfold size; rw [h3, hAs], h6, ?_⟩
    simp [isEmpty, h4]
  · have hsz : 0 < (s.lists A).size_ := by
      rw [hA.2.1]; exact List.length_pos.2 hne
    refine ⟨s, (splice_guard s A B ⟨none⟩ ⟨none⟩ ⟨none⟩ 0 hsz).1, rfl, hA, hB, rfl, hBs, ?_⟩
    simp [isEmpty, hBh]

theorem splice_empty_at_own_begin_witness :
    Rep exampleStore 0 [0, 1] [1, 2] ∧ Rep exampleStore 2 [] [] ∧
    ∃ s', splice exampleStore 0 (begin exampleStore 2) 2 = .ok s' ∧
      Rep s' 0 [0, 1] [1, 2] ∧ Rep s' 2 [] [] :=
  ⟨by decide, by decide,
    (splice_empty_at_own_begin exampleStore 0 2 [0, 1] [1, 2] (by decide) (by decide)).imp
      fun _ h => ⟨h.1, h.2.2.1, h.2.2.2.1⟩⟩

/-- C25 (the code at the failing input): with `A = [1, 2]`, `pos = A.begin()` and `B` empty, the
whole-list splice `A.splice(pos, B)` dereferences a null pointer: after
`node->previous_ = source.tail_` it evaluates `source.tail_->next_` with `source.tail_` null.
The variant has no early-out for an empty source. -/
theorem splice_empty_source_derefs_null :
    Rep exampleStore 0 [0, 1] [1, 2] ∧ Rep exampleStore 2 [] [] ∧
    (splice exampleStore 0 (begin exampleStore 0) 2).toOption = none ∧
    (match splice exampleStore 0 (begin exampleStore 0) 2 with
      | .error .nullDeref => true
      | _ => false) = true :=
  ⟨by decide, by decide, rfl, rfl⟩

/-! ## Iterator steps -/

theorem lastPtr_take (ns : List Nat) (i : Nat) (hi : i < ns.length) :
    lastPtr none (ns.take i) = if i = 0 then none else ns[i - 1]? := by
  cases i with
  | zero => rfl
  | succ k =>
    rw [take_succ_split ns k (by omega), lastPtr_snoc, if_neg (by omega)]
    exact (List.getElem?_eq_getElem (by omega)).symm

/-- The links of the node at index `i` of a linked list. -/
theorem Linked.node_at {s : Store T} {L : Nat} {ns : List Nat} (hL : Linked s L ns) (i : Nat)
    (hi : i < ns.length) :
    ∃ n, s.nodes ns[i] = some n ∧ n.next_ = ns[i + 1]? ∧
      n.previous_ = if i = 0 then none else ns[i - 1]? := by
  have hsplit := split_at_index ns i hi
  have hseg : Seg s.nodes none (s.lists L).head_ (ns.take i ++ ns[i] :: ns.drop (i + 1)) none := by
    rw [← hsplit]; exact hL.1
  obtain ⟨n, hn, hp, hx, _, _⟩ := seg_split hseg
  exact ⟨n, hn, by rw [hx, headPtr_drop], by rw [hp, lastPtr_take ns i hi]⟩

/-- C26: steps of a list iterator. For every list of every store, with no assumption on it, `++`
and `--` on the end sentinel, in the form returning the iterator itself and in the form returning
a copy, leave the iterator at the end sentinel. On every non-empty linked list the end sentinel
differs from the iterator at the last node, so decrementing `end()` does not reach the last
element. On every linked list, at the node of index `i`, `++` moves to the node of index `i + 1`,
the end sentinel when `i` is the last index, and `--` moves to the node of index `i - 1`, the end
sentinel when `i == 0`; the forms returning a copy return the iterator as it was. -/
theorem iterator_steps (s : Store T) (L : Nat) :
    (ListIterator.preInc s (end_ s L) = .ok (end_ s L) ∧
      ListIterator.preDec s (end_ s L) = .ok (end_ s L) ∧
      ListIterator.postInc s (end_ s L) = .ok (end_ s L, end_ s L) ∧
      ListIterator.postDec s (end_ s L) = .ok (end_ s L, end_ s L)) ∧
    (∀ ns : List Nat, Linked s L ns → ns ≠ [] →
      (⟨(s.lists L).tail_⟩ : ListIterator) = ⟨ns[ns.length - 1]?⟩ ∧
      (⟨(s.lists L).tail_⟩ : ListIterator) ≠ end_ s L ∧
      ListIterator.preDec s (end_ s L) ≠ .ok ⟨(s.lists L).tail_⟩ ∧
      ListIterator.postDec s (end_ s L) ≠ .ok (end_ s L, ⟨(s.lists L).tail_⟩)) ∧
    (∀ (ns : List Nat) (i : Nat), Linked s L ns → i < ns.length →
      (ListIterator.preInc s ⟨ns[i]?⟩ = .ok ⟨ns[i + 1]?⟩ ∧
        ListIterator.postInc s ⟨ns[i]?⟩ = .ok (⟨ns[i]?⟩, ⟨ns[i + 1]?⟩) ∧
        ListIterator.preDec s ⟨ns[i]?⟩ = .ok ⟨if i = 0 then none else ns[i - 1]?⟩ ∧
        ListIterator.postDec s ⟨ns[i]?⟩ =
          .ok (⟨ns[i]?⟩, ⟨if i = 0 then none else ns[i - 1]?⟩)) ∧
      (i + 1 = ns.length → (⟨ns[i + 1]?⟩ : ListIterator) = end_ s L)) := by
  refine ⟨⟨rfl, rfl, rfl, rfl⟩, ?_, ?_⟩
  · intro ns hL hns
    have htail : (s.lists L).tail_ ≠ none := by
      rw [hL.tail_eq]
      intro h
      exact hns (lastPtr_eq_none h)
    have hne : (⟨(s.lists L).tail_⟩ : ListIterator) ≠ end_ s L := by
      intro h
      exact htail (congrArg ListIterator.node_ h)
    refine ⟨?_, hne, ?_, ?_⟩
    · rw [hL.tail_eq, lastPtr_eq_getLast?, List.getLast?_eq_getElem?]
    · intro h
      have h' : (end_ s L : ListIterator) = ⟨(s.lists L).tail_⟩ := by
        have : ListIterator.preDec s (end_ s L) = .ok (end_ s L) := rfl
        rw [this] at h
        exact Except.ok.inj h
      exact hne h'.symm
    · intro h
      have h' : ((end_ s L, end_ s L) : ListIterator × ListIterator) =
          (end_ s L, ⟨(s.lists L).tail_⟩) := by
        have : ListIterator.postDec s (end_ s L) = .ok (end_ s L, end_ s L) := rfl
        rw [this] at h
        exact Except.ok.inj h
      exact hne (congrArg Prod.snd h').symm
  · intro ns i hL hi
    obtain ⟨n, hn, hnext, hprev⟩ := hL.node_at i hi
    refine ⟨⟨?_, ?_, ?_, ?_⟩, ?_⟩
    · rw [List.getElem?_eq_getElem hi]
      simp only [ListIterator.preInc, Store.load_some hn, ok_bind, hnext]
      rfl
    · rw [List.getElem?_eq_getElem hi]
      simp only [ListIterator.postInc, Store.load_some hn, ok_bind, hnext]
      rfl
    · rw [List.getElem?_eq_getElem hi]
      simp only [ListIterator.preDec, Store.load_some hn, ok_bind, hprev]
      rfl
    · rw [List.getElem?_eq_getElem hi]
      simp only [ListIterator.postDec, Store.load_some hn, ok_bind, hprev]
      rfl
    · intro h
      rw [List.getElem?_eq_none (by omega)]
      rfl

theorem iterator_steps_witness :
    Linked exampleStore 0 [0, 1] ∧
    ListIterator.preInc exampleStore ⟨some 0⟩ = .ok ⟨some 1⟩ ∧
    ListIterator.preDec exampleStore ⟨some 0⟩ = .ok ⟨none⟩ ∧
    ListIterator.preDec exampleStore (end_ exampleStore 0) ≠ .ok ⟨some 1⟩ ∧
    ListIterator.preDec (Store.empty : Store Nat) (end_ (Store.empty : Store Nat) 0) =
      .ok (end_ (Store.empty : Store Nat) 0) :=
  ⟨by decide,
    ((iterator_steps exampleStore 0).2.2 [0, 1] 0 (by decide) (by decide)).1.1,
    ((iterator_steps exampleStore 0).2.2 [0, 1] 0 (by decide) (by decide)).1.2.2.1,
    ((iterator_steps exampleStore 0).2.1 [0, 1] (by decide) (by decide)).2.2.1,
    (iterator_steps (Store.empty : Store Nat) 0).1.2.1⟩

/-! ## The generic algorithms `advance`, `next` and `distance` -/

theorem wrapInt_of_range {z : Int} (hlo : -2 ^ 31 ≤ z) (hhi : z < 2 ^ 31) : wrapInt z = z := by
  unfold wrapInt
  omega

theorem bind_congr_ok {α β : Type} (x : Except Fault α) (f g : α → Except Fault β)
    (h : ∀ a, x = .ok a → f a = g a) : (x >>= f) = (x >>= g) := by
  cases x with
  | error e => rfl
  | ok a => exact h a rfl

/-- The loop `while (n--) ++it;` started with `n = k ≥ 0` applies `++` exactly `k` times. -/
theorem advanceIncLoop_eq {I : Type} (inc : I → Except Fault I) :
    ∀ (k fuel : Nat) (it : I), k < fuel → (k : Int) < 2 ^ 31 →
      advanceIncLoop inc fuel it (k : Int) = stepN inc k it := by
  intro k
  induction k with
  | zero =>
    intro fuel it hfuel _
    cases fuel with
    | zero => cases hfuel
    | succ fuel => simp [advanceIncLoop, stepN]
  | succ k ih =>
    intro fuel it hfuel hk
    cases fuel with
    | zero => cases hfuel
    | succ fuel =>
      have hne : ((k + 1 : Nat) : Int) ≠ 0 := by omega
      have hw : wrapInt (((k + 1 : Nat) : Int) - 1) = (k : Int) := by
        rw [wrapInt_of_range (by omega) (by omega)]
        omega
      simp only [advanceIncLoop, stepN]
      rw [if_neg hne, hw]
      exact bind_congr_ok _ _ _ (fun a _ => ih fuel a (by omega) (by omega))

/-- The loop `while (n++) --it;` started with `n = -k ≤ 0` applies `--` exactly `k` times. -/
theorem advanceDecLoop_eq {I : Type} (dec : I → Except Fault I) :
    ∀ (k fuel : Nat) (it : I), k < fuel → (k : Int) ≤ 2 ^ 31 →
      advanceDecLoop dec fuel it (-(k : Int)) = stepN dec k it := by
  intro k
  induction k with
  | zero =>
    intro fuel it hfuel _
    cases fuel with
    | zero => cases hfuel
    | succ fuel => simp [advanceDecLoop, stepN]
  | succ k ih =>
    intro fuel it hfuel hk
    cases fuel with
    | zero => cases hfuel
    | succ fuel =>
      have hne : -((k + 1 : Nat) : Int) ≠ 0 := by omega
      have hw : wrapInt (-((k + 1 : Nat) : Int) + 1) = -(k : Int) := by
        rw [wrapInt_of_range (by omega) (by omega)]
        omega
      simp only [advanceDecLoop, stepN]
      rw [if_neg hne, hw]
      exact bind_congr_ok _ _ _ (fun a _ => ih fuel a (by omega) (by omega))

theorem stepN_end (s : Store T) (k : Nat) :
    stepN (ListIterator.preInc s) k ⟨none⟩ = .ok ⟨none⟩ ∧
      stepN (ListIterator.preDec s) k ⟨none⟩ = .ok ⟨none⟩ := by
  induction k with
  | zero => exact ⟨rfl, rfl⟩
  | succ k ih => exact ⟨ih.1, ih.2⟩

/-- Applying `++` `k` times from the position of index `i` of a linked list. -/
theorem stepN_inc_list {s : Store T} {L : Nat} {ns : List Nat} (hL : Linked s L ns) :
    ∀ (k i : Nat), stepN (ListIterator.preInc s) k ⟨ns[i]?⟩ = .ok ⟨ns[i + k]?⟩ := by
  intro k
  induction k with
  | zero => intro i; rfl
  | succ k ih =>
    intro i
    by_cases hi : i < ns.length
    · obtain ⟨n, hn, hnext, _⟩ := hL.node_at i hi
      have hstep : ListIterator.preInc s ⟨ns[i]?⟩ = .ok ⟨ns[i + 1]?⟩ := by
        rw [List.getElem?_eq_getElem hi]
        simp only [ListIterator.preInc, Store.load_some hn, ok_bind, hnext]
        rfl
      simp only [stepN]
      rw [hstep, ok_bind, ih (i + 1)]
      congr 3
      omega
    · rw [List.getElem?_eq_none (by omega), List.getElem?_eq_none (by omega)]
      exact (stepN_end s (k + 1)).1

/-- Applying `--` `k` times from the node of index `i` of a linked list. -/
theorem stepN_dec_list {s : Store T} {L : Nat} {ns : List Nat} (hL : Linked s L ns) :
    ∀ (k i : Nat), i < ns.length →
      stepN (ListIterator.preDec s) k ⟨ns[i]?⟩ = .ok ⟨if i < k then none else ns[i - k]?⟩ := by
  intro k
  induction k with
  | zero => intro i _; rfl
  | succ k ih =>
    intro i hi
    obtain ⟨n, hn, _, hprev⟩ := hL.node_at i hi
    have hstep : ListIterator.preDec s ⟨ns[i]?⟩ =
        .ok ⟨if i = 0 then none else ns[i - 1]?⟩ := by
      rw [List.getElem?_eq_getElem hi]
      simp only [ListIterator.preDec, Store.load_some hn, ok_bind, hprev]
      rfl
    simp only [stepN]
    rw [hstep, ok_bind]
    by_cases h0 : i = 0
    · rw [if_pos h0, if_pos (by omega)]
      exact (stepN_end s k).2
    · rw [if_neg h0, ih (i - 1) (by omega)]
      by_cases hk : i < k + 1
      · rw [if_pos hk, if_pos (by omega)]
      · rw [if_neg hk, if_neg (by omega)]
        congr 3
        omega

theorem advance_bidirectional_eq {I : Type} (inc dec : I → Except Fault I) (it : I) (n : Int)
    (fuel : Nat) (hlo : -2 ^ 31 ≤ n) (hhi : n < 2 ^ 31) (hfuel : n.natAbs < fuel) :
    advance (.bidirectional inc dec) fuel it n =
      (if 0 ≤ n then stepN inc n.toNat it else stepN dec n.natAbs it) := by
  simp only [advance, advanceBidirectional]
  by_cases hn : 0 ≤ n
  · rw [if_neg (by omega), if_pos hn]
    have e : n = (n.toNat : Int) := by omega
    have := advanceIncLoop_eq inc n.toNat fuel it (by omega) (by omega)
    rw [← e] at this
    exact this
  · rw [if_pos (by omega), if_neg hn]
    have e : n = -(n.natAbs : Int) := by omega
    have := advanceDecLoop_eq dec n.natAbs fuel it hfuel (by omega)
    rw [← e] at this
    exact this

/-- The position reached by `advance` from the node of index `i` of a linked list. -/
theorem advance_list {s : Store T} {L : Nat} {ns : List Nat} (hL : Linked s L ns) (i : Nat)
    (hi : i < ns.length) (n : Int) (fuel : Nat) (hlo : -2 ^ 31 ≤ n) (hhi : n < 2 ^ 31)
    (hfuel : n.natAbs < fuel) :
    advance (ListIterator.ops s) fuel ⟨ns[i]?⟩ n =
      .ok ⟨if (i : Int) + n < 0 then none else ns[((i : Int) + n).toNat]?⟩ := by
  have hg := advance_bidirectional_eq (ListIterator.preInc s) (ListIterator.preDec s)
    (⟨ns[i]?⟩ : ListIterator) n fuel hlo hhi hfuel
  show advance (.bidirectional (ListIterator.preInc s) (ListIterator.preDec s)) fuel _ n = _
  rw [hg]
  by_cases hn : 0 ≤ n
  · rw [if_pos hn, stepN_inc_list hL, if_neg (by omega)]
    congr 3
    omega
  · rw [if_neg hn, stepN_dec_list hL _ _ hi]
    by_cases hlt : i < n.natAbs
    · rw [if_pos hlt, if_pos (by omega)]
    · rw [if_neg hlt, if_neg (by omega)]
      congr 3
      omega

/-- C27: `advance(it, n)` for a bidirectional iterator and an `int` `n`. Once the fuel exceeds
`|n|` the call returns what `n` applications of `++` return when `n ≥ 0`, and what `|n|`
applications of `--` return when `n < 0`; `advance(it, 0)` returns `it`. For the list iterator at
the node of index `i` of a linked list, the result is the iterator at index `i + n`, which is
the end sentinel unless `0 ≤ i + n < |list|`. -/
theorem advance_bidirectional {I : Type} (inc dec : I → Except Fault I) (it : I) (n : Int)
    (fuel : Nat) (hlo : -2 ^ 31 ≤ n) (hhi : n < 2 ^ 31) (hfuel : n.natAbs < fuel) :
    advance (.bidirectional inc dec) fuel it n =
        (if 0 ≤ n then stepN inc n.toNat it else stepN dec n.natAbs it) ∧
      advance (.bidirectional inc dec) fuel it 0 = .ok it ∧
      ∀ (S : Type) (s : Store S) (L : Nat) (ns : List Nat) (i : Nat),
        Linked s L ns → i < ns.length →
        advance (ListIterator.ops s) fuel ⟨ns[i]?⟩ n =
          .ok ⟨if (i : Int) + n < 0 then none else ns[((i : Int) + n).toNat]?⟩ := by
  refine ⟨advance_bidirectional_eq inc dec it n fuel hlo hhi hfuel, ?_, ?_⟩
  · obtain ⟨k, rfl⟩ : ∃ k, fuel = k + 1 := ⟨fuel - 1, by omega⟩
    simp [advance, advanceBidirectional, advanceIncLoop]
  · intro S s L ns i hL hi
    exact advance_list hL i hi n fuel hlo hhi hfuel

theorem advance_bidirectional_witness :
    Linked exampleStore 0 [0, 1] ∧
    advance (ListIterator.ops exampleStore) 3 ⟨some 1⟩ (-1) = .ok ⟨some 0⟩ ∧
    advance (ListIterator.ops exampleStore) 3 ⟨some 1⟩ (-1) =
      stepN (ListIterator.preDec exampleStore) 1 ⟨some 1⟩ :=
  ⟨by decide,
    (advance_bidirectional (ListIterator.preInc exampleStore) (ListIterator.preDec exampleStore)
      (⟨some 1⟩ : ListIterator) (-1) 3 (by decide) (by decide) (by decide)).2.2
      Nat exampleStore 0 [0, 1] 1 (by decide) (by decide),
    (advance_bidirectional (ListIterator.preInc exampleStore) (ListIterator.preDec exampleStore)
      (⟨some 1⟩ : ListIterator) (-1) 3 (by decide) (by decide) (by decide)).1⟩

/-- C28: the overload of `advance` for forward iterators. For `n ≤ 0` the call returns the
iterator unchanged, whatever the fuel: a negative `n` is not an error. For an `int` `n > 0` and
fuel above `n` it returns what `n` applications of `++` return. -/
theorem advance_forward {I : Type} (inc : I → Except Fault I) (it : I) (n : Int) (fuel : Nat)
    (hhi : n < 2 ^ 31) (hfuel : n.toNat < fuel) :
    (n ≤ 0 → ∀ fuel', advance (.forward inc) fuel' it n = .ok it) ∧
      (0 < n → advance (.forward inc) fuel it n = stepN inc n.toNat it) := by
  constructor
  · intro hn fuel'
    simp only [advance, advanceForward]
    rw [if_neg (by omega)]
  · intro hn
    simp only [advance, advanceForward]
    rw [if_pos hn]
    have e : n = (n.toNat : Int) := by omega
    have := advanceIncLoop_eq inc n.toNat fuel it hfuel (by omega)
    rw [← e] at this
    exact this

theorem advance_forward_witness :
    advance (.forward (ListIterator.preInc exampleStore)) 0 (⟨some 0⟩ : ListIterator) (-3) =
      .ok ⟨some 0⟩ ∧
    advance (.forward (ListIterator.preInc exampleStore)) 3 (⟨some 0⟩ : ListIterator) 2 =
      stepN (ListIterator.preInc exampleStore) 2 ⟨some 0⟩ :=
  ⟨(advance_forward (ListIterator.preInc exampleStore) (⟨some 0⟩ : ListIterator) (-3) 1
      (by decide) (by decide)).1 (by decide) 0,
    (advance_forward (ListIterator.preInc exampleStore) (⟨some 0⟩ : ListIterator) 2 3
      (by decide) (by decide)).2 (by decide)⟩

theorem getElem?_ne_of_nodup {ns : List Nat} (hnd : ns.Nodup) {a b : Nat} (ha : a < ns.length)
    (hab : a ≠ b) : ns[a]? ≠ ns[b]? := by
  intro h
  by_cases hb : b < ns.length
  · rw [List.getElem?_eq_getElem ha, List.getElem?_eq_getElem hb] at h
    exact hab ((List.Nodup.getElem_inj_iff hnd).1 (Option.some.inj h))
  · rw [List.getElem?_eq_getElem ha, List.getElem?_eq_none (by omega)] at h
    cases h

/-- The counting loop of `distance` between the positions of index `i` and `i + k` of a linked
list. -/
theorem distanceLoop_list {s : Store T} {L : Nat} {ns : List Nat} (hL : Linked s L ns) :
    ∀ (k i fuel : Nat) (c : Int), i + k ≤ ns.length → k < fuel → -2 ^ 31 ≤ c →
      c + k < 2 ^ 31 →
      distanceLoop (ListIterator.preInc s) fuel ⟨ns[i]?⟩ ⟨ns[i + k]?⟩ c = .ok (c + k) := by
  intro k
  induction k with
  | zero =>
    intro i fuel c _ hfuel _ _
    cases fuel with
    | zero => cases hfuel
    | succ fuel => simp [distanceLoop]
  | succ k ih =>
    intro i fuel c hik hfuel hlo hhi
    cases fuel with
    | zero => cases hfuel
    | succ fuel =>
      have hi : i < ns.length := by omega
      have hne : (⟨ns[i]?⟩ : ListIterator) ≠ ⟨ns[i + (k + 1)]?⟩ := by
        intro h
        exact getElem?_ne_of_nodup hL.nodup hi (by omega) (congrArg ListIterator.node_ h)
      obtain ⟨n, hn, hnext, _⟩ := hL.node_at i hi
      have hstep : ListIterator.preInc s ⟨ns[i]?⟩ = .ok ⟨ns[i + 1]?⟩ := by
        rw [List.getElem?_eq_getElem hi]
        simp only [ListIterator.preInc, Store.load_some hn, ok_bind, hnext]
        rfl
      have hw : wrapInt (c + 1) = c + 1 := wrapInt_of_range (by omega) (by omega)
      have hrec := ih (i + 1) fuel (c + 1) (by omega) (by omega) (by omega)
        (by push_cast at hhi ⊢; omega)
      have e1 : i + 1 + k = i + (k + 1) := by omega
      have e2 : c + 1 + (k : Int) = c + ((k + 1 : Nat) : Int) := by push_cast; omega
      rw [e1, e2] at hrec
      simp only [distanceLoop]
      rw [if_neg hne, hw, hstep, ok_bind]
      exact hrec

/-- C29: `distance(first, last)` on a well-formed list with fewer than `2 ^ 31` nodes, `first`
at index `i` and `last` at index `j`, `i ≤ j ≤ |list|` (`j == |list|` being `end()`). Once the
fuel exceeds `j - i` the call returns `j - i`; `j - i` applications of `++` take `first` to
`last` and fewer do not; `distance(begin(), end())` is `size()`; and iterating from `begin()`
yields the elements of the list in order. -/
theorem distance_counts_steps (s : Store T) (L : Nat) (ns : List Nat) (xs : List T)
    (i j fuel : Nat) (hR : Rep s L ns xs) (hm : ns.length < 2 ^ 31) (hij : i ≤ j)
    (hj : j ≤ ns.length) (hfuel : j - i < fuel) :
    distance (ListIterator.ops s) fuel ⟨ns[i]?⟩ ⟨ns[j]?⟩ = .ok ((j - i : Nat) : Int) ∧
      stepN (ListIterator.preInc s) (j - i) ⟨ns[i]?⟩ = .ok ⟨ns[j]?⟩ ∧
      (∀ k, k < j - i → stepN (ListIterator.preInc s) k ⟨ns[i]?⟩ ≠ .ok ⟨ns[j]?⟩) ∧
      (ns.length < fuel →
        distance (ListIterator.ops s) fuel (begin s L) (end_ s L) = .ok (size s L : Int)) ∧
      elements (xs.length + 1) s L = .ok xs := by
  have hL := hR.1
  have hdist : ∀ (a b fuel' : Nat), a ≤ b → b ≤ ns.length → b - a < fuel' →
      distance (ListIterator.ops s) fuel' ⟨ns[a]?⟩ ⟨ns[b]?⟩ = .ok ((b - a : Nat) : Int) := by
    intro a b fuel' hab hb hf
    have h := distanceLoop_list hL (b - a) a fuel' 0 (by omega) hf (by omega) (by omega)
    have e : a + (b - a) = b := by omega
    rw [e, zero_add] at h
    exact h
  refine ⟨hdist i j fuel hij hj hfuel, ?_, ?_, ?_, hR.elements _ (by omega)⟩
  · rw [stepN_inc_list hL]
    congr 3
    omega
  · intro k hk h
    rw [stepN_inc_list hL] at h
    have h' : ns[i + k]? = ns[j]? := congrArg ListIterator.node_ (Except.ok.inj h)
    exact getElem?_ne_of_nodup hL.nodup (by omega) (by omega) h'
  · intro hf
    have hb : begin s L = ⟨ns[0]?⟩ := by
      simp only [begin]
      rw [hL.head_eq, ← headPtr_drop ns 0]
      rfl
    have he : end_ s L = ⟨ns[ns.length]?⟩ := by
      rw [List.getElem?_eq_none (le_refl _)]
      rfl
    rw [hb, he, hdist 0 ns.length fuel (Nat.zero_le _) (le_refl _) (by omega)]
    simp only [size, hR.2.1, Nat.sub_zero]

theorem distance_counts_steps_witness :
    Rep exampleStore 0 [0, 1] [1, 2] ∧
    distance (ListIterator.ops exampleStore) 3 (begin exampleStore 0) (end_ exampleStore 0) =
      .ok 2 :=
  ⟨by decide,
    (distance_counts_steps exampleStore 0 [0, 1] [1, 2] 0 2 3 (by decide) (by decide)
      (by decide) (by decide) (by decide)).1⟩

/-- For a count below `2 ^ 31`, `next(it, n)` on a bidirectional iterator applies `++` exactly
`n` times, and `next(it)` applies it once. -/
theorem next_small_count {I : Type} (inc dec : I → Except Fault I) (it : I) (n fuel : Nat)
    (hn : n < 2 ^ 31) (hfuel : n < fuel) :
    next (.bidirectional inc dec) fuel it n = stepN inc n it ∧
      (1 < fuel → nextOne (.bidirectional inc dec) fuel it = stepN inc 1 it) := by
  have hconv : uintToInt n = (n : Int) := by
    unfold uintToInt wrapInt UINT_SIZE
    push_cast
    omega
  constructor
  · unfold next
    rw [hconv, advance_bidirectional_eq inc dec it n fuel (by omega) (by omega) (by omega),
      if_pos (by omega)]
    rfl
  · intro h1
    unfold nextOne
    rw [advance_bidirectional_eq inc dec it 1 fuel (by omega) (by omega) (by omega)]
    rfl

/-- C30 (the code at the failing input): on the list `[1, 2]`, with `it` at the second node and
`n = 4294967295`, the conversion of `n` to the `int` parameter of `advance` gives `-1`, so
`next(it, n)` steps backwards and returns the iterator at the first node, whereas applying `++`
`4294967295` times to `it` gives the end sentinel. -/
theorem next_large_count_steps_back :
    Linked exampleStore 0 [0, 1] ∧ uintToInt 4294967295 = -1 ∧
    next (ListIterator.ops exampleStore) 2 ⟨some 1⟩ 4294967295 = .ok ⟨some 0⟩ ∧
    stepN (ListIterator.preInc exampleStore) 4294967295 ⟨some 1⟩ = .ok ⟨none⟩ :=
  ⟨by decide, rfl, rfl, by
    have h := @stepN_inc_list Nat exampleStore 0 [0, 1] (by decide) 4294967295 1
    exact h⟩

/-! ## Calls on one list leave the other lists alone -/

/-- A list whose fields and node cells are those of a well-formed list is well formed. -/
theorem Rep.transport {s s' : Store T} {M K : Nat} {ns : List Nat} {xs : List T}
    (h : Rep s M ns xs) (hh : (s'.lists K).head_ = (s.lists M).head_)
    (ht : (s'.lists K).tail_ = (s.lists M).tail_) (hs : (s'.lists K).size_ = (s.lists M).size_)
    (hn : ∀ a ∈ ns, s'.nodes a = s.nodes a) : Rep s' K ns xs := by
  obtain ⟨hL, hsize, hlt, hd⟩ := h
  refine ⟨⟨?_, by rw [ht]; exact hL.2⟩, by rw [hs]; exact hsize, hlt, ?_⟩
  · rw [hh]
    exact seg_congr hL.1 (fun a ha => by rw [hn a ha]) (fun a ha => by rw [hn a ha])
  · rw [map_dataAt_congr (fun a ha => by
      show dataAt s' a = dataAt s a
      simp only [dataAt, hn a ha])]
    exact hd

theorem local_removeNode {s : Store T} {C : Nat} {cs : List Nat} (hf : s.FreshOk)
    (hC : Linked s C cs) (p : Option Nat) (hp : p = none ∨ ∃ a ∈ cs, p = some a) :
    ∃ s' r cs', removeNode s C p = .ok (s', r) ∧ LocalStep s s' C cs cs' := by
  rcases hp with rfl | ⟨x, hx, rfl⟩
  · exact ⟨s, none, cs, by simp [removeNode], hf, hC, fun _ _ => rfl, fun _ _ _ => rfl,
      fun a ha => Or.inl ha⟩
  · obtain ⟨pre, post, hsplit⟩ := List.append_of_mem hx
    subst hsplit
    obtain ⟨s', hrun, hL', _, hfr, _, hl, hn, _⟩ := removeNode_spec s C pre post x hC
    refine ⟨s', _, _, hrun, freshOk_of_frame hf hC hfr hn, hL', hl, fun a ha _ => hn a ha, ?_⟩
    intro a ha
    left
    rcases List.mem_append.1 ha with h' | h'
    · exact List.mem_append_left _ h'
    · exact List.mem_append_right _ (List.mem_cons_of_mem _ h')

/-- Every mutating member function that involves one list only, called on `C` under its
precondition and with enough fuel, returns and touches nothing but `C`. -/
theorem call_local [DecidableEq T] (s : Store T) (C : Nat) (cs : List Nat) (c : Call T)
    (hf : s.FreshOk) (hC : Linked s C cs) (hm : c.MutatesOnly C)
    (hpre : c.Pre (fun _ => cs)) :
    ∃ fuel0, ∀ fuel, fuel0 ≤ fuel →
      ∃ s' cs', c.run fuel s = .ok s' ∧ LocalStep s s' C cs cs' := by
  cases c with
  | pushFront self v =>
    have hm' : self = C := hm
    subst hm'
    obtain ⟨s', hrun, hL', _, _, hf', hl, hn, _, _⟩ := pushFront_spec s self v cs hC hf
    refine ⟨0, fun _ _ => ⟨s', _, hrun, hf', hL', hl, fun a ha hlt => hn a ha (by omega), ?_⟩⟩
    intro a ha
    rcases List.mem_cons.1 ha with rfl | h'
    · exact Or.inr (le_refl _)
    · exact Or.inl h'
  | pushBack self v =>
    have hm' : self = C := hm
    subst hm'
    obtain ⟨s', hrun, hL', _, _, hf', hl, hn, _, _⟩ := pushBack_spec s self v cs hC hf
    refine ⟨0, fun _ _ => ⟨s', _, hrun, hf', hL', hl, fun a ha hlt => hn a ha (by omega), ?_⟩⟩
    intro a ha
    rcases List.mem_append.1 ha with h' | h'
    · exact Or.inl h'
    · simp only [List.mem_singleton] at h'
      exact Or.inr (by omega)
  | popFront self =>
    have hm' : self = C := hm
    subst hm'
    obtain ⟨s', r, cs', hrun, h'⟩ := local_removeNode hf hC (s.lists self).head_ (by
      rw [hC.head_eq]; exact headPtr_cases _)
    exact ⟨0, fun _ _ => ⟨s', cs', by
      show popFront s self = .ok s'
      simp only [popFront]; rw [hrun, ok_bind]; rfl, h'⟩⟩
  | popBack self =>
    have hm' : self = C := hm
    subst hm'
    obtain ⟨s', r, cs', hrun, h'⟩ := local_removeNode hf hC (s.lists self).tail_ (by
      rw [hC.tail_eq]; exact lastPtr_cases _)
    exact ⟨0, fun _ _ => ⟨s', cs', by
      show popBack s self = .ok s'
      simp only [popBack]; rw [hrun, ok_bind]; rfl, h'⟩⟩
  | insertAfter self position v =>
    have hm' : self = C := hm
    subst hm'
    refine ⟨0, fun _ _ => ?_⟩
    rcases hpre with ⟨hnone, hempty⟩ | ⟨x, hx, hpos⟩
    · have hempty' : cs = [] := hempty
      subst hempty'
      obtain ⟨⟨s', hrun, hpush⟩, _⟩ := insertNode_empty s self v hC hf
      obtain ⟨s'', hrun', hL', _, _, hf', hl, hn, _, _⟩ := pushBack_spec s self v [] hC hf
      rw [hpush] at hrun'
      cases hrun'
      refine ⟨s', _, by
        show (insertAfter s self position v).map Prod.fst = .ok s'
        simp only [insertAfter]; rw [hnone, hrun, ok_bind]; rfl, hf', hL', hl,
        fun a ha hlt => hn a ha (by omega), ?_⟩
      intro a ha
      simp only [List.nil_append, List.mem_singleton] at ha
      exact Or.inr (by omega)
    · obtain ⟨pre, post, hsplit⟩ := List.append_of_mem (show x ∈ cs from hx)
      subst hsplit
      obtain ⟨s', hrun, hL', _, _, hf', hl, hn, _, _⟩ :=
        insertAfterNode_spec s self pre post x v hC hf
      refine ⟨s', _, by
        show (insertAfter s self position v).map Prod.fst = .ok s'
        simp only [insertAfter]; rw [hpos, hrun, ok_bind]; rfl, hf', hL', hl,
        fun a ha hlt => hn a ha (by omega), ?_⟩
      intro a ha
      simp only [List.mem_append, List.mem_cons] at ha ⊢
      rcases ha with h' | h' | h' | h'
      · exact Or.inl (Or.inl h')
      · exact Or.inl (Or.inr (Or.inl h'))
      · exact Or.inr (by omega)
      · exact Or.inl (Or.inr (Or.inr h'))
  | insertBefore self position v =>
    have hm' : self = C := hm
    subst hm'
    refine ⟨0, fun _ _ => ?_⟩
    rcases hpre with ⟨hnone, hempty⟩ | ⟨x, hx, hpos⟩
    · have hempty' : cs = [] := hempty
      subst hempty'
      obtain ⟨_, ⟨s', hrun, hpush⟩⟩ := insertNode_empty s self v hC hf
      obtain ⟨s'', hrun', hL', _, _, hf', hl, hn, _, _⟩ := pushFront_spec s self v [] hC hf
      rw [hpush] at hrun'
      cases hrun'
      refine ⟨s', _, by
        show (insertBefore s self position v).map Prod.fst = .ok s'
        simp only [insertBefore]; rw [hnone, hrun, ok_bind]; rfl, hf', hL', hl,
        fun a ha hlt => hn a ha (by omega), ?_⟩
      intro a ha
      simp only [List.mem_singleton] at ha
      exact Or.inr (by omega)
    · obtain ⟨pre, post, hsplit⟩ := List.append_of_mem (show x ∈ cs from hx)
      subst hsplit
      obtain ⟨s', hrun, hL', _, _, hf', hl, hn, _, _⟩ :=
        insertBeforeNode_spec s self pre post x v hC hf
      refine ⟨s', _, by
        show (insertBefore s self position v).map Prod.fst = .ok s'
        simp only [insertBefore]; rw [hpos, hrun, ok_bind]; rfl, hf', hL', hl,
        fun a ha hlt => hn a ha (by omega), ?_⟩
      intro a ha
      simp only [List.mem_append, List.mem_cons] at ha ⊢
      rcases ha with h' | h' | h' | h'
      · exact Or.inl (Or.inl h')
      · exact Or.inr (by omega)
      · exact Or.inl (Or.inr (Or.inl h'))
      · exact Or.inl (Or.inr (Or.inr h'))
  | insert self position first last => exact hm.elim
  | erase self position =>
    have hm' : self = C := hm
    subst hm'
    obtain ⟨s', r, cs', hrun, h'⟩ := local_removeNode hf hC position.node_ hpre
    exact ⟨0, fun _ _ => ⟨s', cs', by
      show (erase s self position).map Prod.fst = .ok s'
      simp only [erase]; rw [hrun, ok_bind]; rfl, h'⟩⟩
  | eraseRange self first last =>
    have hm' : self = C := hm
    subst hm'
    obtain ⟨pre, blk, post, hsplit, hfirst, hlast⟩ :=
      range_block (show IsRange cs first last from hpre)
    subst hsplit
    refine ⟨blk.length + 1, fun fuel hfuel => ?_⟩
    obtain ⟨s', hrun, hL', _, hfr, _, hl, hn, _⟩ :=
      removeRange_spec s self pre blk post fuel hC (by omega)
    refine ⟨s', _, by
      show (eraseRange fuel s self first last).map Prod.fst = .ok s'
      simp only [eraseRange]; rw [hfirst, hlast, hrun, ok_bind]; rfl,
      freshOk_of_frame hf hC hfr hn, hL', hl, fun a ha _ => hn a ha, ?_⟩
    intro a ha
    left
    simp only [List.mem_append] at ha ⊢
    rcases ha with h' | h'
    · exact Or.inl h'
    · exact Or.inr (Or.inr h')
  | remove self v =>
    have hm' : self = C := hm
    subst hm'
    refine ⟨cs.length + 1, fun fuel hfuel => ?_⟩
    obtain ⟨s', hrun, hres⟩ := removeLoop_spec s self v cs [] fuel (by simpa using hC)
      (by omega) (fun a ha => by simp at ha)
    have hrun' : remove fuel s self v = .ok s' := by
      simp only [remove]; rw [hC.head_eq]; exact hrun
    rcases hres with ⟨_, rfl⟩ | ⟨pre, x, post, hsplit, _, _, hrm⟩
    · exact ⟨s', cs, hrun', hf, hC, fun _ _ => rfl, fun _ _ _ => rfl, fun a ha => Or.inl ha⟩
    · have hx : x ∈ cs := by
        have : x ∈ pre ++ x :: post := by simp
        rw [← hsplit] at this
        simpa using this
      obtain ⟨s'', r, cs', hrun2, h'⟩ := local_removeNode hf hC (some x) (Or.inr ⟨x, hx, rfl⟩)
      rw [hrm] at hrun2
      cases hrun2
      exact ⟨s', cs', hrun', h'⟩
  | removeIf self pred =>
    have hm' : self = C := hm
    subst hm'
    refine ⟨cs.length + 1, fun fuel hfuel => ?_⟩
    obtain ⟨s', hrun, hL', _, hfr, _, hl, hn, _⟩ :=
      removeIfLoop_spec pred self cs s [] fuel (by simpa using hC) (by omega)
    refine ⟨s', _, by
      show removeIf pred fuel s self = .ok s'
      simp only [removeIf, begin]; rw [hC.head_eq]; exact hrun,
      freshOk_of_frame hf hC hfr (fun a ha => hn a (by simpa using ha)),
      by simpa using hL', hl, fun a ha _ => hn a (by simpa using ha), ?_⟩
    intro a ha
    exact Or.inl (List.mem_of_mem_filter ha)
  | clear self =>
    have hm' : self = C := hm
    subst hm'
    refine ⟨cs.length + 1, fun fuel hfuel => ?_⟩
    obtain ⟨s', hrun, hL', _, hfr, hn, hl⟩ := clear_spec s self cs fuel hC (by omega)
    exact ⟨s', [], hrun, freshOk_of_frame hf hC hfr (fun a ha => by rw [hn a, if_neg ha]),
      hL', hl, fun a ha _ => by rw [hn a, if_neg ha], fun a ha => by simp at ha⟩
  | copyConstruct self other => exact hm.elim
  | assign self other tmp => exact hm.elim
  | swap first second => exact hm.elim
  | splice self position source => exact hm.elim
  | spliceOne self position source it => exact hm.elim
  | spliceRange self position source first last => exact hm.elim

/-- The copy constructor on a well-formed source: the copy is well formed over newly allocated
nodes, and no other list and no node allocated before the call is touched. -/
theorem copyConstruct_rep (s : Store T) (self other : Nat) (ns : List Nat) (xs : List T)
    (fuel : Nat) (hR : Rep s other ns xs) (hne : self ≠ other) (hf : s.FreshOk)
    (hfuel : ns.length < fuel) :
    ∃ s', copyConstruct fuel s self other = .ok s' ∧
      Rep s' self (List.range' s.fresh ns.length) xs ∧ s'.FreshOk ∧
      s'.fresh = s.fresh + ns.length ∧ (∀ K, K ≠ self → s'.lists K = s.lists K) ∧
      (∀ a, a < s.fresh → s'.nodes a = s.nodes a) := by
  have hne' : other ≠ self := Ne.symm hne
  obtain ⟨hO, hsize, hlt, hd⟩ := hR
  let s0 : Store T := s.setList self ⟨0, none, none⟩
  have hL0 : Linked s0 self [] := by
    constructor
    · show (s0.lists self).head_ = none
      simp [s0]
    · simp [s0]
  have hf0 : s0.FreshOk := hf
  have hhead : (s0.lists other).head_ = (s.lists other).head_ := by simp [s0, hne']
  have hseg : Seg s0.nodes none (s0.lists other).head_ ns none := by
    rw [hhead]; exact hO.1
  obtain ⟨s', hrun, hL', hsz, hfr, hf', hl, hn, _, hdata⟩ :=
    copyLoop_spec self other ns s0 [] none (s0.lists other).head_ fuel hL0 hf0 hseg
      (fun a _ hmem => by simp at hmem) hfuel
  have hsz' : (s'.lists self).size_ = ns.length := by
    rw [hsz]
    have : (s0.lists self).size_ = 0 := by simp [s0]
    rw [this, iterate_inc (by omega)]
    omega
  refine ⟨s', hrun, ⟨by simpa using hL', ?_, ?_, ?_⟩, hf', hfr, ?_,
    fun a hlt => hn a (by simp) hlt⟩
  · rw [hsz']; simp
  · simpa using hlt
  · have : (List.range' s0.fresh ns.length).map (dataAt s') = ns.map (dataAt s0) := hdata
    exact this.trans hd
  · intro K hK
    rw [hl K hK]; simp [s0, hK]

theorem Independent.after_local {s s' : Store T} {C L : Nat} {cs cs' ns : List Nat} {xs : List T}
    (h : Independent s C cs L ns xs) (hne : C ≠ L) (hstep : LocalStep s s' C cs cs') :
    Independent s' C cs' L ns xs := by
  obtain ⟨hf, _, hR, hdisj⟩ := h
  obtain ⟨hf', hC', hl, hn, hsub⟩ := hstep
  have hlt : ∀ a ∈ ns, a < s.fresh := fun a ha => seg_lt_fresh hf hR.1.1 ha
  have hlL := hl L (Ne.symm hne)
  refine ⟨hf', hC', hR.transport (by rw [hlL]) (by rw [hlL]) (by rw [hlL]) ?_, ?_⟩
  · intro a ha
    exact hn a (fun hc => hdisj a hc ha) (hlt a ha)
  · intro a ha hns
    rcases hsub a ha with h' | h'
    · exact hdisj a h' hns
    · have := hlt a hns
      omega

/-- Assignment through an iterator at a node of `C` changes the payload of that node only. -/
theorem Independent.after_assignDeref {s : Store T} {C L : Nat} {cs ns : List Nat} {xs : List T}
    (h : Independent s C cs L ns xs) {a : Nat} (ha : a ∈ cs) (v : T) :
    ∃ s', ListIterator.assignDeref s ⟨some a⟩ v = .ok s' ∧ Independent s' C cs L ns xs ∧
      ListIterator.deref s' ⟨some a⟩ = .ok v := by
  obtain ⟨hf, hC, hR, hdisj⟩ := h
  obtain ⟨n, hn⟩ := hC.alloc ha
  have hlinks : ∀ b, ((s.write a { n with data_ := v }).nodes b).map (fun n => n.previous_) =
      (s.nodes b).map (fun n => n.previous_) ∧
      ((s.write a { n with data_ := v }).nodes b).bind (fun n => n.next_) =
      (s.nodes b).bind (fun n => n.next_) := by
    intro b
    by_cases hb : b = a
    · subst hb; simp [hn]
    · simp [hb]
  refine ⟨s.write a { n with data_ := v }, by simp [ListIterator.assignDeref, hn],
    ⟨?_, ?_, ?_, hdisj⟩, ?_⟩
  · refine hf.of_eq rfl ?_
    intro b hb
    by_cases hba : b = a
    · subst hba; rw [hn] at hb; cases hb
    · simp [hba, hb]
  · exact ⟨seg_congr hC.1 (fun b _ => (hlinks b).1) (fun b _ => (hlinks b).2), hC.2⟩
  · refine hR.transport rfl rfl rfl ?_
    intro b hb
    have hba : b ≠ a := fun e => hdisj a ha (e ▸ hb)
    simp [hba]
  · apply deref_of_dataAt
    simp [dataAt]

/-- C21: deep-copy independence. Copy construction of `C` from a well-formed list `L` with
elements `xs` returns with `C` holding `xs` on nodes of its own: `C` and `L` share no node. In
every state in which `C` and `L` are so independent, in particular right after the copy, `L`
has the element sequence `xs` and the size it had; every call of `pushFront`, `pushBack`,
`popFront`, `popBack`, `insertAfter`, `insertBefore`, `erase`, `remove`, `removeIf` or `clear`
on `C`, under its precondition and with enough fuel, returns and leaves the two lists
independent, `L` with the same nodes and elements; and so does an assignment through an
iterator at a node of `C`. -/
theorem copy_is_independent [DecidableEq T] (s : Store T) (C L : Nat) (ns : List Nat)
    (xs : List T) (fuel : Nat) (hR : Rep s L ns xs) (hne : C ≠ L) (hf : s.FreshOk)
    (hfuel : ns.length < fuel) :
    ∃ s1 cs, copyConstruct fuel s C L = .ok s1 ∧ Rep s1 C cs xs ∧
      Independent s1 C cs L ns xs ∧
      ∀ s2 cs2, Independent s2 C cs2 L ns xs →
        (size s2 L = size s L ∧ elements (xs.length + 1) s2 L = .ok xs) ∧
        (∀ c : Call T, c.MutatesOnly C → c.Pre (fun _ => cs2) →
          ∃ fuel0, ∀ fuel', fuel0 ≤ fuel' →
            ∃ s3 cs3, c.run fuel' s2 = .ok s3 ∧ Independent s3 C cs3 L ns xs) ∧
        (∀ a ∈ cs2, ∀ v, ∃ s3, ListIterator.assignDeref s2 ⟨some a⟩ v = .ok s3 ∧
          Independent s3 C cs2 L ns xs) := by
  obtain ⟨s1, hrun, hRC, hf1, _, hl, hn⟩ := copyConstruct_rep s C L ns xs fuel hR hne hf hfuel
  have hlt : ∀ a ∈ ns, a < s.fresh := fun a ha => seg_lt_fresh hf hR.1.1 ha
  have hlL := hl L (Ne.symm hne)
  have hRL : Rep s1 L ns xs :=
    hR.transport (by rw [hlL]) (by rw [hlL]) (by rw [hlL]) (fun a ha => hn a (hlt a ha))
  have hdisj : ∀ a ∈ List.range' s.fresh ns.length, a ∉ ns := by
    intro a ha hns
    have := (List.mem_range'_1.1 ha).1
    have := hlt a hns
    omega
  refine ⟨s1, _, hrun, hRC, ⟨hf1, hRC.1, hRL, hdisj⟩, ?_⟩
  intro s2 cs2 hind
  refine ⟨⟨?_, hind.2.2.1.elements _ (by omega)⟩, ?_, ?_⟩
  · unfold size
    rw [hind.2.2.1.2.1, hR.2.1]
  · intro c hm hpre
    obtain ⟨fuel0, hstep⟩ := call_local s2 C cs2 c hind.1 hind.2.1 hm hpre
    refine ⟨fuel0, fun fuel' hfuel' => ?_⟩
    obtain ⟨s3, cs3, hr, hls⟩ := hstep fuel' hfuel'
    exact ⟨s3, cs3, hr, hind.after_local hne hls⟩
  · intro a ha v
    obtain ⟨s3, hr, hind3, _⟩ := hind.after_assignDeref ha v
    exact ⟨s3, hr, hind3⟩

theorem copy_is_independent_witness :
    Rep exampleStore 0 [0, 1] [1, 2] ∧ exampleStore.FreshOk ∧
    ∃ s1 cs, copyConstruct 3 exampleStore 5 0 = .ok s1 ∧ Rep s1 5 cs [1, 2] ∧
      Independent s1 5 cs 0 [0, 1] [1, 2] :=
  ⟨by decide, exampleStore_freshOk,
    (copy_is_independent exampleStore 5 0 [0, 1] [1, 2] 3 (by decide) (by decide)
      exampleStore_freshOk (by decide)).imp fun _ h => h.imp fun _ h' =>
        ⟨h'.1, h'.2.1, h'.2.2.1⟩⟩

/-! ## Copy-and-swap assignment -/

/-- The assignment `a = b` (also when `a` and `b` are the same object), `tmp` being the
by-value parameter: `a` ends with a copy of `b` on new nodes and `tmp`, which took over the
former state of `a`, is cleared. -/
theorem assign_rep (s : Store T) (a b tmp : Nat) (as bs : List Nat) (xs ys : List T)
    (fuel : Nat) (hA : Rep s a as xs) (hB : Rep s b bs ys) (ht1 : tmp ≠ a) (ht2 : tmp ≠ b)
    (hf : s.FreshOk) (hfa : as.length < fuel) (hfb : bs.length < fuel) :
    ∃ s', assign fuel s a b tmp = .ok s' ∧
      Rep s' a (List.range' s.fresh bs.length) ys ∧ Rep s' tmp [] [] ∧
      (∀ x ∈ as, s'.nodes x = none) ∧
      (∀ K, K ≠ a → K ≠ tmp → s'.lists K = s.lists K) ∧
      (∀ x, x < s.fresh → x ∉ as → s'.nodes x = s.nodes x) := by
  have hat : a ≠ tmp := Ne.symm ht1
  have hlta : ∀ x ∈ as, x < s.fresh := fun x hx => seg_lt_fresh hf hA.1.1 hx
  obtain ⟨s1, hrun1, hR1, hf1, hfr1, hl1, hn1⟩ :=
    copyConstruct_rep s tmp b bs ys fuel hB ht2 hf hfb
  obtain ⟨hn2, hfr2, hl2⟩ := swap_facts s1 a tmp
  -- after the exchange `tmp` holds the former state of `a`
  have hla1 := hl1 a hat
  have hRt : Rep (swap s1 a tmp) tmp as xs := by
    have h := hl2 tmp
    rw [if_pos rfl] at h
    refine hA.transport (by rw [h.1, hla1]) (by rw [h.2.1, hla1]) (by rw [h.2.2, hla1]) ?_
    intro x hx
    rw [hn2, hn1 x (hlta x hx)]
  have hRa : Rep (swap s1 a tmp) a (List.range' s.fresh bs.length) ys := by
    have h := hl2 a
    rw [if_neg hat, if_pos rfl] at h
    exact hR1.transport h.1 h.2.1 h.2.2 (fun x _ => by rw [hn2])
  obtain ⟨s3, hrun3, hL3, hsz3, _, hn3, hl3⟩ :=
    clear_spec (swap s1 a tmp) tmp as fuel hRt.1 hfa
  have hnew : ∀ x ∈ List.range' s.fresh bs.length, x ∉ as := by
    intro x hx hxa
    have := (List.mem_range'_1.1 hx).1
    have := hlta x hxa
    omega
  have hla3 := hl3 a hat
  refine ⟨s3, ?_, ?_, ⟨hL3, hsz3, by simp [UINT_SIZE], rfl⟩, ?_, ?_, ?_⟩
  · simp only [assign]
    rw [hrun1, ok_bind]
    exact hrun3
  · exact hRa.transport (by rw [hla3]) (by rw [hla3]) (by rw [hla3])
      (fun x hx => by rw [hn3 x, if_neg (hnew x hx)])
  · intro x hx
    rw [hn3 x, if_pos hx]
  · intro K hKa hKt
    have h := hl2 K
    rw [if_neg hKt, if_neg hKa] at h
    have e : (swap s1 a tmp).lists K = s1.lists K := by
      cases hx : (swap s1 a tmp).lists K with
      | mk sz hd tl =>
        cases hy : s1.lists K with
        | mk sz' hd' tl' =>
          rw [hx, hy] at h
          simp only at h
          rw [h.1, h.2.1, h.2.2]
    rw [hl3 K hKt, e, hl1 K hKt]
  · intro x hlt hx
    rw [hn3 x, if_neg hx, hn2, hn1 x hlt]

/-- C22: copy-and-swap assignment between well-formed lists, `tmp` being the by-value parameter
of `operator=`. After `a = b` with `a` and `b` distinct lists: `a` has the element sequence and
the `size()` that `b` had, on newly allocated nodes; `b` is unchanged (fields, nodes, elements);
the former nodes of `a` are deallocated and none of them is a node of `a`. After the
self-assignment `a = a`, `a` has the element sequence and the size it had. The calls return once
the fuel exceeds the node counts. -/
theorem assign_copies (s : Store T) (a b tmp : Nat) (as bs : List Nat) (xs ys : List T)
    (fuel : Nat) (hA : Rep s a as xs) (hB : Rep s b bs ys) (hab : a ≠ b)
    (hdisj : ∀ x ∈ as, x ∉ bs) (ht1 : tmp ≠ a) (ht2 : tmp ≠ b) (hf : s.FreshOk)
    (hfa : as.length < fuel) (hfb : bs.length < fuel) :
    (∃ s', assign fuel s a b tmp = .ok s' ∧
      Rep s' a (List.range' s.fresh bs.length) ys ∧ size s' a = size s b ∧
      elements fuel s' a = .ok ys ∧
      Rep s' b bs ys ∧ s'.lists b = s.lists b ∧ (∀ x ∈ bs, s'.nodes x = s.nodes x) ∧
      (∀ x ∈ as, s'.nodes x = none ∧ x ∉ List.range' s.fresh bs.length)) ∧
    (∃ s', assign fuel s a a tmp = .ok s' ∧
      Rep s' a (List.range' s.fresh as.length) xs ∧ size s' a = size s a ∧
      elements fuel s' a = .ok xs) := by
  have hlta : ∀ x ∈ as, x < s.fresh := fun x hx => seg_lt_fresh hf hA.1.1 hx
  have hltb : ∀ x ∈ bs, x < s.fresh := fun x hx => seg_lt_fresh hf hB.1.1 hx
  constructor
  · obtain ⟨s', hrun, hRa, _, hgone, hl, hn⟩ :=
      assign_rep s a b tmp as bs xs ys fuel hA hB ht1 ht2 hf hfa hfb
    have hlb := hl b (Ne.symm hab) (Ne.symm ht2)
    have hnb : ∀ x ∈ bs, s'.nodes x = s.nodes x := fun x hx =>
      hn x (hltb x hx) (fun hxa => hdisj x hxa hx)
    refine ⟨s', hrun, hRa, ?_, hRa.elements fuel (by rw [← hB.length_eq]; exact hfb),
      hB.transport (by rw [hlb]) (by rw [hlb]) (by rw [hlb]) hnb, hlb, hnb, ?_⟩
    · unfold size
      rw [hRa.2.1, hB.2.1]
      simp
    · intro x hx
      refine ⟨hgone x hx, fun hr => ?_⟩
      have := (List.mem_range'_1.1 hr).1
      have := hlta x hx
      omega
  · obtain ⟨s', hrun, hRa, _, _, _, _⟩ :=
      assign_rep s a a tmp as as xs xs fuel hA hA ht1 ht1 hf hfa hfa
    refine ⟨s', hrun, hRa, ?_, hRa.elements fuel (by rw [← hA.length_eq]; exact hfa)⟩
    unfold size
    rw [hRa.2.1, hA.2.1]
    simp

theorem assign_copies_witness :
    Rep exampleStore 0 [0, 1] [1, 2] ∧ Rep exampleStore 1 [2, 3] [3, 4] ∧
    ∃ s', assign 3 exampleStore 0 1 5 = .ok s' ∧ Rep s' 0 [4, 5] [3, 4] ∧
      size s' 0 = size exampleStore 1 ∧ Rep s' 1 [2, 3] [3, 4] :=
  ⟨by decide, by decide,
    (assign_copies exampleStore 0 1 5 [0, 1] [2, 3] [1, 2] [3, 4] 3 (by decide) (by decide)
      (by decide) (by decide) (by decide) (by decide) exampleStore_freshOk (by decide)
      (by decide)).1.imp fun _ h => ⟨h.1, h.2.1, h.2.2.1, h.2.2.2.2.1⟩⟩

/-! ## `prev`, `clear`, removal at the null position and `swap` -/

/-- For a count of at most `2 ^ 31`, `prev(it, n)` on a bidirectional iterator applies `--`
exactly `n` times, and `prev(it)` applies it once. -/
theorem prev_small_count {I : Type} (inc dec : I → Except Fault I) (it : I) (n fuel : Nat)
    (hn : n ≤ 2 ^ 31) (hfuel : n < fuel) :
    prev (.bidirectional inc dec) fuel it n = stepN dec n it ∧
      (1 < fuel → prevOne (.bidirectional inc dec) fuel it = stepN dec 1 it) := by
  have hconv : uintToInt ((UINT_SIZE - n % UINT_SIZE) % UINT_SIZE) = -(n : Int) := by
    unfold uintToInt wrapInt UINT_SIZE
    have h1 : n % 2 ^ 32 = n := Nat.mod_eq_of_lt (by omega)
    rw [h1]
    by_cases h0 : n = 0
    · subst h0; rfl
    · have h2 : (2 ^ 32 - n) % 2 ^ 32 = 2 ^ 32 - n := Nat.mod_eq_of_lt (by omega)
      rw [h2]
      push_cast [Nat.cast_sub (show n ≤ 2 ^ 32 by omega)]
      omega
  constructor
  · unfold prev
    rw [hconv, advance_bidirectional_eq inc dec it _ fuel (by omega) (by omega) (by omega)]
    by_cases h0 : n = 0
    · subst h0
      simp [stepN]
    · rw [if_neg (by omega)]
      have e : (-(n : Int)).natAbs = n := by omega
      rw [e]
  · intro h1
    unfold prevOne
    rw [advance_bidirectional_eq inc dec it (-1) fuel (by omega) (by omega) (by omega)]
    rfl

/-- C31 (the code at the failing input): on the list `[1, 2]`, with `it` at the first node and
`n = 4294967295`, the unsigned negation `-n` is `1` and stays `1` as the `int` parameter of
`advance`, so `prev(it, n)` steps forwards and returns the iterator at the second node, whereas
applying `--` `4294967295` times to `it` gives the end sentinel. -/
theorem prev_large_count_steps_forward :
    Linked exampleStore 0 [0, 1] ∧
    uintToInt ((UINT_SIZE - 4294967295 % UINT_SIZE) % UINT_SIZE) = 1 ∧
    prev (ListIterator.ops exampleStore) 2 ⟨some 0⟩ 4294967295 = .ok ⟨some 1⟩ ∧
    stepN (ListIterator.preDec exampleStore) 4294967295 ⟨some 0⟩ = .ok ⟨none⟩ :=
  ⟨by decide, rfl, rfl, by
    have h := @stepN_dec_list Nat exampleStore 0 [0, 1] (by decide) 4294967295 0 (by decide)
    exact h⟩

theorem Store.eq_of_parts {s s' : Store T} (h1 : s'.nodes = s.nodes) (h2 : s'.fresh = s.fresh)
    (h3 : ∀ K, s'.lists K = s.lists K) : s' = s := by
  cases s
  cases s'
  simp only at h1 h2 h3
  simp only [Store.mk.injEq]
  exact ⟨h1, h2, funext h3⟩

theorem LinkedList.eq_of_fields {a b : LinkedList} (h1 : a.size_ = b.size_) (h2 : a.head_ = b.head_)
    (h3 : a.tail_ = b.tail_) : a = b := by
  cases a
  cases b
  simp only at h1 h2 h3
  simp only [LinkedList.mk.injEq]
  exact ⟨h1, h2, h3⟩

/-- `clear()` on an empty well-formed list returns the store it was given. -/
theorem clear_empty (s : Store T) (L : Nat) (fuel : Nat) (hR : Rep s L [] []) (hfuel : 0 < fuel) :
    clear fuel s L = .ok s := by
  have hh : (s.lists L).head_ = none := hR.1.1
  have ht : (s.lists L).tail_ = none := hR.1.2
  have hs : (s.lists L).size_ = 0 := hR.2.1
  obtain ⟨k, rfl⟩ : ∃ k, fuel = k + 1 := ⟨fuel - 1, by omega⟩
  have hloop : clearLoop (k + 1) s L = .ok s := by simp [clearLoop, hh]
  simp only [clear]
  rw [hloop, ok_bind]
  show Except.ok _ = Except.ok s
  congr 1
  refine Store.eq_of_parts rfl rfl ?_
  intro K
  by_cases hK : K = L
  · subst hK
    exact LinkedList.eq_of_fields (by simp [Store.setTail, Store.setSize, hs])
      (by simp [Store.setTail, Store.setSize]) (by simp [Store.setTail, Store.setSize, ht])
  · simp [Store.setTail, Store.setSize, hK]

/-- C32: on a well-formed list, `clear()` returns once the fuel exceeds the node count and
leaves the empty state: `size() == 0`, `isEmpty()` true, `head_` and `tail_` null,
`begin() == end()`, every node deallocated; on an already empty list it returns the store
unchanged, and calling it again after a first call changes nothing. -/
theorem clear_resets (s : Store T) (L : Nat) (ns : List Nat) (xs : List T) (fuel : Nat)
    (hR : Rep s L ns xs) (hfuel : ns.length < fuel) :
    ∃ s', clear fuel s L = .ok s' ∧ Rep s' L [] [] ∧ size s' L = 0 ∧ isEmpty s' L = true ∧
      (s'.lists L).head_ = none ∧ (s'.lists L).tail_ = none ∧ begin s' L = end_ s' L ∧
      (∀ a ∈ ns, s'.nodes a = none) ∧ (ns = [] → s' = s) ∧ clear fuel s' L = .ok s' := by
  obtain ⟨s', hrun, hL', hsz, _, hn, _⟩ := clear_spec s L ns fuel hR.1 hfuel
  have hR' : Rep s' L [] [] := ⟨hL', hsz, by simp [UINT_SIZE], rfl⟩
  have hh : (s'.lists L).head_ = none := hL'.1
  have hpos : 0 < fuel := by omega
  refine ⟨s', hrun, hR', hsz, by simp [isEmpty, hh], hh, hL'.2, by simp [begin, end_, hh],
    fun a ha => by rw [hn a, if_pos ha], ?_, clear_empty s' L fuel hR' hpos⟩
  intro hnil
  subst hnil
  have hxs : xs = [] := List.length_eq_zero.1 hR.length_eq.symm
  subst hxs
  rw [clear_empty s L fuel hR hpos] at hrun
  exact (Except.ok.inj hrun).symm

theorem clear_resets_witness :
    Rep exampleStore 0 [0, 1] [1, 2] ∧
    ∃ s', clear 3 exampleStore 0 = .ok s' ∧ Rep s' 0 [] [] ∧ size s' 0 = 0 ∧
      isEmpty s' 0 = true :=
  ⟨by decide,
    (clear_resets exampleStore 0 [0, 1] [1, 2] 3 (by decide) (by decide)).imp
      fun _ h => ⟨h.1, h.2.1, h.2.2.1, h.2.2.2.1⟩⟩

/-- C34: removal at a null position. On an empty well-formed list `popFront()` and `popBack()`
return the store unchanged, so the list stays empty with `size() == 0` and the unsigned size
does not wrap; on every list of every store `erase(end())` returns the store unchanged together
with `end()`, and so does `erase(end(), last)` for every `last` and every fuel. -/
theorem removal_at_null (s : Store T) (L : Nat) (hR : Rep s L [] []) :
    (popFront s L = .ok s ∧ popBack s L = .ok s ∧ size s L = 0 ∧ isEmpty s L = true) ∧
    (∀ (s2 : Store T) (K : Nat), erase s2 K (end_ s2 K) = .ok (s2, end_ s2 K)) ∧
    (∀ (s2 : Store T) (K fuel : Nat) (last : ListIterator),
      eraseRange fuel s2 K (end_ s2 K) last = .ok (s2, end_ s2 K)) := by
  have hh : (s.lists L).head_ = none := hR.1.1
  have ht : (s.lists L).tail_ = none := hR.1.2
  refine ⟨⟨?_, ?_, hR.2.1, by simp [isEmpty, hh]⟩, ?_, ?_⟩
  · simp [popFront, hh, removeNode]
  · simp [popBack, ht, removeNode]
  · intro s2 K
    simp [erase, end_, removeNode]
  · intro s2 K fuel last
    simp [eraseRange, end_, removeRange]

theorem removal_at_null_witness :
    Rep (Store.empty : Store Nat) 0 [] [] ∧
    popFront (Store.empty : Store Nat) 0 = .ok Store.empty ∧
    popBack (Store.empty : Store Nat) 0 = .ok Store.empty ∧
    erase exampleStore 0 (end_ exampleStore 0) = .ok (exampleStore, end_ exampleStore 0) :=
  ⟨by decide, (removal_at_null (Store.empty : Store Nat) 0 (by decide)).1.1,
    (removal_at_null (Store.empty : Store Nat) 0 (by decide)).1.2.1,
    (removal_at_null (Store.empty : Store Nat) 0 (by decide)).2.1 exampleStore 0⟩

/-- C36: `swap(first, second)` on two well-formed lists. Afterwards `first` has the nodes, the
element sequence, the size, the head and the tail that `second` had, and conversely; the node
heap and the allocator are untouched, so no node is created, destroyed or copied; and a second
`swap(first, second)` gives back the store the first call was given. -/
theorem swap_exchanges (s : Store T) (A B : Nat) (as bs : List Nat) (xs ys : List T)
    (hA : Rep s A as xs) (hB : Rep s B bs ys) :
    Rep (swap s A B) A bs ys ∧ Rep (swap s A B) B as xs ∧
      (size (swap s A B) A = size s B ∧ ((swap s A B).lists A).head_ = (s.lists B).head_ ∧
        ((swap s A B).lists A).tail_ = (s.lists B).tail_) ∧
      (size (swap s A B) B = size s A ∧ ((swap s A B).lists B).head_ = (s.lists A).head_ ∧
        ((swap s A B).lists B).tail_ = (s.lists A).tail_) ∧
      (swap s A B).nodes = s.nodes ∧ (swap s A B).fresh = s.fresh ∧
      swap (swap s A B) A B = s := by
  obtain ⟨hn, hfr, hl⟩ := swap_facts s A B
  have hAf : ((swap s A B).lists A).head_ = (s.lists B).head_ ∧
      ((swap s A B).lists A).tail_ = (s.lists B).tail_ ∧
      ((swap s A B).lists A).size_ = (s.lists B).size_ := by
    by_cases hAB : A = B
    · subst hAB
      have h := hl A
      rw [if_pos rfl] at h
      exact h
    · have h := hl A
      rw [if_neg hAB, if_pos rfl] at h
      exact h
  have hBf : ((swap s A B).lists B).head_ = (s.lists A).head_ ∧
      ((swap s A B).lists B).tail_ = (s.lists A).tail_ ∧
      ((swap s A B).lists B).size_ = (s.lists A).size_ := by
    have h := hl B
    rw [if_pos rfl] at h
    exact h
  refine ⟨hB.transport hAf.1 hAf.2.1 hAf.2.2 (fun a _ => by rw [hn]),
    hA.transport hBf.1 hBf.2.1 hBf.2.2 (fun a _ => by rw [hn]),
    ⟨hAf.2.2, hAf.1, hAf.2.1⟩, ⟨hBf.2.2, hBf.1, hBf.2.1⟩, hn, hfr, ?_⟩
  obtain ⟨hn2, hfr2, hl2⟩ := swap_facts (swap s A B) A B
  refine Store.eq_of_parts (by rw [hn2, hn]) (by rw [hfr2, hfr]) ?_
  intro K
  have h2 := hl2 K
  have invol : (if (if K = B then A else if K = A then B else K) = B then A
      else if (if K = B then A else if K = A then B else K) = A then B
      else (if K = B then A else if K = A then B else K)) = K := by
    split_ifs <;> simp_all
  have h1 := hl (if K = B then A else if K = A then B else K)
  rw [invol] at h1
  exact LinkedList.eq_of_fields (by rw [h2.2.2, h1.2.2]) (by rw [h2.1, h1.1]) (by rw [h2.2.1, h1.2.1])

theorem swap_exchanges_witness :
    Rep exampleStore 0 [0, 1] [1, 2] ∧ Rep exampleStore 1 [2, 3] [3, 4] ∧
    Rep (swap exampleStore 0 1) 0 [2, 3] [3, 4] ∧ Rep (swap exampleStore 0 1) 1 [0, 1] [1, 2] ∧
    swap (swap exampleStore 0 1) 0 1 = exampleStore :=
  ⟨by decide, by decide,
    (swap_exchanges exampleStore 0 1 [0, 1] [2, 3] [1, 2] [3, 4] (by decide) (by decide)).1,
    (swap_exchanges exampleStore 0 1 [0, 1] [2, 3] [1, 2] [3, 4] (by decide) (by decide)).2.1,
    (swap_exchanges exampleStore 0 1 [0, 1] [2, 3] [1, 2] [3, 4] (by decide)
      (by decide)).2.2.2.2.2.2⟩

/-! ## RenderStatistics: the totals -/

/-- C37 (the code at the failing input): after `reset()`, one `gatherStatistics` call for a
sprite command with 4 vertices and 2 instances adds `4 * 2 = 8` to the per-type vertices counter
but only `4` to `allCommands_.vertices`: the report shows `Sprites: 8V` next to `Total: 4V`, and
the total differs from the sum of the per-type counters. The three other totals agree. -/
theorem RenderStatistics.total_vertices_misses_instances :
    (do
      let st ← RenderStatistics.gatherStatistics RenderStatistics.exampleCommandTypes
        (RenderStatistics.reset RenderStatistics.exampleCommandTypes
          RenderStatistics.State.initial) ⟨0, 2, 4, false⟩
      pure (st.allCommands_.vertices,
        RenderStatistics.typedVerticesSum RenderStatistics.exampleCommandTypes st,
        RenderStatistics.appendCommandsStatistics RenderStatistics.exampleCommandTypes st)) =
      .ok (4, 8, [("Sprites", ⟨8, 1, 0, 2⟩), ("Particles", ⟨0, 0, 0, 0⟩),
        ("Text", ⟨0, 0, 0, 0⟩), ("Plotter", ⟨0, 0, 0, 0⟩), ("Total", ⟨4, 1, 0, 2⟩)]) :=
  rfl

/-! ## Splice moves nodes, it does not copy them -/

theorem perm_insert_block (p q blk bp bq : List Nat) :
    ((p ++ (blk ++ q)) ++ (bp ++ bq)).Perm ((p ++ q) ++ (bp ++ (blk ++ bq))) := by
  rw [List.perm_iff_count]
  intro a
  simp only [List.count_append]
  omega

theorem deref_congr {s s' : Store T} (h : ∀ a, dataAt s' a = dataAt s a) (a : Nat) :
    ListIterator.deref s' ⟨some a⟩ = ListIterator.deref s ⟨some a⟩ := by
  have ha := h a
  simp only [dataAt] at ha
  cases h1 : s'.nodes a with
  | none =>
    cases h2 : s.nodes a with
    | none => simp [ListIterator.deref, Store.load, h1, h2]
    | some n => rw [h1, h2] at ha; cases ha
  | some m =>
    cases h2 : s.nodes a with
    | none => rw [h1, h2] at ha; cases ha
    | some n =>
      rw [h1, h2] at ha
      simp only [Option.map_some', Option.some.injEq] at ha
      simp only [ListIterator.deref, Store.load_some h1, Store.load_some h2, ok_bind, ha]

/-- Packaging: the nodes moved from `B` into `A` in front of index `i`. -/
theorem NodesKept.intro {s s' : Store T} {A B : Nat} {as bs bpre blk bpost : List Nat} (i : Nat)
    (hbs : bs = bpre ++ (blk ++ bpost))
    (hA : Linked s' A (as.take i ++ (blk ++ as.drop i))) (hB : Linked s' B (bpre ++ bpost))
    (hfr : s'.fresh = s.fresh) (hd : ∀ a, dataAt s' a = dataAt s a) :
    NodesKept s s' A B as bs (as.take i ++ (blk ++ as.drop i)) (bpre ++ bpost) := by
  refine ⟨hA, hB, ?_, hfr, hd, deref_congr hd⟩
  have h := perm_insert_block (as.take i) (as.drop i) blk bpre bpost
  rw [List.take_append_drop, ← hbs] at h
  exact h

/-- C33: the three splice variants between distinct well-formed lists with disjoint nodes, `pos`
at index `i` of `A` (or the end sentinel of an empty `A`). The whole-list splice of a non-empty
`B`, the splice of the node at index `j` of `B`, the splice of the range `[f, l)` of `B`
(`f < l`) and the splice of the empty range `[f, f)` at a node (which moves the node at `f`) all
return and only relink: the moved nodes are, as addresses, the nodes they were, now
at the indices `i ..` of `A`; the nodes not moved stay in their list in their order; the two
lists together own the nodes they owned before; the allocator has not advanced; and every address
holds the payload it held, so every iterator dereferences to the element it referenced. -/
theorem splice_keeps_nodes (s : Store T) (A B : Nat) (as bs : List Nat) (xs ys : List T)
    (i j f l fuel : Nat)
    (hA : Rep s A as xs) (hB : Rep s B bs ys) (hAB : A ≠ B) (hdisj : ∀ a ∈ as, a ∉ bs)
    (hi : i < as.length ∨ as = []) (hj : j < bs.length) (hfl : f < l) (hl : l ≤ bs.length)
    (hfuel : l - f < fuel) :
    (∃ s', splice s A ⟨as[i]?⟩ B = .ok s' ∧
      NodesKept s s' A B as bs (as.take i ++ (bs ++ as.drop i)) []) ∧
    (∃ s', spliceOne s A ⟨as[i]?⟩ B ⟨bs[j]?⟩ = .ok s' ∧
      NodesKept s s' A B as bs (as.take i ++ ([bs[j]] ++ as.drop i))
        (bs.take j ++ bs.drop (j + 1))) ∧
    (∃ s', spliceRange fuel s A ⟨as[i]?⟩ B ⟨bs[f]?⟩ ⟨bs[l]?⟩ = .ok s' ∧
      NodesKept s s' A B as bs (as.take i ++ ((bs.drop f).take (l - f) ++ as.drop i))
        (bs.take f ++ bs.drop l)) ∧
    (∃ s', spliceRange fuel s A ⟨as[i]?⟩ B ⟨bs[f]?⟩ ⟨bs[f]?⟩ = .ok s' ∧
      NodesKept s s' A B as bs (as.take i ++ ([bs[f]] ++ as.drop i))
        (bs.take f ++ bs.drop (f + 1))) := by
  obtain ⟨hLA, hsA, _, _⟩ := hA
  obtain ⟨hLB, hsB, _, _⟩ := hB
  have hne : bs ≠ [] := by
    intro h
    rw [h] at hj
    cases hj
  have hsplitJ := split_at_index bs j hj
  have hLBj : Linked s B (bs.take j ++ bs[j] :: bs.drop (j + 1)) := by
    rw [← hsplitJ]; exact hLB
  -- the range `[f, l)` of `B`
  have hsplitR := split_range bs f l (Nat.le_of_lt hfl)
  have hblen : ((bs.drop f).take (l - f)).length = l - f := by
    simp; omega
  have hneR : (bs.drop f).take (l - f) ≠ [] := by
    intro h; rw [h] at hblen; simp at hblen; omega
  have hflt : f < bs.length := by omega
  have hfh : headPtr ((bs.drop f).take (l - f)) none = some bs[f] := by
    rw [headPtr_take (by omega), headPtr_drop, List.getElem?_eq_getElem hflt]
  obtain ⟨lb, _, hlb⟩ := lastPtr_ne_none hneR none
  have hLBr : Linked s B (bs.take f ++ ((bs.drop f).take (l - f) ++ bs.drop l)) := by
    rw [← hsplitR]; exact hLB
  obtain ⟨_, _, hblk_out⟩ := nodup_block hLBr.nodup
  obtain ⟨_, hblk, _⟩ := seg_split_block hLBr.1 hneR
  have hloop := spliceRangeLoop_seg A B ((bs.drop f).take (l - f)) s _ _ _ (some bs[f]) fuel
    hblk (by
      intro a ha h
      exact hblk_out a ha (List.mem_append_right _ (headPtr_mem h.symm)))
    (by rw [hblen]; exact hfuel)
  rw [if_neg hneR, hfh, headPtr_drop, hlb, hblen] at hloop
  obtain ⟨h0n, h0f, h0l⟩ := sizeShift_facts A B (l - f) s
  have hsplitF := split_at_index bs f hflt
  have hLBf : Linked s B (bs.take f ++ ([bs[f]] ++ bs.drop (f + 1))) := by
    rw [List.singleton_append, ← hsplitF]; exact hLB
  have hloopF : spliceRangeLoop fuel s A B ⟨some bs[f]⟩ ⟨some bs[f]⟩ (some bs[f]) =
      .ok (s, some bs[f]) :=
    spliceRangeLoop_seg A B [] s none (some bs[f]) (some bs[f]) (some bs[f]) fuel rfl
      (fun _ h => absurd h (List.not_mem_nil _)) (by simp; omega)
  rcases hi with hi | hi
  · have hsplitA := split_at_index as i hi
    have hdrop : as.drop i = as[i] :: as.drop (i + 1) := List.drop_eq_getElem_cons hi
    have hLA' : Linked s A (as.take i ++ as[i] :: as.drop (i + 1)) := by
      rw [← hsplitA]; exact hLA
    rw [List.getElem?_eq_getElem hi, List.getElem?_eq_getElem hj,
      List.getElem?_eq_getElem hflt]
    refine ⟨?_, ?_, ?_, ?_⟩
    · obtain ⟨s', hrun, hA', hB', _, _, hfr, _, _, hd⟩ :=
        splice_node_spec s A B (as.take i) (as.drop (i + 1)) bs as[i] hLA' hLB hAB
          (hsplitA ▸ hdisj) hne
      rw [← hdrop] at hA'
      have := NodesKept.intro (s := s) (A := A) (B := B) i
        (show bs = [] ++ (bs ++ []) by simp) hA' hB' hfr hd
      exact ⟨s', hrun, this⟩
    · obtain ⟨s', hrun, hA', hB', _, _, hfr, _, _, hd⟩ :=
        spliceOne_node_spec s A B (as.take i) (as.drop (i + 1)) (bs.take j) (bs.drop (j + 1))
          as[i] bs[j] hLA' hLBj hAB (by rw [← hsplitA, ← hsplitJ]; exact hdisj)
      rw [← hdrop] at hA'
      exact ⟨s', hrun, NodesKept.intro i hsplitJ hA' hB' hfr hd⟩
    · obtain ⟨s', hrun, hA', hB', _, hfr, _, _, hd⟩ :=
        spliceRange_node_core s _ A B (as.take i) (as.drop (i + 1)) (bs.take f)
          ((bs.drop f).take (l - f)) (bs.drop l) as[i] bs[f] lb fuel ⟨bs[l]?⟩
          hLA' hLBr hAB (by rw [← hsplitA, ← hsplitR]; exact hdisj) hfh hlb hloop h0n h0f
          (fun K => ⟨(h0l K).1, (h0l K).2.1⟩)
      rw [← hdrop] at hA'
      exact ⟨s', hrun, NodesKept.intro i hsplitR hA' hB' hfr hd⟩
    · obtain ⟨s', hrun, hA', hB', _, hfr, _, _, hd⟩ :=
        spliceRange_node_core s s A B (as.take i) (as.drop (i + 1)) (bs.take f)
          [bs[f]] (bs.drop (f + 1)) as[i] bs[f] bs[f] fuel ⟨some bs[f]⟩
          hLA' hLBf hAB (by rw [← hsplitA, List.singleton_append, ← hsplitF]; exact hdisj)
          rfl rfl hloopF rfl rfl (fun K => ⟨rfl, rfl⟩)
      rw [← hdrop] at hA'
      exact ⟨s', hrun, NodesKept.intro i (by rw [List.singleton_append]; exact hsplitF) hA' hB' hfr hd⟩
  · subst hi
    have hsz0 : (s.lists A).size_ = 0 := by rw [hsA]; rfl
    rw [show ([] : List Nat)[i]? = none from rfl, List.getElem?_eq_getElem hj,
      List.getElem?_eq_getElem hflt]
    refine ⟨?_, ?_, ?_, ?_⟩
    · obtain ⟨s', hrun, hA', hB', _, _, hfr, hn, _⟩ := splice_end_spec s A B bs hsz0 hLB hAB
      have hd : ∀ a, dataAt s' a = dataAt s a := fun a => by simp [dataAt, hn]
      have hA'' : Linked s' A (([] : List Nat).take i ++ (bs ++ ([] : List Nat).drop i)) := by
        simpa using hA'
      have := @NodesKept.intro T s s' A B [] bs [] bs [] i
        (show bs = [] ++ (bs ++ []) by simp) hA'' hB' hfr hd
      exact ⟨s', hrun, this⟩
    · obtain ⟨s', hrun, hA', hB', _, _, hfr, _, _, hd⟩ :=
        spliceOne_end_spec s A B (bs.take j) (bs.drop (j + 1)) bs[j] hsz0 hLBj hAB
      have hA'' : Linked s' A (([] : List Nat).take i ++ ([bs[j]] ++ ([] : List Nat).drop i)) := by
        simpa using hA'
      exact ⟨s', hrun, NodesKept.intro i hsplitJ hA'' hB' hfr hd⟩
    · obtain ⟨s', hrun, hA', hB', _, hfr, _, _, hd⟩ :=
        spliceRange_end_core s _ A B (bs.take f) ((bs.drop f).take (l - f)) (bs.drop l) bs[f] lb
          fuel ⟨bs[l]?⟩ hsz0 hLBr hAB hfh hlb hloop h0n h0f
          (fun K => ⟨(h0l K).1, (h0l K).2.1⟩)
      have hA'' : Linked s' A (([] : List Nat).take i ++
          ((bs.drop f).take (l - f) ++ ([] : List Nat).drop i)) := by
        simpa using hA'
      exact ⟨s', hrun, NodesKept.intro i hsplitR hA'' hB' hfr hd⟩
    · obtain ⟨s', hrun, hA', hB', _, hfr, _, _, hd⟩ :=
        spliceRange_end_core s s A B (bs.take f) [bs[f]] (bs.drop (f + 1)) bs[f] bs[f]
          fuel ⟨some bs[f]⟩ hsz0 hLBf hAB rfl rfl hloopF rfl rfl (fun K => ⟨rfl, rfl⟩)
      have hA'' : Linked s' A (([] : List Nat).take i ++ ([bs[f]] ++ ([] : List Nat).drop i)) := by
        simpa using hA'
      exact ⟨s', hrun, NodesKept.intro i (by rw [List.singleton_append]; exact hsplitF) hA'' hB' hfr hd⟩

theorem splice_keeps_nodes_witness :
    Rep exampleStore 0 [0, 1] [1, 2] ∧ Rep exampleStore 1 [2, 3] [3, 4] ∧
    ∃ s', spliceOne exampleStore 0 ⟨some 1⟩ 1 ⟨some 3⟩ = .ok s' ∧
      NodesKept exampleStore s' 0 1 [0, 1] [2, 3] [0, 3, 1] [2] :=
  ⟨by decide, by decide,
    (splice_keeps_nodes exampleStore 0 1 [0, 1] [2, 3] [1, 2] [3, 4] 1 1 0 2 3
      (by decide) (by decide) (by decide) (by decide) (by decide) (by decide) (by decide)
      (by decide) (by decide)).2.1⟩

/-! ## Single-element splice within one list -/

/-- The two statements that take `sourceNode` out of its chain. -/
theorem unlink_spec (s : Store T) (L : Nat) (bpre bpost : List Nat) (x : Nat)
    (hL : Linked s L (bpre ++ x :: bpost)) :
    ∃ sn s1 s2, s.nodes x = some sn ∧
      (if sn.previous_ = none then (pure (s.setHead L sn.next_) : Except Fault (Store T))
        else s.setNext sn.previous_ sn.next_) = .ok s1 ∧ s1.nodes x = some sn ∧
      (if sn.next_ = none then (pure (s1.setTail L sn.previous_) : Except Fault (Store T))
        else s1.setPrevious sn.next_ sn.previous_) = .ok s2 ∧
      Linked s2 L (bpre ++ bpost) ∧ s2.fresh = s.fresh ∧ (∀ a, dataAt s2 a = dataAt s a) ∧
      (∀ K, (s2.lists K).size_ = (s.lists K).size_) ∧ (∀ K, K ≠ L → s2.lists K = s.lists K) ∧
      (∀ a, a ∉ bpre ++ x :: bpost → s2.nodes a = s.nodes a) := by
  have hndB := hL.nodup
  obtain ⟨sn, hsn, hsp, hsx, hbpre, hbpost⟩ := seg_split hL.1
  have hxB : x ∈ bpre ++ x :: bpost := by simp
  have hx_pre : x ∉ bpre := fun h => (List.nodup_append.1 hndB).2.2 h (List.mem_cons_self _ _)
  have hx_post : x ∉ bpost := (List.nodup_cons.1 (List.nodup_append.1 hndB).2.1).1
  obtain ⟨s1, e1, f1, p1, n1, d1, r1, l1⟩ := step_relinkNext s L sn.previous_ sn.next_ (by
    intro a ha
    rw [hsp] at ha
    exact hL.alloc' (List.mem_append_left _ (lastPtr_none_mem ha)))
  have hx1 : s1.nodes x = some sn := by
    rw [r1 x (by rw [hsp]; intro h; exact hx_pre (lastPtr_none_mem h.symm)), hsn]
  obtain ⟨s2, e2, f2, p2, n2, d2, r2, l2⟩ := step_relinkPrev s1 L sn.next_ sn.previous_ (by
    intro a ha
    rw [hsx] at ha
    exact alloc_of_dataAt (d1 a) (hL.alloc' (List.mem_append_right _
      (List.mem_cons_of_mem _ (headPtr_mem ha)))))
  have hB6 : s2.lists L = ⟨(s.lists L).size_,
      if sn.previous_ = none then sn.next_ else (s.lists L).head_,
      if sn.next_ = none then sn.previous_ else (s.lists L).tail_⟩ := by
    rw [l2, l1]
    by_cases h1 : sn.previous_ = none <;> by_cases h2 : sn.next_ = none <;> simp [h1, h2]
  have hnd' : (bpre ++ bpost).Nodup := by
    have := List.nodup_append.1 hndB
    refine List.nodup_append.2 ⟨this.1, (List.nodup_cons.1 this.2.1).2, ?_⟩
    intro a h1 h2; exact this.2.2 h1 (List.mem_cons_of_mem _ h2)
  refine ⟨sn, s1, s2, hsn, e1, hx1, e2, ⟨?_, ?_⟩, by rw [f2, f1], ?_, ?_, ?_, ?_⟩
  · have := seg_join (w := s2.nodes) (b := []) hbpre hbpost hnd'
      (by
        intro a _
        rw [p2, p1, hsx, hsp]
        rfl)
      (by
        intro a _
        rw [n2, n1, hsx, hsp]
        rfl)
      (by simp [Seg])
    rw [hB6]
    show Seg s2.nodes none (if sn.previous_ = none then sn.next_ else (s.lists L).head_) _ none
    rw [hsp, hsx, headPtr_join (seg_head hbpre)]
    exact this
  · rw [hB6]
    show (if sn.next_ = none then sn.previous_ else (s.lists L).tail_) = _
    rw [hsp, hsx]
    refine lastPtr_join (e := some x) ?_
    rw [hL.tail_eq, lastPtr_append]; rfl
  · intro a; rw [d2, d1]
  · intro K
    rw [l2, l1]
    by_cases h1 : sn.previous_ = none <;> by_cases h2 : sn.next_ = none <;>
      by_cases h3 : K = L <;> simp [h1, h2, h3]
  · intro K hK
    rw [l2, l1]; simp [hK]
  · intro a ha
    rw [r2, r1]
    · rw [hsp]; intro h; exact ha (List.mem_append_left _ (lastPtr_none_mem h.symm))
    · rw [hsx]; intro h
      exact ha (List.mem_append_right _ (List.mem_cons_of_mem _ (headPtr_mem h.symm)))

/-- The four statements that link the detached node `x` in front of `node`. -/
theorem attach_spec (s : Store T) (L : Nat) (pre post : List Nat) (node x : Nat)
    (hL : Linked s L (pre ++ node :: post)) (hx : x ∉ pre ++ node :: post)
    (hxa : s.nodes x ≠ none) :
    ∃ n s3 s4 s5 s6, s.nodes node = some n ∧
      s.setPrevious (some node) (some x) = .ok s3 ∧ s3.setPrevious (some x) n.previous_ = .ok s4 ∧
      s4.setNext (some x) (some node) = .ok s5 ∧
      (if n.previous_ = none then (pure (s5.setHead L (some x)) : Except Fault (Store T))
        else s5.setNext n.previous_ (some x)) = .ok s6 ∧
      Linked s6 L (pre ++ ([x] ++ node :: post)) ∧ s6.fresh = s.fresh ∧
      (∀ a, dataAt s6 a = dataAt s a) ∧ (∀ K, (s6.lists K).size_ = (s.lists K).size_) ∧
      (∀ K, K ≠ L → s6.lists K = s.lists K) ∧
      (∀ a, a ∉ pre ++ node :: post → a ≠ x → s6.nodes a = s.nodes a) := by
  have hndA := hL.nodup
  obtain ⟨n, hn, hnp, hnn, hpre, hpost⟩ := seg_split hL.1
  have hpostA : Seg s.nodes (lastPtr none pre) (some node) (node :: post) none :=
    ((seg_append none _ none pre (node :: post)).1 hL.1).2
  have hnodeA : node ∈ pre ++ node :: post := by simp
  obtain ⟨s3, e3, l3, f3, p3, n3, d3, r3⟩ := s.setPrevious_ok node (some x) (by rw [hn]; simp)
  obtain ⟨s4, e4, l4, f4, p4, n4, d4, r4⟩ := s3.setPrevious_ok x n.previous_
    (alloc_of_dataAt (d3 x) hxa)
  obtain ⟨s5, e5, l5, f5, p5, n5, d5, r5⟩ := s4.setNext_ok x (some node)
    (alloc_of_dataAt ((d4 x).trans (d3 x)) hxa)
  obtain ⟨s6, e6, f6, p6, n6, d6, r6, l6⟩ := step_relinkNext s5 L n.previous_ (some x) (by
    intro a ha
    rw [hnp] at ha
    refine alloc_of_dataAt ((d5 a).trans ((d4 a).trans (d3 a)))
      (hL.alloc' (List.mem_append_left _ (lastPtr_none_mem ha))))
  have hl5 : s5.lists = s.lists := by rw [l5, l4, l3]
  refine ⟨n, s3, s4, s5, s6, hn, e3, e4, e5, e6, ⟨?_, ?_⟩, by rw [f6, f5, f4, f3], ?_, ?_, ?_, ?_⟩
  · have := seg_join (w := s6.nodes) (b := [x]) hpre hpostA hndA
      (by
        intro a ha
        have h1 : a ≠ x := fun e => hx (e ▸ ha)
        rw [p6, p5, p4, p3, if_neg h1]
        by_cases h : a = node <;> simp [h, lastPtr])
      (by
        intro a ha
        have h1 : a ≠ x := fun e => hx (e ▸ ha)
        rw [n6, n5, n4, n3, if_neg h1, hnp]
        simp)
      (by
        refine ⟨rfl, ?_, ?_⟩
        · rw [p6, p5, p4, hnp]; simp
        · have h2 : some x ≠ n.previous_ := by
            rw [hnp]; intro h
            exact hx (List.mem_append_left _ (lastPtr_none_mem h.symm))
          rw [n6, if_neg h2, n5]; simp; rfl)
    show Seg s6.nodes none (s6.lists L).head_ _ none
    rw [l6, hl5]
    have hj := headPtr_join (q := [x] ++ node :: post) (hL.head_eq.trans
      (headPtr_append pre (node :: post) none))
    rw [← hnp] at hj
    by_cases hc : n.previous_ = none
    · simp only [hc, true_and, if_true] at hj ⊢
      rw [← hj] at this; exact this
    · simp only [hc, false_and, if_false] at hj ⊢
      rw [hj]; exact this
  · have : (s6.lists L).tail_ = (s5.lists L).tail_ := by
      rw [l6]; split <;> rfl
    rw [this, hl5, hL.tail_eq]
    simp [lastPtr_append, lastPtr]
  · intro a; rw [d6, d5, d4, d3]
  · intro K
    rw [l6, hl5]
    split <;> rfl
  · intro K hK
    rw [l6, hl5]; simp [hK]
  · intro a h1 h2
    have hn' : a ≠ node := fun e => h1 (e ▸ hnodeA)
    rw [r6, r5 a h2, r4 a h2, r3 a hn']
    rw [hnp]; intro h; exact h1 (List.mem_append_left _ (lastPtr_none_mem h.symm))

/-- Single-element splice of a node of `L` in front of another node of the same list `L`. -/
theorem spliceOne_same_spec (s : Store T) (L : Nat) (bpre bpost pre post : List Nat)
    (node x : Nat) (hL : Linked s L (bpre ++ x :: bpost))
    (hsplit : bpre ++ bpost = pre ++ node :: post) (hsz : (s.lists L).size_ < UINT_SIZE) :
    ∃ s', spliceOne s L ⟨some node⟩ L ⟨some x⟩ = .ok s' ∧
      Linked s' L (pre ++ ([x] ++ node :: post)) ∧
      (s'.lists L).size_ = (s.lists L).size_ ∧ s'.fresh = s.fresh ∧
      (∀ a, dataAt s' a = dataAt s a) ∧ (∀ K, K ≠ L → s'.lists K = s.lists K) ∧
      (∀ a, a ∉ bpre ++ x :: bpost → s'.nodes a = s.nodes a) := by
  have hnd := hL.nodup
  have hx_pre : x ∉ bpre := fun h => (List.nodup_append.1 hnd).2.2 h (List.mem_cons_self _ _)
  have hx_post : x ∉ bpost := (List.nodup_cons.1 (List.nodup_append.1 hnd).2.1).1
  have hx_rest : x ∉ pre ++ node :: post := by
    rw [← hsplit]
    intro h
    rcases List.mem_append.1 h with h | h
    · exact hx_pre h
    · exact hx_post h
  obtain ⟨sn, s1, s2, hsn, e1, hx1, e2, hL2, f2, d2, z2, l2, r2⟩ := unlink_spec s L bpre bpost x hL
  rw [hsplit] at hL2
  have hxa : s2.nodes x ≠ none :=
    alloc_of_dataAt (d2 x) (by rw [hsn]; simp)
  obtain ⟨n, s3, s4, s5, s6, hn, e3, e4, e5, e6, hL6, f6, d6, z6, l6, r6⟩ :=
    attach_spec s2 L pre post node x hL2 hx_rest hxa
  refine ⟨(s6.incSize L).decSize L, ?_, ?_, ?_, ?_, ?_, ?_, ?_⟩
  · simp only [spliceOne]
    rw [if_neg (by simp), if_neg (by simp), Store.load_some hsn, ok_bind, e1, ok_bind,
      Store.load_some hx1, ok_bind, e2, ok_bind, if_pos (by simp), Store.load_some hn,
      ok_bind, e3, ok_bind, e4, ok_bind, e5, ok_bind]
    simp only [ne_eq, ite_not]
    rw [e6, ok_bind]
    rfl
  · exact ⟨by simpa [Store.incSize, Store.decSize, Store.setSize, Store.setList] using hL6.1,
      by simpa [Store.incSize, Store.decSize, Store.setSize, Store.setList] using hL6.2⟩
  · have h6 : (s6.lists L).size_ = (s.lists L).size_ := (z6 L).trans (z2 L)
    simp only [Store.incSize, Store.decSize, Store.setSize, Store.setList, if_true, h6]
    unfold UINT_SIZE at hsz ⊢
    omega
  · show s6.fresh = s.fresh
    rw [f6, f2]
  · intro a
    show dataAt s6 a = dataAt s a
    rw [d6, d2]
  · intro K hK
    simp only [Store.incSize, Store.decSize, Store.setSize, Store.setList, if_neg hK]
    rw [l6 K hK, l2 K hK]
  · intro a ha
    show s6.nodes a = s.nodes a
    have h1 : a ∉ pre ++ node :: post := by
      rw [← hsplit]
      intro h
      apply ha
      rcases List.mem_append.1 h with h | h
      · exact List.mem_append_left _ h
      · exact List.mem_append_right _ (List.mem_cons_of_mem _ h)
    have h2 : a ≠ x := fun e => ha (by rw [e]; simp)
    rw [r6 a h1 h2, r2 a ha]

theorem rest_getElem {α : Type} (xs : List α) (i j : Nat) (hij : i ≠ j) (hi : i < xs.length)
    (hj : j < xs.length) :
    (xs.take j ++ xs.drop (j + 1))[if j < i then i - 1 else i]? = xs[i]? := by
  by_cases h : j < i
  · rw [if_pos h, List.getElem?_append_right (by simp; omega), List.getElem?_drop]
    congr 1
    simp
    omega
  · rw [if_neg h, List.getElem?_append_left (by simp; omega), List.getElem?_take, if_pos (by omega)]

theorem rest_length {α : Type} (xs : List α) (j : Nat) (hj : j < xs.length) :
    (xs.take j ++ xs.drop (j + 1)).length = xs.length - 1 := by
  simp
  omega

theorem moveBefore_map {α β : Type} (f : α → β) (xs : List α) (j i : Nat) :
    (moveBefore xs j i).map f = moveBefore (xs.map f) j i := by
  simp [moveBefore, List.map_take, List.map_drop]

theorem moveBefore_length {α : Type} (xs : List α) (j i : Nat)
    (hi : i < xs.length) (hj : j < xs.length) : (moveBefore xs j i).length = xs.length := by
  simp only [moveBefore, List.length_append, List.length_take, List.length_drop]
  split <;> omega

theorem moveBefore_pred {α : Type} (xs : List α) (j : Nat) : moveBefore xs j (j + 1) = xs := by
  have h1 : (xs.take j ++ xs.drop (j + 1)).take j = xs.take j := by
    by_cases h : j ≤ xs.length
    · rw [List.take_append_of_le_length (by simp [h])]
      simp
    · have : xs.length ≤ j := by omega
      simp [List.take_of_length_le this, List.drop_of_length_le (Nat.le_succ_of_le this)]
  have h2 : (xs.take j ++ xs.drop (j + 1)).drop j = xs.drop (j + 1) := by
    by_cases h : j ≤ xs.length
    · rw [List.drop_append_of_le_length (by simp [h])]
      simp [List.drop_take]
    · have : xs.length ≤ j := by omega
      simp [List.take_of_length_le this, List.drop_of_length_le (Nat.le_succ_of_le this),
        List.drop_of_length_le this]
  have h3 : (xs.drop j).take 1 ++ xs.drop (j + 1) = xs.drop j := by
    have : xs.drop (j + 1) = (xs.drop j).drop 1 := by simp [List.drop_drop, Nat.add_comm]
    rw [this, List.take_append_drop]
  simp only [moveBefore, if_pos (Nat.lt_succ_self j), Nat.add_sub_cancel]
  rw [h1, h2, h3, List.take_append_drop]

theorem moveBefore_at {α : Type} (xs : List α) (j i : Nat) (hij : i ≠ j) (hi : i < xs.length)
    (hj : j < xs.length) :
    (moveBefore xs j i)[if j < i then i - 1 else i]? = xs[j]? ∧
    (moveBefore xs j i)[(if j < i then i - 1 else i) + 1]? = xs[i]? := by
  have hk := rest_getElem xs i j hij hi hj
  have hlen := rest_length xs j hj
  simp only [moveBefore]
  generalize (if j < i then i - 1 else i) = k at hk ⊢
  have hkl : k < (xs.take j ++ xs.drop (j + 1)).length := by
    by_contra h
    rw [List.getElem?_eq_none (by omega), List.getElem?_eq_getElem hi] at hk
    cases hk
  have htk : ((xs.take j ++ xs.drop (j + 1)).take k).length = k := by
    rw [List.length_take]; omega
  have h1 : (xs.drop j).take 1 = [xs[j]] := by
    rw [List.drop_eq_getElem_cons hj]; rfl
  constructor
  · rw [List.getElem?_append_right (by omega), htk, Nat.sub_self, h1,
      List.getElem?_eq_getElem hj]
    simp
  · rw [List.getElem?_append_right (by omega), htk, h1, List.drop_eq_getElem_cons hkl,
      ← hk, List.getElem?_eq_getElem hkl]
    have : k + 1 - k = 1 := by omega
    rw [this]
    simp

/-- C35: single-element splice within one well-formed list `A`, with `pos` at index `i` and `it`
at index `j`, `i ≠ j`. The call returns; `size()` is what it was; `A` is again well formed (two-way
chain from `head_` to `tail_`, cached size equal to the node count) and the allocator has not
moved; the nodes and the elements of `A` are the former ones with the entry at `j` taken out and
put back immediately before the entry that was at `i`: in the new sequence it sits at index
`k` and the entry of `pos` at index `k + 1`, where `k` is `i - 1` when `j < i` and `i` otherwise;
the length is kept, and the sequence is unchanged when `it` is already the predecessor of `pos`.
Other lists are untouched. -/
theorem splice_one_same_list (s : Store T) (A : Nat) (ns : List Nat) (xs : List T) (i j : Nat)
    (hA : Rep s A ns xs) (hi : i < ns.length) (hj : j < ns.length) (hij : i ≠ j) :
    ∃ s', spliceOne s A ⟨ns[i]?⟩ A ⟨ns[j]?⟩ = .ok s' ∧
      Rep s' A (moveBefore ns j i) (moveBefore xs j i) ∧
      (s'.lists A).size_ = (s.lists A).size_ ∧
      (moveBefore xs j i).length = xs.length ∧
      (moveBefore xs j i)[if j < i then i - 1 else i]? = xs[j]? ∧
      (moveBefore xs j i)[(if j < i then i - 1 else i) + 1]? = xs[i]? ∧
      (j + 1 = i → moveBefore xs j i = xs) ∧
      s'.fresh = s.fresh ∧ ∀ K, K ≠ A → s'.lists K = s.lists K := by
  obtain ⟨hL, hsz, hlt, hdata⟩ := hA
  have hxl : xs.length = ns.length := by
    have := congrArg List.length hdata
    simpa using this.symm
  have hat := moveBefore_at xs j i hij (hxl ▸ hi) (hxl ▸ hj)
  have hk := rest_getElem ns i j hij hi hj
  have hlen := rest_length ns j hj
  have hmb : moveBefore ns j i = (ns.take j ++ ns.drop (j + 1)).take (if j < i then i - 1 else i)
      ++ ((ns.drop j).take 1 ++
        (ns.take j ++ ns.drop (j + 1)).drop (if j < i then i - 1 else i)) := rfl
  generalize (if j < i then i - 1 else i) = k at hk hmb hat ⊢
  have hkl : k < (ns.take j ++ ns.drop (j + 1)).length := by
    by_contra h
    rw [List.getElem?_eq_none (by omega), List.getElem?_eq_getElem hi] at hk
    cases hk
  have hki : (ns.take j ++ ns.drop (j + 1))[k] = ns[i] := by
    rw [List.getElem?_eq_getElem hkl, List.getElem?_eq_getElem hi] at hk
    exact Option.some.inj hk
  have h1 : (ns.drop j).take 1 = [ns[j]] := by
    rw [List.drop_eq_getElem_cons hj]; rfl
  have hsplit := split_at_index (ns.take j ++ ns.drop (j + 1)) k hkl
  rw [hki] at hsplit
  have hLj : Linked s A (ns.take j ++ ns[j] :: ns.drop (j + 1)) := by
    rw [← split_at_index ns j hj]; exact hL
  obtain ⟨s', hrun, hL', hsz', hfr, hd, hl, _⟩ :=
    spliceOne_same_spec s A (ns.take j) (ns.drop (j + 1))
      ((ns.take j ++ ns.drop (j + 1)).take k) ((ns.take j ++ ns.drop (j + 1)).drop (k + 1))
      ns[i] ns[j] hLj hsplit (by rw [hsz]; exact hlt)
  have hres : moveBefore ns j i = (ns.take j ++ ns.drop (j + 1)).take k ++
      ([ns[j]] ++ ns[i] :: (ns.take j ++ ns.drop (j + 1)).drop (k + 1)) := by
    rw [hmb, h1, List.drop_eq_getElem_cons hkl, hki]
  have hlenN := moveBefore_length ns j i hi hj
  refine ⟨s', ?_, ⟨?_, ?_, ?_, ?_⟩, hsz', ?_, hat.1, hat.2, ?_, hfr, hl⟩
  · rw [List.getElem?_eq_getElem hi, List.getElem?_eq_getElem hj]; exact hrun
  · rw [hres]; exact hL'
  · rw [hsz', hsz, hlenN]
  · rw [hlenN]; exact hlt
  · have : dataAt s' = dataAt s := funext hd
    rw [this, moveBefore_map, hdata, ← moveBefore_map]
  · exact moveBefore_length xs j i (hxl ▸ hi) (hxl ▸ hj)
  · intro h
    subst h
    exact moveBefore_pred xs j

theorem splice_one_same_list_witness :
    Rep exampleStore 0 [0, 1] [1, 2] ∧
    ∃ s', spliceOne exampleStore 0 ⟨some 0⟩ 0 ⟨some 1⟩ = .ok s' ∧ Rep s' 0 [1, 0] [2, 1] ∧
      (s'.lists 0).size_ = 2 :=
  ⟨by decide,
    (splice_one_same_list exampleStore 0 [0, 1] [1, 2] 0 1 (by decide) (by decide) (by decide)
      (by decide)).imp fun _ h => ⟨h.1, h.2.1, h.2.2.1⟩⟩

end nctl
